import Mathlib

/-!
# Minesolver: a shallow embedding of the solver and its board

The Go packages `util`, `set`, `board` and `solver` are rendered as pure Lean
functions.

* Slices indexed by `[x][y]` (`[][]bool`, `[][]int`, `[][][]*Fact`) are functions
  `Nat → Nat → _` together with the board size; an index outside
  `[0, size) × [0, size)` is the Go run-time panic "index out of range", which
  the mutators and `AddFact` raise explicitly as `Panic.indexOutOfRange`.
  Plain reads are total; every read the solver performs is at a loop index
  below `size` or at an element of `GetNeighbors`.
* `set.Set[util.Vec]` (a Go map used as a set) is a `Finset util.Vec`.  Go does
  not fix the iteration order of a map, so `AsList` takes the order as a
  parameter `ord`; theorems hold for every order satisfying `set.IterOrder`.
  Go draws the order anew at every `range`, so a statement that depends on
  several `range` loops takes one order per loop (`Knowledge.Built`,
  `deduceLoopOrds`, `PassOrds`).
* A Go `panic` is the outcome `Outcome.panic`; functions that mutate the board
  or the knowledge return the outcome together with the state reached.
* Go `int` values are `Int` where they can be negative (`Fact.mines`, the
  neighbour counts) and `Nat` for coordinates and sizes, which the program only
  ever uses as slice indices.
-/

/-! ## Outcomes -/

/-- The ways a call can abort.  `fuelExhausted` is not a Go panic: it marks the
step budget of the embedded `for len(q) > 0` loop running out, and is proved
unreachable. -/
inductive Panic where
  | hitMine (x y : Nat)
  | contradiction
  | expectedEmptyTiles
  | indexOutOfRange
  | fuelExhausted
deriving DecidableEq, Repr

/-- Result of a call: a returned value or a panic. -/
inductive Outcome (α : Type) where
  | ret (a : α)
  | panic (p : Panic)
deriving DecidableEq, Repr

/-! ## package util -/

namespace util

/-- A vector. -/
structure Vec where
  X : Nat
  Y : Nat
deriving DecidableEq, Repr

/-- Get neighbors in a grid of the given coordinates. -/
def GetNeighbors (x y size : Nat) : List Vec :=
  let loX := if x > 0 then x - 1 else x
  let loY := if y > 0 then y - 1 else y
  let hiX := if x < size - 1 then x + 1 else x
  let hiY := if y < size - 1 then y + 1 else y
  (List.range' loX (hiX + 1 - loX)).flatMap fun xi =>
    ((List.range' loY (hiY + 1 - loY)).filter fun yi => !(xi = x && yi = y)).map
      fun yi => Vec.mk xi yi

end util

/-! ## package set -/

namespace set

open util

/-- A set of distinct elements (instantiated at `util.Vec`). -/
abbrev Set := Finset Vec

/-- Create a new set from a list. -/
def FromList (l : List Vec) : Set := l.toFinset

/-- An admissible iteration order of the underlying map: every element exactly
once. -/
def IterOrder (ord : Set → List Vec) : Prop :=
  ∀ s : Set, (ord s).Nodup ∧ (ord s).toFinset = s

/-- Convert the set to a list, in the iteration order `ord`. -/
def AsList (ord : Set → List Vec) (s : Set) : List Vec := ord s

/-- Get the size of the set. -/
def Size (s : Set) : Nat := s.card

/-- Return whether the set has the given value. -/
def Has (s : Set) (v : Vec) : Bool := decide (v ∈ s)

/-- Subtract set b from set a. -/
def Sub (a b : Set) : Set := a \ b

/-- Return whether b is a non-strict subset of a. -/
def IsSubset (a b : Set) : Bool := decide (∀ v ∈ b, Has a v = true)

/-- Whether two sets are equal. -/
def IsEqual (a b : Set) : Bool := IsSubset a b && IsSubset b a

/-- Return whether b is a strict subset of a. -/
def IsSubsetStrict (a b : Set) : Bool := IsSubset a b && !IsSubset b a

/-- Column-then-row comparison of cells, used for one concrete iteration
order. -/
def cellLe (a b : Vec) : Prop := a.X < b.X ∨ (a.X = b.X ∧ a.Y ≤ b.Y)

instance : DecidableRel cellLe := fun a b => by unfold cellLe; infer_instance

instance : IsTotal Vec cellLe := ⟨fun a b => by unfold cellLe; omega⟩

instance : IsTrans Vec cellLe := ⟨fun a b c => by unfold cellLe; omega⟩

instance : IsAntisymm Vec cellLe :=
  ⟨fun a b h1 h2 => by
    cases a; cases b
    simp only [cellLe] at h1 h2
    simp only [Vec.mk.injEq]
    omega⟩

/-- One concrete iteration order: the elements sorted by `cellLe`. -/
def sortedOrder (s : Set) : List Vec :=
  Quot.liftOn s.val (fun l => l.insertionSort cellLe) (fun a b h =>
    List.eq_of_perm_of_sorted
      (((List.perm_insertionSort cellLe a).trans h).trans
        (List.perm_insertionSort cellLe b).symm)
      (List.sorted_insertionSort cellLe a) (List.sorted_insertionSort cellLe b))

end set

/-! ## package board -/

namespace board

open util

/-- The game board. -/
structure Board where
  size : Nat
  mines : Nat → Nat → Bool
  flags : Nat → Nat → Bool
  revealed : Nat → Nat → Bool
  neighbors : Nat → Nat → Int
  neighborCache : Nat → Nat → List Vec

/-- Create a new game board. -/
def NewBoard (size : Nat) : Board where
  size := size
  mines := fun _ _ => false
  flags := fun _ _ => false
  revealed := fun _ _ => false
  neighbors := fun _ _ => 0
  neighborCache := fun _ _ => []

namespace Board

/-- Whether `[x][y]` is a valid index into the board's grids. -/
def inBounds (b : Board) (x y : Nat) : Bool := decide (x < b.size) && decide (y < b.size)

/-- Get the size of the board. -/
def GetSize (b : Board) : Nat := b.size

/-- Check whether the game has any revealed tiles. -/
def HasReveals (b : Board) : Bool :=
  (List.range b.size).any fun x => (List.range b.size).any fun y => b.revealed x y

/-- Check whether the given tile has a flag. -/
def HasFlag (b : Board) (x y : Nat) : Bool := b.flags x y

/-- Check whether the given tile has a mine. -/
def HasMine (b : Board) (x y : Nat) : Bool := b.mines x y

/-- Get the number of neighbors the given tile has. -/
def GetNumNeighbors (b : Board) (x y : Nat) : Int := b.neighbors x y

/-- Check whether the given tile is revealed. -/
def Revealed (b : Board) (x y : Nat) : Bool := b.revealed x y

/-- The assignment `b.revealed[x][y] = true`. -/
def setRevealed (b : Board) (x y : Nat) : Board :=
  { b with revealed := fun i j => if i = x ∧ j = y then true else b.revealed i j }

/-- The assignment `b.flags[x][y] = flag`. -/
def setFlag (b : Board) (x y : Nat) (flag : Bool) : Board :=
  { b with flags := fun i j => if i = x ∧ j = y then flag else b.flags i j }

/-- The loop `for _, neighbor := range util.GetNeighbors(x, y, b.size)` of
`PlaceMine`: `b.neighbors[neighbor.X][neighbor.Y] += 1`. -/
def bumpNeighbors : List Vec → Board → Outcome Unit × Board
  | [], b => (.ret (), b)
  | n :: rest, b =>
    if b.inBounds n.X n.Y then
      bumpNeighbors rest
        { b with neighbors := fun i j =>
            if i = n.X ∧ j = n.Y then b.neighbors n.X n.Y + 1 else b.neighbors i j }
    else (.panic .indexOutOfRange, b)

/-- Place a mine. -/
def PlaceMine (b : Board) (x y : Nat) : Outcome Unit × Board :=
  if b.inBounds x y then
    bumpNeighbors (GetNeighbors x y b.size)
      { b with mines := fun i j => if i = x ∧ j = y then true else b.mines i j }
  else (.panic .indexOutOfRange, b)

/-- The loop `for len(q) > 0` of `clearZerosFrom`, with a step budget. -/
def clearZerosLoop : Nat → Board → List Vec → Outcome Unit × Board
  | _, b, [] => (.ret (), b)
  | 0, b, _ :: _ => (.panic .fuelExhausted, b)
  | fuel + 1, b, v :: q =>
    if b.inBounds v.X v.Y then
      let b1 := b.setRevealed v.X v.Y
      if b1.mines v.X v.Y = false ∧ b1.neighbors v.X v.Y = 0 then
        clearZerosLoop fuel b1
          (q ++ (GetNeighbors v.X v.Y b1.size).filter fun n => !b1.revealed n.X n.Y)
      else
        clearZerosLoop fuel b1 q
    else
      (.panic .indexOutOfRange, b)

/-- A step budget that the loop of `clearZerosFrom` never exhausts. -/
def clearZerosFuel (b : Board) : Nat := 8 * 9 ^ (b.size * b.size) + 1

/-- From the given starting point, reveal everything cleared by zeros. -/
def clearZerosFrom (b : Board) (x y : Nat) : Outcome Unit × Board :=
  clearZerosLoop (clearZerosFuel b) b [Vec.mk x y]

/-- Reveal a single tile. Returns whether the revealed tile was a mine. -/
def Reveal (b : Board) (x y : Nat) : Outcome Bool × Board :=
  if b.inBounds x y then
    let b1 := b.setRevealed x y
    if b1.mines x y then (.ret true, b1)
    else if b1.neighbors x y = 0 then
      match clearZerosFrom b1 x y with
      | (.ret _, b2) => (.ret false, b2)
      | (.panic p, b2) => (.panic p, b2)
    else (.ret false, b1)
  else (.panic .indexOutOfRange, b)

/-- Set / remove flag for a single tile. -/
def Flag (b : Board) (x y : Nat) (flag : Bool) : Outcome Unit × Board :=
  if b.inBounds x y then
    if b.revealed x y = false then (.ret (), b.setFlag x y flag) else (.ret (), b)
  else (.panic .indexOutOfRange, b)

end Board

end board

/-! ## package solver -/

namespace solver

open util board

/-- Run the given function for each revealed tile of the listed cells, in
order; stop at the first `true` (or panic). -/
def forEachRevealedFrom (fn : Board → Nat → Nat → Outcome Bool × Board) :
    List (Nat × Nat) → Board → Outcome Bool × Board
  | [], b => (.ret false, b)
  | (x, y) :: rest, b =>
    if b.Revealed x y then
      match fn b x y with
      | (.ret true, b1) => (.ret true, b1)
      | (.ret false, b1) => forEachRevealedFrom fn rest b1
      | (.panic p, b1) => (.panic p, b1)
    else forEachRevealedFrom fn rest b

/-- The cells visited by `for y := 0; y < size; y++ { for x := 0; x < size; x++`,
as pairs `(x, y)`. -/
def scanCells (size : Nat) : List (Nat × Nat) :=
  (List.range size).flatMap fun y => (List.range size).map fun x => (x, y)

/-- Run the given function for each revealed tile.
When the passed-in function returns true, the top level function quits with true. -/
def forEachRevealed (b : Board) (fn : Board → Nat → Nat → Outcome Bool × Board) :
    Outcome Bool × Board :=
  forEachRevealedFrom fn (scanCells b.GetSize) b

/-- The idiom `if b.Reveal(x, y) { hitMine(x, y) }; return true`. -/
def revealOrHitMine (b : Board) (x y : Nat) : Outcome Bool × Board :=
  match b.Reveal x y with
  | (.ret true, b1) => (.panic (.hitMine x y), b1)
  | (.ret false, b1) => (.ret true, b1)
  | (.panic p, b1) => (.panic p, b1)

/-- The idiom `b.Flag(x, y, true); return true`. -/
def flagAndReturn (b : Board) (x y : Nat) : Outcome Bool × Board :=
  match b.Flag x y true with
  | (.ret _, b1) => (.ret true, b1)
  | (.panic p, b1) => (.panic p, b1)

/-- If the game is fresh, reveal a random tile.
Returns true if action was taken. -/
def revealIfFresh (b : Board) : Outcome Bool × Board :=
  if b.HasReveals = false then revealOrHitMine b 0 0
  else (.ret false, b)

/-- The closure `findDefiniteFlags` of `findObviousMines`. -/
def findDefiniteFlags (b : Board) (x y : Nat) : Outcome Bool × Board :=
  let numNeighbors := b.GetNumNeighbors x y
  if numNeighbors = 0 then (.ret false, b)
  else
    let neighbors := GetNeighbors x y b.GetSize
    let numUnrevealedNeighbors : Int :=
      neighbors.countP fun n => !b.Revealed n.X n.Y
    let numUnrevealedUnflaggedNeighbors : Int :=
      neighbors.countP fun n => !b.Revealed n.X n.Y && !b.HasFlag n.X n.Y
    if numUnrevealedNeighbors = numNeighbors ∧ numUnrevealedUnflaggedNeighbors > 0 then
      match neighbors.find? fun n => !b.Revealed n.X n.Y && !b.HasFlag n.X n.Y with
      | some n => flagAndReturn b n.X n.Y
      | none => (.ret false, b)
    else (.ret false, b)

/-- Find any tiles that are obviously a mine.
Returns true if action was taken. -/
def findObviousMines (b : Board) : Outcome Bool × Board :=
  forEachRevealed b findDefiniteFlags

/-- The closure `findDefiniteEmpty` of `findObiousEmpty`. -/
def findDefiniteEmpty (b : Board) (x y : Nat) : Outcome Bool × Board :=
  let numNeighbors := b.GetNumNeighbors x y
  let neighbors := GetNeighbors x y b.GetSize
  let numFlaggedNeighbors : Int := neighbors.countP fun n => b.HasFlag n.X n.Y
  let numUnrevealedNeighbors : Int := neighbors.countP fun n => !b.Revealed n.X n.Y
  if numNeighbors = numFlaggedNeighbors ∧ numUnrevealedNeighbors > numFlaggedNeighbors then
    match neighbors.find? fun n => !b.Revealed n.X n.Y && !b.HasFlag n.X n.Y with
    | some n => revealOrHitMine b n.X n.Y
    | none => (.ret false, b)
  else (.ret false, b)

/-- Find any tiles that are obviously empty.
Returns true if action was taken. -/
def findObiousEmpty (b : Board) : Outcome Bool × Board :=
  forEachRevealed b findDefiniteEmpty

/-- The fact that the given set contains the given number of mines. -/
structure Fact where
  mines : Int
  tiles : set.Set
deriving DecidableEq

/-- Knowledge graph. -/
structure Knowledge where
  b : Board
  nodes : List Fact
  tiles : Nat → Nat → List Fact
  unchecked : List (List Fact)

/-- A fresh knowledge graph on the given board. -/
def NewKnowledge (b : Board) : Knowledge where
  b := b
  nodes := []
  tiles := fun _ _ => []
  unchecked := []

namespace Knowledge

/-- Whether the given number of mines / tiles is already known. -/
def HasFact (k : Knowledge) (mines : Int) (vecs : set.Set) : Bool :=
  k.nodes.any fun node => decide (node.mines = mines) && set.IsEqual node.tiles vecs

/-- The loop `for _, vec := range vecs.AsList()` of `AddFact`. -/
def indexFact (fact : Fact) : List Vec → Knowledge → Outcome Unit × Knowledge
  | [], k => (.ret (), k)
  | vec :: rest, k =>
    if k.b.inBounds vec.X vec.Y then
      let relevant := k.tiles vec.X vec.Y
      let k1 : Knowledge :=
        { k with
          unchecked := k.unchecked ++ relevant.map fun otherFact => [fact, otherFact]
          tiles := fun i j =>
            if i = vec.X ∧ j = vec.Y then k.tiles vec.X vec.Y ++ [fact] else k.tiles i j }
      indexFact fact rest k1
    else (.panic .indexOutOfRange, k)

/-- Add a fact to the knowledge graph, queueing it against every fact that
shares a tile. -/
def AddFact (ord : set.Set → List Vec) (k : Knowledge) (mines : Int) (vecs : set.Set) :
    Outcome Unit × Knowledge :=
  if k.HasFact mines vecs then (.ret (), k)
  else
    let fact : Fact := { mines := mines, tiles := vecs }
    indexFact fact (set.AsList ord vecs) { k with nodes := k.nodes ++ [fact] }

/-- Whether a deduction is queued. -/
def HasUncheckedDeductions (k : Knowledge) : Bool := decide (k.unchecked.length > 0)

/-- Run a deduction on a pair of facts.
Returns true if an action was taken. -/
def RunDualDeduction (ord : set.Set → List Vec) (k : Knowledge) (a b : Fact) :
    Outcome Bool × Knowledge :=
  if set.IsEqual a.tiles b.tiles = true ∧ a.mines ≠ b.mines then
    (.panic .contradiction, k)
  else if set.IsSubsetStrict a.tiles b.tiles then
    if b.mines = a.mines then
      match set.AsList ord (set.Sub a.tiles b.tiles) with
      | [] => (.panic .expectedEmptyTiles, k)
      | e :: _ =>
        ((revealOrHitMine k.b e.X e.Y).1, { k with b := (revealOrHitMine k.b e.X e.Y).2 })
    else if b.mines < a.mines then
      let subZoneMines := a.mines - b.mines
      let subZoneTiles := set.Sub a.tiles b.tiles
      if subZoneMines > 0 ∧ subZoneMines = (set.Size subZoneTiles : Int) then
        match set.AsList ord subZoneTiles with
        | [] => (.panic .indexOutOfRange, k)
        | tile :: _ =>
          ((flagAndReturn k.b tile.X tile.Y).1, { k with b := (flagAndReturn k.b tile.X tile.Y).2 })
      else
        match AddFact ord k subZoneMines subZoneTiles with
        | (.ret _, k1) => (.ret false, k1)
        | (.panic p, k1) => (.panic p, k1)
    else (.ret false, k)
  else (.ret false, k)

/-- Run the next deduction from the queue.
Returns true if an action was taken. -/
def RunNextDeduction (ord : set.Set → List Vec) (k : Knowledge) : Outcome Bool × Knowledge :=
  match k.unchecked with
  | [] => (.ret false, k)
  | next :: rest =>
    let k0 : Knowledge := { k with unchecked := rest }
    match next with
    | [f0, f1] =>
      match RunDualDeduction ord k0 f0 f1 with
      | (.ret true, k1) => (.ret true, k1)
      | (.ret false, k1) => RunDualDeduction ord k1 f1 f0
      | (.panic p, k1) => (.panic p, k1)
    | _ => (.ret false, k0)

end Knowledge

/-- The closure `unrevealedNeighbors` of `deduce`. -/
def unrevealedNeighbors (b : Board) (x y : Nat) : set.Set :=
  set.FromList ((GetNeighbors x y b.GetSize).filter fun n => !b.Revealed n.X n.Y)

/-- The closure `flaggedNeighbors` of `deduce`. -/
def flaggedNeighbors (b : Board) (x y : Nat) : set.Set :=
  set.FromList ((GetNeighbors x y b.GetSize).filter fun n => b.HasFlag n.X n.Y)

/-- Body of the seeding loop of `deduce` at the cell `(x, y)`. -/
def seedCell (ord : set.Set → List Vec) (k : Knowledge) (x y : Nat) :
    Outcome Unit × Knowledge :=
  if k.b.Revealed x y = true ∧ k.b.GetNumNeighbors x y > 0 then
    let unrevealed := unrevealedNeighbors k.b x y
    let flagged := flaggedNeighbors k.b x y
    if set.Size unrevealed > set.Size flagged then
      k.AddFact ord (k.b.GetNumNeighbors x y - (set.Size flagged : Int))
        (set.Sub (unrevealedNeighbors k.b x y) flagged)
    else (.ret (), k)
  else (.ret (), k)

/-- The seeding loop of `deduce` over the listed cells: accumulate a fact for
each visible number. -/
def seedFrom (ord : set.Set → List Vec) : List (Nat × Nat) → Knowledge → Outcome Unit × Knowledge
  | [], k => (.ret (), k)
  | (x, y) :: rest, k =>
    match seedCell ord k x y with
    | (.ret _, k1) => seedFrom ord rest k1
    | (.panic p, k1) => (.panic p, k1)

/-- The loop `for i := 0; i < maxDeductions; i++` of `deduce`, with the number
of iterations left. -/
def deduceLoop (ord : set.Set → List Vec) : Nat → Knowledge → Outcome Bool × Knowledge
  | 0, k => (.ret false, k)
  | n + 1, k =>
    if k.HasUncheckedDeductions = false then (.ret false, k)
    else
      match k.RunNextDeduction ord with
      | (.ret true, k1) => (.ret true, k1)
      | (.ret false, k1) => deduceLoop ord n k1
      | (.panic p, k1) => (.panic p, k1)

/-- The constant `maxDeductions` of `deduce`. -/
def maxDeductions : Nat := 100000

/-- Accumulate facts about the state of the board and deduce.
Returns true if action was taken. -/
def deduce (ord : set.Set → List Vec) (b : Board) : Outcome Bool × Board :=
  match seedFrom ord (scanCells b.GetSize) (NewKnowledge b) with
  | (.panic p, k) => (.panic p, k.b)
  | (.ret _, k) =>
    match deduceLoop ord maxDeductions k with
    | (r, k1) => (r, k1.b)

/-- Compute until a single command is run (either a flag or a reveal).
Returns whether something could be run, false if stuck. -/
def Pass (ord : set.Set → List Vec) (b : Board) : Outcome Bool × Board :=
  match revealIfFresh b with
  | (.ret false, b1) =>
    match findObviousMines b1 with
    | (.ret false, b2) =>
      match findObiousEmpty b2 with
      | (.ret false, b3) => deduce ord b3
      | r => r
    | r => r
  | r => r

end solver

/-! ## Further functions of the packages -/

namespace util

/-- Copy a given list. -/
def ListCopy {T : Type} (l : List T) : List T := l

/-- The assignment `l[i], l[j] = l[j], l[i]`. -/
def swapAt {T : Type} (l : List T) (i j : Nat) : List T :=
  match l[i]?, l[j]? with
  | some a, some b => (l.set i b).set j a
  | _, _ => l

/-- The loop `for i := 0; i < len(l)-1; i++` of `Shuffle`, at index `i` with
`steps` iterations left; `draws i` is the value `rand.Intn(len(l)-i)` returns at
iteration `i`, so that `j = draws i + i`. -/
def shuffleLoop {T : Type} (draws : Nat → Nat) : Nat → Nat → List T → List T
  | 0, _, l => l
  | steps + 1, i, l => shuffleLoop draws steps (i + 1) (swapAt l i (draws i + i))

/-- Return a randomly shuffled permutation of a given array.
Durstenfeld algorithm - O(n).  The first component is the caller's slice after
the call, the second the returned slice: the swaps are applied to the copy that
`l = ListCopy(l)` makes. -/
def Shuffle {T : Type} (draws : Nat → Nat) (l : List T) : List T × List T :=
  (l, shuffleLoop draws ((ListCopy l).length - 1) 0 (ListCopy l))

/-- The writes `out[i] = v; i++` of `GetNeighbors` into a slice `out` with write
index `i`: a write at or past `len(out)` is the index-out-of-range panic. -/
def fillSlots : List Vec → List Vec → Nat → Outcome (List Vec × Nat)
  | [], out, i => .ret (out, i)
  | v :: rest, out, i =>
    if i < out.length then fillSlots rest (out.set i v) (i + 1)
    else .panic .indexOutOfRange

/-- The function `GetNeighbors` with its pre-sized slice
`make([]Vec, (hiX-loX+1)*(hiY-loY+1)-1)` and its index writes made explicit;
returns the slice and the final write index. -/
def GetNeighborsSlots (x y size : Nat) : Outcome (List Vec × Nat) :=
  let loX := if x > 0 then x - 1 else x
  let loY := if y > 0 then y - 1 else y
  let hiX := if x < size - 1 then x + 1 else x
  let hiY := if y < size - 1 then y + 1 else y
  let out := List.replicate ((hiX - loX + 1) * (hiY - loY + 1) - 1) (Vec.mk 0 0)
  fillSlots
    ((List.range' loX (hiX + 1 - loX)).flatMap fun xi =>
      ((List.range' loY (hiY + 1 - loY)).filter fun yi => !(xi = x && yi = y)).map
        fun yi => Vec.mk xi yi)
    out 0

end util

namespace set

open util

/-- The function `IsSubset` as the loop `for v := range b` it is, visiting `b` in
the iteration order `ord`. -/
def IsSubsetIter (ord : Set → List Vec) (a b : Set) : Bool :=
  (ord b).all fun v => Has a v

/-- The function `IsSubsetStrict` over the loop form of `IsSubset`. -/
def IsSubsetStrictIter (ord : Set → List Vec) (a b : Set) : Bool :=
  IsSubsetIter ord a b && !IsSubsetIter ord b a

/-- The function `Sub` as the code computes it: a copy of `a` built by `FromList`
from `a.AsList()`, from which every element of `b` is deleted in turn. -/
def SubIter (ord : Set → List Vec) (a b : Set) : Set :=
  (ord b).foldl (fun out v => out.erase v) (FromList (AsList ord a))

end set

namespace board

open util

/-- Count the number of remaining unflagged mines. -/
def Board.UnflaggedMines (b : Board) : Int :=
  (((List.range b.size).map fun x =>
    (List.range b.size).countP fun y => b.mines x y && !b.flags x y).sum : Nat)

end board

/-! ## Specification vocabulary -/

namespace set

open util

/-- Mines counted by an assignment inside a set of cells. -/
def countMines (m : Vec → Bool) (s : Set) : Nat := (s.filter fun v => m v = true).card

end set

namespace board

open util

/-- The cells of the board that are not revealed. -/
def Board.unrevealedCells (b : Board) : Finset (Nat × Nat) :=
  ((Finset.range b.size) ×ˢ (Finset.range b.size)).filter fun p => b.revealed p.1 p.2 = false

/-- Weight of a queue entry of `clearZerosFrom`: an entry of a revealed cell can
still enqueue its (at most eight) unrevealed neighbours. -/
def Board.queueWeight (b : Board) (v : Vec) : Nat :=
  if b.revealed v.X v.Y = true then 8 * 9 ^ b.unrevealedCells.card + 1
  else 9 ^ b.unrevealedCells.card

/-- Total weight of the queue of `clearZerosFrom`; it drops at every iteration. -/
def Board.queuePotential (b : Board) (q : List Vec) : Nat :=
  (q.map b.queueWeight).sum

/-- The board `b2` is `b1` with possibly more cells revealed and nothing else
changed. -/
def Board.RevealsMore (b1 b2 : Board) : Prop :=
  b2.size = b1.size ∧ b2.mines = b1.mines ∧ b2.flags = b1.flags ∧
    b2.neighbors = b1.neighbors ∧ b2.neighborCache = b1.neighborCache ∧
    ∀ i j, b1.revealed i j = true → b2.revealed i j = true

/-- The neighbour counts equal the number of mined neighbours. -/
def Board.CountsOK (b : Board) : Prop :=
  ∀ x, x < b.size → ∀ y, y < b.size →
    b.neighbors x y = (((GetNeighbors x y b.size).countP fun v => b.mines v.X v.Y : Nat) : Int)

/-- Every flagged cell is an unrevealed mine. -/
def Board.FlagsOnHiddenMines (b : Board) : Prop :=
  ∀ x, x < b.size → ∀ y, y < b.size → b.flags x y = true →
    b.mines x y = true ∧ b.revealed x y = false

/-- Every flagged cell is a mine. -/
def Board.FlagsOnMines (b : Board) : Prop :=
  ∀ x, x < b.size → ∀ y, y < b.size → b.flags x y = true → b.mines x y = true

/-- No mine is revealed. -/
def Board.NoMineRevealed (b : Board) : Prop :=
  ∀ x, x < b.size → ∀ y, y < b.size → b.mines x y = true → b.revealed x y = false

/-- The mine assignment of the board, as a function of the cell. -/
def Board.mineAt (b : Board) (v : Vec) : Bool := b.mines v.X v.Y

end board

namespace solver

open util board

/-- The fact is true of the mine assignment `m`: exactly `mines` of its tiles
hold a mine. -/
def Fact.HoldsIn (f : Fact) (m : Vec → Bool) : Prop :=
  (set.countMines m f.tiles : Int) = f.mines

/-- All tiles of the fact are cells of a grid of the given size. -/
def Fact.InBounds (f : Fact) (size : Nat) : Prop :=
  ∀ v ∈ f.tiles, v.X < size ∧ v.Y < size

/-- The fact respects `0 ≤ mines ≤ |tiles|`. -/
def Fact.Valid (f : Fact) : Prop :=
  0 ≤ f.mines ∧ f.mines ≤ (set.Size f.tiles : Int)

/-- All tiles of the fact are unrevealed, unflagged cells of the board. -/
def Fact.Hidden (b : Board) (f : Fact) : Prop :=
  ∀ v ∈ f.tiles, (v.X < b.size ∧ v.Y < b.size) ∧
    b.revealed v.X v.Y = false ∧ b.flags v.X v.Y = false

/-- The fact is over cells of the board and true of the board's mines. -/
def Fact.TrueOn (b : Board) (f : Fact) : Prop :=
  f.InBounds b.size ∧ f.HoldsIn b.mineAt

/-- A fresh knowledge graph on `b` after `AddFact(f)` followed by `AddFact(g)`. -/
def Knowledge.ofTwoFacts (ord : set.Set → List Vec) (b : Board) (f g : Fact) : Knowledge :=
  (((NewKnowledge b).AddFact ord f.mines f.tiles).2.AddFact ord g.mines g.tiles).2

/-- Every fact reachable from the worklist or the per-tile index satisfies `G`. -/
def Knowledge.AllFacts (G : Fact → Prop) (k : Knowledge) : Prop :=
  (∀ p ∈ k.unchecked, ∀ f ∈ p, G f) ∧ ∀ i j, ∀ f ∈ k.tiles i j, G f

/-- What a deduction on two facts satisfying `G` can do to the board `b0`, other
than nothing: the contradiction panic, the reveal idiom on a cell of the
difference, or the flag idiom on a cell of the difference. -/
def DeductionEffect (G : Fact → Prop) (b0 : Board) (r : Outcome Bool × Board) : Prop :=
  ∃ a b : Fact, G a ∧ G b ∧
    ((a.tiles = b.tiles ∧ a.mines ≠ b.mines ∧ r = (.panic .contradiction, b0)) ∨
     (set.IsSubsetStrict a.tiles b.tiles = true ∧ a.mines = b.mines ∧
        ∃ c ∈ set.Sub a.tiles b.tiles, r = revealOrHitMine b0 c.X c.Y) ∨
     (set.IsSubsetStrict a.tiles b.tiles = true ∧
        a.mines - b.mines = (set.Size (set.Sub a.tiles b.tiles) : Int) ∧
        ∃ c ∈ set.Sub a.tiles b.tiles, r = flagAndReturn b0 c.X c.Y))

/-- The fact that `seedCell` inserts for the cell `(x, y)`. -/
def seedFact (b : Board) (x y : Nat) : Fact :=
  { mines := b.GetNumNeighbors x y - (set.Size (flaggedNeighbors b x y) : Int)
    tiles := set.Sub (unrevealedNeighbors b x y) (flaggedNeighbors b x y) }

/-- The condition under which `seedCell` inserts a fact for the cell `(x, y)`. -/
def seedCond (b : Board) (x y : Nat) : Prop :=
  b.Revealed x y = true ∧ b.GetNumNeighbors x y > 0 ∧
    set.Size (unrevealedNeighbors b x y) > set.Size (flaggedNeighbors b x y)

/-- The tile `n` is flagged by `findObviousMines` reasoning: some revealed
numbered cell has exactly as many unrevealed neighbours as its number, and `n`
is one of them, not yet flagged. -/
def ObviousMine (b : Board) (n : Vec) : Prop :=
  ∃ x y, x < b.size ∧ y < b.size ∧ b.Revealed x y = true ∧ b.GetNumNeighbors x y ≠ 0 ∧
    (((GetNeighbors x y b.size).countP fun v => !b.Revealed v.X v.Y : Nat) : Int)
      = b.GetNumNeighbors x y ∧
    n ∈ GetNeighbors x y b.size ∧ b.Revealed n.X n.Y = false ∧ b.HasFlag n.X n.Y = false

/-- The tile `n` is revealed by `findObiousEmpty` reasoning: some revealed cell
has exactly as many flagged neighbours as its number, and `n` is an unrevealed,
unflagged neighbour. -/
def ObviousEmpty (b : Board) (n : Vec) : Prop :=
  ∃ x y, x < b.size ∧ y < b.size ∧ b.Revealed x y = true ∧
    b.GetNumNeighbors x y
      = (((GetNeighbors x y b.size).countP fun v => b.HasFlag v.X v.Y : Nat) : Int) ∧
    n ∈ GetNeighbors x y b.size ∧ b.Revealed n.X n.Y = false ∧ b.HasFlag n.X n.Y = false

/-! ### Concrete boards -/

/-- A 2 x 2 board with a mine at (1,1), nothing revealed. -/
def boardCornerMine : Board := ((NewBoard 2).PlaceMine 1 1).2

/-- A 2 x 2 board with a mine at (1,1) on which (0,0) has been revealed: the
solver is stuck on it. -/
def boardStuck : Board := (((NewBoard 2).PlaceMine 1 1).2.Reveal 0 0).2

/-- A 1 x 1 board whose only cell holds a mine. -/
def boardOnlyMine : Board := ((NewBoard 1).PlaceMine 0 0).2

/-- A 2 x 2 board whose only mine, at (1,0), has been revealed. -/
def boardMineRevealed : Board := (((NewBoard 2).PlaceMine 1 0).2.Reveal 1 0).2

/-- A 2 x 2 board with its only mine at (0,0). -/
def boardMineAtOrigin : Board := ((NewBoard 2).PlaceMine 0 0).2

end solver

/-! ## Vocabulary for the knowledge graph -/

namespace solver

open util board

/-- The knowledge graphs built from a fresh one on `b` by `AddFact` calls with
in-bounds cell sets, each call ranging over its cell set in an iteration order of
its own (the order of a map is drawn anew at every `range`). -/
inductive Knowledge.Built (b : Board) : Knowledge → Prop where
  | fresh : Knowledge.Built b (NewKnowledge b)
  | add (ord : set.Set → List Vec) (k : Knowledge) (m : Int) (s : set.Set) :
      set.IterOrder ord → Knowledge.Built b k → (∀ v ∈ s, v.X < b.size ∧ v.Y < b.size) →
      Knowledge.Built b (k.AddFact ord m s).2

/-- Index consistency: the accepted facts are pairwise distinct and in bounds,
the list indexed under a cell holds exactly the accepted facts containing the
cell, in acceptance order, and every worklist entry is a pair of two distinct
accepted facts sharing a cell. -/
def Knowledge.Indexed (k : Knowledge) : Prop :=
  k.nodes.Nodup ∧ (∀ f ∈ k.nodes, f.InBounds k.b.size) ∧
    (∀ i j, k.tiles i j = k.nodes.filter fun f => decide (Vec.mk i j ∈ f.tiles)) ∧
    ∀ p ∈ k.unchecked, ∃ f g, p = [f, g] ∧ f ∈ k.nodes ∧ g ∈ k.nodes ∧ f ≠ g ∧
      ∃ v, v ∈ f.tiles ∧ v ∈ g.tiles

/-- The seeding stage of `deduce`: the knowledge after the loop that accumulates
a fact for each visible number. -/
def seedKnowledge (ord : set.Set → List Vec) (b : Board) : Outcome Unit × Knowledge :=
  seedFrom ord (scanCells b.GetSize) (NewKnowledge b)

/-- The cells that are neither flagged nor revealed. -/
def unknownTiles (b : Board) : set.Set :=
  set.FromList (((scanCells b.GetSize).filter fun p =>
    !b.HasFlag p.1 p.2 && !b.Revealed p.1 p.2).map fun p => Vec.mk p.1 p.2)

/-- The global fact of the specification: the mines not yet flagged lie among the
unflagged unrevealed cells. -/
def globalFact (b : Board) : Fact :=
  { mines := b.UnflaggedMines, tiles := unknownTiles b }

end solver

/-! ## Further concrete boards -/
namespace solver

open util board

/-- A 3 x 3 board with its only mine in the centre, on which (0,0) has been
revealed and shows the number 1. -/
def boardCentreMine : Board := (((NewBoard 3).PlaceMine 1 1).2.Reveal 0 0).2

/-- A 3 x 3 board with its only mine at (0,1) and flags put on (0,0) and (2,0),
on which (2,0) has then been revealed: the flood fill reveals the columns
`x = 1` and `x = 2`, and the flag on (2,0) stays on a revealed cell. -/
def boardFlagRevealed : Board :=
  ((((((NewBoard 3).PlaceMine 0 1).2.Flag 0 0 true).2.Flag 2 0 true).2).Reveal 2 0).2

end solver

/-! ## Vocabulary for the termination of propagation -/
namespace solver

open util board

/-- The fact lies on an `N x N` grid, its mine count is at least `L`, and its mine
count plus `-L` per cell is at most `H`. -/
def Fact.Bounded (N : Nat) (L H : Int) (f : Fact) : Prop :=
  f.InBounds N ∧ L ≤ f.mines ∧ f.mines + (-L) * (set.Size f.tiles : Int) ≤ H

/-- A bounded fact over at least one cell: the facts that reach the index and the
worklist. -/
def Fact.Live (N : Nat) (L H : Int) (f : Fact) : Prop :=
  f.tiles.Nonempty ∧ f.Bounded N L H

/-- The invariant of propagation: the board has size `N`, the accepted facts are
pairwise distinct and bounded, and the indexed and enqueued facts are live. -/
def Knowledge.Tame (N : Nat) (L H : Int) (k : Knowledge) : Prop :=
  k.b.size = N ∧ k.nodes.Nodup ∧ (∀ f ∈ k.nodes, f.Bounded N L H) ∧
    k.AllFacts (Fact.Live N L H)

/-- The outcomes that stop the propagation loop: an action was taken, the
contradiction was detected, or the reveal action hit a mine. -/
def Halted (o : Outcome Bool) : Prop :=
  o = .ret true ∨ o = .panic .contradiction ∨ ∃ x y, o = .panic (.hitMine x y)

/-- The propagation loop has come to an end by itself: it was stopped by an action
or a contradiction, or the worklist is empty. -/
def Propagated (r : Outcome Bool × Knowledge) : Prop :=
  Halted r.1 ∨ (r.1 = .ret false ∧ r.2.unchecked = [])

end solver

/-! ## Placing mines -/
namespace board

open util

/-- The loop `for i := 0; i < num; i++ { b.PlaceMine(open[i].X, open[i].Y) }` of
`SpawnMines`, over the cells it places mines on. -/
def Board.placeMines : List Vec → Board → Outcome Unit × Board
  | [], b => (.ret (), b)
  | v :: rest, b =>
    match b.PlaceMine v.X v.Y with
    | (.ret _, b1) => placeMines rest b1
    | (.panic p, b1) => (.panic p, b1)

end board

/-! ## Iteration orders drawn anew -/
namespace set

open util

/-- A second concrete iteration order: the elements sorted by `cellLe`, last first. -/
def reverseOrder (s : Set) : List Vec := (sortedOrder s).reverse

end set

namespace solver

open util board

/-- The loop `for i := 0; i < maxDeductions; i++` of `deduce` with the iteration
order of the maps drawn anew at every iteration: the first iteration ranges in the
order `ords 0`, the next in `ords 1`, and so on (one call of `RunNextDeduction`
ranges over at most one cell set, once). -/
def deduceLoopOrds : Nat → (Nat → set.Set → List Vec) → Knowledge → Outcome Bool × Knowledge
  | 0, _, k => (.ret false, k)
  | n + 1, ords, k =>
    if k.HasUncheckedDeductions = false then (.ret false, k)
    else
      match k.RunNextDeduction (ords 0) with
      | (.ret true, k1) => (.ret true, k1)
      | (.ret false, k1) => deduceLoopOrds n (fun i => ords (i + 1)) k1
      | (.panic p, k1) => (.panic p, k1)

end solver

/-! ## Vocabulary for stuck turns -/
namespace solver

open util board

/-- The seeding loop of `deduce` over the listed cells with the iteration order of
the maps drawn anew for every cell: the `AddFact` of the first cell ranges in the
order `ords 0`, that of the next cell in `ords 1`, and so on (one cell adds at most
one fact, and `AddFact` ranges over its cell set once). -/
def seedFromOrds : (Nat → set.Set → List Vec) → List (Nat × Nat) → Knowledge →
    Outcome Unit × Knowledge
  | _, [], k => (.ret (), k)
  | ords, (x, y) :: rest, k =>
    match seedCell (ords 0) k x y with
    | (.ret _, k1) => seedFromOrds (fun i => ords (i + 1)) rest k1
    | (.panic p, k1) => (.panic p, k1)

/-- The knowledge at the end of `deduce`, after seeding and the propagation loop,
with the iteration orders drawn anew: `sords` for the cells of the seeding loop,
`lords` for the iterations of the propagation loop. -/
def propagateOrds (sords lords : Nat → set.Set → List Vec) (b : Board) :
    Outcome Bool × Knowledge :=
  match seedFromOrds sords (scanCells b.GetSize) (NewKnowledge b) with
  | (.panic p, k) => (.panic p, k)
  | (.ret _, k) => deduceLoopOrds maxDeductions lords k

/-- The function `deduce` with the iteration orders drawn anew at every `range`. -/
def deduceOrds (sords lords : Nat → set.Set → List Vec) (b : Board) : Outcome Bool × Board :=
  ((propagateOrds sords lords b).1, (propagateOrds sords lords b).2.b)

/-- The function `Pass` with the iteration orders drawn anew at every `range`. -/
def PassOrds (sords lords : Nat → set.Set → List Vec) (b : Board) : Outcome Bool × Board :=
  match revealIfFresh b with
  | (.ret false, b1) =>
    match findObviousMines b1 with
    | (.ret false, b2) =>
      match findObiousEmpty b2 with
      | (.ret false, b3) => deduceOrds sords lords b3
      | r => r
    | r => r
  | r => r

/-- The deduction on the ordered pair `(a, c)` is settled within the facts `F`: the
two facts do not contradict each other, and if the cells of `c` are a strict subset
of those of `a` then the mine counts differ and, when `c` has the fewer mines, the
remaining cells are not all mines and the derived fact is in `F`.  These are the
cases in which `RunDualDeduction(a, c)` returns false. -/
def Fact.Settled (F : Fact → Prop) (a c : Fact) : Prop :=
  ¬ (set.IsEqual a.tiles c.tiles = true ∧ a.mines ≠ c.mines) ∧
    (set.IsSubsetStrict a.tiles c.tiles = true →
      c.mines ≠ a.mines ∧
      (c.mines < a.mines →
        ¬ (a.mines - c.mines > 0 ∧
            a.mines - c.mines = (set.Size (set.Sub a.tiles c.tiles) : Int)) ∧
        F ⟨a.mines - c.mines, set.Sub a.tiles c.tiles⟩))

/-- Every two distinct accepted facts that share a cell are still paired in the
worklist, or settled within the accepted facts in both orientations, or excepted
by `E`. -/
def Knowledge.Covered (E : Fact → Fact → Prop) (k : Knowledge) : Prop :=
  ∀ a ∈ k.nodes, ∀ c ∈ k.nodes, a ≠ c → (∃ v, v ∈ a.tiles ∧ v ∈ c.tiles) →
    ([a, c] ∈ k.unchecked ∨ [c, a] ∈ k.unchecked) ∨
      (Fact.Settled (fun f => f ∈ k.nodes) a c ∧ Fact.Settled (fun f => f ∈ k.nodes) c a) ∨
      E a c

/-- A 3 x 3 board with its only mine in the centre, on which the corners (0,0) and
(2,2) have been revealed and show the number 1: the solver is stuck on it. -/
def boardTwoCorners : Board :=
  ((((NewBoard 3).PlaceMine 1 1).2.Reveal 0 0).2.Reveal 2 2).2

/-- The calls `b.Reveal(v.X, v.Y)` for the listed cells, one after the other. -/
def revealCells : List Vec → Board → Board
  | [], b => b
  | v :: rest, b => revealCells rest (b.Reveal v.X v.Y).2

/-- The board of size `2 m + 2` built from `NewBoard(2m+2)` by `PlaceMine` on the even
cells of the diagonal, `(0,0), (2,2), ..., (2m,2m)`, and then `Reveal` on the odd cells
of the diagonal, `(1,1), (3,3), ..., (2m+1,2m+1)`, and on the cell `(2m, 2m+1)`.  Each
revealed cell shows a positive number, so nothing else is uncovered; no flag is set. -/
def boardDiagonal (m : Nat) : Board :=
  revealCells
    (((List.range (m + 1)).map fun k => Vec.mk (2 * k + 1) (2 * k + 1))
      ++ [Vec.mk (2 * m) (2 * m + 1)])
    (Board.placeMines ((List.range (m + 1)).map fun k => Vec.mk (2 * k) (2 * k))
      (NewBoard (2 * m + 2))).2

/-- The fact seeded for the revealed cell `(2k+1, 2k+1)` of the diagonal board. -/
def diagonalFact (m k : Nat) : Fact := seedFact (boardDiagonal m) (2 * k + 1) (2 * k + 1)

/-- The fact seeded for the revealed cell `(2m, 2m+1)` of the diagonal board. -/
def sideFact (m : Nat) : Fact := seedFact (boardDiagonal m) (2 * m) (2 * m + 1)

end solver

/-! ## Sets and iteration orders -/
namespace set

open util

theorem isSubset_iff (a b : Set) : IsSubset a b = true ↔ b ⊆ a := by
  simp [IsSubset, Has, Finset.subset_iff]

theorem isEqual_iff (a b : Set) : IsEqual a b = true ↔ a = b := by
  simp only [IsEqual, Bool.and_eq_true, isSubset_iff]
  constructor
  · rintro ⟨h1, h2⟩; exact Finset.Subset.antisymm h2 h1
  · rintro rfl; exact ⟨Finset.Subset.refl _, Finset.Subset.refl _⟩

theorem isSubsetStrict_iff (a b : Set) : IsSubsetStrict a b = true ↔ b ⊂ a := by
  simp only [IsSubsetStrict, Bool.and_eq_true, Bool.not_eq_true', isSubset_iff,
    Finset.ssubset_def]
  constructor
  · rintro ⟨h1, h2⟩
    refine ⟨h1, fun h => ?_⟩
    rw [(isSubset_iff b a).mpr h] at h2
    exact Bool.noConfusion h2
  · rintro ⟨h1, h2⟩
    refine ⟨h1, ?_⟩
    cases h : IsSubset b a
    · rfl
    · exact absurd ((isSubset_iff b a).mp h) h2

theorem IterOrder.mem_iff {ord : Set → List Vec} (h : IterOrder ord) (s : Set) (v : Vec) :
    v ∈ ord s ↔ v ∈ s := by
  conv_rhs => rw [← (h s).2]
  simp

theorem IterOrder.length_eq {ord : Set → List Vec} (h : IterOrder ord) (s : Set) :
    (ord s).length = s.card := by
  conv_rhs => rw [← (h s).2]
  exact (List.toFinset_card_of_nodup (h s).1).symm

theorem IterOrder.exists_cons {ord : Set → List Vec} (h : IterOrder ord) (s : Set)
    (hs : s.Nonempty) : ∃ c rest, ord s = c :: rest ∧ c ∈ s := by
  cases hl : ord s with
  | nil =>
    have := h.length_eq s
    rw [hl] at this
    exact absurd (Finset.card_eq_zero.mp this.symm) hs.ne_empty
  | cons c rest =>
    refine ⟨c, rest, rfl, ?_⟩
    rw [← h.mem_iff s c, hl]
    exact List.mem_cons_self _ _

theorem sub_nonempty_of_strict {a b : Set} (h : IsSubsetStrict a b = true) :
    (Sub a b).Nonempty := by
  rw [isSubsetStrict_iff] at h
  exact Finset.sdiff_nonempty.mpr (Finset.ssubset_def.mp h).2

theorem sortedOrder_iterOrder : IterOrder sortedOrder := by
  intro s
  obtain ⟨m, hm⟩ := s
  induction m using Quot.inductionOn with
  | _ l =>
    have hp : (List.insertionSort cellLe l).Perm l := List.perm_insertionSort cellLe l
    have hn : l.Nodup := hm
    constructor
    · exact hp.nodup_iff.mpr hn
    · ext v
      simp only [sortedOrder, Quot.liftOn, List.mem_toFinset]
      rw [hp.mem_iff]
      rfl

theorem countMines_sub {a b : Set} (m : Vec → Bool) (h : b ⊆ a) :
    countMines m (Sub a b) + countMines m b = countMines m a := by
  unfold countMines Sub
  have h1 : (a \ b).filter (fun v => m v = true)
      = a.filter (fun v => m v = true) \ b.filter (fun v => m v = true) := by
    ext v
    simp only [Finset.mem_filter, Finset.mem_sdiff]
    tauto
  rw [h1]
  exact Finset.card_sdiff_add_card_eq_card (Finset.filter_subset_filter _ h)

end set

/-! ## Neighbour enumeration -/
namespace util

theorem Vec.eq_of_coords {a b : Vec} (hx : a.X = b.X) (hy : a.Y = b.Y) : a = b := by
  cases a; cases b; simp only at hx hy; subst hx hy; rfl

theorem mem_GetNeighbors (x y size : Nat) (v : Vec) :
    v ∈ GetNeighbors x y size ↔
      ((if x > 0 then x - 1 else x) ≤ v.X ∧ v.X ≤ (if x < size - 1 then x + 1 else x)) ∧
      ((if y > 0 then y - 1 else y) ≤ v.Y ∧ v.Y ≤ (if y < size - 1 then y + 1 else y)) ∧
      ¬ (v.X = x ∧ v.Y = y) := by
  obtain ⟨vx, vy⟩ := v
  simp only [GetNeighbors, List.mem_flatMap, List.mem_map, List.mem_filter, List.mem_range'_1,
    Vec.mk.injEq, Bool.not_eq_true', Bool.and_eq_false_imp, decide_eq_true_eq,
    decide_eq_false_iff_not]
  constructor
  · rintro ⟨xi, ⟨h1, h2⟩, yi, ⟨⟨h3, h4⟩, h5⟩, rfl, rfl⟩
    refine ⟨⟨h1, by omega⟩, ⟨h3, by omega⟩, fun h => h5 h.1 h.2⟩
  · rintro ⟨⟨h1, h2⟩, ⟨h3, h4⟩, h5⟩
    exact ⟨vx, ⟨h1, by omega⟩, vy, ⟨⟨h3, by omega⟩, fun hx hy => h5 ⟨hx, hy⟩⟩, rfl, rfl⟩

theorem GetNeighbors_inBounds {x y size : Nat} (hx : x < size) (hy : y < size) {v : Vec}
    (hv : v ∈ GetNeighbors x y size) : v.X < size ∧ v.Y < size := by
  rw [mem_GetNeighbors] at hv
  obtain ⟨⟨-, h2⟩, ⟨-, h4⟩, -⟩ := hv
  constructor
  · split at h2 <;> omega
  · split at h4 <;> omega

theorem GetNeighbors_nodup (x y size : Nat) : (GetNeighbors x y size).Nodup := by
  unfold GetNeighbors
  simp only
  rw [List.nodup_flatMap]
  constructor
  · intro xi _
    apply List.Nodup.map
    · intro a b h
      simpa using h
    · exact (List.nodup_range' _ _).filter _
  · apply List.Pairwise.imp _ (List.nodup_range' _ _)
    intro a b hab
    simp only [Function.onFun, List.disjoint_left, List.mem_map, List.mem_filter, not_exists,
      not_and]
    rintro v ⟨yi, -, rfl⟩ yj _ h
    simp only [Vec.mk.injEq] at h
    exact hab h.1.symm

theorem GetNeighbors_length_le (x y size : Nat) : (GetNeighbors x y size).length ≤ 8 := by
  have hnd := GetNeighbors_nodup x y size
  rw [← List.toFinset_card_of_nodup hnd]
  have hinj : Function.Injective (fun v : Vec => (v.X, v.Y)) := by
    rintro ⟨a, b⟩ ⟨c, d⟩ h
    simpa using h
  rw [← Finset.card_image_of_injective _ hinj]
  have hsub : (GetNeighbors x y size).toFinset.image (fun v : Vec => (v.X, v.Y))
      ⊆ ((Finset.Icc (x - 1) (x + 1)) ×ˢ (Finset.Icc (y - 1) (y + 1))).erase (x, y) := by
    intro p hp
    simp only [Finset.mem_image, List.mem_toFinset] at hp
    obtain ⟨v, hv, rfl⟩ := hp
    rw [mem_GetNeighbors] at hv
    obtain ⟨⟨h1, h2⟩, ⟨h3, h4⟩, h5⟩ := hv
    simp only [Finset.mem_erase, ne_eq, Prod.mk.injEq, Finset.mem_product, Finset.mem_Icc]
    refine ⟨h5, ⟨?_, ?_⟩, ?_, ?_⟩
    · split at h1 <;> omega
    · split at h2 <;> omega
    · split at h3 <;> omega
    · split at h4 <;> omega
  refine le_trans (Finset.card_le_card hsub) ?_
  have hmem : (x, y) ∈ (Finset.Icc (x - 1) (x + 1)) ×ˢ (Finset.Icc (y - 1) (y + 1)) := by
    simp only [Finset.mem_product, Finset.mem_Icc]
    omega
  rw [Finset.card_erase_of_mem hmem, Finset.card_product, Nat.card_Icc, Nat.card_Icc]
  have h1 : x + 1 + 1 - (x - 1) ≤ 3 := by omega
  have h2 : y + 1 + 1 - (y - 1) ≤ 3 := by omega
  have := Nat.mul_le_mul h1 h2
  omega

end util

/-! ## The flood fill terminates within its step budget -/
namespace board

open util

namespace Board

theorem setRevealed_revealed (b : Board) (x y i j : Nat) :
    (b.setRevealed x y).revealed i j = if i = x ∧ j = y then true else b.revealed i j := rfl

theorem setRevealed_unrevealedCells_of_revealed (b : Board) (x y : Nat)
    (h : b.revealed x y = true) :
    (b.setRevealed x y).unrevealedCells = b.unrevealedCells := by
  unfold unrevealedCells setRevealed
  ext p
  simp only [Finset.mem_filter, Finset.mem_product, Finset.mem_range]
  by_cases hp : p.1 = x ∧ p.2 = y
  · simp [hp, h]
  · simp [hp]

theorem setRevealed_unrevealedCells_erase (b : Board) (x y : Nat) :
    (b.setRevealed x y).unrevealedCells = b.unrevealedCells.erase (x, y) := by
  unfold unrevealedCells setRevealed
  ext p
  obtain ⟨p1, p2⟩ := p
  simp only [Finset.mem_filter, Finset.mem_product, Finset.mem_range, Finset.mem_erase, ne_eq,
    Prod.mk.injEq]
  by_cases hp : p1 = x ∧ p2 = y
  · simp [hp]
  · simp [hp]

theorem setRevealed_card_of_not (b : Board) (x y : Nat) (hb : b.inBounds x y = true)
    (h : b.revealed x y = false) :
    (b.setRevealed x y).unrevealedCells.card + 1 = b.unrevealedCells.card := by
  rw [setRevealed_unrevealedCells_erase b x y]
  have hmem : (x, y) ∈ b.unrevealedCells := by
    simp only [inBounds, Bool.and_eq_true, decide_eq_true_eq] at hb
    simp [unrevealedCells, hb.1, hb.2, h]
  rw [Finset.card_erase_of_mem hmem]
  have : 0 < b.unrevealedCells.card := Finset.card_pos.mpr ⟨_, hmem⟩
  omega

theorem unrevealedCells_card_le (b : Board) : b.unrevealedCells.card ≤ b.size * b.size := by
  unfold unrevealedCells
  refine le_trans (Finset.card_filter_le _ _) ?_
  simp

theorem one_le_queueWeight (b : Board) (v : Vec) : 1 ≤ b.queueWeight v := by
  unfold queueWeight
  split
  · omega
  · exact Nat.one_le_pow _ _ (by omega)

theorem queuePotential_cons (b : Board) (v : Vec) (q : List Vec) :
    b.queuePotential (v :: q) = b.queueWeight v + b.queuePotential q := by
  simp [queuePotential]

theorem queuePotential_append (b : Board) (q r : List Vec) :
    b.queuePotential (q ++ r) = b.queuePotential q + b.queuePotential r := by
  simp [queuePotential]

theorem queuePotential_le_of_weight_le (b1 b : Board) (q : List Vec)
    (h : ∀ e, b1.queueWeight e ≤ b.queueWeight e) :
    b1.queuePotential q ≤ b.queuePotential q := by
  induction q with
  | nil => simp [queuePotential]
  | cons v q ih =>
    rw [queuePotential_cons, queuePotential_cons]
    exact Nat.add_le_add (h v) ih

theorem queuePotential_unrevealed (b : Board) (q : List Vec)
    (h : ∀ e ∈ q, b.revealed e.X e.Y = false) :
    b.queuePotential q = q.length * 9 ^ b.unrevealedCells.card := by
  induction q with
  | nil => simp [queuePotential]
  | cons v q ih =>
    rw [queuePotential_cons, ih (fun e he => h e (List.mem_cons_of_mem _ he))]
    have hv := h v (List.mem_cons_self _ _)
    simp only [queueWeight, hv, Bool.false_eq_true, if_false, List.length_cons]
    ring

/-- One iteration of the flood-fill loop strictly lowers the queue potential. -/
theorem queuePotential_step (b : Board) (v : Vec) (q : List Vec)
    (hv : b.inBounds v.X v.Y = true) (new : List Vec) (hlen : new.length ≤ 8)
    (hnew : ∀ e ∈ new, (b.setRevealed v.X v.Y).revealed e.X e.Y = false) :
    (b.setRevealed v.X v.Y).queuePotential (q ++ new) < b.queuePotential (v :: q) := by
  rw [queuePotential_append, queuePotential_cons, queuePotential_unrevealed _ new hnew]
  cases hr : b.revealed v.X v.Y with
  | true =>
    have hU := setRevealed_unrevealedCells_of_revealed b v.X v.Y hr
    have hw : ∀ e, (b.setRevealed v.X v.Y).queueWeight e ≤ b.queueWeight e := by
      intro e
      unfold queueWeight
      rw [hU]
      by_cases he : e.X = v.X ∧ e.Y = v.Y
      · simp [setRevealed_revealed, he, hr]
      · simp [setRevealed_revealed, he]
    have h1 := queuePotential_le_of_weight_le _ b q hw
    rw [hU]
    have h2 : new.length * 9 ^ b.unrevealedCells.card ≤ 8 * 9 ^ b.unrevealedCells.card :=
      Nat.mul_le_mul_right _ hlen
    simp only [queueWeight, hr, if_true]
    omega
  | false =>
    have hU := setRevealed_card_of_not b v.X v.Y hv hr
    have hP : 1 ≤ 9 ^ (b.setRevealed v.X v.Y).unrevealedCells.card :=
      Nat.one_le_pow _ _ (by omega)
    have hpow : 9 ^ b.unrevealedCells.card
        = 9 * 9 ^ (b.setRevealed v.X v.Y).unrevealedCells.card := by
      rw [← hU, pow_succ]; ring
    have hw : ∀ e, (b.setRevealed v.X v.Y).queueWeight e ≤ b.queueWeight e := by
      intro e
      unfold queueWeight
      rw [hpow, setRevealed_revealed]
      generalize 9 ^ (b.setRevealed v.X v.Y).unrevealedCells.card = P at hP ⊢
      by_cases he : e.X = v.X ∧ e.Y = v.Y
      · have : b.revealed e.X e.Y = false := by rw [he.1, he.2]; exact hr
        simp only [he, and_self, if_true, this, hr, Bool.false_eq_true, if_false]
        omega
      · simp only [he, if_false]
        split <;> omega
    have h1 := queuePotential_le_of_weight_le _ b q hw
    have h2 : new.length * 9 ^ (b.setRevealed v.X v.Y).unrevealedCells.card
        ≤ 8 * 9 ^ (b.setRevealed v.X v.Y).unrevealedCells.card :=
      Nat.mul_le_mul_right _ hlen
    simp only [queueWeight, hr, Bool.false_eq_true, if_false]
    rw [hpow]
    omega

theorem clearZerosLoop_ok (fuel : Nat) (b : Board) (q : List Vec)
    (hq : ∀ v ∈ q, b.inBounds v.X v.Y = true) (hfuel : b.queuePotential q ≤ fuel) :
    (clearZerosLoop fuel b q).1 = .ret () := by
  induction fuel generalizing b q with
  | zero =>
    cases q with
    | nil => rfl
    | cons v q =>
      rw [queuePotential_cons] at hfuel
      have := one_le_queueWeight b v
      omega
  | succ fuel ih =>
    cases q with
    | nil => rfl
    | cons v q =>
      have hv := hq v (List.mem_cons_self _ _)
      have hq1 : ∀ w ∈ q, (b.setRevealed v.X v.Y).inBounds w.X w.Y = true :=
        fun w hw => hq w (List.mem_cons_of_mem _ hw)
      simp only [clearZerosLoop, hv, if_true]
      split
      · apply ih
        · intro w hw
          rcases List.mem_append.mp hw with hw | hw
          · exact hq1 w hw
          · have hw1 := (List.mem_filter.mp hw).1
            simp only [inBounds, Bool.and_eq_true, decide_eq_true_eq] at hv ⊢
            exact GetNeighbors_inBounds hv.1 hv.2 hw1
        · have := queuePotential_step b v q hv
            ((GetNeighbors v.X v.Y (b.setRevealed v.X v.Y).size).filter
              fun n => !(b.setRevealed v.X v.Y).revealed n.X n.Y)
            (le_trans (List.length_filter_le _ _) (GetNeighbors_length_le _ _ _))
            (fun e he => by simpa using (List.mem_filter.mp he).2)
          omega
      · apply ih _ _ hq1
        have := queuePotential_step b v q hv [] (by simp) (by simp)
        rw [List.append_nil] at this
        omega

end Board

end board

/-! ## Reveal and Flag -/
namespace board

open util

namespace Board

theorem RevealsMore.refl (b : Board) : b.RevealsMore b :=
  ⟨rfl, rfl, rfl, rfl, rfl, fun _ _ h => h⟩

theorem RevealsMore.trans {b1 b2 b3 : Board} (h12 : b1.RevealsMore b2)
    (h23 : b2.RevealsMore b3) : b1.RevealsMore b3 := by
  obtain ⟨a1, a2, a3, a4, a5, a6⟩ := h12
  obtain ⟨c1, c2, c3, c4, c5, c6⟩ := h23
  exact ⟨c1.trans a1, c2.trans a2, c3.trans a3, c4.trans a4, c5.trans a5,
    fun i j h => c6 i j (a6 i j h)⟩

theorem setRevealed_revealsMore (b : Board) (x y : Nat) : b.RevealsMore (b.setRevealed x y) := by
  refine ⟨rfl, rfl, rfl, rfl, rfl, fun i j h => ?_⟩
  rw [setRevealed_revealed]
  split
  · rfl
  · exact h

theorem clearZerosLoop_revealsMore (fuel : Nat) (b : Board) (q : List Vec) :
    b.RevealsMore (clearZerosLoop fuel b q).2 := by
  induction fuel generalizing b q with
  | zero =>
    cases q with
    | nil => exact RevealsMore.refl b
    | cons v q => exact RevealsMore.refl b
  | succ fuel ih =>
    cases q with
    | nil => exact RevealsMore.refl b
    | cons v q =>
      simp only [clearZerosLoop]
      split
      · split
        · exact (setRevealed_revealsMore b v.X v.Y).trans (ih _ _)
        · exact (setRevealed_revealsMore b v.X v.Y).trans (ih _ _)
      · exact RevealsMore.refl b

theorem clearZerosFrom_ok (b : Board) (x y : Nat) (h : b.inBounds x y = true) :
    (b.clearZerosFrom x y).1 = .ret () := by
  unfold clearZerosFrom
  apply clearZerosLoop_ok
  · intro v hv
    rw [List.mem_singleton] at hv
    subst hv
    exact h
  · rw [queuePotential_cons]
    have hU := unrevealedCells_card_le b
    have hpow : 9 ^ b.unrevealedCells.card ≤ 9 ^ (b.size * b.size) :=
      Nat.pow_le_pow_right (by omega) hU
    have h1 : 1 ≤ 9 ^ b.unrevealedCells.card := Nat.one_le_pow _ _ (by omega)
    simp only [queuePotential, List.map_nil, List.sum_nil, clearZerosFuel, queueWeight]
    split <;> omega

theorem clearZerosFrom_revealsMore (b : Board) (x y : Nat) :
    b.RevealsMore (b.clearZerosFrom x y).2 :=
  clearZerosLoop_revealsMore _ _ _

/-- In bounds, `Reveal` returns (no panic, the flood fill terminates) and reports
whether the tile holds a mine. -/
theorem Reveal_fst (b : Board) (x y : Nat) (h : b.inBounds x y = true) :
    (b.Reveal x y).1 = .ret (b.mines x y) := by
  unfold Reveal
  rw [if_pos h]
  have hm : (b.setRevealed x y).mines x y = b.mines x y := rfl
  simp only [hm]
  cases hmine : b.mines x y with
  | true => simp
  | false =>
    simp only [Bool.false_eq_true, if_false]
    split
    · have hok := clearZerosFrom_ok (b.setRevealed x y) x y h
      split
      · rfl
      · rename_i p b2 heq
        rw [heq] at hok
        exact Outcome.noConfusion hok
    · rfl

theorem Reveal_revealsMore (b : Board) (x y : Nat) : b.RevealsMore (b.Reveal x y).2 := by
  unfold Reveal
  split
  · simp only
    split
    · exact setRevealed_revealsMore b x y
    · split
      · have h := clearZerosFrom_revealsMore (b.setRevealed x y) x y
        split
        · rename_i heq
          rw [heq] at h
          exact (setRevealed_revealsMore b x y).trans h
        · rename_i heq
          rw [heq] at h
          exact (setRevealed_revealsMore b x y).trans h
      · exact setRevealed_revealsMore b x y
  · exact RevealsMore.refl b

theorem Reveal_revealed_self (b : Board) (x y : Nat) (h : b.inBounds x y = true) :
    (b.Reveal x y).2.revealed x y = true := by
  have hself : (b.setRevealed x y).revealed x y = true := by simp [setRevealed_revealed]
  unfold Reveal
  rw [if_pos h]
  simp only
  split
  · exact hself
  · split
    · have hm := clearZerosFrom_revealsMore (b.setRevealed x y) x y
      split
      · rename_i heq
        rw [heq] at hm
        exact hm.2.2.2.2.2 x y hself
      · rename_i heq
        rw [heq] at hm
        exact hm.2.2.2.2.2 x y hself
    · exact hself

theorem Flag_fst (b : Board) (x y : Nat) (f : Bool) (h : b.inBounds x y = true) :
    (b.Flag x y f).1 = .ret () := by
  unfold Flag
  rw [if_pos h]
  split <;> rfl

theorem Flag_snd (b : Board) (x y : Nat) (f : Bool) (h : b.inBounds x y = true) :
    (b.Flag x y f).2 = if b.revealed x y = false then b.setFlag x y f else b := by
  unfold Flag
  rw [if_pos h]
  split <;> rfl

end Board

end board

namespace solver

open util board

theorem revealOrHitMine_fst (b : Board) (x y : Nat) (h : b.inBounds x y = true) :
    (revealOrHitMine b x y).1
      = if b.mines x y = true then .panic (.hitMine x y) else .ret true := by
  have h1 := Board.Reveal_fst b x y h
  unfold revealOrHitMine
  split
  · rename_i heq
    rw [heq] at h1
    simp only [Outcome.ret.injEq] at h1
    simp [← h1]
  · rename_i heq
    rw [heq] at h1
    simp only [Outcome.ret.injEq] at h1
    simp [← h1]
  · rename_i heq
    rw [heq] at h1
    exact Outcome.noConfusion h1

theorem revealOrHitMine_snd (b : Board) (x y : Nat) :
    (revealOrHitMine b x y).2 = (b.Reveal x y).2 := by
  unfold revealOrHitMine
  split <;> (rename_i heq; rw [heq])

theorem flagAndReturn_fst (b : Board) (x y : Nat) (h : b.inBounds x y = true) :
    (flagAndReturn b x y).1 = .ret true := by
  have h1 := Board.Flag_fst b x y true h
  unfold flagAndReturn
  split
  · rfl
  · rename_i heq
    rw [heq] at h1
    exact Outcome.noConfusion h1

theorem flagAndReturn_snd (b : Board) (x y : Nat) :
    (flagAndReturn b x y).2 = (b.Flag x y true).2 := by
  unfold flagAndReturn
  split <;> (rename_i heq; rw [heq])

end solver

/-! ## AddFact -/
namespace solver

open util board

namespace Knowledge

theorem indexFact_b (f : Fact) (l : List Vec) (k : Knowledge) :
    (indexFact f l k).2.b = k.b := by
  induction l generalizing k with
  | nil => rfl
  | cons v rest ih =>
    simp only [indexFact]
    split
    · rw [ih]
    · rfl

theorem indexFact_nodes (f : Fact) (l : List Vec) (k : Knowledge) :
    (indexFact f l k).2.nodes = k.nodes := by
  induction l generalizing k with
  | nil => rfl
  | cons v rest ih =>
    simp only [indexFact]
    split
    · rw [ih]
    · rfl

theorem indexFact_ok (f : Fact) (l : List Vec) (k : Knowledge)
    (h : ∀ v ∈ l, v.X < k.b.size ∧ v.Y < k.b.size) :
    (indexFact f l k).1 = .ret () := by
  induction l generalizing k with
  | nil => rfl
  | cons v rest ih =>
    have hv := h v (List.mem_cons_self _ _)
    simp only [indexFact, Board.inBounds, hv.1, hv.2, decide_True, Bool.and_self, if_true]
    exact ih _ (fun w hw => h w (List.mem_cons_of_mem _ hw))

theorem addFact_b (ord : set.Set → List Vec) (k : Knowledge) (m : Int) (s : set.Set) :
    (k.AddFact ord m s).2.b = k.b := by
  unfold AddFact
  split
  · rfl
  · rw [indexFact_b]

theorem addFact_ok (ord : set.Set → List Vec) (hord : set.IterOrder ord) (k : Knowledge)
    (m : Int) (s : set.Set) (h : ∀ v ∈ s, v.X < k.b.size ∧ v.Y < k.b.size) :
    (k.AddFact ord m s).1 = .ret () := by
  unfold AddFact
  split
  · rfl
  · apply indexFact_ok
    intro v hv
    exact h v ((hord.mem_iff s v).mp hv)

theorem hasFact_iff (k : Knowledge) (m : Int) (s : set.Set) :
    k.HasFact m s = true ↔ (Fact.mk m s) ∈ k.nodes := by
  unfold HasFact
  simp only [List.any_eq_true, Bool.and_eq_true, decide_eq_true_eq, set.isEqual_iff]
  constructor
  · rintro ⟨f, hf, h1, h2⟩
    cases f
    simp only at h1 h2
    subst h1 h2
    exact hf
  · intro h
    exact ⟨_, h, rfl, rfl⟩

theorem addFact_nodes (ord : set.Set → List Vec) (k : Knowledge) (m : Int) (s : set.Set) :
    (k.AddFact ord m s).2.nodes
      = if k.HasFact m s = true then k.nodes else k.nodes ++ [Fact.mk m s] := by
  unfold AddFact
  split
  · rfl
  · rw [indexFact_nodes]

theorem addFact_hasFact (ord : set.Set → List Vec) (k : Knowledge) (m : Int) (s : set.Set) :
    (k.AddFact ord m s).2.HasFact m s = true := by
  rw [hasFact_iff, addFact_nodes]
  split
  · rename_i h
    exact (hasFact_iff k m s).mp h
  · simp

end Knowledge

end solver

/-! ## The indexing loop of AddFact -/
namespace solver

open util board

namespace Knowledge

/-- Effect of the indexing loop of `AddFact` on the per-tile index and on the
worklist. -/
theorem indexFact_spec (f : Fact) (l : List Vec) (k : Knowledge) (hnd : l.Nodup)
    (hin : ∀ v ∈ l, v.X < k.b.size ∧ v.Y < k.b.size) :
    (indexFact f l k).2.tiles
        = (fun i j => if Vec.mk i j ∈ l then k.tiles i j ++ [f] else k.tiles i j)
      ∧ (indexFact f l k).2.unchecked
        = k.unchecked ++ l.flatMap fun v => (k.tiles v.X v.Y).map fun o => [f, o] := by
  induction l generalizing k with
  | nil => simp [indexFact]
  | cons v rest ih =>
    have hv := hin v (List.mem_cons_self _ _)
    obtain ⟨hvn, hrn⟩ := List.nodup_cons.mp hnd
    simp only [indexFact, Board.inBounds, hv.1, hv.2, decide_True, Bool.and_self, if_true]
    obtain ⟨h1, h2⟩ := ih
      { k with
        unchecked := k.unchecked ++ (k.tiles v.X v.Y).map fun otherFact => [f, otherFact]
        tiles := fun i j =>
          if i = v.X ∧ j = v.Y then k.tiles v.X v.Y ++ [f] else k.tiles i j }
      hrn (fun w hw => hin w (List.mem_cons_of_mem _ hw))
    constructor
    · rw [h1]
      funext i j
      by_cases hij : Vec.mk i j ∈ rest
      · have hne : ¬ (i = v.X ∧ j = v.Y) := by
          rintro ⟨rfl, rfl⟩
          exact hvn hij
        simp [hij, hne]
      · by_cases he : i = v.X ∧ j = v.Y
        · obtain ⟨rfl, rfl⟩ := he
          simp [hij]
        · have : ¬ (Vec.mk i j = v) := by
            intro h
            apply he
            rw [← h]
            exact ⟨rfl, rfl⟩
          simp [hij, he, this]
    · rw [h2]
      simp only [List.flatMap_cons, List.append_assoc]
      congr 2
      apply List.flatMap_congr
      intro w hw
      have hne : ¬ (w.X = v.X ∧ w.Y = v.Y) := by
        rintro ⟨e1, e2⟩
        apply hvn
        rw [← Vec.eq_of_coords e1 e2]
        exact hw
      simp [hne]

end Knowledge

end solver

/-! ## Exact-match elimination -/
namespace solver

open util board

theorem not_contradiction_of_strict {a b : Fact}
    (hsub : set.IsSubsetStrict a.tiles b.tiles = true) :
    ¬ (set.IsEqual a.tiles b.tiles = true ∧ a.mines ≠ b.mines) := by
  rintro ⟨h, -⟩
  rw [set.isEqual_iff] at h
  rw [set.isSubsetStrict_iff, h] at hsub
  exact (ssubset_irrefl _) hsub

theorem strict_subset_of {a b : Fact} (hsub : set.IsSubsetStrict a.tiles b.tiles = true) :
    b.tiles ⊆ a.tiles :=
  (Finset.ssubset_def.mp ((set.isSubsetStrict_iff _ _).mp hsub)).1

theorem sub_inBounds {a b : Fact} {size : Nat} (h : a.InBounds size) :
    ∀ v ∈ set.Sub a.tiles b.tiles, v.X < size ∧ v.Y < size := by
  intro v hv
  exact h v (Finset.mem_sdiff.mp hv).1

/-- With a strict subset and equal counts, `RunDualDeduction` applies the reveal
idiom to the first cell of the difference. -/
theorem runDualDeduction_reveal (ord : set.Set → List Vec)
    (hord : set.IterOrder ord) (k : Knowledge) (a b : Fact)
    (hsub : set.IsSubsetStrict a.tiles b.tiles = true) (hm : a.mines = b.mines) :
    ∃ c ∈ set.Sub a.tiles b.tiles,
        k.RunDualDeduction ord a b
          = ((revealOrHitMine k.b c.X c.Y).1,
              { k with b := (revealOrHitMine k.b c.X c.Y).2 }) := by
  obtain ⟨c, rest, hc, hmem⟩ := hord.exists_cons _ (set.sub_nonempty_of_strict hsub)
  refine ⟨c, hmem, ?_⟩
  unfold Knowledge.RunDualDeduction
  rw [if_neg (not_contradiction_of_strict hsub), if_pos hsub, if_pos hm.symm]
  simp only [set.AsList, hc]

/-- Claim C2. Exact-match elimination is sound: when `b.tiles` is a strict subset
of `a.tiles` and the mine counts agree, `RunDualDeduction(a, b)` applies the
reveal idiom to one cell `c` of `a.tiles \ b.tiles` (so the cell it reveals lies
in the difference, and is revealed afterwards when it is a cell of the board),
and in every mine assignment in which both facts hold no cell of
`a.tiles \ b.tiles` holds a mine. -/
theorem runDualDeduction_exact_match_sound (ord : set.Set → List Vec)
    (hord : set.IterOrder ord) (k : Knowledge) (a b : Fact)
    (hsub : set.IsSubsetStrict a.tiles b.tiles = true) (hm : a.mines = b.mines) :
    (∃ c ∈ set.Sub a.tiles b.tiles,
        k.RunDualDeduction ord a b
            = ((revealOrHitMine k.b c.X c.Y).1,
                { k with b := (revealOrHitMine k.b c.X c.Y).2 })
          ∧ (k.b.inBounds c.X c.Y = true →
              (k.RunDualDeduction ord a b).2.b.revealed c.X c.Y = true))
      ∧ ∀ m : Vec → Bool, a.HoldsIn m → b.HoldsIn m →
          ∀ c ∈ set.Sub a.tiles b.tiles, m c = false := by
  constructor
  · obtain ⟨c, hc, heq⟩ := runDualDeduction_reveal ord hord k a b hsub hm
    refine ⟨c, hc, heq, fun hin => ?_⟩
    rw [heq]
    simp only
    rw [revealOrHitMine_snd]
    exact Board.Reveal_revealed_self _ _ _ hin
  · intro m ha hb c hc
    have hcount := set.countMines_sub m (strict_subset_of hsub)
    unfold Fact.HoldsIn at ha hb
    have hz : set.countMines m (set.Sub a.tiles b.tiles) = 0 := by omega
    unfold set.countMines at hz
    rw [Finset.card_eq_zero, Finset.filter_eq_empty_iff] at hz
    have := hz hc
    simpa using this

/-- Witness of C2 on Scenario A: `a = (1, {T1,T2,T3})`, `b = (1, {T2,T3})`. -/
theorem runDualDeduction_exact_match_sound_witness :
    (∃ c ∈ set.Sub ({⟨0, 0⟩, ⟨0, 1⟩, ⟨1, 0⟩} : set.Set) {⟨0, 1⟩, ⟨1, 0⟩},
        (NewKnowledge (NewBoard 2)).RunDualDeduction set.sortedOrder
              ⟨1, {⟨0, 0⟩, ⟨0, 1⟩, ⟨1, 0⟩}⟩ ⟨1, {⟨0, 1⟩, ⟨1, 0⟩}⟩
            = ((revealOrHitMine (NewKnowledge (NewBoard 2)).b c.X c.Y).1,
                { NewKnowledge (NewBoard 2) with
                  b := (revealOrHitMine (NewKnowledge (NewBoard 2)).b c.X c.Y).2 })
          ∧ ((NewKnowledge (NewBoard 2)).b.inBounds c.X c.Y = true →
              ((NewKnowledge (NewBoard 2)).RunDualDeduction set.sortedOrder
                ⟨1, {⟨0, 0⟩, ⟨0, 1⟩, ⟨1, 0⟩}⟩ ⟨1, {⟨0, 1⟩, ⟨1, 0⟩}⟩).2.b.revealed c.X c.Y
                = true))
      ∧ ∀ m : Vec → Bool, (Fact.mk 1 {⟨0, 0⟩, ⟨0, 1⟩, ⟨1, 0⟩}).HoldsIn m →
          (Fact.mk 1 {⟨0, 1⟩, ⟨1, 0⟩}).HoldsIn m →
          ∀ c ∈ set.Sub ({⟨0, 0⟩, ⟨0, 1⟩, ⟨1, 0⟩} : set.Set) {⟨0, 1⟩, ⟨1, 0⟩}, m c = false :=
  runDualDeduction_exact_match_sound set.sortedOrder set.sortedOrder_iterOrder
    (NewKnowledge (NewBoard 2)) ⟨1, {⟨0, 0⟩, ⟨0, 1⟩, ⟨1, 0⟩}⟩ ⟨1, {⟨0, 1⟩, ⟨1, 0⟩}⟩
    (by decide) (by decide)

end solver

/-! ## Mine-conservation elimination -/
namespace solver

open util board

/-- Claim C3, counterexample. On a board whose cell (1,0) is already revealed, the
facts `a = (1, {(0,0),(1,0)})` and `b = (0, {(0,0)})` satisfy the hypotheses of
the claim (and are true of the board), `RunDualDeduction(a, b)` returns true,
and yet no cell of `a.tiles \ b.tiles` carries a flag afterwards. -/
theorem runDualDeduction_flag_skipped_when_revealed :
    set.IsSubsetStrict ({⟨0, 0⟩, ⟨1, 0⟩} : set.Set) {⟨0, 0⟩} = true
    ∧ (1 : Int) - 0 = (set.Size (set.Sub ({⟨0, 0⟩, ⟨1, 0⟩} : set.Set) {⟨0, 0⟩}) : Int)
    ∧ ((NewKnowledge boardMineRevealed).RunDualDeduction set.sortedOrder
          ⟨1, {⟨0, 0⟩, ⟨1, 0⟩}⟩ ⟨0, {⟨0, 0⟩}⟩).1 = .ret true
    ∧ ∀ c ∈ set.Sub ({⟨0, 0⟩, ⟨1, 0⟩} : set.Set) {⟨0, 0⟩},
        ((NewKnowledge boardMineRevealed).RunDualDeduction set.sortedOrder
          ⟨1, {⟨0, 0⟩, ⟨1, 0⟩}⟩ ⟨0, {⟨0, 0⟩}⟩).2.b.flags c.X c.Y = false := by
  decide

/-- Claim C3, amended. Mine-conservation elimination: when `b.tiles` is a strict
subset of `a.tiles` (cells in bounds) and `a.mines - b.mines = |a.tiles \ b.tiles| > 0`,
`RunDualDeduction(a, b)` calls `Flag` on one cell `c` of `a.tiles \ b.tiles` and
returns true; `c` becomes flagged when it is not revealed, and the board is left
as it was when `c` is already revealed.  In every mine assignment in which both
facts hold, every cell of `a.tiles \ b.tiles` is a mine. -/
theorem runDualDeduction_mine_conservation_sound (ord : set.Set → List Vec)
    (hord : set.IterOrder ord) (k : Knowledge) (a b : Fact)
    (hin : a.InBounds k.b.size)
    (hsub : set.IsSubsetStrict a.tiles b.tiles = true)
    (hcnt : a.mines - b.mines = (set.Size (set.Sub a.tiles b.tiles) : Int))
    (hpos : a.mines - b.mines > 0) :
    (∃ c ∈ set.Sub a.tiles b.tiles,
        k.RunDualDeduction ord a b
          = (.ret true,
              { k with b := if k.b.revealed c.X c.Y = false then k.b.setFlag c.X c.Y true
                            else k.b }))
      ∧ ∀ m : Vec → Bool, a.HoldsIn m → b.HoldsIn m →
          ∀ c ∈ set.Sub a.tiles b.tiles, m c = true := by
  constructor
  · obtain ⟨c, rest, hc, hmem⟩ := hord.exists_cons _ (set.sub_nonempty_of_strict hsub)
    refine ⟨c, hmem, ?_⟩
    have hcin : k.b.inBounds c.X c.Y = true := by
      have := sub_inBounds (b := b) hin c hmem
      simp [Board.inBounds, this.1, this.2]
    unfold Knowledge.RunDualDeduction
    rw [if_neg (not_contradiction_of_strict hsub), if_pos hsub,
      if_neg (by omega : ¬ b.mines = a.mines), if_pos (by omega : b.mines < a.mines)]
    simp only [set.AsList, hc]
    rw [if_pos ⟨hpos, hcnt⟩, flagAndReturn_fst _ _ _ hcin, flagAndReturn_snd,
      Board.Flag_snd _ _ _ _ hcin]
  · intro m ha hb c hc
    have hcount := set.countMines_sub m (strict_subset_of hsub)
    unfold Fact.HoldsIn at ha hb
    have hz : set.countMines m (set.Sub a.tiles b.tiles) = (set.Sub a.tiles b.tiles).card := by
      unfold set.Size at hcnt
      omega
    unfold set.countMines at hz
    rw [Finset.card_filter_eq_iff] at hz
    exact hz c hc

/-- Witness of the amended C3 on Scenario C: the derived fact `(1, {T2, T3})`
with `C = (0, {T2})` flags `T3`. -/
theorem runDualDeduction_mine_conservation_sound_witness :
    (∃ c ∈ set.Sub ({⟨0, 1⟩, ⟨1, 0⟩} : set.Set) {⟨0, 1⟩},
        (NewKnowledge (NewBoard 2)).RunDualDeduction set.sortedOrder
            ⟨1, {⟨0, 1⟩, ⟨1, 0⟩}⟩ ⟨0, {⟨0, 1⟩}⟩
          = (.ret true,
              { NewKnowledge (NewBoard 2) with
                b := if (NewKnowledge (NewBoard 2)).b.revealed c.X c.Y = false
                     then (NewKnowledge (NewBoard 2)).b.setFlag c.X c.Y true
                     else (NewKnowledge (NewBoard 2)).b }))
      ∧ ∀ m : Vec → Bool, (Fact.mk 1 {⟨0, 1⟩, ⟨1, 0⟩}).HoldsIn m →
          (Fact.mk 0 {⟨0, 1⟩}).HoldsIn m →
          ∀ c ∈ set.Sub ({⟨0, 1⟩, ⟨1, 0⟩} : set.Set) {⟨0, 1⟩}, m c = true :=
  runDualDeduction_mine_conservation_sound set.sortedOrder set.sortedOrder_iterOrder
    (NewKnowledge (NewBoard 2)) ⟨1, {⟨0, 1⟩, ⟨1, 0⟩}⟩ ⟨0, {⟨0, 1⟩}⟩
    (by unfold Fact.InBounds; decide) (by decide) (by decide) (by decide)

end solver

/-! ## Derived facts -/
namespace solver

open util board

/-- The accepted facts after `RunDualDeduction`: unchanged, or extended by the
derived fact. -/
theorem runDualDeduction_nodes (ord : set.Set → List Vec) (k : Knowledge) (a b : Fact) :
    (k.RunDualDeduction ord a b).2.nodes = k.nodes ∨
      (set.IsSubsetStrict a.tiles b.tiles = true ∧ b.mines < a.mines ∧
        (k.RunDualDeduction ord a b).2.nodes
          = k.nodes ++ [Fact.mk (a.mines - b.mines) (set.Sub a.tiles b.tiles)]) := by
  unfold Knowledge.RunDualDeduction
  split
  · exact Or.inl rfl
  · split
    · rename_i hsub
      split
      · split <;> exact Or.inl rfl
      · split
        · rename_i hlt
          simp only
          split
          · split <;> exact Or.inl rfl
          · have hn := Knowledge.addFact_nodes ord k (a.mines - b.mines)
              (set.Sub a.tiles b.tiles)
            have key : (k.AddFact ord (a.mines - b.mines) (set.Sub a.tiles b.tiles)).2.nodes
                  = k.nodes ∨
                (k.AddFact ord (a.mines - b.mines) (set.Sub a.tiles b.tiles)).2.nodes
                  = k.nodes ++ [Fact.mk (a.mines - b.mines) (set.Sub a.tiles b.tiles)] := by
              rw [hn]
              split
              · exact Or.inl rfl
              · exact Or.inr rfl
            split
            · rename_i heq
              rw [heq] at key
              rcases key with h | h
              · exact Or.inl h
              · exact Or.inr ⟨hsub, hlt, h⟩
            · rename_i heq
              rw [heq] at key
              rcases key with h | h
              · exact Or.inl h
              · exact Or.inr ⟨hsub, hlt, h⟩
        · exact Or.inl rfl
    · exact Or.inl rfl

/-- Claim C7, counterexample. The facts `a = (3, {(0,0),(0,1),(1,0)})` and
`b = (0, {(0,0),(0,1)})` each satisfy `0 ≤ mines ≤ |tiles|`, yet
`RunDualDeduction(a, b)` inserts the fact `(3, {(1,0)})`, whose mine count
exceeds its number of cells. -/
theorem runDualDeduction_inserts_invalid_fact :
    (Fact.mk 3 {⟨0, 0⟩, ⟨0, 1⟩, ⟨1, 0⟩}).Valid ∧ (Fact.mk 0 {⟨0, 0⟩, ⟨0, 1⟩}).Valid
    ∧ ((NewKnowledge (NewBoard 2)).RunDualDeduction set.sortedOrder
          ⟨3, {⟨0, 0⟩, ⟨0, 1⟩, ⟨1, 0⟩}⟩ ⟨0, {⟨0, 0⟩, ⟨0, 1⟩}⟩).2.nodes = [Fact.mk 3 {⟨1, 0⟩}]
    ∧ (NewKnowledge (NewBoard 2)).nodes = []
    ∧ ¬ (Fact.mk 3 {⟨1, 0⟩}).Valid := by
  unfold Fact.Valid
  decide

/-- Claim C7, amended. Derived-fact validity for jointly satisfiable facts: if `a`
and `b` each satisfy `0 ≤ mines ≤ |tiles|` and hold together in some mine
assignment, then every fact that `RunDualDeduction(a, b)` adds to the accepted
facts satisfies `0 ≤ mines ≤ |tiles|`. -/
theorem runDualDeduction_inserted_valid (ord : set.Set → List Vec) (k : Knowledge)
    (a b : Fact) (_ha : a.Valid) (_hb : b.Valid)
    (hsat : ∃ m : Vec → Bool, a.HoldsIn m ∧ b.HoldsIn m) :
    ∀ f ∈ (k.RunDualDeduction ord a b).2.nodes, f ∉ k.nodes → f.Valid := by
  intro f hf hnew
  rcases runDualDeduction_nodes ord k a b with h | ⟨hsub, hlt, h⟩
  · rw [h] at hf
    exact absurd hf hnew
  · rw [h, List.mem_append, List.mem_singleton] at hf
    rcases hf with hf | hf
    · exact absurd hf hnew
    · subst hf
      obtain ⟨m, hma, hmb⟩ := hsat
      have hcount := set.countMines_sub m (strict_subset_of hsub)
      have hle : set.countMines m (set.Sub a.tiles b.tiles) ≤ (set.Sub a.tiles b.tiles).card :=
        Finset.card_filter_le _ _
      unfold Fact.HoldsIn at hma hmb
      unfold Fact.Valid set.Size
      simp only
      omega

/-- Witness of the amended C7: `a = (2, {T1,T2,T3})`, `b = (1, {T1})` hold
together when the mines are `T1` and `T2`; the inserted fact `(1, {T2,T3})` is
valid. -/
theorem runDualDeduction_inserted_valid_witness :
    Fact.mk 1 {⟨0, 1⟩, ⟨1, 0⟩}
        ∈ ((NewKnowledge (NewBoard 2)).RunDualDeduction set.sortedOrder
            ⟨2, {⟨0, 0⟩, ⟨0, 1⟩, ⟨1, 0⟩}⟩ ⟨1, {⟨0, 0⟩}⟩).2.nodes
      ∧ (Fact.mk 1 {⟨0, 1⟩, ⟨1, 0⟩}).Valid :=
  ⟨by decide,
    runDualDeduction_inserted_valid set.sortedOrder (NewKnowledge (NewBoard 2))
      ⟨2, {⟨0, 0⟩, ⟨0, 1⟩, ⟨1, 0⟩}⟩ ⟨1, {⟨0, 0⟩}⟩
      (by unfold Fact.Valid; decide) (by unfold Fact.Valid; decide)
      ⟨fun v => decide (v = ⟨0, 0⟩ ∨ v = ⟨0, 1⟩), by unfold Fact.HoldsIn; decide,
        by unfold Fact.HoldsIn; decide⟩
      (Fact.mk 1 {⟨0, 1⟩, ⟨1, 0⟩}) (by decide) (by decide)⟩

/-- Claim C10. Scenario B in general: when `b.tiles` is a strict subset of `a.tiles`
(cells in bounds) and `0 < a.mines - b.mines < |a.tiles \ b.tiles|`,
`RunDualDeduction(a, b)` returns false, leaves the board unchanged, and
afterwards `HasFact(a.mines - b.mines, a.tiles \ b.tiles)` is true. -/
theorem runDualDeduction_derives_fact (ord : set.Set → List Vec)
    (hord : set.IterOrder ord) (k : Knowledge) (a b : Fact)
    (hin : a.InBounds k.b.size)
    (hsub : set.IsSubsetStrict a.tiles b.tiles = true)
    (hpos : 0 < a.mines - b.mines)
    (hlt : a.mines - b.mines < (set.Size (set.Sub a.tiles b.tiles) : Int)) :
    (k.RunDualDeduction ord a b).1 = .ret false
      ∧ (k.RunDualDeduction ord a b).2.b = k.b
      ∧ (k.RunDualDeduction ord a b).2.HasFact (a.mines - b.mines)
          (set.Sub a.tiles b.tiles) = true := by
  have hok := Knowledge.addFact_ok ord hord k (a.mines - b.mines) (set.Sub a.tiles b.tiles)
    (sub_inBounds hin)
  have hb := Knowledge.addFact_b ord k (a.mines - b.mines) (set.Sub a.tiles b.tiles)
  have hf := Knowledge.addFact_hasFact ord k (a.mines - b.mines) (set.Sub a.tiles b.tiles)
  unfold Knowledge.RunDualDeduction
  rw [if_neg (not_contradiction_of_strict hsub), if_pos hsub,
    if_neg (by omega : ¬ b.mines = a.mines), if_pos (by omega : b.mines < a.mines)]
  simp only
  rw [if_neg (by omega)]
  split
  · rename_i heq
    rw [heq] at hb hf
    exact ⟨rfl, hb, hf⟩
  · rename_i heq
    rw [heq] at hok
    exact Outcome.noConfusion hok

/-- Witness of C10 on Scenario B: `A = (2, {T1,T2,T3})`, `B = (1, {T1})` inserts
`(1, {T2,T3})` with no action. -/
theorem runDualDeduction_derives_fact_witness :
    ((NewKnowledge (NewBoard 2)).RunDualDeduction set.sortedOrder
        ⟨2, {⟨0, 0⟩, ⟨0, 1⟩, ⟨1, 0⟩}⟩ ⟨1, {⟨0, 0⟩}⟩).1 = .ret false
      ∧ ((NewKnowledge (NewBoard 2)).RunDualDeduction set.sortedOrder
        ⟨2, {⟨0, 0⟩, ⟨0, 1⟩, ⟨1, 0⟩}⟩ ⟨1, {⟨0, 0⟩}⟩).2.b = (NewKnowledge (NewBoard 2)).b
      ∧ ((NewKnowledge (NewBoard 2)).RunDualDeduction set.sortedOrder
        ⟨2, {⟨0, 0⟩, ⟨0, 1⟩, ⟨1, 0⟩}⟩ ⟨1, {⟨0, 0⟩}⟩).2.HasFact
          ((2 : Int) - 1) (set.Sub {⟨0, 0⟩, ⟨0, 1⟩, ⟨1, 0⟩} {⟨0, 0⟩}) = true :=
  runDualDeduction_derives_fact set.sortedOrder set.sortedOrder_iterOrder
    (NewKnowledge (NewBoard 2)) ⟨2, {⟨0, 0⟩, ⟨0, 1⟩, ⟨1, 0⟩}⟩ ⟨1, {⟨0, 0⟩}⟩
    (by unfold Fact.InBounds; decide) (by decide) (by decide) (by decide)

end solver

/-! ## Two facts in a fresh knowledge graph -/
namespace solver

open util board

namespace Knowledge

theorem eq_of_fields {k1 k2 : Knowledge} (hb : k1.b = k2.b) (hn : k1.nodes = k2.nodes)
    (ht : k1.tiles = k2.tiles) (hu : k1.unchecked = k2.unchecked) : k1 = k2 := by
  cases k1; cases k2
  simp only at hb hn ht hu
  subst hb hn ht hu
  rfl

/-- The function `AddFact` of a fact that is not yet known, over in-bounds cells. -/
theorem addFact_new (ord : set.Set → List Vec) (hord : set.IterOrder ord) (k : Knowledge)
    (m : Int) (s : set.Set) (hin : ∀ v ∈ s, v.X < k.b.size ∧ v.Y < k.b.size)
    (hnew : k.HasFact m s = false) :
    k.AddFact ord m s = (.ret (),
      { b := k.b
        nodes := k.nodes ++ [Fact.mk m s]
        tiles := fun i j => if Vec.mk i j ∈ s then k.tiles i j ++ [Fact.mk m s] else k.tiles i j
        unchecked := k.unchecked ++
          (ord s).flatMap fun v => (k.tiles v.X v.Y).map fun o => [Fact.mk m s, o] }) := by
  have hin2 : ∀ v ∈ ord s, v.X < k.b.size ∧ v.Y < k.b.size :=
    fun v hv => hin v ((hord.mem_iff s v).mp hv)
  unfold AddFact
  rw [hnew]
  simp only [Bool.false_eq_true, if_false, set.AsList]
  apply Prod.ext
  · exact indexFact_ok _ _ _ hin2
  · obtain ⟨h1, h2⟩ := indexFact_spec (Fact.mk m s) (ord s)
      { k with nodes := k.nodes ++ [Fact.mk m s] } (hord s).1 hin2
    apply eq_of_fields
    · exact indexFact_b _ _ _
    · exact indexFact_nodes _ _ _
    · rw [h1]
      funext i j
      simp only [hord.mem_iff]
    · exact h2

theorem flatMap_head_of_mem (s : set.Set) (f g : Fact) (l : List Vec)
    (h : ∃ v ∈ l, v ∈ s) :
    ∃ rest, (l.flatMap fun v => (if v ∈ s then [f] else []).map fun o => [g, o])
      = [g, f] :: rest := by
  induction l with
  | nil =>
    obtain ⟨v, hv, -⟩ := h
    exact absurd hv (List.not_mem_nil v)
  | cons w l ih =>
    by_cases hw : w ∈ s
    · refine ⟨l.flatMap fun v => (if v ∈ s then [f] else []).map fun o => [g, o], ?_⟩
      simp [hw]
    · obtain ⟨v, hv, hvs⟩ := h
      rcases List.mem_cons.mp hv with rfl | hv
      · exact absurd hvs hw
      · obtain ⟨rest, hr⟩ := ih ⟨v, hv, hvs⟩
        exact ⟨rest, by simp [hw, hr]⟩

/-- Two distinct facts sharing a cell, inserted into a fresh knowledge graph:
both insertions return, the board is untouched, and the worklist starts with
the pair `[g, f]`. -/
theorem ofTwoFacts_spec (ord : set.Set → List Vec) (hord : set.IterOrder ord) (b : Board)
    (f g : Fact) (hf : f.InBounds b.size) (hg : g.InBounds b.size)
    (hne : f ≠ g) (hshare : ∃ v ∈ g.tiles, v ∈ f.tiles) :
    ((NewKnowledge b).AddFact ord f.mines f.tiles).1 = .ret ()
      ∧ (((NewKnowledge b).AddFact ord f.mines f.tiles).2.AddFact ord g.mines g.tiles).1
          = .ret ()
      ∧ (ofTwoFacts ord b f g).b = b
      ∧ (ofTwoFacts ord b f g).nodes = [f, g]
      ∧ ∃ rest, (ofTwoFacts ord b f g).unchecked = [g, f] :: rest := by
  have h1 : (NewKnowledge b).AddFact ord f.mines f.tiles = (.ret (),
      { b := b, nodes := [f],
        tiles := fun i j => if Vec.mk i j ∈ f.tiles then [f] else [],
        unchecked := [] }) := by
    rw [addFact_new ord hord (NewKnowledge b) f.mines f.tiles hf (by rfl)]
    simp [NewKnowledge]
  have hnew : HasFact
      { b := b, nodes := [f],
        tiles := fun i j => if Vec.mk i j ∈ f.tiles then [f] else [],
        unchecked := [] }
      g.mines g.tiles = false := by
    cases hh : HasFact _ g.mines g.tiles with
    | false => rfl
    | true =>
      rw [hasFact_iff] at hh
      simp only [List.mem_singleton] at hh
      exact absurd hh.symm hne
  have h2 := addFact_new ord hord
      { b := b, nodes := [f],
        tiles := fun i j => if Vec.mk i j ∈ f.tiles then [f] else [],
        unchecked := [] } g.mines g.tiles hg hnew
  unfold ofTwoFacts
  rw [h1]
  simp only
  rw [h2]
  refine ⟨trivial, rfl, rfl, rfl, ?_⟩
  simp only [List.nil_append]
  obtain ⟨v, hv, hvf⟩ := hshare
  exact flatMap_head_of_mem f.tiles f g (ord g.tiles)
    ⟨v, (hord.mem_iff _ _).mpr hv, hvf⟩

theorem runNextDeduction_pair (ord : set.Set → List Vec) (k : Knowledge) (f0 f1 : Fact)
    (rest : List (List Fact)) (h : k.unchecked = [f0, f1] :: rest) :
    k.RunNextDeduction ord =
      match RunDualDeduction ord { k with unchecked := rest } f0 f1 with
      | (.ret true, k1) => (.ret true, k1)
      | (.ret false, k1) => RunDualDeduction ord k1 f1 f0
      | (.panic p, k1) => (.panic p, k1) := by
  unfold RunNextDeduction
  rw [h]

end Knowledge

end solver

/-! ## Contradiction detection and Scenario A -/
namespace solver

open util board

theorem runDualDeduction_reverse_of_strict (ord : set.Set → List Vec) (k : Knowledge)
    (a b : Fact) (hsub : set.IsSubsetStrict a.tiles b.tiles = true) :
    k.RunDualDeduction ord b a = (.ret false, k) := by
  have hlt := (set.isSubsetStrict_iff _ _).mp hsub
  have hne : ¬ (set.IsEqual b.tiles a.tiles = true ∧ b.mines ≠ a.mines) := by
    rintro ⟨h, -⟩
    rw [set.isEqual_iff] at h
    rw [h] at hlt
    exact (ssubset_irrefl _) hlt
  have hns : ¬ (set.IsSubsetStrict b.tiles a.tiles = true) := by
    intro h
    exact (ssubset_asymm hlt) ((set.isSubsetStrict_iff _ _).mp h)
  unfold Knowledge.RunDualDeduction
  rw [if_neg hne, if_neg hns]

/-- Claim C8. Contradiction detection: for a non-empty in-bounds cell set `S` and
counts `m ≠ n`, both `AddFact(m, S)` and `AddFact(n, S)` on a fresh knowledge
graph return, the next `RunNextDeduction` panics with the contradiction
instead of returning, and the board is the original one throughout. -/
theorem contradiction_detected (ord : set.Set → List Vec) (hord : set.IterOrder ord)
    (b : Board) (S : set.Set) (m n : Int) (hS : S.Nonempty)
    (hin : ∀ v ∈ S, v.X < b.size ∧ v.Y < b.size) (hmn : m ≠ n) :
    ((NewKnowledge b).AddFact ord m S).1 = .ret ()
      ∧ (((NewKnowledge b).AddFact ord m S).2.AddFact ord n S).1 = .ret ()
      ∧ (Knowledge.ofTwoFacts ord b ⟨m, S⟩ ⟨n, S⟩).b = b
      ∧ ((Knowledge.ofTwoFacts ord b ⟨m, S⟩ ⟨n, S⟩).RunNextDeduction ord).1
          = .panic .contradiction
      ∧ ((Knowledge.ofTwoFacts ord b ⟨m, S⟩ ⟨n, S⟩).RunNextDeduction ord).2.b = b := by
  have hne : (Fact.mk m S) ≠ (Fact.mk n S) := by
    intro h
    simp only [Fact.mk.injEq, and_true] at h
    exact hmn h
  obtain ⟨v, hv⟩ := hS
  obtain ⟨h1, h2, h3, -, rest, h5⟩ :=
    Knowledge.ofTwoFacts_spec ord hord b ⟨m, S⟩ ⟨n, S⟩ hin hin hne ⟨v, hv, hv⟩
  refine ⟨h1, h2, h3, ?_⟩
  rw [Knowledge.runNextDeduction_pair ord _ _ _ rest h5]
  have hc : Knowledge.RunDualDeduction ord
      { Knowledge.ofTwoFacts ord b ⟨m, S⟩ ⟨n, S⟩ with unchecked := rest } ⟨n, S⟩ ⟨m, S⟩
      = (.panic .contradiction,
          { Knowledge.ofTwoFacts ord b ⟨m, S⟩ ⟨n, S⟩ with unchecked := rest }) := by
    unfold Knowledge.RunDualDeduction
    rw [if_pos ⟨(set.isEqual_iff _ _).mpr rfl, fun h => hmn h.symm⟩]
  rw [hc]
  exact ⟨rfl, h3⟩

/-- Witness of C8 on the spec's example: `(1, {T})` then `(0, {T})`. -/
theorem contradiction_detected_witness :
    ((NewKnowledge (NewBoard 1)).AddFact set.sortedOrder 1 {⟨0, 0⟩}).1 = .ret ()
      ∧ (((NewKnowledge (NewBoard 1)).AddFact set.sortedOrder 1 {⟨0, 0⟩}).2.AddFact
            set.sortedOrder 0 {⟨0, 0⟩}).1 = .ret ()
      ∧ (Knowledge.ofTwoFacts set.sortedOrder (NewBoard 1) ⟨1, {⟨0, 0⟩}⟩ ⟨0, {⟨0, 0⟩}⟩).b
          = NewBoard 1
      ∧ ((Knowledge.ofTwoFacts set.sortedOrder (NewBoard 1) ⟨1, {⟨0, 0⟩}⟩
            ⟨0, {⟨0, 0⟩}⟩).RunNextDeduction set.sortedOrder).1 = .panic .contradiction
      ∧ ((Knowledge.ofTwoFacts set.sortedOrder (NewBoard 1) ⟨1, {⟨0, 0⟩}⟩
            ⟨0, {⟨0, 0⟩}⟩).RunNextDeduction set.sortedOrder).2.b = NewBoard 1 :=
  contradiction_detected set.sortedOrder set.sortedOrder_iterOrder (NewBoard 1) {⟨0, 0⟩} 1 0
    (by decide) (by decide) (by decide)

/-- Claim C9, counterexample. On a 2 x 2 board with a mine at (0,0), the facts
`A = (1, {(0,0),(0,1),(1,0)})` and `B = (1, {(0,1),(1,0)})` meet the hypotheses
of the claim, but the first `RunNextDeduction` does not return true: it reveals
(0,0) and aborts with the `hitMine` panic, in either insertion order. -/
theorem scenarioA_hits_mine :
    set.IsSubsetStrict ({⟨0, 0⟩, ⟨0, 1⟩, ⟨1, 0⟩} : set.Set) {⟨0, 1⟩, ⟨1, 0⟩} = true
    ∧ ((Knowledge.ofTwoFacts set.sortedOrder boardMineAtOrigin
          ⟨1, {⟨0, 0⟩, ⟨0, 1⟩, ⟨1, 0⟩}⟩ ⟨1, {⟨0, 1⟩, ⟨1, 0⟩}⟩).RunNextDeduction
            set.sortedOrder).1 = .panic (.hitMine 0 0)
    ∧ ((Knowledge.ofTwoFacts set.sortedOrder boardMineAtOrigin
          ⟨1, {⟨0, 1⟩, ⟨1, 0⟩}⟩ ⟨1, {⟨0, 0⟩, ⟨0, 1⟩, ⟨1, 0⟩}⟩).RunNextDeduction
            set.sortedOrder).1 = .panic (.hitMine 0 0) := by
  decide

theorem reveal_after_strict (ord : set.Set → List Vec) (hord : set.IterOrder ord)
    (k : Knowledge) (A B : Fact) (hin : A.InBounds k.b.size)
    (hsub : set.IsSubsetStrict A.tiles B.tiles = true) (hm : A.mines = B.mines) :
    ∃ c ∈ set.Sub A.tiles B.tiles,
      (k.RunDualDeduction ord A B).1
          = (if k.b.mines c.X c.Y = true then .panic (.hitMine c.X c.Y) else .ret true)
        ∧ (k.RunDualDeduction ord A B).2.b = (k.b.Reveal c.X c.Y).2
        ∧ (k.RunDualDeduction ord A B).2.b.revealed c.X c.Y = true := by
  obtain ⟨c, hc, heq⟩ := runDualDeduction_reveal ord hord k A B hsub hm
  have hcin : k.b.inBounds c.X c.Y = true := by
    have := sub_inBounds (b := B) hin c hc
    simp [Board.inBounds, this.1, this.2]
  refine ⟨c, hc, ?_⟩
  rw [heq]
  refine ⟨revealOrHitMine_fst _ _ _ hcin, revealOrHitMine_snd _ _ _, ?_⟩
  simp only
  rw [revealOrHitMine_snd]
  exact Board.Reveal_revealed_self _ _ _ hcin

theorem runNext_reveal_forward (ord : set.Set → List Vec) (hord : set.IterOrder ord)
    (k : Knowledge) (A B : Fact) (rest : List (List Fact))
    (h5 : k.unchecked = [A, B] :: rest) (hin : A.InBounds k.b.size)
    (hsub : set.IsSubsetStrict A.tiles B.tiles = true) (hm : A.mines = B.mines) :
    ∃ c ∈ set.Sub A.tiles B.tiles,
      (k.RunNextDeduction ord).1
          = (if k.b.mines c.X c.Y = true then .panic (.hitMine c.X c.Y) else .ret true)
        ∧ (k.RunNextDeduction ord).2.b = (k.b.Reveal c.X c.Y).2
        ∧ (k.RunNextDeduction ord).2.b.revealed c.X c.Y = true := by
  obtain ⟨c, hc, h1, h2, h4⟩ := reveal_after_strict ord hord
    { k with unchecked := rest } A B hin hsub hm
  refine ⟨c, hc, ?_⟩
  rw [Knowledge.runNextDeduction_pair ord _ _ _ rest h5]
  generalize Knowledge.RunDualDeduction ord { k with unchecked := rest } A B = r
    at h1 h2 h4 ⊢
  obtain ⟨o, k1⟩ := r
  simp only at h1 h2 h4
  cases o with
  | ret v =>
    cases v with
    | true => exact ⟨h1, h2, h4⟩
    | false =>
      split at h1 <;> simp at h1
  | panic p => exact ⟨h1, h2, h4⟩

theorem runNext_reveal_backward (ord : set.Set → List Vec) (hord : set.IterOrder ord)
    (k : Knowledge) (A B : Fact) (rest : List (List Fact))
    (h5 : k.unchecked = [B, A] :: rest) (hin : A.InBounds k.b.size)
    (hsub : set.IsSubsetStrict A.tiles B.tiles = true) (hm : A.mines = B.mines) :
    ∃ c ∈ set.Sub A.tiles B.tiles,
      (k.RunNextDeduction ord).1
          = (if k.b.mines c.X c.Y = true then .panic (.hitMine c.X c.Y) else .ret true)
        ∧ (k.RunNextDeduction ord).2.b = (k.b.Reveal c.X c.Y).2
        ∧ (k.RunNextDeduction ord).2.b.revealed c.X c.Y = true := by
  rw [Knowledge.runNextDeduction_pair ord _ _ _ rest h5,
    runDualDeduction_reverse_of_strict ord _ A B hsub]
  exact reveal_after_strict ord hord { k with unchecked := rest } A B hin hsub hm

/-- Claim C9, amended. Scenario A in general, both orientations tried: for facts
`A`, `B` over in-bounds cells with `B.cells` non-empty and a strict subset of
`A.cells` and equal mine counts, inserted into a fresh knowledge graph in either
order, the first `RunNextDeduction` reveals a cell `c` of `A.cells \ B.cells`
(the board becomes that of `Reveal(c)`), and it returns true unless `c` holds a
mine on the board, in which case it aborts with the `hitMine` panic at `c`. -/
theorem scenarioA_reveals_difference (ord : set.Set → List Vec) (hord : set.IterOrder ord)
    (b : Board) (A B : Fact) (hin : A.InBounds b.size) (hne : B.tiles.Nonempty)
    (hsub : set.IsSubsetStrict A.tiles B.tiles = true) (hm : A.mines = B.mines) :
    (∃ c ∈ set.Sub A.tiles B.tiles,
        ((Knowledge.ofTwoFacts ord b A B).RunNextDeduction ord).1
            = (if b.mines c.X c.Y = true then .panic (.hitMine c.X c.Y) else .ret true)
          ∧ ((Knowledge.ofTwoFacts ord b A B).RunNextDeduction ord).2.b = (b.Reveal c.X c.Y).2
          ∧ ((Knowledge.ofTwoFacts ord b A B).RunNextDeduction ord).2.b.revealed c.X c.Y = true)
    ∧ (∃ c ∈ set.Sub A.tiles B.tiles,
        ((Knowledge.ofTwoFacts ord b B A).RunNextDeduction ord).1
            = (if b.mines c.X c.Y = true then .panic (.hitMine c.X c.Y) else .ret true)
          ∧ ((Knowledge.ofTwoFacts ord b B A).RunNextDeduction ord).2.b = (b.Reveal c.X c.Y).2
          ∧ ((Knowledge.ofTwoFacts ord b B A).RunNextDeduction ord).2.b.revealed c.X c.Y = true) := by
  have hBA := strict_subset_of hsub
  have hinB : B.InBounds b.size := fun v hv => hin v (hBA hv)
  have hAB : A ≠ B := by
    intro h
    have hlt := (set.isSubsetStrict_iff _ _).mp hsub
    rw [h] at hlt
    exact (ssubset_irrefl _) hlt
  obtain ⟨v, hv⟩ := hne
  constructor
  · obtain ⟨-, -, h3, -, rest, h5⟩ :=
      Knowledge.ofTwoFacts_spec ord hord b A B hin hinB hAB ⟨v, hv, hBA hv⟩
    have := runNext_reveal_backward ord hord _ A B rest h5 (by rw [h3]; exact hin) hsub hm
    rw [h3] at this
    exact this
  · obtain ⟨-, -, h3, -, rest, h5⟩ :=
      Knowledge.ofTwoFacts_spec ord hord b B A hinB hin hAB.symm ⟨v, hBA hv, hv⟩
    have := runNext_reveal_forward ord hord _ A B rest h5 (by rw [h3]; exact hin) hsub hm
    rw [h3] at this
    exact this

/-- Witness of the amended C9 on Scenario A: `A = (1, {T1,T2,T3})`,
`B = (1, {T2,T3})` on a mine-free board reveals `T1`. -/
theorem scenarioA_reveals_difference_witness :
    (∃ c ∈ set.Sub ({⟨0, 0⟩, ⟨0, 1⟩, ⟨1, 0⟩} : set.Set) {⟨0, 1⟩, ⟨1, 0⟩},
        ((Knowledge.ofTwoFacts set.sortedOrder (NewBoard 2) ⟨1, {⟨0, 0⟩, ⟨0, 1⟩, ⟨1, 0⟩}⟩
            ⟨1, {⟨0, 1⟩, ⟨1, 0⟩}⟩).RunNextDeduction set.sortedOrder).1
            = (if (NewBoard 2).mines c.X c.Y = true then .panic (.hitMine c.X c.Y)
               else .ret true)
          ∧ ((Knowledge.ofTwoFacts set.sortedOrder (NewBoard 2) ⟨1, {⟨0, 0⟩, ⟨0, 1⟩, ⟨1, 0⟩}⟩
            ⟨1, {⟨0, 1⟩, ⟨1, 0⟩}⟩).RunNextDeduction set.sortedOrder).2.b
              = ((NewBoard 2).Reveal c.X c.Y).2
          ∧ ((Knowledge.ofTwoFacts set.sortedOrder (NewBoard 2) ⟨1, {⟨0, 0⟩, ⟨0, 1⟩, ⟨1, 0⟩}⟩
            ⟨1, {⟨0, 1⟩, ⟨1, 0⟩}⟩).RunNextDeduction set.sortedOrder).2.b.revealed c.X c.Y
              = true)
    ∧ (∃ c ∈ set.Sub ({⟨0, 0⟩, ⟨0, 1⟩, ⟨1, 0⟩} : set.Set) {⟨0, 1⟩, ⟨1, 0⟩},
        ((Knowledge.ofTwoFacts set.sortedOrder (NewBoard 2) ⟨1, {⟨0, 1⟩, ⟨1, 0⟩}⟩
            ⟨1, {⟨0, 0⟩, ⟨0, 1⟩, ⟨1, 0⟩}⟩).RunNextDeduction set.sortedOrder).1
            = (if (NewBoard 2).mines c.X c.Y = true then .panic (.hitMine c.X c.Y)
               else .ret true)
          ∧ ((Knowledge.ofTwoFacts set.sortedOrder (NewBoard 2) ⟨1, {⟨0, 1⟩, ⟨1, 0⟩}⟩
            ⟨1, {⟨0, 0⟩, ⟨0, 1⟩, ⟨1, 0⟩}⟩).RunNextDeduction set.sortedOrder).2.b
              = ((NewBoard 2).Reveal c.X c.Y).2
          ∧ ((Knowledge.ofTwoFacts set.sortedOrder (NewBoard 2) ⟨1, {⟨0, 1⟩, ⟨1, 0⟩}⟩
            ⟨1, {⟨0, 0⟩, ⟨0, 1⟩, ⟨1, 0⟩}⟩).RunNextDeduction set.sortedOrder).2.b.revealed
              c.X c.Y = true) :=
  scenarioA_reveals_difference set.sortedOrder set.sortedOrder_iterOrder (NewBoard 2)
    ⟨1, {⟨0, 0⟩, ⟨0, 1⟩, ⟨1, 0⟩}⟩ ⟨1, {⟨0, 1⟩, ⟨1, 0⟩}⟩
    (by unfold Fact.InBounds; decide) (by decide) (by decide) (by decide)

end solver

/-! ## Case analysis of the deduction rule -/
namespace solver

open util board

namespace Knowledge

theorem addFact_inv (G : Fact → Prop) (ord : set.Set → List Vec) (hord : set.IterOrder ord)
    (k : Knowledge) (m : Int) (s : set.Set) (hk : k.AllFacts G) (hG : G ⟨m, s⟩)
    (hin : ∀ v ∈ s, v.X < k.b.size ∧ v.Y < k.b.size) :
    ∃ k1, k.AddFact ord m s = (.ret (), k1) ∧ k1.b = k.b ∧ k1.AllFacts G := by
  cases hh : k.HasFact m s with
  | true =>
    refine ⟨k, ?_, rfl, hk⟩
    unfold AddFact
    rw [if_pos hh]
  | false =>
    refine ⟨_, addFact_new ord hord k m s hin hh, rfl, ?_, ?_⟩
    · intro p hp f hf
      simp only [List.mem_append, List.mem_flatMap, List.mem_map] at hp
      rcases hp with hp | ⟨v, -, o, ho, rfl⟩
      · exact hk.1 p hp f hf
      · simp only [List.mem_cons, List.mem_singleton, List.not_mem_nil, or_false] at hf
        rcases hf with rfl | rfl
        · exact hG
        · exact hk.2 _ _ _ ho
    · intro i j f hf
      simp only at hf
      split at hf
      · rcases List.mem_append.mp hf with hf | hf
        · exact hk.2 i j f hf
        · rw [List.mem_singleton] at hf
          rw [hf]
          exact hG
      · exact hk.2 i j f hf

end Knowledge

/-- One deduction on two facts satisfying `G`: either nothing happens to the
board and the knowledge keeps the invariant, or the board effect is one of
`DeductionEffect`. -/
theorem runDualDeduction_cases (G : Fact → Prop) (ord : set.Set → List Vec)
    (hord : set.IterOrder ord) (k : Knowledge) (a b : Fact)
    (hinb : ∀ f, G f → f.InBounds k.b.size)
    (hclos : ∀ a b, G a → G b → set.IsSubsetStrict a.tiles b.tiles = true →
      b.mines < a.mines → G ⟨a.mines - b.mines, set.Sub a.tiles b.tiles⟩)
    (hk : k.AllFacts G) (ha : G a) (hb : G b) :
    ((k.RunDualDeduction ord a b).1 = .ret false ∧ (k.RunDualDeduction ord a b).2.b = k.b
        ∧ (k.RunDualDeduction ord a b).2.AllFacts G)
      ∨ DeductionEffect G k.b
          ((k.RunDualDeduction ord a b).1, (k.RunDualDeduction ord a b).2.b) := by
  unfold Knowledge.RunDualDeduction
  split
  · rename_i hc
    exact Or.inr ⟨a, b, ha, hb, Or.inl ⟨(set.isEqual_iff _ _).mp hc.1, hc.2, rfl⟩⟩
  · split
    · rename_i hsub
      obtain ⟨c, rest, hc, hmem⟩ := hord.exists_cons _ (set.sub_nonempty_of_strict hsub)
      split
      · rename_i hm
        simp only [set.AsList, hc]
        exact Or.inr ⟨a, b, ha, hb, Or.inr (Or.inl ⟨hsub, hm.symm, c, hmem, rfl⟩)⟩
      · split
        · rename_i hlt
          simp only
          split
          · rename_i hcnt
            simp only [set.AsList, hc]
            exact Or.inr ⟨a, b, ha, hb, Or.inr (Or.inr ⟨hsub, hcnt.2, c, hmem, rfl⟩)⟩
          · have hG := hclos a b ha hb hsub hlt
            obtain ⟨k1, h1, h2, h3⟩ := Knowledge.addFact_inv G ord hord k
              (a.mines - b.mines) (set.Sub a.tiles b.tiles) hk hG (hinb _ hG)
            rw [h1]
            exact Or.inl ⟨rfl, h2, h3⟩
        · exact Or.inl ⟨rfl, rfl, hk⟩
    · exact Or.inl ⟨rfl, rfl, hk⟩

theorem DeductionEffect.ne_ret_false {G : Fact → Prop} {b0 : Board}
    {r : Outcome Bool × Board} (h : DeductionEffect G b0 r) : r.1 ≠ .ret false := by
  obtain ⟨a, b, -, -, h | h | h⟩ := h
  · rw [h.2.2]; simp
  · obtain ⟨-, -, c, -, rfl⟩ := h
    unfold revealOrHitMine
    split <;> simp
  · obtain ⟨-, -, c, -, rfl⟩ := h
    unfold flagAndReturn
    split <;> simp

theorem runNextDeduction_cases (G : Fact → Prop) (ord : set.Set → List Vec)
    (hord : set.IterOrder ord) (k : Knowledge)
    (hinb : ∀ f, G f → f.InBounds k.b.size)
    (hclos : ∀ a b, G a → G b → set.IsSubsetStrict a.tiles b.tiles = true →
      b.mines < a.mines → G ⟨a.mines - b.mines, set.Sub a.tiles b.tiles⟩)
    (hk : k.AllFacts G) :
    ((k.RunNextDeduction ord).1 = .ret false ∧ (k.RunNextDeduction ord).2.b = k.b
        ∧ (k.RunNextDeduction ord).2.AllFacts G)
      ∨ DeductionEffect G k.b ((k.RunNextDeduction ord).1, (k.RunNextDeduction ord).2.b) := by
  unfold Knowledge.RunNextDeduction
  split
  · exact Or.inl ⟨rfl, rfl, hk⟩
  · rename_i next rest hu
    have hk0 : Knowledge.AllFacts G { k with unchecked := rest } := by
      refine ⟨fun p hp => hk.1 p ?_, hk.2⟩
      rw [hu]
      exact List.mem_cons_of_mem _ hp
    have hnext : ∀ f ∈ next, G f := hk.1 next (by rw [hu]; exact List.mem_cons_self _ _)
    simp only
    split
    · rename_i f0 f1
      have h0 : G f0 := hnext f0 (by simp)
      have h1 : G f1 := hnext f1 (by simp)
      have hstep := runDualDeduction_cases G ord hord { k with unchecked := rest } f0 f1
        hinb hclos hk0 h0 h1
      rcases hstep with ⟨e1, e2, e3⟩ | heff
      · generalize Knowledge.RunDualDeduction ord { k with unchecked := rest } f0 f1 = r
          at e1 e2 e3 ⊢
        obtain ⟨o, k1⟩ := r
        simp only at e1 e2 e3
        subst e1
        simp only
        have hstep2 := runDualDeduction_cases G ord hord k1 f1 f0
          (by rw [e2]; exact hinb) hclos e3 h1 h0
        rw [e2] at hstep2
        rcases hstep2 with ⟨d1, d2, d3⟩ | heff2
        · exact Or.inl ⟨d1, d2, d3⟩
        · exact Or.inr heff2
      · have hne := heff.ne_ret_false
        generalize Knowledge.RunDualDeduction ord { k with unchecked := rest } f0 f1 = r
          at heff hne ⊢
        obtain ⟨o, k1⟩ := r
        simp only at hne
        cases o with
        | ret v =>
          cases v with
          | true => exact Or.inr heff
          | false => exact absurd rfl hne
        | panic p => exact Or.inr heff
    · exact Or.inl ⟨rfl, rfl, hk0⟩

theorem deduceLoop_cases (G : Fact → Prop) (ord : set.Set → List Vec)
    (hord : set.IterOrder ord) (n : Nat) (k : Knowledge)
    (hinb : ∀ f, G f → f.InBounds k.b.size)
    (hclos : ∀ a b, G a → G b → set.IsSubsetStrict a.tiles b.tiles = true →
      b.mines < a.mines → G ⟨a.mines - b.mines, set.Sub a.tiles b.tiles⟩)
    (hk : k.AllFacts G) :
    ((deduceLoop ord n k).1 = .ret false ∧ (deduceLoop ord n k).2.b = k.b)
      ∨ DeductionEffect G k.b ((deduceLoop ord n k).1, (deduceLoop ord n k).2.b) := by
  induction n generalizing k with
  | zero => exact Or.inl ⟨rfl, rfl⟩
  | succ n ih =>
    unfold deduceLoop
    split
    · exact Or.inl ⟨rfl, rfl⟩
    · rcases runNextDeduction_cases G ord hord k hinb hclos hk with ⟨e1, e2, e3⟩ | heff
      · generalize k.RunNextDeduction ord = r at e1 e2 e3 ⊢
        obtain ⟨o, k1⟩ := r
        simp only at e1 e2 e3
        subst e1
        simp only
        have := ih k1 (by rw [e2]; exact hinb) e3
        rw [e2] at this
        exact this
      · have hne := heff.ne_ret_false
        generalize k.RunNextDeduction ord = r at heff hne ⊢
        obtain ⟨o, k1⟩ := r
        simp only at hne
        cases o with
        | ret v =>
          cases v with
          | true => exact Or.inr heff
          | false => exact absurd rfl hne
        | panic p => exact Or.inr heff

end solver

/-! ## The stages of a turn -/
namespace solver

open util board

theorem mem_scanCells (n x y : Nat) : (x, y) ∈ scanCells n ↔ x < n ∧ y < n := by
  simp only [scanCells, List.mem_flatMap, List.mem_range, List.mem_map, Prod.mk.injEq]
  constructor
  · rintro ⟨y', hy, x', hx, rfl, rfl⟩
    exact ⟨hx, hy⟩
  · rintro ⟨hx, hy⟩
    exact ⟨y, hy, x, hx, rfl, rfl⟩

theorem seedCell_eq (ord : set.Set → List Vec) (k : Knowledge) (x y : Nat) :
    (seedCond k.b x y → seedCell ord k x y
        = k.AddFact ord (seedFact k.b x y).mines (seedFact k.b x y).tiles)
      ∧ (¬ seedCond k.b x y → seedCell ord k x y = (.ret (), k)) := by
  unfold seedCell seedCond seedFact
  constructor
  · rintro ⟨h1, h2, h3⟩
    rw [if_pos ⟨h1, h2⟩]
    simp only
    rw [if_pos h3]
  · intro h
    split
    · rename_i h12
      simp only
      split
      · rename_i h3
        exact absurd ⟨h12.1, h12.2, h3⟩ h
      · rfl
    · rfl

theorem seedFrom_inv (G : Fact → Prop) (ord : set.Set → List Vec) (hord : set.IterOrder ord)
    (b : Board) (hinb : ∀ f, G f → f.InBounds b.size)
    (hseed : ∀ x y, x < b.size → y < b.size → seedCond b x y → G (seedFact b x y))
    (l : List (Nat × Nat)) (hl : ∀ p ∈ l, p.1 < b.size ∧ p.2 < b.size)
    (k : Knowledge) (hkb : k.b = b) (hk : k.AllFacts G) :
    ∃ k1, seedFrom ord l k = (.ret (), k1) ∧ k1.b = b ∧ k1.AllFacts G := by
  induction l generalizing k with
  | nil => exact ⟨k, rfl, hkb, hk⟩
  | cons p rest ih =>
    obtain ⟨x, y⟩ := p
    have hp := hl (x, y) (List.mem_cons_self _ _)
    have hstep : ∃ k1, seedCell ord k x y = (.ret (), k1) ∧ k1.b = b ∧ k1.AllFacts G := by
      subst hkb
      by_cases hc : seedCond k.b x y
      · rw [(seedCell_eq ord k x y).1 hc]
        have hG : G (seedFact k.b x y) := hseed x y hp.1 hp.2 hc
        obtain ⟨k1, h1, h2, h3⟩ := Knowledge.addFact_inv G ord hord k _ _ hk hG
          (hinb _ hG)
        exact ⟨k1, h1, h2, h3⟩
      · rw [(seedCell_eq ord k x y).2 hc]
        exact ⟨k, rfl, rfl, hk⟩
    obtain ⟨k1, h1, h2, h3⟩ := hstep
    simp only [seedFrom, h1]
    exact ih (fun q hq => hl q (List.mem_cons_of_mem _ hq)) k1 h2 h3

/-- The deduction stage of a turn, for any property `G` of facts that holds of
the seeds and is kept by derivation: either `deduce` returns false on an
unchanged board, or its result is a `DeductionEffect` of two facts satisfying
`G`. -/
theorem deduce_cases (G : Fact → Prop) (ord : set.Set → List Vec) (hord : set.IterOrder ord)
    (b : Board) (hinb : ∀ f, G f → f.InBounds b.size)
    (hseed : ∀ x y, x < b.size → y < b.size → seedCond b x y → G (seedFact b x y))
    (hclos : ∀ a b, G a → G b → set.IsSubsetStrict a.tiles b.tiles = true →
      b.mines < a.mines → G ⟨a.mines - b.mines, set.Sub a.tiles b.tiles⟩) :
    deduce ord b = (.ret false, b) ∨ DeductionEffect G b (deduce ord b) := by
  obtain ⟨k1, h1, h2, h3⟩ := seedFrom_inv G ord hord b hinb hseed (scanCells b.GetSize)
    (fun p hp => (mem_scanCells _ _ _).mp hp) (NewKnowledge b) rfl
    ⟨fun p hp => absurd hp (List.not_mem_nil p), fun i j f hf => absurd hf (List.not_mem_nil f)⟩
  unfold deduce
  rw [h1]
  simp only
  have := deduceLoop_cases G ord hord maxDeductions k1 (by rw [h2]; exact hinb) hclos h3
  rw [h2] at this
  rcases this with ⟨e1, e2⟩ | heff
  · left
    exact Prod.ext e1 e2
  · right
    exact heff

theorem forEachRevealedFrom_cases (fn : Board → Nat → Nat → Outcome Bool × Board)
    (hfalse : ∀ b x y, (fn b x y).1 = .ret false → (fn b x y).2 = b)
    (l : List (Nat × Nat)) (b : Board) :
    forEachRevealedFrom fn l b = (.ret false, b) ∨
      ∃ p ∈ l, b.Revealed p.1 p.2 = true ∧ forEachRevealedFrom fn l b = fn b p.1 p.2
        ∧ (fn b p.1 p.2).1 ≠ .ret false := by
  induction l with
  | nil => exact Or.inl rfl
  | cons p rest ih =>
    obtain ⟨x, y⟩ := p
    unfold forEachRevealedFrom
    split
    · rename_i hr
      have hf := hfalse b x y
      generalize hfn : fn b x y = r at hf
      obtain ⟨o, b1⟩ := r
      cases o with
      | ret v =>
        cases v with
        | true =>
          right
          exact ⟨(x, y), List.mem_cons_self _ _, hr, by rw [hfn], by rw [hfn]; simp⟩
        | false =>
          simp only at hf
          have hb1 : b1 = b := hf trivial
          subst hb1
          simp only
          rcases ih with h | ⟨p, hp, h1, h2, h3⟩
          · exact Or.inl h
          · exact Or.inr ⟨p, List.mem_cons_of_mem _ hp, h1, h2, h3⟩
      | panic q =>
        right
        exact ⟨(x, y), List.mem_cons_self _ _, hr, by rw [hfn], by rw [hfn]; simp⟩
    · rcases ih with h | ⟨p, hp, h1, h2, h3⟩
      · exact Or.inl h
      · exact Or.inr ⟨p, List.mem_cons_of_mem _ hp, h1, h2, h3⟩

theorem revealOrHitMine_ne_false (b : Board) (x y : Nat) :
    (revealOrHitMine b x y).1 ≠ .ret false := by
  unfold revealOrHitMine
  split <;> simp

theorem flagAndReturn_ne_false (b : Board) (x y : Nat) :
    (flagAndReturn b x y).1 ≠ .ret false := by
  unfold flagAndReturn
  split <;> simp

theorem findDefiniteFlags_cases (b : Board) (x y : Nat) :
    findDefiniteFlags b x y = (.ret false, b) ∨
      ∃ n, b.GetNumNeighbors x y ≠ 0 ∧
        (((GetNeighbors x y b.size).countP fun v => !b.Revealed v.X v.Y : Nat) : Int)
          = b.GetNumNeighbors x y ∧
        n ∈ GetNeighbors x y b.size ∧ b.Revealed n.X n.Y = false ∧ b.HasFlag n.X n.Y = false ∧
        findDefiniteFlags b x y = flagAndReturn b n.X n.Y := by
  unfold findDefiniteFlags
  simp only [Board.GetSize]
  split
  · exact Or.inl rfl
  · rename_i hn
    split
    · rename_i hc
      split
      · rename_i n hfind
        right
        have hp := List.find?_some hfind
        have hm := List.mem_of_find?_eq_some hfind
        simp only [Bool.and_eq_true, Bool.not_eq_true'] at hp
        exact ⟨n, hn, hc.1, hm, hp.1, hp.2, rfl⟩
      · exact Or.inl rfl
    · exact Or.inl rfl

theorem findDefiniteEmpty_cases (b : Board) (x y : Nat) :
    findDefiniteEmpty b x y = (.ret false, b) ∨
      ∃ n, b.GetNumNeighbors x y
          = (((GetNeighbors x y b.size).countP fun v => b.HasFlag v.X v.Y : Nat) : Int) ∧
        n ∈ GetNeighbors x y b.size ∧ b.Revealed n.X n.Y = false ∧ b.HasFlag n.X n.Y = false ∧
        findDefiniteEmpty b x y = revealOrHitMine b n.X n.Y := by
  unfold findDefiniteEmpty
  simp only [Board.GetSize]
  split
  · rename_i hc
    split
    · rename_i n hfind
      right
      have hp := List.find?_some hfind
      have hm := List.mem_of_find?_eq_some hfind
      simp only [Bool.and_eq_true, Bool.not_eq_true'] at hp
      exact ⟨n, hc.1, hm, hp.1, hp.2, rfl⟩
    · exact Or.inl rfl
  · exact Or.inl rfl

theorem findObviousMines_cases (b : Board) :
    findObviousMines b = (.ret false, b) ∨
      ∃ n, ObviousMine b n ∧ findObviousMines b = flagAndReturn b n.X n.Y := by
  unfold findObviousMines forEachRevealed
  have hfalse : ∀ b x y, (findDefiniteFlags b x y).1 = .ret false →
      (findDefiniteFlags b x y).2 = b := by
    intro b x y h
    rcases findDefiniteFlags_cases b x y with h1 | ⟨n, -, -, -, -, -, h1⟩
    · rw [h1]
    · rw [h1] at h
      exact absurd h (flagAndReturn_ne_false _ _ _)
  rcases forEachRevealedFrom_cases findDefiniteFlags hfalse (scanCells b.GetSize) b with
    h | ⟨p, hp, h1, h2, h3⟩
  · exact Or.inl h
  · obtain ⟨x, y⟩ := p
    have hxy := (mem_scanCells _ _ _).mp hp
    rcases findDefiniteFlags_cases b x y with h4 | ⟨n, c1, c2, c3, c4, c5, h4⟩
    · rw [h4] at h3
      exact absurd rfl h3
    · right
      exact ⟨n, ⟨x, y, hxy.1, hxy.2, h1, c1, c2, c3, c4, c5⟩, h2.trans h4⟩

theorem findObiousEmpty_cases (b : Board) :
    findObiousEmpty b = (.ret false, b) ∨
      ∃ n, ObviousEmpty b n ∧ findObiousEmpty b = revealOrHitMine b n.X n.Y := by
  unfold findObiousEmpty forEachRevealed
  have hfalse : ∀ b x y, (findDefiniteEmpty b x y).1 = .ret false →
      (findDefiniteEmpty b x y).2 = b := by
    intro b x y h
    rcases findDefiniteEmpty_cases b x y with h1 | ⟨n, -, -, -, -, h1⟩
    · rw [h1]
    · rw [h1] at h
      exact absurd h (revealOrHitMine_ne_false _ _ _)
  rcases forEachRevealedFrom_cases findDefiniteEmpty hfalse (scanCells b.GetSize) b with
    h | ⟨p, hp, h1, h2, h3⟩
  · exact Or.inl h
  · obtain ⟨x, y⟩ := p
    have hxy := (mem_scanCells _ _ _).mp hp
    rcases findDefiniteEmpty_cases b x y with h4 | ⟨n, c1, c2, c3, c4, h4⟩
    · rw [h4] at h3
      exact absurd rfl h3
    · right
      exact ⟨n, ⟨x, y, hxy.1, hxy.2, h1, c1, c2, c3, c4⟩, h2.trans h4⟩

/-- The four stages of a turn: what `Pass` amounts to on a board. -/
theorem Pass_cases (ord : set.Set → List Vec) (b : Board) :
    (b.HasReveals = false ∧ Pass ord b = revealOrHitMine b 0 0)
      ∨ (b.HasReveals = true ∧ ∃ n, ObviousMine b n ∧ Pass ord b = flagAndReturn b n.X n.Y)
      ∨ (b.HasReveals = true ∧ ∃ n, ObviousEmpty b n ∧ Pass ord b = revealOrHitMine b n.X n.Y)
      ∨ (b.HasReveals = true ∧ Pass ord b = deduce ord b) := by
  unfold Pass
  cases hr : b.HasReveals with
  | false =>
    left
    refine ⟨rfl, ?_⟩
    have h1 : revealIfFresh b = revealOrHitMine b 0 0 := by
      unfold revealIfFresh
      rw [if_pos hr]
    rw [h1]
    have hne := revealOrHitMine_ne_false b 0 0
    generalize revealOrHitMine b 0 0 = r at hne ⊢
    obtain ⟨o, b1⟩ := r
    cases o with
    | ret v =>
      cases v with
      | true => rfl
      | false => exact absurd rfl hne
    | panic p => rfl
  | true =>
    right
    have h1 : revealIfFresh b = (.ret false, b) := by
      unfold revealIfFresh
      rw [if_neg (by simp [hr])]
    rw [h1]
    simp only
    rcases findObviousMines_cases b with h2 | ⟨n, hn, h2⟩
    · rw [h2]
      simp only
      rcases findObiousEmpty_cases b with h3 | ⟨n, hn, h3⟩
      · rw [h3]
        exact Or.inr (Or.inr ⟨trivial, rfl⟩)
      · right; left
        refine ⟨trivial, n, hn, ?_⟩
        rw [h3]
        have hne := revealOrHitMine_ne_false b n.X n.Y
        generalize revealOrHitMine b n.X n.Y = r at hne ⊢
        obtain ⟨o, b1⟩ := r
        cases o with
        | ret v =>
          cases v with
          | true => rfl
          | false => exact absurd rfl hne
        | panic p => rfl
    · left
      refine ⟨trivial, n, hn, ?_⟩
      rw [h2]
      have hne := flagAndReturn_ne_false b n.X n.Y
      generalize flagAndReturn b n.X n.Y = r at hne ⊢
      obtain ⟨o, b1⟩ := r
      cases o with
      | ret v =>
        cases v with
        | true => rfl
        | false => exact absurd rfl hne
      | panic p => rfl

end solver

/-! ## Frame properties of a turn -/
namespace solver

open util board

theorem hasReveals_eq_false_iff (b : Board) :
    b.HasReveals = false ↔ ∀ x, x < b.size → ∀ y, y < b.size → b.revealed x y = false := by
  unfold Board.HasReveals
  rw [Bool.eq_false_iff]
  simp only [ne_eq, List.any_eq_true, List.mem_range, not_exists, not_and, Bool.not_eq_true]

theorem seedFact_tiles_mem {b : Board} {x y : Nat} {v : Vec}
    (hv : v ∈ (seedFact b x y).tiles) :
    v ∈ GetNeighbors x y b.size ∧ b.revealed v.X v.Y = false ∧ b.flags v.X v.Y = false := by
  simp only [seedFact, set.Sub, unrevealedNeighbors, flaggedNeighbors, set.FromList,
    Finset.mem_sdiff, List.mem_toFinset, List.mem_filter, Board.GetSize, Board.Revealed,
    Board.HasFlag, Bool.not_eq_true', not_and, Bool.not_eq_true] at hv
  exact ⟨hv.1.1, hv.1.2, hv.2 hv.1.1⟩

theorem seedFact_hidden (b : Board) (x y : Nat) (hx : x < b.size) (hy : y < b.size) :
    (seedFact b x y).Hidden b := by
  intro v hv
  obtain ⟨h1, h2, h3⟩ := seedFact_tiles_mem hv
  exact ⟨GetNeighbors_inBounds hx hy h1, h2, h3⟩

/-- Claim C6, counterexample. A 1 x 1 board whose only cell holds a mine has size
1 and no revealed cell, yet `Pass` does not return true on it: it reveals (0,0)
and aborts with the `hitMine` panic. -/
theorem pass_fresh_hits_mine :
    1 ≤ boardOnlyMine.size
    ∧ (∀ x, x < boardOnlyMine.size → ∀ y, y < boardOnlyMine.size →
        boardOnlyMine.revealed x y = false)
    ∧ (Pass set.sortedOrder boardOnlyMine).1 = .panic (.hitMine 0 0)
    ∧ (Pass set.sortedOrder boardOnlyMine).2.revealed 0 0 = true := by
  decide

/-- Claim C6, amended. Fresh board: on every board of size at least 1 with no
revealed cell, `Pass` is exactly the reveal idiom on the start cell (0,0),
whatever the iteration order (no knowledge is built): (0,0) ends up revealed, no
flag, mine or neighbour count changes, and the call returns true unless (0,0)
holds a mine, in which case it aborts with the `hitMine` panic. -/
theorem pass_fresh_reveals_origin (ord : set.Set → List Vec) (b : Board)
    (hsize : 1 ≤ b.size)
    (hfresh : ∀ x, x < b.size → ∀ y, y < b.size → b.revealed x y = false) :
    Pass ord b = revealOrHitMine b 0 0
      ∧ (Pass ord b).1 = (if b.mines 0 0 = true then .panic (.hitMine 0 0) else .ret true)
      ∧ (Pass ord b).2 = (b.Reveal 0 0).2
      ∧ (Pass ord b).2.revealed 0 0 = true
      ∧ b.RevealsMore (Pass ord b).2 := by
  have hin : b.inBounds 0 0 = true := by
    simp only [Board.inBounds, Bool.and_eq_true, decide_eq_true_eq]
    omega
  have hf := (hasReveals_eq_false_iff b).mpr hfresh
  have h1 : Pass ord b = revealOrHitMine b 0 0 := by
    rcases Pass_cases ord b with ⟨-, h1⟩ | ⟨h0, -⟩ | ⟨h0, -⟩ | ⟨h0, -⟩
    · exact h1
    · rw [hf] at h0; exact Bool.noConfusion h0
    · rw [hf] at h0; exact Bool.noConfusion h0
    · rw [hf] at h0; exact Bool.noConfusion h0
  refine ⟨h1, ?_, ?_, ?_, ?_⟩
  · rw [h1, revealOrHitMine_fst b 0 0 hin]
  · rw [h1, revealOrHitMine_snd]
  · rw [h1, revealOrHitMine_snd]
    exact Board.Reveal_revealed_self b 0 0 hin
  · rw [h1, revealOrHitMine_snd]
    exact Board.Reveal_revealsMore b 0 0

/-- Witness of the amended C6 on a fresh 2 x 2 board. -/
theorem pass_fresh_reveals_origin_witness :
    Pass set.sortedOrder (NewBoard 2) = revealOrHitMine (NewBoard 2) 0 0
      ∧ (Pass set.sortedOrder (NewBoard 2)).1
          = (if (NewBoard 2).mines 0 0 = true then .panic (.hitMine 0 0) else .ret true)
      ∧ (Pass set.sortedOrder (NewBoard 2)).2 = ((NewBoard 2).Reveal 0 0).2
      ∧ (Pass set.sortedOrder (NewBoard 2)).2.revealed 0 0 = true
      ∧ (NewBoard 2).RevealsMore (Pass set.sortedOrder (NewBoard 2)).2 :=
  pass_fresh_reveals_origin set.sortedOrder (NewBoard 2) (by decide) (by decide)

end solver

/-! ## Safety of the flood fill and of the obvious rules -/
namespace board

open util

namespace Board

theorem countP_zero_imp {l : List Vec} {p : Vec → Bool} (h : l.countP p = 0) :
    ∀ v ∈ l, p v = false := by
  intro v hv
  cases hp : p v with
  | false => rfl
  | true =>
    have : 0 < l.countP p := List.countP_pos_iff.mpr ⟨v, hv, hp⟩
    omega

/-- The flood-fill loop reveals no mine when the counts are right and the queue
holds only mine-free cells. -/
theorem clearZerosLoop_safe (fuel : Nat) (b : Board) (q : List Vec)
    (hc : b.CountsOK) (hm : b.NoMineRevealed)
    (hq : ∀ v ∈ q, (v.X < b.size ∧ v.Y < b.size) ∧ b.mines v.X v.Y = false) :
    (clearZerosLoop fuel b q).2.NoMineRevealed := by
  induction fuel generalizing b q with
  | zero =>
    cases q with
    | nil => exact hm
    | cons v q => exact hm
  | succ fuel ih =>
    cases q with
    | nil => exact hm
    | cons v q =>
      have hv := hq v (List.mem_cons_self _ _)
      have hin : b.inBounds v.X v.Y = true := by simp [inBounds, hv.1.1, hv.1.2]
      have hm1 : (b.setRevealed v.X v.Y).NoMineRevealed := by
        intro x hx y hy hmine
        rw [setRevealed_revealed]
        split
        · rename_i he
          rw [he.1, he.2] at hmine
          have : b.mines v.X v.Y = true := hmine
          rw [hv.2] at this
          exact Bool.noConfusion this
        · exact hm x hx y hy hmine
      have hq1 : ∀ w ∈ q, (w.X < (b.setRevealed v.X v.Y).size ∧
          w.Y < (b.setRevealed v.X v.Y).size) ∧ (b.setRevealed v.X v.Y).mines w.X w.Y = false :=
        fun w hw => hq w (List.mem_cons_of_mem _ hw)
      have hc1 : (b.setRevealed v.X v.Y).CountsOK := hc
      simp only [clearZerosLoop, hin, if_true]
      split
      · rename_i hz
        apply ih (b.setRevealed v.X v.Y) _ hc1 hm1
        intro w hw
        rcases List.mem_append.mp hw with hw | hw
        · exact hq1 w hw
        · have hw1 := (List.mem_filter.mp hw).1
          have hcount := hc v.X hv.1.1 v.Y hv.1.2
          have hz2 : b.neighbors v.X v.Y = 0 := hz.2
          rw [hz2] at hcount
          have hzero : (GetNeighbors v.X v.Y b.size).countP (fun v => b.mines v.X v.Y) = 0 := by
            omega
          exact ⟨GetNeighbors_inBounds hv.1.1 hv.1.2 hw1, countP_zero_imp hzero w hw1⟩
      · exact ih (b.setRevealed v.X v.Y) _ hc1 hm1 hq1

/-- Revealing a mine-free cell of a board with right counts reveals no mine. -/
theorem Reveal_safe (b : Board) (x y : Nat) (hc : b.CountsOK) (hm : b.NoMineRevealed)
    (hx : x < b.size) (hy : y < b.size) (hxy : b.mines x y = false) :
    (b.Reveal x y).2.NoMineRevealed := by
  have hin : b.inBounds x y = true := by simp [inBounds, hx, hy]
  have hm1 : (b.setRevealed x y).NoMineRevealed := by
    intro i hi j hj hmine
    rw [setRevealed_revealed]
    split
    · rename_i he
      rw [he.1, he.2] at hmine
      have : b.mines x y = true := hmine
      rw [hxy] at this
      exact Bool.noConfusion this
    · exact hm i hi j hj hmine
  have hloop : ((b.setRevealed x y).clearZerosFrom x y).2.NoMineRevealed := by
    have hc1 : (b.setRevealed x y).CountsOK := hc
    unfold clearZerosFrom
    apply clearZerosLoop_safe _ (b.setRevealed x y) _ hc1 hm1
    intro v hv
    rw [List.mem_singleton] at hv
    subst hv
    exact ⟨⟨hx, hy⟩, hxy⟩
  unfold Reveal
  rw [if_pos hin]
  have hmm : (b.setRevealed x y).mines x y = b.mines x y := rfl
  simp only [hmm, hxy, Bool.false_eq_true, if_false]
  split
  · split
    · rename_i heq
      rw [heq] at hloop
      exact hloop
    · rename_i heq
      rw [heq] at hloop
      exact hloop
  · exact hm1

theorem RevealsMore.keeps_flagsOnMines {b1 b2 : Board} (h : b1.RevealsMore b2)
    (hf : b1.FlagsOnMines) : b2.FlagsOnMines := by
  obtain ⟨h1, h2, h3, -, -, -⟩ := h
  intro x hx y hy hfl
  rw [h1] at hx hy
  rw [h3] at hfl
  rw [h2]
  exact hf x hx y hy hfl

theorem FlagsOnHiddenMines.toFlagsOnMines {b : Board} (h : b.FlagsOnHiddenMines) :
    b.FlagsOnMines :=
  fun x hx y hy hfl => (h x hx y hy hfl).1

end Board

end board

namespace solver

open util board

theorem countP_imp_of_eq {l : List Vec} {p q : Vec → Bool}
    (himp : ∀ v ∈ l, p v = true → q v = true) (heq : l.countP p = l.countP q) :
    ∀ v ∈ l, q v = true → p v = true := by
  induction l with
  | nil => intro v hv; exact absurd hv (List.not_mem_nil v)
  | cons w l ih =>
    have hle : l.countP p ≤ l.countP q :=
      List.countP_mono_left (fun v hv hp => himp v (List.mem_cons_of_mem _ hv) hp)
    have hw := himp w (List.mem_cons_self _ _)
    intro v hv hqv
    rw [List.countP_cons, List.countP_cons] at heq
    cases hpw : p w with
    | true =>
      have hqw := hw hpw
      rw [hpw, hqw] at heq
      simp only [if_true] at heq
      rcases List.mem_cons.mp hv with rfl | hv
      · exact hpw
      · exact ih (fun v hv hp => himp v (List.mem_cons_of_mem _ hv) hp) (by omega) v hv hqv
    | false =>
      cases hqw : q w with
      | true =>
        rw [hpw, hqw] at heq
        simp only [if_true, Bool.false_eq_true, if_false] at heq
        omega
      | false =>
        rw [hpw, hqw] at heq
        simp only [Bool.false_eq_true, if_false] at heq
        rcases List.mem_cons.mp hv with rfl | hv
        · rw [hqw] at hqv
          exact Bool.noConfusion hqv
        · exact ih (fun v hv hp => himp v (List.mem_cons_of_mem _ hv) hp) (by omega) v hv hqv

/-- A tile flagged by the obvious-mine rule holds a mine. -/
theorem ObviousMine.is_mine {b : Board} {n : Vec} (h : ObviousMine b n)
    (hc : b.CountsOK) (hm : b.NoMineRevealed) :
    (n.X < b.size ∧ n.Y < b.size) ∧ b.mines n.X n.Y = true := by
  obtain ⟨x, y, hx, hy, -, -, hcnt, hn, hr, -⟩ := h
  have hin := GetNeighbors_inBounds hx hy hn
  refine ⟨hin, ?_⟩
  have hcount := hc x hx y hy
  have heq : (GetNeighbors x y b.size).countP (fun v => b.mines v.X v.Y)
      = (GetNeighbors x y b.size).countP (fun v => !b.Revealed v.X v.Y) := by
    unfold Board.GetNumNeighbors at hcnt
    omega
  have := countP_imp_of_eq (p := fun v => b.mines v.X v.Y)
    (q := fun v => !b.Revealed v.X v.Y)
    (fun v hv hp => by
      have hvin := GetNeighbors_inBounds hx hy hv
      have := hm v.X hvin.1 v.Y hvin.2 hp
      simp [Board.Revealed, this])
    heq n hn (by simp [hr])
  exact this

/-- A tile revealed by the obvious-empty rule holds no mine. -/
theorem ObviousEmpty.not_mine {b : Board} {n : Vec} (h : ObviousEmpty b n)
    (hc : b.CountsOK) (hf : b.FlagsOnMines) :
    (n.X < b.size ∧ n.Y < b.size) ∧ b.mines n.X n.Y = false := by
  obtain ⟨x, y, hx, hy, -, hcnt, hn, -, hfl⟩ := h
  have hin := GetNeighbors_inBounds hx hy hn
  refine ⟨hin, ?_⟩
  have hcount := hc x hx y hy
  have heq : (GetNeighbors x y b.size).countP (fun v => b.HasFlag v.X v.Y)
      = (GetNeighbors x y b.size).countP (fun v => b.mines v.X v.Y) := by
    unfold Board.GetNumNeighbors at hcnt
    omega
  cases hmine : b.mines n.X n.Y with
  | false => rfl
  | true =>
    have := countP_imp_of_eq (p := fun v => b.HasFlag v.X v.Y)
      (q := fun v => b.mines v.X v.Y)
      (fun v hv hp => by
        have hvin := GetNeighbors_inBounds hx hy hv
        exact hf v.X hvin.1 v.Y hvin.2 hp)
      heq n hn hmine
    simp only at this
    rw [hfl] at this
    exact Bool.noConfusion this

end solver

/-! ## Soundness of the whole turn -/
namespace solver

open util board

/-- The fact seeded for a revealed cell is true of the board. -/
theorem seedFact_trueOn (b : Board) (x y : Nat) (hc : b.CountsOK)
    (hf : b.FlagsOnHiddenMines) (hm : b.NoMineRevealed) (hx : x < b.size) (hy : y < b.size) :
    (seedFact b x y).TrueOn b := by
  refine ⟨fun v hv => GetNeighbors_inBounds hx hy (seedFact_tiles_mem hv).1, ?_⟩
  have hFU : flaggedNeighbors b x y ⊆ unrevealedNeighbors b x y := by
    intro v hv
    simp only [flaggedNeighbors, unrevealedNeighbors, set.FromList, List.mem_toFinset,
      List.mem_filter, Board.GetSize, Board.HasFlag, Board.Revealed,
      Bool.not_eq_true'] at hv ⊢
    have hin := GetNeighbors_inBounds hx hy hv.1
    exact ⟨hv.1, (hf v.X hin.1 v.Y hin.2 hv.2).2⟩
  have h2 := set.countMines_sub b.mineAt hFU
  have h3 : set.countMines b.mineAt (flaggedNeighbors b x y)
      = (flaggedNeighbors b x y).card := by
    unfold set.countMines
    rw [Finset.card_filter_eq_iff]
    intro v hv
    simp only [flaggedNeighbors, set.FromList, List.mem_toFinset, List.mem_filter,
      Board.GetSize, Board.HasFlag] at hv
    have hin := GetNeighbors_inBounds hx hy hv.1
    exact (hf v.X hin.1 v.Y hin.2 hv.2).1
  have h4 : set.countMines b.mineAt (unrevealedNeighbors b x y)
      = (GetNeighbors x y b.size).countP (fun v => b.mines v.X v.Y) := by
    unfold set.countMines
    have hset : (unrevealedNeighbors b x y).filter (fun v => b.mineAt v = true)
        = ((GetNeighbors x y b.size).filter (fun v => b.mines v.X v.Y)).toFinset := by
      ext v
      simp only [unrevealedNeighbors, set.FromList, Finset.mem_filter, List.mem_toFinset,
        List.mem_filter, Board.GetSize, Board.Revealed, Board.mineAt, Bool.not_eq_true']
      constructor
      · rintro ⟨⟨h1, -⟩, h3⟩
        exact ⟨h1, h3⟩
      · rintro ⟨h1, h3⟩
        have hin := GetNeighbors_inBounds hx hy h1
        exact ⟨⟨h1, hm v.X hin.1 v.Y hin.2 h3⟩, h3⟩
    rw [hset, List.toFinset_card_of_nodup ((GetNeighbors_nodup x y b.size).filter _),
      List.countP_eq_length_filter]
  have h5 := hc x hx y hy
  unfold Fact.HoldsIn
  simp only [seedFact, Board.GetNumNeighbors, set.Size]
  omega

theorem trueOn_sub (b : Board) (a c : Fact) (ha : a.TrueOn b) (hc : c.TrueOn b)
    (hsub : set.IsSubsetStrict a.tiles c.tiles = true) :
    (Fact.mk (a.mines - c.mines) (set.Sub a.tiles c.tiles)).TrueOn b := by
  refine ⟨sub_inBounds ha.1, ?_⟩
  have h := set.countMines_sub b.mineAt (strict_subset_of hsub)
  have h1 := ha.2
  have h2 := hc.2
  unfold Fact.HoldsIn at h1 h2 ⊢
  simp only
  omega

theorem holds_sub_no_mine {a c : Fact} {m : Vec → Bool} (ha : a.HoldsIn m) (hc : c.HoldsIn m)
    (hsub : set.IsSubsetStrict a.tiles c.tiles = true) (hm : a.mines = c.mines) :
    ∀ v ∈ set.Sub a.tiles c.tiles, m v = false := by
  intro v hv
  have hcount := set.countMines_sub m (strict_subset_of hsub)
  unfold Fact.HoldsIn at ha hc
  have hz : set.countMines m (set.Sub a.tiles c.tiles) = 0 := by omega
  unfold set.countMines at hz
  rw [Finset.card_eq_zero, Finset.filter_eq_empty_iff] at hz
  have := hz hv
  simpa using this

theorem holds_sub_all_mines {a c : Fact} {m : Vec → Bool} (ha : a.HoldsIn m)
    (hc : c.HoldsIn m) (hsub : set.IsSubsetStrict a.tiles c.tiles = true)
    (hcnt : a.mines - c.mines = (set.Size (set.Sub a.tiles c.tiles) : Int)) :
    ∀ v ∈ set.Sub a.tiles c.tiles, m v = true := by
  intro v hv
  have hcount := set.countMines_sub m (strict_subset_of hsub)
  unfold Fact.HoldsIn at ha hc
  have hz : set.countMines m (set.Sub a.tiles c.tiles) = (set.Sub a.tiles c.tiles).card := by
    unfold set.Size at hcnt
    omega
  unfold set.countMines at hz
  rw [Finset.card_filter_eq_iff] at hz
  exact hz v hv

/-- The deduction stage on facts that are true of the board. -/
theorem deduce_true_cases (ord : set.Set → List Vec) (hord : set.IterOrder ord) (b : Board)
    (hc : b.CountsOK) (hf : b.FlagsOnHiddenMines) (hm : b.NoMineRevealed) :
    deduce ord b = (.ret false, b) ∨ DeductionEffect (Fact.TrueOn b) b (deduce ord b) :=
  deduce_cases (Fact.TrueOn b) ord hord b
    (fun _ hf => hf.1)
    (fun x y hx hy _ => seedFact_trueOn b x y hc hf hm hx hy)
    (fun a c ha hc hsub _ => trueOn_sub b a c ha hc hsub)

/-- Outcome and board after the reveal idiom on a mine-free cell in bounds. -/
theorem revealOrHitMine_safe (b : Board) (x y : Nat) (hc : b.CountsOK)
    (hf : b.FlagsOnMines) (hm : b.NoMineRevealed)
    (hx : x < b.size) (hy : y < b.size) (hxy : b.mines x y = false) :
    (revealOrHitMine b x y).1 = .ret true
      ∧ (revealOrHitMine b x y).2.FlagsOnMines ∧ (revealOrHitMine b x y).2.NoMineRevealed := by
  have hin : b.inBounds x y = true := by simp [Board.inBounds, hx, hy]
  refine ⟨?_, ?_, ?_⟩
  · rw [revealOrHitMine_fst b x y hin, hxy]
    simp
  · rw [revealOrHitMine_snd]
    exact (Board.Reveal_revealsMore b x y).keeps_flagsOnMines hf
  · rw [revealOrHitMine_snd]
    exact Board.Reveal_safe b x y hc hm hx hy hxy

/-- Outcome and board after the flag idiom on a mine in bounds. -/
theorem flagAndReturn_safe (b : Board) (x y : Nat)
    (hf : b.FlagsOnMines) (hm : b.NoMineRevealed)
    (hx : x < b.size) (hy : y < b.size) (hxy : b.mines x y = true) :
    (flagAndReturn b x y).1 = .ret true
      ∧ (flagAndReturn b x y).2.FlagsOnMines ∧ (flagAndReturn b x y).2.NoMineRevealed := by
  have hin : b.inBounds x y = true := by simp [Board.inBounds, hx, hy]
  refine ⟨flagAndReturn_fst b x y hin, ?_, ?_⟩
  · rw [flagAndReturn_snd, Board.Flag_snd _ _ _ _ hin]
    split
    · intro i hi j hj hfl
      simp only [Board.setFlag] at hfl
      split at hfl
      · rename_i he
        rw [he.1, he.2]
        exact hxy
      · exact hf i hi j hj hfl
    · exact hf
  · rw [flagAndReturn_snd, Board.Flag_snd _ _ _ _ hin]
    split
    · exact hm
    · exact hm

/-- Claim C1. Soundness of the whole turn: on a board whose neighbour counts equal
the number of mined neighbours, on which every flagged cell is an unrevealed
mine and no mine is revealed (and, if nothing is revealed yet, cell (0,0) is not
a mine), `Pass` never reaches the `hitMine` panic nor the contradiction panic;
on a board of size at least 1 it returns (no panic of any kind, the flood fill
terminates); and afterwards every flagged cell is a mine and no mine is
revealed. -/
theorem pass_sound (ord : set.Set → List Vec) (hord : set.IterOrder ord) (b : Board)
    (hc : b.CountsOK) (hf : b.FlagsOnHiddenMines) (hm : b.NoMineRevealed)
    (h0 : (∀ x, x < b.size → ∀ y, y < b.size → b.revealed x y = false) → b.mines 0 0 = false) :
    (∀ x y, (Pass ord b).1 ≠ .panic (.hitMine x y))
      ∧ (Pass ord b).1 ≠ .panic .contradiction
      ∧ (1 ≤ b.size → ∃ acted, (Pass ord b).1 = .ret acted)
      ∧ (Pass ord b).2.FlagsOnMines
      ∧ (Pass ord b).2.NoMineRevealed := by
  have hfm := hf.toFlagsOnMines
  have key : ((∃ acted, (Pass ord b).1 = .ret acted)
        ∨ (b.size = 0 ∧ (Pass ord b).1 = .panic .indexOutOfRange))
      ∧ (Pass ord b).2.FlagsOnMines ∧ (Pass ord b).2.NoMineRevealed := by
    have hrev : ∀ x y, Pass ord b = revealOrHitMine b x y → x < b.size → y < b.size →
        b.mines x y = false →
        ((∃ acted, (Pass ord b).1 = .ret acted)
          ∨ (b.size = 0 ∧ (Pass ord b).1 = .panic .indexOutOfRange))
        ∧ (Pass ord b).2.FlagsOnMines ∧ (Pass ord b).2.NoMineRevealed := by
      intro x y h1 hx hy hxy
      obtain ⟨e1, e2, e3⟩ := revealOrHitMine_safe b x y hc hfm hm hx hy hxy
      rw [h1]
      exact ⟨Or.inl ⟨true, e1⟩, e2, e3⟩
    have hflg : ∀ x y, Pass ord b = flagAndReturn b x y → x < b.size → y < b.size →
        b.mines x y = true →
        ((∃ acted, (Pass ord b).1 = .ret acted)
          ∨ (b.size = 0 ∧ (Pass ord b).1 = .panic .indexOutOfRange))
        ∧ (Pass ord b).2.FlagsOnMines ∧ (Pass ord b).2.NoMineRevealed := by
      intro x y h1 hx hy hxy
      obtain ⟨e1, e2, e3⟩ := flagAndReturn_safe b x y hfm hm hx hy hxy
      rw [h1]
      exact ⟨Or.inl ⟨true, e1⟩, e2, e3⟩
    rcases Pass_cases ord b with ⟨hfr, h1⟩ | ⟨-, n, hn, h1⟩ | ⟨-, n, hn, h1⟩ | ⟨-, h1⟩
    · by_cases hs : 0 < b.size
      · exact hrev 0 0 h1 hs hs (h0 ((hasReveals_eq_false_iff b).mp hfr))
      · have hin : ¬ (b.inBounds 0 0 = true) := by
          simp [Board.inBounds, hs]
        have h2 : revealOrHitMine b 0 0 = (.panic .indexOutOfRange, b) := by
          unfold revealOrHitMine Board.Reveal
          rw [if_neg hin]
        rw [h1, h2]
        exact ⟨Or.inr ⟨by omega, rfl⟩, hfm, hm⟩
    · obtain ⟨hin, hmine⟩ := hn.is_mine hc hm
      exact hflg n.X n.Y h1 hin.1 hin.2 hmine
    · obtain ⟨hin, hmine⟩ := hn.not_mine hc hfm
      exact hrev n.X n.Y h1 hin.1 hin.2 hmine
    · rcases deduce_true_cases ord hord b hc hf hm with h2 | ⟨a, c, ha, hcc, h2 | h2 | h2⟩
      · rw [h1, h2]
        exact ⟨Or.inl ⟨false, rfl⟩, hfm, hm⟩
      · exfalso
        obtain ⟨ht, hne, -⟩ := h2
        have e1 := ha.2
        have e2 := hcc.2
        unfold Fact.HoldsIn at e1 e2
        rw [ht] at e1
        exact hne (e1.symm.trans e2)
      · obtain ⟨hsub, hmm, v, hv, h3⟩ := h2
        have hin := sub_inBounds (b := c) ha.1 v hv
        exact hrev v.X v.Y (h1.trans h3) hin.1 hin.2
          (holds_sub_no_mine ha.2 hcc.2 hsub hmm v hv)
      · obtain ⟨hsub, hcnt, v, hv, h3⟩ := h2
        have hin := sub_inBounds (b := c) ha.1 v hv
        exact hflg v.X v.Y (h1.trans h3) hin.1 hin.2
          (holds_sub_all_mines ha.2 hcc.2 hsub hcnt v hv)
  obtain ⟨hres, k2, k3⟩ := key
  refine ⟨?_, ?_, ?_, k2, k3⟩
  · intro x y hp
    rcases hres with ⟨acted, h⟩ | ⟨-, h⟩
    · rw [h] at hp; exact Outcome.noConfusion hp
    · rw [h] at hp
      simp at hp
  · intro hp
    rcases hres with ⟨acted, h⟩ | ⟨-, h⟩
    · rw [h] at hp; exact Outcome.noConfusion hp
    · rw [h] at hp
      simp at hp
  · intro hs
    rcases hres with h | ⟨h, -⟩
    · exact h
    · omega

/-- Witness of C1 on a fresh 2 x 2 board with a mine at (1,1). -/
theorem pass_sound_witness :
    (∀ x y, (Pass set.sortedOrder boardCornerMine).1 ≠ .panic (.hitMine x y))
      ∧ (Pass set.sortedOrder boardCornerMine).1 ≠ .panic .contradiction
      ∧ (1 ≤ boardCornerMine.size → ∃ acted, (Pass set.sortedOrder boardCornerMine).1 = .ret acted)
      ∧ (Pass set.sortedOrder boardCornerMine).2.FlagsOnMines
      ∧ (Pass set.sortedOrder boardCornerMine).2.NoMineRevealed :=
  pass_sound set.sortedOrder set.sortedOrder_iterOrder boardCornerMine
    (by unfold Board.CountsOK; decide) (by unfold Board.FlagsOnHiddenMines; decide)
    (by unfold Board.NoMineRevealed; decide) (by decide)

end solver

/-! ## Neighbour enumeration into a pre-sized slice -/
namespace util

theorem fillSlots_replicate (vs pre : List Vec) (k : Nat) (d : Vec) (h : vs.length ≤ k) :
    fillSlots vs (pre ++ List.replicate k d) pre.length
      = .ret (pre ++ vs ++ List.replicate (k - vs.length) d, pre.length + vs.length) := by
  induction vs generalizing pre k with
  | nil => simp [fillSlots]
  | cons v rest ih =>
    obtain ⟨k1, rfl⟩ : ∃ k1, k = k1 + 1 := ⟨k - 1, by simp at h; omega⟩
    have hlt : pre.length < (pre ++ List.replicate (k1 + 1) d).length := by simp
    have hset : (pre ++ List.replicate (k1 + 1) d).set pre.length v
        = (pre ++ [v]) ++ List.replicate k1 d := by
      rw [List.set_append_right _ _ (le_refl _)]
      simp [List.replicate_succ]
    simp only [fillSlots, hlt, if_true, hset]
    have := ih (pre ++ [v]) k1 (by simp at h; omega)
    simp only [List.length_append, List.length_singleton] at this
    rw [this]
    simp [Nat.add_assoc, Nat.add_comm 1]

/-- The number of neighbours is the size of the clipped 3 x 3 block minus the
cell itself: exactly the length of the pre-sized slice. -/
theorem GetNeighbors_length (x y size : Nat) :
    (GetNeighbors x y size).length
      = ((if x < size - 1 then x + 1 else x) - (if x > 0 then x - 1 else x) + 1)
        * ((if y < size - 1 then y + 1 else y) - (if y > 0 then y - 1 else y) + 1) - 1 := by
  have hnd := GetNeighbors_nodup x y size
  rw [← List.toFinset_card_of_nodup hnd]
  have hinj : Function.Injective (fun v : Vec => (v.X, v.Y)) := by
    rintro ⟨a, b⟩ ⟨c, d⟩ h
    simpa using h
  rw [← Finset.card_image_of_injective _ hinj]
  have hset : (GetNeighbors x y size).toFinset.image (fun v : Vec => (v.X, v.Y))
      = ((Finset.Icc (if x > 0 then x - 1 else x) (if x < size - 1 then x + 1 else x))
          ×ˢ (Finset.Icc (if y > 0 then y - 1 else y)
            (if y < size - 1 then y + 1 else y))).erase (x, y) := by
    ext p
    obtain ⟨p1, p2⟩ := p
    simp only [Finset.mem_image, List.mem_toFinset, Finset.mem_erase, ne_eq, Prod.mk.injEq,
      Finset.mem_product, Finset.mem_Icc]
    constructor
    · rintro ⟨v, hv, h1, h2⟩
      rw [mem_GetNeighbors] at hv
      subst h1 h2
      exact ⟨hv.2.2, hv.1, hv.2.1⟩
    · rintro ⟨h1, h2, h3⟩
      exact ⟨⟨p1, p2⟩, (mem_GetNeighbors x y size ⟨p1, p2⟩).mpr ⟨h2, h3, h1⟩, rfl, rfl⟩
  rw [hset]
  have hmem : (x, y) ∈ (Finset.Icc (if x > 0 then x - 1 else x)
      (if x < size - 1 then x + 1 else x))
      ×ˢ (Finset.Icc (if y > 0 then y - 1 else y) (if y < size - 1 then y + 1 else y)) := by
    simp only [Finset.mem_product, Finset.mem_Icc]
    refine ⟨⟨?_, ?_⟩, ?_, ?_⟩ <;> split <;> omega
  rw [Finset.card_erase_of_mem hmem, Finset.card_product, Nat.card_Icc, Nat.card_Icc]
  have e1 : (if x < size - 1 then x + 1 else x) + 1 - (if x > 0 then x - 1 else x)
      = (if x < size - 1 then x + 1 else x) - (if x > 0 then x - 1 else x) + 1 := by
    split <;> split <;> omega
  have e2 : (if y < size - 1 then y + 1 else y) + 1 - (if y > 0 then y - 1 else y)
      = (if y < size - 1 then y + 1 else y) - (if y > 0 then y - 1 else y) + 1 := by
    split <;> split <;> omega
  rw [e1, e2]

theorem GetNeighborsSlots_eq (x y size : Nat) :
    GetNeighborsSlots x y size
      = .ret (GetNeighbors x y size, (GetNeighbors x y size).length) := by
  have hlen := GetNeighbors_length x y size
  unfold GetNeighborsSlots
  simp only
  have h := fillSlots_replicate (GetNeighbors x y size) []
    (((if x < size - 1 then x + 1 else x) - (if x > 0 then x - 1 else x) + 1)
        * ((if y < size - 1 then y + 1 else y) - (if y > 0 then y - 1 else y) + 1) - 1)
    (Vec.mk 0 0) (le_of_eq hlen)
  rw [← hlen] at h
  simp only [List.nil_append, List.length_nil, Nat.sub_self, List.replicate_zero,
    List.append_nil, Nat.zero_add] at h
  rw [← hlen]
  exact h

/-- Claim C13. Neighbour enumeration: for every size of at least 1 and every cell
`(x, y)` of the grid, `GetNeighbors(x, y, size)` has no duplicate, has at most 8
entries, and contains a coordinate exactly when it is a cell of the grid within
distance 1 of `(x, y)` on each axis and is not `(x, y)` itself; with the
pre-sized slice made explicit, no write goes past its end (no panic) and the
final write index equals its length, so every slot is filled. -/
theorem getNeighbors_enumerates (x y size : Nat) (hs : 1 ≤ size) (hx : x < size)
    (hy : y < size) :
    (GetNeighbors x y size).Nodup
      ∧ (GetNeighbors x y size).length ≤ 8
      ∧ (∀ v : Vec, v ∈ GetNeighbors x y size ↔
          (v.X < size ∧ v.Y < size) ∧ (v.X ≤ x + 1 ∧ x ≤ v.X + 1)
            ∧ (v.Y ≤ y + 1 ∧ y ≤ v.Y + 1) ∧ v ≠ Vec.mk x y)
      ∧ GetNeighborsSlots x y size
          = .ret (GetNeighbors x y size, (GetNeighbors x y size).length) := by
  refine ⟨GetNeighbors_nodup x y size, GetNeighbors_length_le x y size, ?_,
    GetNeighborsSlots_eq x y size⟩
  intro v
  rw [mem_GetNeighbors]
  have hne : v ≠ Vec.mk x y ↔ ¬ (v.X = x ∧ v.Y = y) := by
    constructor
    · rintro h ⟨h1, h2⟩
      exact h (Vec.eq_of_coords h1 h2)
    · rintro h rfl
      exact h ⟨rfl, rfl⟩
  rw [hne]
  constructor
  · rintro ⟨⟨h1, h2⟩, ⟨h3, h4⟩, h5⟩
    refine ⟨⟨?_, ?_⟩, ⟨?_, ?_⟩, ⟨?_, ?_⟩, h5⟩
    · split at h2 <;> omega
    · split at h4 <;> omega
    · split at h2 <;> omega
    · split at h1 <;> omega
    · split at h4 <;> omega
    · split at h3 <;> omega
  · rintro ⟨⟨h1, h2⟩, ⟨h3, h4⟩, ⟨h5, h6⟩, h7⟩
    refine ⟨⟨?_, ?_⟩, ⟨?_, ?_⟩, h7⟩
    · split <;> omega
    · split <;> omega
    · split <;> omega
    · split <;> omega

/-- Witness of C13 at the centre of a 3 x 3 grid. -/
theorem getNeighbors_enumerates_witness :
    (GetNeighbors 1 1 3).Nodup
      ∧ (GetNeighbors 1 1 3).length ≤ 8
      ∧ (∀ v : Vec, v ∈ GetNeighbors 1 1 3 ↔
          (v.X < 3 ∧ v.Y < 3) ∧ (v.X ≤ 1 + 1 ∧ 1 ≤ v.X + 1)
            ∧ (v.Y ≤ 1 + 1 ∧ 1 ≤ v.Y + 1) ∧ v ≠ Vec.mk 1 1)
      ∧ GetNeighborsSlots 1 1 3
          = .ret (GetNeighbors 1 1 3, (GetNeighbors 1 1 3).length) :=
  getNeighbors_enumerates 1 1 3 (by decide) (by decide) (by decide)

end util

/-! ## Strict subsets and set difference -/
namespace solver

open util board

theorem Reveal_fst_cases (b : Board) (x y : Nat) :
    (b.Reveal x y).1 = .ret (b.mines x y) ∨ (b.Reveal x y).1 = .panic .indexOutOfRange := by
  by_cases hin : b.inBounds x y = true
  · exact Or.inl (Board.Reveal_fst b x y hin)
  · right
    unfold Board.Reveal
    rw [if_neg hin]

theorem revealOrHitMine_fst_cases (b : Board) (x y : Nat) :
    (revealOrHitMine b x y).1 = .ret true ∨ (revealOrHitMine b x y).1 = .panic (.hitMine x y)
      ∨ (revealOrHitMine b x y).1 = .panic .indexOutOfRange := by
  have h := Reveal_fst_cases b x y
  unfold revealOrHitMine
  generalize b.Reveal x y = r at h
  obtain ⟨o, b1⟩ := r
  rcases h with h | h
  · simp only at h
    subst h
    cases b.mines x y
    · exact Or.inl rfl
    · exact Or.inr (Or.inl rfl)
  · simp only at h
    subst h
    exact Or.inr (Or.inr rfl)

theorem flagAndReturn_fst_cases (b : Board) (x y : Nat) :
    (flagAndReturn b x y).1 = .ret true
      ∨ (flagAndReturn b x y).1 = .panic .indexOutOfRange := by
  by_cases hin : b.inBounds x y = true
  · exact Or.inl (flagAndReturn_fst b x y hin)
  · right
    unfold flagAndReturn Board.Flag
    rw [if_neg hin]

theorem indexFact_fst_cases (f : Fact) (l : List Vec) (k : Knowledge) :
    (Knowledge.indexFact f l k).1 = .ret ()
      ∨ (Knowledge.indexFact f l k).1 = .panic .indexOutOfRange := by
  induction l generalizing k with
  | nil => exact Or.inl rfl
  | cons v rest ih =>
    simp only [Knowledge.indexFact]
    split
    · exact ih _
    · exact Or.inr rfl

theorem addFact_fst_cases (ord : set.Set → List Vec) (k : Knowledge) (m : Int) (s : set.Set) :
    (k.AddFact ord m s).1 = .ret () ∨ (k.AddFact ord m s).1 = .panic .indexOutOfRange := by
  unfold Knowledge.AddFact
  split
  · exact Or.inl rfl
  · exact indexFact_fst_cases _ _ _

/-- The panics `RunDualDeduction` can raise: never "expected empty tiles". -/
theorem runDualDeduction_panic_cases (ord : set.Set → List Vec) (hord : set.IterOrder ord)
    (k : Knowledge) (a b : Fact) (p : Panic)
    (h : (k.RunDualDeduction ord a b).1 = .panic p) :
    p = .contradiction ∨ p = .indexOutOfRange ∨ ∃ x y, p = .hitMine x y := by
  unfold Knowledge.RunDualDeduction at h
  split at h
  · simp only [Outcome.panic.injEq] at h
    exact Or.inl h.symm
  · split at h
    · rename_i hs
      obtain ⟨c, rest, hc, -⟩ := hord.exists_cons _ (set.sub_nonempty_of_strict hs)
      split at h
      · simp only [set.AsList, hc] at h
        rcases revealOrHitMine_fst_cases k.b c.X c.Y with h1 | h1 | h1
        · rw [h1] at h; simp at h
        · rw [h1] at h
          simp only [Outcome.panic.injEq] at h
          exact Or.inr (Or.inr ⟨_, _, h.symm⟩)
        · rw [h1] at h
          simp only [Outcome.panic.injEq] at h
          exact Or.inr (Or.inl h.symm)
      · split at h
        · simp only at h
          split at h
          · simp only [set.AsList, hc] at h
            rcases flagAndReturn_fst_cases k.b c.X c.Y with h1 | h1
            · rw [h1] at h; simp at h
            · rw [h1] at h
              simp only [Outcome.panic.injEq] at h
              exact Or.inr (Or.inl h.symm)
          · rcases addFact_fst_cases ord k (a.mines - b.mines) (set.Sub a.tiles b.tiles)
              with h1 | h1
            · generalize k.AddFact ord (a.mines - b.mines) (set.Sub a.tiles b.tiles) = r
                at h h1
              obtain ⟨o, k1⟩ := r
              simp only at h1
              subst h1
              simp at h
            · generalize k.AddFact ord (a.mines - b.mines) (set.Sub a.tiles b.tiles) = r
                at h h1
              obtain ⟨o, k1⟩ := r
              simp only at h1
              subst h1
              simp only [Outcome.panic.injEq] at h
              exact Or.inr (Or.inl h.symm)
        · simp at h
    · simp at h

end solver

namespace set

open util

theorem isSubsetIter_eq (ord : Set → List Vec) (hord : IterOrder ord) (a b : Set) :
    IsSubsetIter ord a b = IsSubset a b := by
  unfold IsSubsetIter IsSubset
  rw [Bool.eq_iff_iff]
  simp only [List.all_eq_true, decide_eq_true_eq, hord.mem_iff]

theorem foldl_erase_eq (l : List Vec) (s : Set) :
    l.foldl (fun out v => out.erase v) s = s \ l.toFinset := by
  induction l generalizing s with
  | nil => simp
  | cons v rest ih =>
    rw [List.foldl_cons, ih]
    ext w
    simp only [Finset.mem_sdiff, Finset.mem_erase, List.mem_toFinset, List.toFinset_cons,
      Finset.mem_insert, not_or]
    tauto

theorem subIter_eq (ord : Set → List Vec) (hord : IterOrder ord) (a b : Set) :
    SubIter ord a b = Sub a b := by
  unfold SubIter Sub FromList AsList
  rw [foldl_erase_eq, (hord a).2, (hord b).2]

/-- Claim C14. Strict subset and non-empty difference: `IsSubsetStrict(a, b)` is
`IsSubset(a, b)` and not `IsSubset(b, a)`, which holds exactly when every element
of `b` is in `a` and `a` has an element outside `b`; `Sub(a, b)` holds exactly
the elements of `a` not in `b`, and when the subset is strict it is non-empty, so
its list has a first element and `RunDualDeduction` never raises the
"expected empty tiles" panic. -/
theorem strict_subset_difference (ord : Set → List Vec) (hord : IterOrder ord) (a b : Set) :
    IsSubsetStrictIter ord a b = (IsSubsetIter ord a b && !IsSubsetIter ord b a)
      ∧ IsSubsetStrictIter ord a b = IsSubsetStrict a b
      ∧ (IsSubsetStrictIter ord a b = true ↔ (∀ v ∈ b, v ∈ a) ∧ ∃ v ∈ a, v ∉ b)
      ∧ SubIter ord a b = Sub a b
      ∧ (∀ v, v ∈ SubIter ord a b ↔ v ∈ a ∧ v ∉ b)
      ∧ (IsSubsetStrictIter ord a b = true →
          (SubIter ord a b).Nonempty ∧ AsList ord (SubIter ord a b) ≠ [])
      ∧ (∀ (k : solver.Knowledge) (m n : Int),
          (k.RunDualDeduction ord ⟨m, a⟩ ⟨n, b⟩).1 ≠ .panic .expectedEmptyTiles) := by
  have hstrict : IsSubsetStrictIter ord a b = IsSubsetStrict a b := by
    unfold IsSubsetStrictIter IsSubsetStrict
    rw [isSubsetIter_eq ord hord, isSubsetIter_eq ord hord]
  have hsub := subIter_eq ord hord a b
  refine ⟨rfl, hstrict, ?_, hsub, ?_, ?_, ?_⟩
  · rw [hstrict, isSubsetStrict_iff, Finset.ssubset_def, Finset.subset_iff,
      Finset.not_subset]
  · intro v
    rw [hsub]
    exact Finset.mem_sdiff
  · intro h
    rw [hstrict] at h
    rw [hsub]
    have hne := sub_nonempty_of_strict h
    refine ⟨hne, ?_⟩
    obtain ⟨c, rest, hc, -⟩ := hord.exists_cons _ hne
    unfold AsList
    rw [hc]
    exact List.cons_ne_nil _ _
  · intro k m n h
    rcases solver.runDualDeduction_panic_cases ord hord k _ _ _ h with h1 | h1 | ⟨x, y, h1⟩
    · exact Panic.noConfusion h1
    · exact Panic.noConfusion h1
    · exact Panic.noConfusion h1

/-- Witness of C14 on `a = {T1, T2, T3}`, `b = {T2, T3}`. -/
theorem strict_subset_difference_witness :
    IsSubsetStrictIter sortedOrder {⟨0, 0⟩, ⟨0, 1⟩, ⟨1, 0⟩} {⟨0, 1⟩, ⟨1, 0⟩}
        = (IsSubsetIter sortedOrder {⟨0, 0⟩, ⟨0, 1⟩, ⟨1, 0⟩} {⟨0, 1⟩, ⟨1, 0⟩}
            && !IsSubsetIter sortedOrder {⟨0, 1⟩, ⟨1, 0⟩} {⟨0, 0⟩, ⟨0, 1⟩, ⟨1, 0⟩})
      ∧ IsSubsetStrictIter sortedOrder {⟨0, 0⟩, ⟨0, 1⟩, ⟨1, 0⟩} {⟨0, 1⟩, ⟨1, 0⟩}
          = IsSubsetStrict {⟨0, 0⟩, ⟨0, 1⟩, ⟨1, 0⟩} {⟨0, 1⟩, ⟨1, 0⟩}
      ∧ (IsSubsetStrictIter sortedOrder {⟨0, 0⟩, ⟨0, 1⟩, ⟨1, 0⟩} {⟨0, 1⟩, ⟨1, 0⟩} = true ↔
          (∀ v ∈ ({⟨0, 1⟩, ⟨1, 0⟩} : Set), v ∈ ({⟨0, 0⟩, ⟨0, 1⟩, ⟨1, 0⟩} : Set))
            ∧ ∃ v ∈ ({⟨0, 0⟩, ⟨0, 1⟩, ⟨1, 0⟩} : Set), v ∉ ({⟨0, 1⟩, ⟨1, 0⟩} : Set))
      ∧ SubIter sortedOrder {⟨0, 0⟩, ⟨0, 1⟩, ⟨1, 0⟩} {⟨0, 1⟩, ⟨1, 0⟩}
          = Sub {⟨0, 0⟩, ⟨0, 1⟩, ⟨1, 0⟩} {⟨0, 1⟩, ⟨1, 0⟩}
      ∧ (∀ v, v ∈ SubIter sortedOrder {⟨0, 0⟩, ⟨0, 1⟩, ⟨1, 0⟩} {⟨0, 1⟩, ⟨1, 0⟩} ↔
          v ∈ ({⟨0, 0⟩, ⟨0, 1⟩, ⟨1, 0⟩} : Set) ∧ v ∉ ({⟨0, 1⟩, ⟨1, 0⟩} : Set))
      ∧ (IsSubsetStrictIter sortedOrder {⟨0, 0⟩, ⟨0, 1⟩, ⟨1, 0⟩} {⟨0, 1⟩, ⟨1, 0⟩} = true →
          (SubIter sortedOrder {⟨0, 0⟩, ⟨0, 1⟩, ⟨1, 0⟩} {⟨0, 1⟩, ⟨1, 0⟩}).Nonempty
            ∧ AsList sortedOrder (SubIter sortedOrder {⟨0, 0⟩, ⟨0, 1⟩, ⟨1, 0⟩}
                {⟨0, 1⟩, ⟨1, 0⟩}) ≠ [])
      ∧ (∀ (k : solver.Knowledge) (m n : Int),
          (k.RunDualDeduction sortedOrder ⟨m, {⟨0, 0⟩, ⟨0, 1⟩, ⟨1, 0⟩}⟩
            ⟨n, {⟨0, 1⟩, ⟨1, 0⟩}⟩).1 ≠ .panic .expectedEmptyTiles) :=
  strict_subset_difference sortedOrder sortedOrder_iterOrder
    {⟨0, 0⟩, ⟨0, 1⟩, ⟨1, 0⟩} {⟨0, 1⟩, ⟨1, 0⟩}

end set

/-! ## The reverse order is an iteration order -/
namespace set

open util

theorem reverseOrder_iterOrder : IterOrder reverseOrder := by
  intro s
  obtain ⟨h1, h2⟩ := sortedOrder_iterOrder s
  constructor
  · exact List.nodup_reverse.mpr h1
  · unfold reverseOrder
    rw [List.toFinset_reverse, h2]

end set

/-! ## Unrelated facts and known facts -/
namespace solver

open util board

/-- Claim C11. No deduction without a subset relation: for facts `a`, `b` whose
cell sets are unequal and neither of which is a strict subset of the other,
`RunDualDeduction(a, b)` and `RunDualDeduction(b, a)` both return false and leave
the knowledge as it was: no fact added, the worklist and the board unchanged. -/
theorem runDualDeduction_unrelated (ord : set.Set → List Vec) (k : Knowledge) (a b : Fact)
    (hne : set.IsEqual a.tiles b.tiles = false)
    (hab : set.IsSubsetStrict a.tiles b.tiles = false)
    (hba : set.IsSubsetStrict b.tiles a.tiles = false) :
    k.RunDualDeduction ord a b = (.ret false, k)
      ∧ k.RunDualDeduction ord b a = (.ret false, k) := by
  have hne2 : set.IsEqual b.tiles a.tiles = false := by
    cases h : set.IsEqual b.tiles a.tiles with
    | false => rfl
    | true =>
      rw [set.isEqual_iff] at h
      rw [h, (set.isEqual_iff _ _).mpr rfl] at hne
      exact Bool.noConfusion hne
  constructor
  · unfold Knowledge.RunDualDeduction
    rw [if_neg (by simp [hne]), if_neg (by simp [hab])]
  · unfold Knowledge.RunDualDeduction
    rw [if_neg (by simp [hne2]), if_neg (by simp [hba])]

/-- Witness of C11: `a = (1, {T1, T2})` and `b = (1, {T2, T3})` overlap without a
subset relation. -/
theorem runDualDeduction_unrelated_witness :
    (NewKnowledge (NewBoard 2)).RunDualDeduction set.sortedOrder
        ⟨1, {⟨0, 0⟩, ⟨0, 1⟩}⟩ ⟨1, {⟨0, 1⟩, ⟨1, 0⟩}⟩ = (.ret false, NewKnowledge (NewBoard 2))
      ∧ (NewKnowledge (NewBoard 2)).RunDualDeduction set.sortedOrder
        ⟨1, {⟨0, 1⟩, ⟨1, 0⟩}⟩ ⟨1, {⟨0, 0⟩, ⟨0, 1⟩}⟩ = (.ret false, NewKnowledge (NewBoard 2)) :=
  runDualDeduction_unrelated set.sortedOrder (NewKnowledge (NewBoard 2))
    ⟨1, {⟨0, 0⟩, ⟨0, 1⟩}⟩ ⟨1, {⟨0, 1⟩, ⟨1, 0⟩}⟩ (by decide) (by decide) (by decide)

namespace Knowledge

theorem addFact_known (ord : set.Set → List Vec) (k : Knowledge) (m : Int) (s : set.Set)
    (h : k.HasFact m s = true) : k.AddFact ord m s = (.ret (), k) := by
  unfold AddFact
  rw [if_pos h]

/-- Index consistency is kept by `AddFact` on an in-bounds cell set. -/
theorem Indexed.addFact {k : Knowledge} (hk : k.Indexed) (ord : set.Set → List Vec)
    (hord : set.IterOrder ord) (m : Int) (s : set.Set)
    (hin : ∀ v ∈ s, v.X < k.b.size ∧ v.Y < k.b.size) :
    (k.AddFact ord m s).2.Indexed := by
  cases hh : k.HasFact m s with
  | true =>
    rw [addFact_known ord k m s hh]
    exact hk
  | false =>
    rw [addFact_new ord hord k m s hin hh]
    obtain ⟨h1, h2, h3, h4⟩ := hk
    have hnew : Fact.mk m s ∉ k.nodes := by
      intro hmem
      rw [(hasFact_iff k m s).mpr hmem] at hh
      exact Bool.noConfusion hh
    refine ⟨?_, ?_, ?_, ?_⟩
    · simp only
      rw [List.nodup_append]
      refine ⟨h1, List.nodup_singleton _, ?_⟩
      intro f hf hf2
      rw [List.mem_singleton] at hf2
      subst hf2
      exact hnew hf
    · intro f hf
      simp only [List.mem_append, List.mem_singleton] at hf
      rcases hf with hf | rfl
      · exact h2 f hf
      · exact hin
    · intro i j
      simp only
      rw [List.filter_append, h3 i j]
      by_cases hv : Vec.mk i j ∈ s
      · simp [hv]
      · simp [hv]
    · intro p hp
      simp only [List.mem_append, List.mem_flatMap, List.mem_map] at hp
      rcases hp with hp | ⟨v, hv, o, ho, rfl⟩
      · obtain ⟨f, g, e1, e2, e3, e4, e5⟩ := h4 p hp
        exact ⟨f, g, e1, List.mem_append_left _ e2, List.mem_append_left _ e3, e4, e5⟩
      · rw [h3 v.X v.Y, List.mem_filter] at ho
        have hvo : v ∈ o.tiles := by simpa using ho.2
        refine ⟨Fact.mk m s, o, rfl, ?_, List.mem_append_left _ ho.1, ?_, v, ?_, hvo⟩
        · simp
        · rintro rfl
          exact hnew ho.1
        · exact (hord.mem_iff s v).mp hv

theorem Built.board_eq {b : Board} {k : Knowledge} (h : Built b k) : k.b = b := by
  induction h with
  | fresh => rfl
  | add ord k m s _ _ _ ih => rw [addFact_b, ih]

/-- Every knowledge graph built by `AddFact` is index-consistent, whatever the
iteration orders of the calls. -/
theorem Built.indexed {b : Board} {k : Knowledge} (h : Built b k) : k.Indexed := by
  induction h with
  | fresh =>
    refine ⟨List.nodup_nil, ?_, ?_, ?_⟩
    · intro f hf
      exact absurd hf (List.not_mem_nil f)
    · intro i j
      rfl
    · intro p hp
      exact absurd hp (List.not_mem_nil p)
  | add ord k m s hord hk hin ih =>
    apply Indexed.addFact ih ord hord m s
    rw [hk.board_eq]
    exact hin

end Knowledge

/-- Claim C12. AddFact is a no-op on a known fact: if `k` already holds a fact with
mines `m` and a cell set equal to `S`, `AddFact(m, S)` returns the knowledge as
it was (accepted facts, per-cell index and worklist unchanged), whatever the
iteration order; consequently the accepted facts of every knowledge graph built by
`AddFact` calls, each in an iteration order of its own, are pairwise distinct. -/
theorem addFact_known_noop (ord : set.Set → List Vec) (k : Knowledge) (m : Int) (s : set.Set)
    (h : ∃ f ∈ k.nodes, f.mines = m ∧ set.IsEqual f.tiles s = true) :
    k.AddFact ord m s = (.ret (), k)
      ∧ ∀ (b : Board) (k1 : Knowledge), Knowledge.Built b k1 → k1.nodes.Nodup := by
  constructor
  · apply Knowledge.addFact_known
    unfold Knowledge.HasFact
    rw [List.any_eq_true]
    obtain ⟨f, hf, h1, h2⟩ := h
    exact ⟨f, hf, by simp [h1, h2]⟩
  · intro b k1 hk
    exact hk.indexed.1

/-- Witness of C12: `AddFact(1, {T1, T2})` on a knowledge graph that already holds
that fact. -/
theorem addFact_known_noop_witness :
    Knowledge.AddFact set.sortedOrder
        { b := NewBoard 2, nodes := [⟨1, {⟨0, 0⟩, ⟨0, 1⟩}⟩],
          tiles := fun _ _ => [⟨1, {⟨0, 0⟩, ⟨0, 1⟩}⟩], unchecked := [] }
        1 {⟨0, 0⟩, ⟨0, 1⟩}
      = (.ret (),
          { b := NewBoard 2, nodes := [⟨1, {⟨0, 0⟩, ⟨0, 1⟩}⟩],
            tiles := fun _ _ => [⟨1, {⟨0, 0⟩, ⟨0, 1⟩}⟩], unchecked := [] })
      ∧ ∀ (b : Board) (k1 : Knowledge), Knowledge.Built b k1 → k1.nodes.Nodup :=
  addFact_known_noop set.sortedOrder
    { b := NewBoard 2, nodes := [⟨1, {⟨0, 0⟩, ⟨0, 1⟩}⟩],
      tiles := fun _ _ => [⟨1, {⟨0, 0⟩, ⟨0, 1⟩}⟩], unchecked := [] }
    1 {⟨0, 0⟩, ⟨0, 1⟩}
    ⟨⟨1, {⟨0, 0⟩, ⟨0, 1⟩}⟩, List.mem_singleton.mpr rfl, rfl, by decide⟩

end solver

/-! ## Relevance of enqueued pairs -/
namespace solver

open util board

/-- Claim C18. Relevance of enqueued pairs: in a knowledge graph built by `AddFact`
from in-bounds cell sets (each call in an iteration order of its own), when
`AddFact` accepts a new fact `f`, the worklist becomes the old worklist followed
by new pairs (FIFO: the old entries keep their places ahead); for every previously accepted fact `g` the pair `[f, g]` is among
the new ones if and only if `f` and `g` share a cell; every new pair is `[f, g]`
for a previously accepted `g`, and `f` is never paired with itself. -/
theorem addFact_enqueues_relevant (ord : set.Set → List Vec) (hord : set.IterOrder ord)
    (b : Board) (k : Knowledge) (hk : Knowledge.Built b k) (m : Int) (s : set.Set)
    (hin : ∀ v ∈ s, v.X < b.size ∧ v.Y < b.size) (hnew : k.HasFact m s = false) :
    (k.AddFact ord m s).1 = .ret ()
      ∧ (k.AddFact ord m s).2.nodes = k.nodes ++ [Fact.mk m s]
      ∧ ∃ new, (k.AddFact ord m s).2.unchecked = k.unchecked ++ new
        ∧ (∀ g ∈ k.nodes, [Fact.mk m s, g] ∈ new ↔ ∃ v, v ∈ s ∧ v ∈ g.tiles)
        ∧ (∀ p ∈ new, ∃ g ∈ k.nodes, p = [Fact.mk m s, g])
        ∧ [Fact.mk m s, Fact.mk m s] ∉ new := by
  have hkb := hk.board_eq
  obtain ⟨-, -, h3, -⟩ := hk.indexed
  have hnotin : Fact.mk m s ∉ k.nodes := by
    intro hmem
    rw [(Knowledge.hasFact_iff k m s).mpr hmem] at hnew
    exact Bool.noConfusion hnew
  rw [Knowledge.addFact_new ord hord k m s (by rw [hkb]; exact hin) hnew]
  refine ⟨rfl, rfl, _, rfl, ?_, ?_, ?_⟩
  · intro g hg
    simp only [List.mem_flatMap, List.mem_map, List.cons.injEq, true_and, and_true]
    constructor
    · rintro ⟨v, hv, o, ho, rfl⟩
      rw [h3, List.mem_filter] at ho
      exact ⟨v, (hord.mem_iff s v).mp hv, by simpa using ho.2⟩
    · rintro ⟨v, hv, hvg⟩
      refine ⟨v, (hord.mem_iff s v).mpr hv, g, ?_, rfl⟩
      rw [h3, List.mem_filter]
      exact ⟨hg, by simpa using hvg⟩
  · intro p hp
    simp only [List.mem_flatMap, List.mem_map] at hp
    obtain ⟨v, -, o, ho, rfl⟩ := hp
    rw [h3, List.mem_filter] at ho
    exact ⟨o, ho.1, rfl⟩
  · intro hp
    simp only [List.mem_flatMap, List.mem_map, List.cons.injEq, true_and, and_true] at hp
    obtain ⟨v, -, o, ho, rfl⟩ := hp
    rw [h3, List.mem_filter] at ho
    exact hnotin ho.1

/-- Witness of C18: `(1, {T2, T3})` accepted in sorted order after `(1, {T1, T2})`,
which was accepted in reverse order. -/
theorem addFact_enqueues_relevant_witness :
    (((NewKnowledge (NewBoard 2)).AddFact set.reverseOrder 1 {⟨0, 0⟩, ⟨0, 1⟩}).2.AddFact
        set.sortedOrder 1 {⟨0, 1⟩, ⟨1, 0⟩}).1 = .ret ()
      ∧ (((NewKnowledge (NewBoard 2)).AddFact set.reverseOrder 1 {⟨0, 0⟩, ⟨0, 1⟩}).2.AddFact
          set.sortedOrder 1 {⟨0, 1⟩, ⟨1, 0⟩}).2.nodes
        = ((NewKnowledge (NewBoard 2)).AddFact set.reverseOrder 1 {⟨0, 0⟩, ⟨0, 1⟩}).2.nodes
            ++ [Fact.mk 1 {⟨0, 1⟩, ⟨1, 0⟩}]
      ∧ ∃ new,
        (((NewKnowledge (NewBoard 2)).AddFact set.reverseOrder 1 {⟨0, 0⟩, ⟨0, 1⟩}).2.AddFact
            set.sortedOrder 1 {⟨0, 1⟩, ⟨1, 0⟩}).2.unchecked
          = ((NewKnowledge (NewBoard 2)).AddFact set.reverseOrder 1
              {⟨0, 0⟩, ⟨0, 1⟩}).2.unchecked ++ new
        ∧ (∀ g ∈ ((NewKnowledge (NewBoard 2)).AddFact set.reverseOrder 1
              {⟨0, 0⟩, ⟨0, 1⟩}).2.nodes,
            [Fact.mk 1 {⟨0, 1⟩, ⟨1, 0⟩}, g] ∈ new ↔
              ∃ v, v ∈ ({⟨0, 1⟩, ⟨1, 0⟩} : set.Set) ∧ v ∈ g.tiles)
        ∧ (∀ p ∈ new, ∃ g ∈ ((NewKnowledge (NewBoard 2)).AddFact set.reverseOrder 1
              {⟨0, 0⟩, ⟨0, 1⟩}).2.nodes, p = [Fact.mk 1 {⟨0, 1⟩, ⟨1, 0⟩}, g])
        ∧ [Fact.mk 1 {⟨0, 1⟩, ⟨1, 0⟩}, Fact.mk 1 {⟨0, 1⟩, ⟨1, 0⟩}] ∉ new :=
  addFact_enqueues_relevant set.sortedOrder set.sortedOrder_iterOrder (NewBoard 2)
    ((NewKnowledge (NewBoard 2)).AddFact set.reverseOrder 1 {Vec.mk 0 0, Vec.mk 0 1}).2
    (Knowledge.Built.add set.reverseOrder _ 1 {Vec.mk 0 0, Vec.mk 0 1}
      set.reverseOrder_iterOrder Knowledge.Built.fresh (by decide))
    1 {Vec.mk 0 1, Vec.mk 1 0} (by decide) (by decide)

end solver

/-! ## Multiplicity of enqueued pairs -/
namespace solver

open util board

/-- Occurrences of the pair `[h, g]` among pairs that all start with `h`. -/
theorem count_pairs_map (h g : Fact) (l : List Fact) :
    (l.map fun o => [h, o]).count [h, g] = l.count g := by
  induction l with
  | nil => rfl
  | cons o t ih =>
    rw [List.map_cons, List.count_cons, List.count_cons, ih]
    by_cases hog : o = g
    · subst hog; simp
    · have : ([h, o] == [h, g]) = false := by
        rw [beq_eq_false_iff_ne]
        intro hc
        exact hog (by simpa using hc)
      rw [this, (beq_eq_false_iff_ne).mpr hog]

/-- A pair with another first component does not occur among pairs starting with `h`. -/
theorem count_pairs_map_ne (a h g : Fact) (hne : a ≠ h) (l : List Fact) :
    (l.map fun o => [h, o]).count [a, g] = 0 := by
  rw [List.count_eq_zero]
  intro hmem
  obtain ⟨o, -, ho⟩ := List.mem_map.mp hmem
  exact hne (by simpa using (congrArg List.head? ho).symm)

/-- Occurrences of `[a, g]` among the pairs enqueued for a new fact `h` over the
cells `L`: one per cell of `L` that lies in `g`, when `a = h` and `g` is accepted. -/
theorem count_new_pairs (nodes : List Fact) (hnd : nodes.Nodup) (a h g : Fact)
    (L : List Vec) :
    (L.flatMap fun v => (nodes.filter fun f => decide (v ∈ f.tiles)).map
        fun o => [h, o]).count [a, g]
      = if a = h ∧ g ∈ nodes then (L.filter fun v => decide (v ∈ g.tiles)).length else 0 := by
  induction L with
  | nil => simp
  | cons v t ih =>
    rw [List.flatMap_cons, List.count_append, ih]
    by_cases hah : a = h
    · subst hah
      rw [count_pairs_map, List.count_eq_of_nodup (hnd.filter _)]
      by_cases hg : g ∈ nodes
      · by_cases hv : v ∈ g.tiles
        · simp [hg, hv, List.filter_cons, List.mem_filter, Nat.add_comm]
        · simp [hg, hv, List.filter_cons, List.mem_filter]
      · simp [hg, List.mem_filter]
    · rw [count_pairs_map_ne a h g hah]
      simp [hah]

/-- The cells of `s` lying in `t`, counted along an iteration order. -/
theorem filter_length_eq_inter (ord : set.Set → List Vec) (hord : set.IterOrder ord)
    (s t : set.Set) :
    ((ord s).filter fun v => decide (v ∈ t)).length = (s ∩ t).card := by
  have h1 : (s ∩ t) = ((ord s).filter fun v => decide (v ∈ t)).toFinset := by
    ext v
    simp [hord.mem_iff]
  rw [h1, List.toFinset_card_of_nodup ((hord s).1.filter _)]

/-- The third scenario of C19: `(1, {T1, T2, T3})` is accepted, then `(1, {T1, T2})`,
which shares two cells with it; the worklist then holds the same pair twice. -/
theorem addFact_enqueues_pair_twice :
    (Knowledge.ofTwoFacts set.sortedOrder (NewBoard 2)
        ⟨1, {⟨0, 0⟩, ⟨0, 1⟩, ⟨1, 0⟩}⟩ ⟨1, {⟨0, 0⟩, ⟨0, 1⟩}⟩).unchecked
      = [[⟨1, {⟨0, 0⟩, ⟨0, 1⟩}⟩, ⟨1, {⟨0, 0⟩, ⟨0, 1⟩, ⟨1, 0⟩}⟩],
         [⟨1, {⟨0, 0⟩, ⟨0, 1⟩}⟩, ⟨1, {⟨0, 0⟩, ⟨0, 1⟩, ⟨1, 0⟩}⟩]]
    ∧ (Knowledge.ofTwoFacts set.sortedOrder (NewBoard 2)
        ⟨1, {⟨0, 0⟩, ⟨0, 1⟩, ⟨1, 0⟩}⟩ ⟨1, {⟨0, 0⟩, ⟨0, 1⟩}⟩).unchecked.count
          [⟨1, {⟨0, 0⟩, ⟨0, 1⟩}⟩, ⟨1, {⟨0, 0⟩, ⟨0, 1⟩, ⟨1, 0⟩}⟩] = 2 := by
  decide

/-- Claim C19, amended. In every knowledge graph built from a fresh one by `AddFact`
calls on in-bounds cell sets (each call in an iteration order of its own), the
number of times the unordered pair of two facts occurs in the worklist (in either
orientation) is the number of cells the two facts share when both are accepted and
distinct, and zero otherwise. A pair is therefore enqueued more than once exactly
when the two facts share several cells. -/
theorem addFact_pair_multiplicity (b : Board) (k : Knowledge) (hk : Knowledge.Built b k)
    (f g : Fact) :
    k.unchecked.count [f, g] + k.unchecked.count [g, f]
      = if f ∈ k.nodes ∧ g ∈ k.nodes ∧ f ≠ g then (f.tiles ∩ g.tiles).card else 0 := by
  induction hk with
  | fresh => simp [NewKnowledge]
  | add ord k m s hord hk hin ih =>
    by_cases hhas : k.HasFact m s = true
    · rw [Knowledge.addFact_known ord k m s hhas]
      exact ih
    · have hhas2 : k.HasFact m s = false := by simpa using hhas
      have hkb := hk.board_eq
      obtain ⟨hnd, -, h3, -⟩ := hk.indexed
      have hnotin : Fact.mk m s ∉ k.nodes := fun hmem =>
        hhas ((Knowledge.hasFact_iff k m s).mpr hmem)
      have htiles : (fun v : Vec => (k.tiles v.X v.Y).map fun o => [Fact.mk m s, o])
          = fun v => (k.nodes.filter fun f => decide (v ∈ f.tiles)).map
              fun o => [Fact.mk m s, o] := by
        funext v
        rw [h3]
      rw [Knowledge.addFact_new ord hord k m s (by rw [hkb]; exact hin) hhas2]
      simp only [List.count_append, htiles, count_new_pairs k.nodes hnd,
        filter_length_eq_inter ord hord, List.mem_append, List.mem_singleton]
      by_cases hf : f = Fact.mk m s
      · by_cases hg : g = Fact.mk m s
        · subst hf hg
          simp [hnotin] at ih ⊢
          omega
        · subst hf
          have hg2 : ¬ Fact.mk m s = g := fun h => hg h.symm
          simp [hnotin, hg, hg2] at ih ⊢
          by_cases hgn : g ∈ k.nodes
          · simp [hgn, ih]
          · simp [hgn, ih]
      · by_cases hg : g = Fact.mk m s
        · subst hg
          simp [hnotin, hf] at ih ⊢
          by_cases hfn : f ∈ k.nodes
          · simp [hfn, ih, Finset.inter_comm]
          · simp [hfn, ih]
        · simp [hf, hg, ih]

/-- Witness of C19: `(1, {T1, T2, T3})` accepted in reverse order, then `(1, {T1, T2})`
in sorted order; the two facts share two cells and their pair occurs twice. -/
theorem addFact_pair_multiplicity_witness :
    (((NewKnowledge (NewBoard 2)).AddFact set.reverseOrder 1
          {⟨0, 0⟩, ⟨0, 1⟩, ⟨1, 0⟩}).2.AddFact set.sortedOrder 1
          {⟨0, 0⟩, ⟨0, 1⟩}).2.unchecked.count
        [⟨1, {⟨0, 0⟩, ⟨0, 1⟩}⟩, ⟨1, {⟨0, 0⟩, ⟨0, 1⟩, ⟨1, 0⟩}⟩]
      + (((NewKnowledge (NewBoard 2)).AddFact set.reverseOrder 1
          {⟨0, 0⟩, ⟨0, 1⟩, ⟨1, 0⟩}).2.AddFact set.sortedOrder 1
          {⟨0, 0⟩, ⟨0, 1⟩}).2.unchecked.count
        [⟨1, {⟨0, 0⟩, ⟨0, 1⟩, ⟨1, 0⟩}⟩, ⟨1, {⟨0, 0⟩, ⟨0, 1⟩}⟩]
      = if (⟨1, {⟨0, 0⟩, ⟨0, 1⟩}⟩ : Fact) ∈
            (((NewKnowledge (NewBoard 2)).AddFact set.reverseOrder 1
              {⟨0, 0⟩, ⟨0, 1⟩, ⟨1, 0⟩}).2.AddFact set.sortedOrder 1
              {⟨0, 0⟩, ⟨0, 1⟩}).2.nodes
          ∧ (⟨1, {⟨0, 0⟩, ⟨0, 1⟩, ⟨1, 0⟩}⟩ : Fact) ∈
            (((NewKnowledge (NewBoard 2)).AddFact set.reverseOrder 1
              {⟨0, 0⟩, ⟨0, 1⟩, ⟨1, 0⟩}).2.AddFact set.sortedOrder 1
              {⟨0, 0⟩, ⟨0, 1⟩}).2.nodes
          ∧ (⟨1, {⟨0, 0⟩, ⟨0, 1⟩}⟩ : Fact) ≠ ⟨1, {⟨0, 0⟩, ⟨0, 1⟩, ⟨1, 0⟩}⟩
        then ((⟨1, {⟨0, 0⟩, ⟨0, 1⟩}⟩ : Fact).tiles
          ∩ (⟨1, {⟨0, 0⟩, ⟨0, 1⟩, ⟨1, 0⟩}⟩ : Fact).tiles).card else 0 :=
  addFact_pair_multiplicity (NewBoard 2)
    (((NewKnowledge (NewBoard 2)).AddFact set.reverseOrder 1
      {Vec.mk 0 0, Vec.mk 0 1, Vec.mk 1 0}).2.AddFact set.sortedOrder 1
      {Vec.mk 0 0, Vec.mk 0 1}).2
    (Knowledge.Built.add set.sortedOrder _ 1 {Vec.mk 0 0, Vec.mk 0 1}
      set.sortedOrder_iterOrder
      (Knowledge.Built.add set.reverseOrder _ 1 {Vec.mk 0 0, Vec.mk 0 1, Vec.mk 1 0}
        set.reverseOrder_iterOrder Knowledge.Built.fresh (by decide)) (by decide))
    (Fact.mk 1 {Vec.mk 0 0, Vec.mk 0 1}) (Fact.mk 1 {Vec.mk 0 0, Vec.mk 0 1, Vec.mk 1 0})

end solver

/-! ## Seeding on two concrete boards -/
namespace solver

open util board

/-- Claim C16, counterexample. On the 3 x 3 board with one mine in the centre and (0,0)
revealed, the first three stages of `Pass` take no action, and the seeding loop of
`deduce` leaves exactly one fact, the one of the number shown at (0,0): the global
fact (one unflagged mine among the eight unflagged unrevealed cells) is not among
the accepted facts. -/
theorem deduce_seeds_no_global_fact :
    boardCentreMine.HasReveals = true
      ∧ (revealIfFresh boardCentreMine).1 = .ret false
      ∧ (findObviousMines boardCentreMine).1 = .ret false
      ∧ (findObiousEmpty boardCentreMine).1 = .ret false
      ∧ (seedKnowledge set.sortedOrder boardCentreMine).1 = .ret ()
      ∧ (seedKnowledge set.sortedOrder boardCentreMine).2.nodes
          = [⟨1, {⟨0, 1⟩, ⟨1, 0⟩, ⟨1, 1⟩}⟩]
      ∧ (globalFact boardCentreMine).mines = 1
      ∧ (globalFact boardCentreMine).tiles
          = {⟨0, 1⟩, ⟨0, 2⟩, ⟨1, 0⟩, ⟨1, 1⟩, ⟨1, 2⟩, ⟨2, 0⟩, ⟨2, 1⟩, ⟨2, 2⟩}
      ∧ (seedKnowledge set.sortedOrder boardCentreMine).2.HasFact
          (globalFact boardCentreMine).mines (globalFact boardCentreMine).tiles = false := by
  refine ⟨by decide, by decide, by decide, by decide, by decide, by decide, by decide,
    by decide, by decide⟩

/-- Claim C17, evaluated. On the 3 x 3 board with a mine at (0,1), flags on (0,0)
and (2,0), and (2,0) revealed afterwards, the first three stages of `Pass` take no
action; the revealed cell (1,0) shows 1 and has the unrevealed unflagged neighbour
(0,1), yet it has two unrevealed and two flagged neighbours, so the seeding loop of
`deduce` inserts no fact for it: the accepted facts are those of (1,1) and (1,2). -/
theorem deduce_skips_cell_with_unknown_neighbour :
    (revealIfFresh boardFlagRevealed).1 = .ret false
      ∧ (findObviousMines boardFlagRevealed).1 = .ret false
      ∧ (findObiousEmpty boardFlagRevealed).1 = .ret false
      ∧ boardFlagRevealed.Revealed 1 0 = true
      ∧ boardFlagRevealed.GetNumNeighbors 1 0 = 1
      ∧ set.Sub (unrevealedNeighbors boardFlagRevealed 1 0)
          (flaggedNeighbors boardFlagRevealed 1 0) = {⟨0, 1⟩}
      ∧ set.Size (unrevealedNeighbors boardFlagRevealed 1 0) = 2
      ∧ set.Size (flaggedNeighbors boardFlagRevealed 1 0) = 2
      ∧ (seedFact boardFlagRevealed 1 0).mines = -1
      ∧ (seedFact boardFlagRevealed 1 0).tiles = {⟨0, 1⟩}
      ∧ (seedKnowledge set.sortedOrder boardFlagRevealed).1 = .ret ()
      ∧ (seedKnowledge set.sortedOrder boardFlagRevealed).2.nodes
          = [⟨-1, {⟨0, 1⟩, ⟨0, 2⟩}⟩, ⟨1, {⟨0, 1⟩, ⟨0, 2⟩}⟩]
      ∧ (seedKnowledge set.sortedOrder boardFlagRevealed).2.HasFact
          (seedFact boardFlagRevealed 1 0).mines (seedFact boardFlagRevealed 1 0).tiles
          = false := by
  refine ⟨by decide, by decide, by decide, by decide, by decide, by decide, by decide,
    by decide, by decide, by decide, by decide, by decide, by decide⟩

end solver

/-! ## Seeding of numbered cells -/
namespace solver

open util board

/-- The accepted facts after the seeding loop over the cells `l`: the facts accepted
before, and the fact of every listed cell that passes the test of the loop. -/
theorem seedFrom_nodes (ord : set.Set → List Vec) (hord : set.IterOrder ord) (b : Board)
    (l : List (Nat × Nat)) (hl : ∀ p ∈ l, p.1 < b.size ∧ p.2 < b.size)
    (k : Knowledge) (hkb : k.b = b) :
    ∃ k1, seedFrom ord l k = (.ret (), k1) ∧ k1.b = b ∧
      ∀ f, f ∈ k1.nodes ↔
        f ∈ k.nodes ∨ ∃ p ∈ l, seedCond b p.1 p.2 ∧ f = seedFact b p.1 p.2 := by
  induction l generalizing k with
  | nil => exact ⟨k, rfl, hkb, fun f => by simp⟩
  | cons p rest ih =>
    obtain ⟨x, y⟩ := p
    have hp := hl (x, y) (List.mem_cons_self _ _)
    have hstep : ∃ k1, seedCell ord k x y = (.ret (), k1) ∧ k1.b = b ∧
        ∀ f, f ∈ k1.nodes ↔ f ∈ k.nodes ∨ (seedCond b x y ∧ f = seedFact b x y) := by
      subst hkb
      by_cases hc : seedCond k.b x y
      · rw [(seedCell_eq ord k x y).1 hc]
        refine ⟨(k.AddFact ord (seedFact k.b x y).mines (seedFact k.b x y).tiles).2,
          Prod.ext ?_ rfl, Knowledge.addFact_b _ _ _ _, ?_⟩
        · exact Knowledge.addFact_ok ord hord k _ _
            (fun v hv => (seedFact_hidden k.b x y hp.1 hp.2 v hv).1)
        · intro f
          rw [Knowledge.addFact_nodes]
          by_cases hhas : k.HasFact (seedFact k.b x y).mines (seedFact k.b x y).tiles = true
          · rw [if_pos hhas]
            have hmem := (Knowledge.hasFact_iff k _ _).mp hhas
            constructor
            · exact fun h => Or.inl h
            · rintro (h | ⟨-, rfl⟩)
              · exact h
              · exact hmem
          · rw [if_neg hhas, List.mem_append, List.mem_singleton]
            constructor
            · rintro (h | h)
              · exact Or.inl h
              · exact Or.inr ⟨hc, h⟩
            · rintro (h | ⟨-, h⟩)
              · exact Or.inl h
              · exact Or.inr h
      · rw [(seedCell_eq ord k x y).2 hc]
        exact ⟨k, rfl, rfl, fun f => by simp [hc]⟩
    obtain ⟨k1, h1, h2, h3⟩ := hstep
    obtain ⟨k2, e1, e2, e3⟩ := ih (fun q hq => hl q (List.mem_cons_of_mem _ hq)) k1 h2
    refine ⟨k2, ?_, e2, ?_⟩
    · simp only [seedFrom, h1]
      exact e1
    · intro f
      rw [e3, h3]
      simp only [List.mem_cons, exists_eq_or_imp, or_assoc]

/-- The fact seeded for a cell, in terms of the neighbour list: its number minus the
count of its flagged neighbours, over its unrevealed unflagged neighbours. -/
theorem seedFact_eq (b : Board) (x y : Nat) :
    seedFact b x y
      = ⟨b.GetNumNeighbors x y
          - (((GetNeighbors x y b.GetSize).countP fun v => b.HasFlag v.X v.Y : Nat) : Int),
        set.FromList ((GetNeighbors x y b.GetSize).filter
          fun v => !b.Revealed v.X v.Y && !b.HasFlag v.X v.Y)⟩ := by
  unfold seedFact
  congr 1
  · congr 2
    unfold flaggedNeighbors set.Size set.FromList
    rw [List.toFinset_card_of_nodup ((GetNeighbors_nodup _ _ _).filter _),
      List.countP_eq_length_filter]
  · ext v
    simp only [set.Sub, unrevealedNeighbors, flaggedNeighbors, set.FromList, Finset.mem_sdiff,
      List.mem_toFinset, List.mem_filter, Bool.and_eq_true, Bool.not_eq_true']
    constructor
    · rintro ⟨⟨h1, h2⟩, h3⟩
      refine ⟨h1, h2, ?_⟩
      cases hf : b.HasFlag v.X v.Y
      · rfl
      · exact absurd ⟨h1, hf⟩ h3
    · rintro ⟨h1, h2, h3⟩
      exact ⟨⟨h1, h2⟩, fun h => by rw [h3] at h; exact Bool.noConfusion h.2⟩

/-- On a cell none of whose flagged neighbours is revealed, the test of the seeding
loop (more unrevealed than flagged neighbours) holds exactly when the cell has an
unrevealed unflagged neighbour. -/
theorem seedCond_iff (b : Board) (x y : Nat)
    (hflags : ∀ v ∈ GetNeighbors x y b.GetSize,
      b.HasFlag v.X v.Y = true → b.Revealed v.X v.Y = false) :
    seedCond b x y ↔
      b.Revealed x y = true ∧ b.GetNumNeighbors x y > 0 ∧
        ∃ v ∈ GetNeighbors x y b.GetSize,
          b.Revealed v.X v.Y = false ∧ b.HasFlag v.X v.Y = false := by
  have hsub : flaggedNeighbors b x y ⊆ unrevealedNeighbors b x y := by
    intro v hv
    simp only [unrevealedNeighbors, flaggedNeighbors, set.FromList, List.mem_toFinset,
      List.mem_filter, Bool.not_eq_true'] at hv ⊢
    exact ⟨hv.1, hflags v hv.1 hv.2⟩
  have hcard : set.Size (unrevealedNeighbors b x y) > set.Size (flaggedNeighbors b x y) ↔
      ∃ v ∈ GetNeighbors x y b.GetSize,
        b.Revealed v.X v.Y = false ∧ b.HasFlag v.X v.Y = false := by
    unfold set.Size
    have h1 := Finset.card_sdiff hsub
    have h2 := Finset.card_le_card hsub
    have h3 : (unrevealedNeighbors b x y \ flaggedNeighbors b x y).Nonempty ↔
        ∃ v ∈ GetNeighbors x y b.GetSize,
          b.Revealed v.X v.Y = false ∧ b.HasFlag v.X v.Y = false := by
      constructor
      · rintro ⟨v, hv⟩
        simp only [unrevealedNeighbors, flaggedNeighbors, set.FromList, Finset.mem_sdiff,
          List.mem_toFinset, List.mem_filter, Bool.not_eq_true', not_and,
          Bool.not_eq_true] at hv
        exact ⟨v, hv.1.1, hv.1.2, hv.2 hv.1.1⟩
      · rintro ⟨v, h1, h2, h3⟩
        refine ⟨v, ?_⟩
        simp only [unrevealedNeighbors, flaggedNeighbors, set.FromList, Finset.mem_sdiff,
          List.mem_toFinset, List.mem_filter, Bool.not_eq_true', not_and,
          Bool.not_eq_true]
        exact ⟨⟨h1, h2⟩, fun _ => h3⟩
    rw [← h3, ← Finset.card_pos, h1]
    omega
  unfold seedCond
  rw [hcard]

/-- Claim C17, amended. Seeding of numbered cells on a board where no flagged cell
is revealed: the seeding loop of `deduce` returns, leaves the board unchanged, and
the facts it accepts are exactly the facts (its number minus the count of its flagged
neighbours, the set of its unrevealed unflagged neighbours) of the revealed cells
with a positive neighbour-mine count that have at least one unrevealed unflagged
neighbour; it inserts no other fact. -/
theorem seedKnowledge_numbered_cells (ord : set.Set → List Vec) (hord : set.IterOrder ord)
    (b : Board)
    (hflags : ∀ x, x < b.size → ∀ y, y < b.size →
      b.HasFlag x y = true → b.Revealed x y = false) :
    (seedKnowledge ord b).1 = .ret () ∧ (seedKnowledge ord b).2.b = b ∧
      ∀ f, f ∈ (seedKnowledge ord b).2.nodes ↔
        ∃ x y, x < b.size ∧ y < b.size ∧ b.Revealed x y = true ∧ b.GetNumNeighbors x y > 0 ∧
          (∃ v ∈ GetNeighbors x y b.GetSize,
            b.Revealed v.X v.Y = false ∧ b.HasFlag v.X v.Y = false) ∧
          f = ⟨b.GetNumNeighbors x y
                - (((GetNeighbors x y b.GetSize).countP fun v => b.HasFlag v.X v.Y : Nat) : Int),
              set.FromList ((GetNeighbors x y b.GetSize).filter
                fun v => !b.Revealed v.X v.Y && !b.HasFlag v.X v.Y)⟩ := by
  obtain ⟨k1, h1, h2, h3⟩ := seedFrom_nodes ord hord b (scanCells b.GetSize)
    (fun p hp => (mem_scanCells _ _ _).mp hp) (NewKnowledge b) rfl
  unfold seedKnowledge
  rw [h1]
  refine ⟨rfl, h2, ?_⟩
  intro f
  rw [h3]
  simp only [NewKnowledge, List.not_mem_nil, false_or]
  constructor
  · rintro ⟨⟨x, y⟩, hp, hc, rfl⟩
    obtain ⟨hx, hy⟩ := (mem_scanCells _ _ _).mp hp
    have hloc : ∀ v ∈ GetNeighbors x y b.GetSize,
        b.HasFlag v.X v.Y = true → b.Revealed v.X v.Y = false := fun v hv =>
      hflags v.X (GetNeighbors_inBounds hx hy hv).1 v.Y (GetNeighbors_inBounds hx hy hv).2
    obtain ⟨c1, c2, c3⟩ := (seedCond_iff b x y hloc).mp hc
    exact ⟨x, y, hx, hy, c1, c2, c3, seedFact_eq b x y⟩
  · rintro ⟨x, y, hx, hy, c1, c2, c3, rfl⟩
    have hloc : ∀ v ∈ GetNeighbors x y b.GetSize,
        b.HasFlag v.X v.Y = true → b.Revealed v.X v.Y = false := fun v hv =>
      hflags v.X (GetNeighbors_inBounds hx hy hv).1 v.Y (GetNeighbors_inBounds hx hy hv).2
    exact ⟨(x, y), (mem_scanCells _ _ _).mpr ⟨hx, hy⟩,
      (seedCond_iff b x y hloc).mpr ⟨c1, c2, c3⟩, (seedFact_eq b x y).symm⟩

/-- Witness of C17: the 3 x 3 board with a mine in the centre and (0,0) revealed has
no flags at all; the fact `(1, {(0,1), (1,0), (1,1)})` of the cell (0,0) is accepted. -/
theorem seedKnowledge_numbered_cells_witness :
    (∀ x, x < boardCentreMine.size → ∀ y, y < boardCentreMine.size →
        boardCentreMine.HasFlag x y = true → boardCentreMine.Revealed x y = false)
      ∧ (seedKnowledge set.sortedOrder boardCentreMine).1 = .ret ()
      ∧ (seedKnowledge set.sortedOrder boardCentreMine).2.b = boardCentreMine
      ∧ ((⟨1, {⟨0, 1⟩, ⟨1, 0⟩, ⟨1, 1⟩}⟩ : Fact)
            ∈ (seedKnowledge set.sortedOrder boardCentreMine).2.nodes ↔
          ∃ x y, x < boardCentreMine.size ∧ y < boardCentreMine.size ∧
            boardCentreMine.Revealed x y = true ∧ boardCentreMine.GetNumNeighbors x y > 0 ∧
            (∃ v ∈ GetNeighbors x y boardCentreMine.GetSize,
              boardCentreMine.Revealed v.X v.Y = false
                ∧ boardCentreMine.HasFlag v.X v.Y = false) ∧
            (⟨1, {⟨0, 1⟩, ⟨1, 0⟩, ⟨1, 1⟩}⟩ : Fact)
              = ⟨boardCentreMine.GetNumNeighbors x y
                  - (((GetNeighbors x y boardCentreMine.GetSize).countP
                      fun v => boardCentreMine.HasFlag v.X v.Y : Nat) : Int),
                set.FromList ((GetNeighbors x y boardCentreMine.GetSize).filter
                  fun v => !boardCentreMine.Revealed v.X v.Y
                    && !boardCentreMine.HasFlag v.X v.Y)⟩) :=
  ⟨by decide,
    (seedKnowledge_numbered_cells set.sortedOrder set.sortedOrder_iterOrder boardCentreMine
      (by decide)).1,
    (seedKnowledge_numbered_cells set.sortedOrder set.sortedOrder_iterOrder boardCentreMine
      (by decide)).2.1,
    (seedKnowledge_numbered_cells set.sortedOrder set.sortedOrder_iterOrder boardCentreMine
      (by decide)).2.2 (Fact.mk 1 {Vec.mk 0 1, Vec.mk 1 0, Vec.mk 1 1})⟩

end solver

/-! ## Seeding holds the facts of the visible numbers -/
namespace solver

open util board

/-- Claim C16, amended. Seeding holds the facts of the visible numbers and no global
fact of its own: on every board the seeding loop of `deduce` returns, and the facts it
accepts are exactly the facts (its number minus the count of its flagged neighbours,
the set of its unrevealed neighbours that are not flagged) of the revealed cells with
a positive neighbour-mine count and more unrevealed than flagged neighbours; the
global fact (the number of unflagged mines, the set of all unflagged unrevealed
cells) is among them exactly when it is the fact of such a cell. -/
theorem seedKnowledge_number_facts (ord : set.Set → List Vec) (hord : set.IterOrder ord)
    (b : Board) :
    (seedKnowledge ord b).1 = .ret ()
      ∧ (∀ f, f ∈ (seedKnowledge ord b).2.nodes ↔
          ∃ x y, x < b.size ∧ y < b.size ∧ seedCond b x y ∧ f = seedFact b x y)
      ∧ ((seedKnowledge ord b).2.HasFact (globalFact b).mines (globalFact b).tiles = true ↔
          ∃ x y, x < b.size ∧ y < b.size ∧ seedCond b x y ∧ globalFact b = seedFact b x y) := by
  obtain ⟨k1, h1, -, h3⟩ := seedFrom_nodes ord hord b (scanCells b.GetSize)
    (fun p hp => (mem_scanCells _ _ _).mp hp) (NewKnowledge b) rfl
  have hnodes : ∀ f, f ∈ k1.nodes ↔
      ∃ x y, x < b.size ∧ y < b.size ∧ seedCond b x y ∧ f = seedFact b x y := by
    intro f
    rw [h3]
    simp only [NewKnowledge, List.not_mem_nil, false_or]
    constructor
    · rintro ⟨⟨x, y⟩, hp, hc, rfl⟩
      obtain ⟨hx, hy⟩ := (mem_scanCells _ _ _).mp hp
      exact ⟨x, y, hx, hy, hc, rfl⟩
    · rintro ⟨x, y, hx, hy, hc, rfl⟩
      exact ⟨(x, y), (mem_scanCells _ _ _).mpr ⟨hx, hy⟩, hc, rfl⟩
  unfold seedKnowledge
  rw [h1]
  refine ⟨rfl, hnodes, ?_⟩
  rw [Knowledge.hasFact_iff]
  exact hnodes (globalFact b)

/-- Witness of C16: on the 2 x 2 board with a mine at (1,1) and (0,0) revealed, the
fact of the number at (0,0) is the global fact, and it is accepted. -/
theorem seedKnowledge_number_facts_witness :
    (seedKnowledge set.sortedOrder boardStuck).2.HasFact (globalFact boardStuck).mines
        (globalFact boardStuck).tiles = true
      ∧ (seedKnowledge set.sortedOrder boardStuck).1 = .ret ()
      ∧ (∀ f, f ∈ (seedKnowledge set.sortedOrder boardStuck).2.nodes ↔
          ∃ x y, x < boardStuck.size ∧ y < boardStuck.size ∧ seedCond boardStuck x y
            ∧ f = seedFact boardStuck x y)
      ∧ ((seedKnowledge set.sortedOrder boardStuck).2.HasFact (globalFact boardStuck).mines
            (globalFact boardStuck).tiles = true ↔
          ∃ x y, x < boardStuck.size ∧ y < boardStuck.size ∧ seedCond boardStuck x y
            ∧ globalFact boardStuck = seedFact boardStuck x y) :=
  ⟨by decide, seedKnowledge_number_facts set.sortedOrder set.sortedOrder_iterOrder boardStuck⟩

end solver

/-! ## Shuffle -/
namespace util

/-- Swapping the head with itself changes nothing. -/
theorem swapAt_zero_zero {T : Type} (x : T) (t : List T) : swapAt (x :: t) 0 0 = x :: t := by
  simp [swapAt]

/-- Swapping the head with a later entry. -/
theorem swapAt_zero_succ {T : Type} (x y : T) (t : List T) (j : Nat) (h : t[j]? = some y) :
    swapAt (x :: t) 0 (j + 1) = y :: t.set j x := by
  simp [swapAt, h]

/-- A swap of two entries behind the head leaves the head in place. -/
theorem swapAt_succ_succ {T : Type} (x : T) (t : List T) (i j : Nat) :
    swapAt (x :: t) (i + 1) (j + 1) = x :: swapAt t i j := by
  unfold swapAt
  simp only [List.getElem?_cons_succ]
  cases t[i]? <;> cases t[j]? <;> simp

theorem set_perm_cons {T : Type} (x y : T) (t : List T) (j : Nat) (h : t[j]? = some y) :
    (y :: t.set j x).Perm (x :: t) := by
  induction t generalizing j with
  | nil => simp at h
  | cons a r ih =>
    cases j with
    | zero =>
      simp only [List.getElem?_cons_zero, Option.some.injEq] at h
      subst h
      exact List.Perm.swap _ _ _
    | succ j =>
      simp only [List.getElem?_cons_succ] at h
      simp only [List.set_cons_succ]
      exact (List.Perm.swap a y _).trans (((ih j h).cons a).trans (List.Perm.swap x a r))

/-- The first iteration of the loop: the entry at index `j` comes to the front, and
what follows is a list of the remaining entries. -/
theorem swapAt_head {T : Type} (x : T) (t : List T) (j : Nat) (hj : j < (x :: t).length) :
    ∃ y s, swapAt (x :: t) 0 j = y :: s ∧ (x :: t)[j]? = some y ∧ s.length = t.length
      ∧ (y :: s).Perm (x :: t) := by
  cases j with
  | zero => exact ⟨x, t, swapAt_zero_zero x t, by simp, rfl, List.Perm.refl _⟩
  | succ j =>
    have hj2 : j < t.length := by simpa using hj
    have hget : t[j]? = some t[j] := List.getElem?_eq_getElem hj2
    exact ⟨t[j], t.set j x, swapAt_zero_succ x _ t j hget, by simp [hget], by simp,
      set_perm_cons x _ t j hget⟩

/-- Behind the head the loop runs as on the tail, with the draws shifted by one. -/
theorem shuffleLoop_cons {T : Type} (draws : Nat → Nat) (k i : Nat) (x : T) (s : List T) :
    shuffleLoop draws k (i + 1) (x :: s)
      = x :: shuffleLoop (fun m => draws (m + 1)) k i s := by
  induction k generalizing i s with
  | zero => rfl
  | succ k ih =>
    simp only [shuffleLoop]
    rw [show draws (i + 1) + (i + 1) = (draws (i + 1) + i) + 1 from by omega,
      swapAt_succ_succ, ih]

/-- One iteration of the loop on a list with at least two entries. -/
theorem shuffleLoop_step {T : Type} (draws : Nat → Nat) (k : Nat) (l : List T) :
    shuffleLoop draws (k + 1) 0 l
      = shuffleLoop draws k 1 (swapAt l 0 (draws 0)) := by
  simp only [shuffleLoop, Nat.add_zero, Nat.zero_add]

theorem shuffleLoop_perm {T : Type} (k : Nat) (l : List T) (hl : l.length = k + 1)
    (draws : Nat → Nat) (hd : ∀ i, i < k → draws i < k + 1 - i) :
    (shuffleLoop draws k 0 l).Perm l := by
  induction k generalizing l draws with
  | zero => exact List.Perm.refl _
  | succ k ih =>
    obtain ⟨x, t, rfl⟩ := List.exists_cons_of_length_eq_add_one hl
    have h0 : draws 0 < (x :: t).length := by
      have := hd 0 (Nat.succ_pos k)
      rw [hl]; omega
    obtain ⟨y, s, hs, -, hlen, hperm⟩ := swapAt_head x t (draws 0) h0
    rw [shuffleLoop_step, hs, shuffleLoop_cons]
    have hsl : s.length = k + 1 := by
      rw [hlen]; simpa using hl
    have := ih s hsl (fun m => draws (m + 1)) (fun i hi => by
      have := hd (i + 1) (by omega)
      show draws (i + 1) < k + 1 - i
      omega)
    exact (this.cons y).trans hperm

theorem shuffleLoop_surj {T : Type} (k : Nat) (l : List T) (hl : l.length = k + 1)
    (hnd : l.Nodup) (p : List T) (hp : p.Perm l) :
    ∃ draws : Nat → Nat, (∀ i, i < k → draws i < k + 1 - i) ∧ shuffleLoop draws k 0 l = p := by
  induction k generalizing l p with
  | zero =>
    refine ⟨fun _ => 0, fun i hi => absurd hi (Nat.not_lt_zero i), ?_⟩
    obtain ⟨x, t, rfl⟩ := List.exists_cons_of_length_eq_add_one hl
    have ht : t = [] := List.eq_nil_of_length_eq_zero (by simpa using hl)
    subst ht
    exact (List.perm_singleton.mp hp).symm
  | succ k ih =>
    obtain ⟨x, t, rfl⟩ := List.exists_cons_of_length_eq_add_one hl
    have hpl : p.length = k + 1 + 1 := by rw [hp.length_eq, hl]
    obtain ⟨y, q, rfl⟩ := List.exists_cons_of_length_eq_add_one hpl
    have hy : y ∈ x :: t := hp.subset (List.mem_cons_self y q)
    obtain ⟨j, hj⟩ := List.getElem?_of_mem hy
    have hjlt : j < (x :: t).length := by
      by_contra hge
      rw [List.getElem?_eq_none (by omega)] at hj
      exact Option.noConfusion hj
    obtain ⟨y1, s, hs, hget, hlen, hperm⟩ := swapAt_head x t j hjlt
    have hy1 : y1 = y := by
      rw [hj] at hget
      exact (Option.some.inj hget).symm
    subst hy1
    have hqs : q.Perm s := (hp.trans hperm.symm).cons_inv
    have hsl : s.length = k + 1 := by
      rw [hlen]; simpa using hl
    have hsnd : s.Nodup := ((hperm.nodup_iff).mpr hnd).of_cons
    obtain ⟨d, hd, hres⟩ := ih s hsl hsnd q hqs
    refine ⟨fun i => if i = 0 then j else d (i - 1), ?_, ?_⟩
    · intro i hi
      cases i with
      | zero =>
        simp only [if_true]
        rw [hl] at hjlt
        omega
      | succ i =>
        simp only [Nat.succ_ne_zero, if_false, Nat.add_sub_cancel]
        have := hd i (by omega)
        omega
    · rw [shuffleLoop_step]
      simp only [if_true]
      rw [hs, shuffleLoop_cons]
      simp only [Nat.succ_ne_zero, if_false, Nat.add_sub_cancel]
      rw [hres]

theorem shuffleLoop_inj {T : Type} (k : Nat) (l : List T) (hl : l.length = k + 1)
    (hnd : l.Nodup) (d1 d2 : Nat → Nat) (h1 : ∀ i, i < k → d1 i < k + 1 - i)
    (h2 : ∀ i, i < k → d2 i < k + 1 - i)
    (heq : shuffleLoop d1 k 0 l = shuffleLoop d2 k 0 l) : ∀ i, i < k → d1 i = d2 i := by
  induction k generalizing l d1 d2 with
  | zero => exact fun i hi => absurd hi (Nat.not_lt_zero i)
  | succ k ih =>
    obtain ⟨x, t, rfl⟩ := List.exists_cons_of_length_eq_add_one hl
    have hb1 : d1 0 < (x :: t).length := by
      have := h1 0 (Nat.succ_pos k)
      rw [hl]; omega
    have hb2 : d2 0 < (x :: t).length := by
      have := h2 0 (Nat.succ_pos k)
      rw [hl]; omega
    obtain ⟨y1, s1, hs1, hg1, hlen1, hperm1⟩ := swapAt_head x t (d1 0) hb1
    obtain ⟨y2, s2, hs2, hg2, -, -⟩ := swapAt_head x t (d2 0) hb2
    rw [shuffleLoop_step, shuffleLoop_step, hs1, hs2, shuffleLoop_cons, shuffleLoop_cons] at heq
    obtain ⟨hy, hrest⟩ := List.cons.inj heq
    subst hy
    have h0 : d1 0 = d2 0 := List.getElem?_inj hb1 hnd (hg1.trans hg2.symm)
    have hss : s1 = s2 := by
      rw [h0, hs2] at hs1
      exact (List.cons.inj hs1).2.symm
    subst hss
    have hsl : s1.length = k + 1 := by
      rw [hlen1]; simpa using hl
    have hsnd : s1.Nodup := ((hperm1.nodup_iff).mpr hnd).of_cons
    have hrec := ih s1 hsl hsnd (fun m => d1 (m + 1)) (fun m => d2 (m + 1))
      (fun i hi => by
        have := h1 (i + 1) (by omega)
        show d1 (i + 1) < k + 1 - i
        omega)
      (fun i hi => by
        have := h2 (i + 1) (by omega)
        show d2 (i + 1) < k + 1 - i
        omega) hrest
    intro i hi
    cases i with
    | zero => exact h0
    | succ i => exact hrec i (by omega)

/-- Claim C15. Shuffle is an unbiased permutation: for every list `l` of distinct
elements, with `draws i` the value that `rand.Intn(len(l)-i)` returns at iteration
`i` (so `j = draws i + i` lies in `[i, n)`), `Shuffle` leaves `l` itself unchanged and
returns a permutation of `l`; every permutation of `l` is returned for some admissible
draw sequence, and two admissible draw sequences with the same result agree at every
iteration `i = 0..n-2`. The permutations of `l` are the `n!` entries of
`l.permutations`, so each is produced by exactly one draw sequence. -/
theorem shuffle_unbiased {T : Type} (l : List T) (hnd : l.Nodup) :
    (∀ draws : Nat → Nat, (∀ i, i < l.length - 1 → draws i < l.length - i) →
        (Shuffle draws l).1 = l ∧ (Shuffle draws l).2.Perm l)
      ∧ (∀ p : List T, p.Perm l →
          ∃ draws : Nat → Nat, (∀ i, i < l.length - 1 → draws i < l.length - i)
            ∧ (Shuffle draws l).2 = p)
      ∧ (∀ d1 d2 : Nat → Nat, (∀ i, i < l.length - 1 → d1 i < l.length - i) →
          (∀ i, i < l.length - 1 → d2 i < l.length - i) →
          (Shuffle d1 l).2 = (Shuffle d2 l).2 → ∀ i, i < l.length - 1 → d1 i = d2 i)
      ∧ (∀ p : List T, p ∈ l.permutations ↔ p.Perm l)
      ∧ l.permutations.Nodup
      ∧ l.permutations.length = l.length.factorial := by
  refine ⟨?_, ?_, ?_, fun p => List.mem_permutations, List.nodup_permutations l hnd,
    List.length_permutations l⟩
  · intro draws hd
    refine ⟨rfl, ?_⟩
    cases hlen : l.length with
    | zero =>
      have : l = [] := List.eq_nil_of_length_eq_zero hlen
      subst this
      exact List.Perm.refl _
    | succ k =>
      unfold Shuffle ListCopy
      rw [hlen]
      rw [hlen] at hd
      exact shuffleLoop_perm k l hlen draws hd
  · intro p hp
    cases hlen : l.length with
    | zero =>
      have : l = [] := List.eq_nil_of_length_eq_zero hlen
      subst this
      exact ⟨fun _ => 0, fun i hi => absurd hi (Nat.not_lt_zero i), (List.perm_nil.mp hp).symm⟩
    | succ k =>
      obtain ⟨d, hd, hres⟩ := shuffleLoop_surj k l hlen hnd p hp
      refine ⟨d, hd, ?_⟩
      unfold Shuffle ListCopy
      rw [hlen]
      exact hres
  · intro d1 d2 h1 h2 heq
    cases hlen : l.length with
    | zero => exact fun i hi => absurd hi (Nat.not_lt_zero i)
    | succ k =>
      rw [hlen] at h1 h2
      unfold Shuffle ListCopy at heq
      rw [hlen] at heq
      exact shuffleLoop_inj k l hlen hnd d1 d2 h1 h2 heq

/-- Witness of C15: the list `[1, 2, 3]`. -/
theorem shuffle_unbiased_witness :
    ([1, 2, 3] : List Nat).Nodup
      ∧ (∀ draws : Nat → Nat,
          (∀ i, i < ([1, 2, 3] : List Nat).length - 1 →
            draws i < ([1, 2, 3] : List Nat).length - i) →
          (Shuffle draws ([1, 2, 3] : List Nat)).1 = [1, 2, 3]
            ∧ (Shuffle draws ([1, 2, 3] : List Nat)).2.Perm [1, 2, 3])
      ∧ (∀ p : List Nat, p.Perm [1, 2, 3] →
          ∃ draws : Nat → Nat,
            (∀ i, i < ([1, 2, 3] : List Nat).length - 1 →
              draws i < ([1, 2, 3] : List Nat).length - i)
            ∧ (Shuffle draws ([1, 2, 3] : List Nat)).2 = p)
      ∧ (∀ d1 d2 : Nat → Nat,
          (∀ i, i < ([1, 2, 3] : List Nat).length - 1 →
            d1 i < ([1, 2, 3] : List Nat).length - i) →
          (∀ i, i < ([1, 2, 3] : List Nat).length - 1 →
            d2 i < ([1, 2, 3] : List Nat).length - i) →
          (Shuffle d1 ([1, 2, 3] : List Nat)).2 = (Shuffle d2 ([1, 2, 3] : List Nat)).2 →
          ∀ i, i < ([1, 2, 3] : List Nat).length - 1 → d1 i = d2 i)
      ∧ (∀ p : List Nat, p ∈ ([1, 2, 3] : List Nat).permutations ↔ p.Perm [1, 2, 3])
      ∧ ([1, 2, 3] : List Nat).permutations.Nodup
      ∧ ([1, 2, 3] : List Nat).permutations.length
          = ([1, 2, 3] : List Nat).length.factorial :=
  ⟨by decide, shuffle_unbiased ([1, 2, 3] : List Nat) (by decide)⟩

/-- The six results of `Shuffle` on `[1, 2, 3]`, one for each admissible draw
sequence `(draws 0, draws 1)` with `draws 0 < 3` and `draws 1 < 2`. -/
theorem shuffle_three_results :
    (Shuffle (fun i => [0, 0].getD i 0) [1, 2, 3]).2 = [1, 2, 3]
      ∧ (Shuffle (fun i => [0, 1].getD i 0) [1, 2, 3]).2 = [1, 3, 2]
      ∧ (Shuffle (fun i => [1, 0].getD i 0) [1, 2, 3]).2 = [2, 1, 3]
      ∧ (Shuffle (fun i => [1, 1].getD i 0) [1, 2, 3]).2 = [2, 3, 1]
      ∧ (Shuffle (fun i => [2, 0].getD i 0) [1, 2, 3]).2 = [3, 2, 1]
      ∧ (Shuffle (fun i => [2, 1].getD i 0) [1, 2, 3]).2 = [3, 1, 2] := by
  decide

end util

/-! ## Propagation terminates without the step cap -/
namespace solver

open util board

/-- A derived fact of two live facts is live. -/
theorem live_closed (N : Nat) (L H : Int) (hL : L ≤ 0) (a b : Fact)
    (ha : a.Live N L H) (hb : b.Live N L H)
    (hs : set.IsSubsetStrict a.tiles b.tiles = true) (hlt : b.mines < a.mines) :
    Fact.Live N L H ⟨a.mines - b.mines, set.Sub a.tiles b.tiles⟩ := by
  obtain ⟨-, hain, -, hau⟩ := ha
  obtain ⟨hbne, -, hbl, -⟩ := hb
  have hsub : b.tiles ⊆ a.tiles := ((set.isSubsetStrict_iff _ _).mp hs).1
  refine ⟨set.sub_nonempty_of_strict hs, ?_, ?_, ?_⟩
  · intro v hv
    exact hain v (Finset.mem_sdiff.mp hv).1
  · show L ≤ a.mines - b.mines
    omega
  · show a.mines - b.mines + -L * ((set.Size (set.Sub a.tiles b.tiles) : Nat) : Int) ≤ H
    have hcard : (set.Size (set.Sub a.tiles b.tiles) : Int)
        = (set.Size a.tiles : Int) - (set.Size b.tiles : Int) := by
      unfold set.Size set.Sub
      rw [Finset.card_sdiff hsub, Nat.cast_sub (Finset.card_le_card hsub)]
    have hb1 : (1 : Int) ≤ (set.Size b.tiles : Int) := by
      unfold set.Size
      exact_mod_cast Finset.card_pos.mpr hbne
    rw [hcard]
    nlinarith [mul_nonneg (neg_nonneg.mpr hL) (sub_nonneg.mpr hb1)]

/-- The number of accepted facts of a tame knowledge graph is bounded. -/
theorem tame_length_le (N : Nat) (L H : Int) (hL : L ≤ 0) :
    ∃ B : Nat, ∀ k : Knowledge, k.Tame N L H → k.nodes.length ≤ B := by
  refine ⟨(((Finset.Icc L H) ×ˢ
      ((Finset.range N ×ˢ Finset.range N).image fun p => Vec.mk p.1 p.2).powerset).image
        fun q => Fact.mk q.1 q.2).card, ?_⟩
  intro k hk
  obtain ⟨-, hnd, hb, -⟩ := hk
  rw [← List.toFinset_card_of_nodup hnd]
  apply Finset.card_le_card
  intro f hf
  obtain ⟨hin, hl, hu⟩ := hb f (List.mem_toFinset.mp hf)
  rw [Finset.mem_image]
  refine ⟨(f.mines, f.tiles), ?_, rfl⟩
  rw [Finset.mem_product, Finset.mem_Icc, Finset.mem_powerset]
  refine ⟨⟨hl, ?_⟩, ?_⟩
  · have : 0 ≤ -L * (set.Size f.tiles : Int) :=
      mul_nonneg (neg_nonneg.mpr hL) (Int.ofNat_nonneg _)
    linarith
  · intro v hv
    rw [Finset.mem_image]
    exact ⟨(v.X, v.Y), by
      rw [Finset.mem_product, Finset.mem_range, Finset.mem_range]
      exact hin v hv, rfl⟩

/-- The function `AddFact` on a live fact keeps the invariant; it either changes
nothing or accepts one more fact. -/
theorem addFact_tame (ord : set.Set → List Vec) (hord : set.IterOrder ord) (N : Nat)
    (L H : Int) (k : Knowledge) (hk : k.Tame N L H) (m : Int) (s : set.Set)
    (hG : Fact.Live N L H ⟨m, s⟩) :
    ∃ k1, k.AddFact ord m s = (.ret (), k1) ∧ k1.Tame N L H ∧
      (k1 = k ∨ k.nodes.length < k1.nodes.length) := by
  obtain ⟨hsize, hnd, hb, hall⟩ := hk
  by_cases hhas : k.HasFact m s = true
  · exact ⟨k, Knowledge.addFact_known ord k m s hhas, ⟨hsize, hnd, hb, hall⟩, Or.inl rfl⟩
  · obtain ⟨k1, h1, h2, h3⟩ := Knowledge.addFact_inv (Fact.Live N L H) ord hord k m s hall hG
      (by rw [hsize]; exact hG.2.1)
    have hn := Knowledge.addFact_nodes ord k m s
    rw [h1, if_neg hhas] at hn
    simp only at hn
    have hnotin : Fact.mk m s ∉ k.nodes := fun hmem =>
      hhas ((Knowledge.hasFact_iff k m s).mpr hmem)
    refine ⟨k1, h1, ⟨by rw [h2]; exact hsize, ?_, ?_, h3⟩, Or.inr ?_⟩
    · rw [hn]
      exact List.Nodup.append hnd (List.nodup_singleton _)
        (by
          intro f hf1 hf2
          rw [List.mem_singleton] at hf2
          subst hf2
          exact hnotin hf1)
    · intro f hf
      rw [hn, List.mem_append, List.mem_singleton] at hf
      rcases hf with hf | rfl
      · exact hb f hf
      · exact hG.2
    · rw [hn]
      simp

/-- One deduction on two live facts: it stops the loop (an action, the contradiction,
a mine hit), or it returns false on a knowledge graph that is still tame and is
either unchanged or holds one more accepted fact. -/
theorem runDualDeduction_tame (ord : set.Set → List Vec) (hord : set.IterOrder ord) (N : Nat)
    (L H : Int) (hL : L ≤ 0) (k : Knowledge) (hk : k.Tame N L H) (a b : Fact)
    (ha : a.Live N L H) (hb : b.Live N L H) :
    Halted (k.RunDualDeduction ord a b).1
      ∨ ((k.RunDualDeduction ord a b).1 = .ret false
          ∧ (k.RunDualDeduction ord a b).2.Tame N L H
          ∧ ((k.RunDualDeduction ord a b).2 = k
              ∨ k.nodes.length < (k.RunDualDeduction ord a b).2.nodes.length)) := by
  unfold Knowledge.RunDualDeduction
  split
  · exact Or.inl (Or.inr (Or.inl rfl))
  · split
    · rename_i hsub
      obtain ⟨c, rest, hc, hcm⟩ := hord.exists_cons _ (set.sub_nonempty_of_strict hsub)
      have hcin : k.b.inBounds c.X c.Y = true := by
        have := ha.2.1 c (Finset.mem_sdiff.mp hcm).1
        rw [← hk.1] at this
        simpa [Board.inBounds] using this
      split
      · simp only [set.AsList, hc]
        rw [revealOrHitMine_fst k.b c.X c.Y hcin]
        split
        · exact Or.inl (Or.inr (Or.inr ⟨_, _, rfl⟩))
        · exact Or.inl (Or.inl rfl)
      · split
        · rename_i hlt
          simp only
          split
          · simp only [set.AsList, hc]
            exact Or.inl (Or.inl (flagAndReturn_fst k.b c.X c.Y hcin))
          · obtain ⟨k1, h1, h2, h3⟩ := addFact_tame ord hord N L H k hk _ _
              (live_closed N L H hL a b ha hb hsub hlt)
            rw [h1]
            exact Or.inr ⟨rfl, h2, h3⟩
        · exact Or.inr ⟨rfl, hk, Or.inl rfl⟩
    · exact Or.inr ⟨rfl, hk, Or.inl rfl⟩

/-- One call of `RunNextDeduction` on a non-empty worklist: it stops the loop, or
returns false with the invariant kept and either the same number of accepted facts
and a shorter worklist, or more accepted facts. -/
theorem runNextDeduction_tame (ord : set.Set → List Vec) (hord : set.IterOrder ord) (N : Nat)
    (L H : Int) (hL : L ≤ 0) (k : Knowledge) (hk : k.Tame N L H) (hne : k.unchecked ≠ []) :
    Halted (k.RunNextDeduction ord).1
      ∨ ((k.RunNextDeduction ord).1 = .ret false
          ∧ (k.RunNextDeduction ord).2.Tame N L H
          ∧ (((k.RunNextDeduction ord).2.nodes.length = k.nodes.length
                ∧ (k.RunNextDeduction ord).2.unchecked.length < k.unchecked.length)
              ∨ k.nodes.length < (k.RunNextDeduction ord).2.nodes.length)) := by
  obtain ⟨hsize, hnd, hb, hall⟩ := hk
  unfold Knowledge.RunNextDeduction
  split
  · rename_i hu
    exact absurd hu hne
  · rename_i next rest hu
    have hk0 : Knowledge.Tame N L H { k with unchecked := rest } :=
      ⟨hsize, hnd, hb, fun p hp => hall.1 p (by rw [hu]; exact List.mem_cons_of_mem _ hp),
        hall.2⟩
    have hlen : rest.length < k.unchecked.length := by
      rw [hu]; simp
    have hnext : ∀ f ∈ next, Fact.Live N L H f :=
      hall.1 next (by rw [hu]; exact List.mem_cons_self _ _)
    simp only
    split
    · rename_i f0 f1
      have h0 : Fact.Live N L H f0 := hnext f0 (by simp)
      have h1 : Fact.Live N L H f1 := hnext f1 (by simp)
      have hfirst := runDualDeduction_tame ord hord N L H hL _ hk0 f0 f1 h0 h1
      generalize Knowledge.RunDualDeduction ord { k with unchecked := rest } f0 f1 = r
        at hfirst ⊢
      obtain ⟨o, k1⟩ := r
      rcases hfirst with (h | h | ⟨x, y, h⟩) | ⟨e1, e2, e3⟩
      · simp only at h
        subst h
        exact Or.inl (Or.inl rfl)
      · simp only at h
        subst h
        exact Or.inl (Or.inr (Or.inl rfl))
      · simp only at h
        subst h
        exact Or.inl (Or.inr (Or.inr ⟨x, y, rfl⟩))
      · simp only at e1 e2 e3
        subst e1
        simp only
        rcases runDualDeduction_tame ord hord N L H hL k1 e2 f1 f0 h1 h0 with g | g
        · exact Or.inl g
        · obtain ⟨g1, g2, g3⟩ := g
          refine Or.inr ⟨g1, g2, ?_⟩
          rcases e3 with e3 | e3
          · rcases g3 with g3 | g3
            · left
              rw [g3, e3]
              exact ⟨rfl, hlen⟩
            · right
              subst e3
              exact g3
          · right
            rcases g3 with g3 | g3
            · rw [g3]
              exact e3
            · exact Nat.lt_trans e3 g3
    · exact Or.inr ⟨rfl, hk0, Or.inl ⟨rfl, hlen⟩⟩

/-- One iteration of the loop of `deduce` on a non-empty worklist, with the orders
drawn anew at every iteration. -/
theorem deduceLoopOrds_step (n : Nat) (ords : Nat → set.Set → List Vec) (k : Knowledge)
    (hne : k.unchecked ≠ []) :
    (∀ k1, k.RunNextDeduction (ords 0) = (.ret true, k1) →
        deduceLoopOrds (n + 1) ords k = (.ret true, k1))
      ∧ (∀ k1, k.RunNextDeduction (ords 0) = (.ret false, k1) →
        deduceLoopOrds (n + 1) ords k = deduceLoopOrds n (fun i => ords (i + 1)) k1)
      ∧ (∀ p k1, k.RunNextDeduction (ords 0) = (.panic p, k1) →
        deduceLoopOrds (n + 1) ords k = (.panic p, k1)) := by
  have h : k.HasUncheckedDeductions = true := by
    unfold Knowledge.HasUncheckedDeductions
    simpa [List.length_pos] using hne
  refine ⟨?_, ?_, ?_⟩
  · intro k1 hr
    rw [deduceLoopOrds, if_neg (by rw [h]; exact Bool.noConfusion), hr]
  · intro k1 hr
    rw [deduceLoopOrds, if_neg (by rw [h]; exact Bool.noConfusion), hr]
  · intro p k1 hr
    rw [deduceLoopOrds, if_neg (by rw [h]; exact Bool.noConfusion), hr]

/-- The loop of `deduce` on an empty worklist. -/
theorem deduceLoopOrds_nil (n : Nat) (ords : Nat → set.Set → List Vec) (k : Knowledge)
    (hu : k.unchecked = []) : deduceLoopOrds n ords k = (.ret false, k) := by
  cases n with
  | zero => rfl
  | succ n =>
    have h : k.HasUncheckedDeductions = false := by
      unfold Knowledge.HasUncheckedDeductions
      simp [hu]
    rw [deduceLoopOrds, if_pos h]

/-- With the same order at every iteration, the loop is the loop of `deduce` as
embedded with one order. -/
theorem deduceLoopOrds_const (ord : set.Set → List Vec) (n : Nat) (k : Knowledge) :
    deduceLoopOrds n (fun _ => ord) k = deduceLoop ord n k := by
  induction n generalizing k with
  | zero => rfl
  | succ n ih =>
    rw [deduceLoopOrds, deduceLoop]
    split
    · rfl
    · generalize k.RunNextDeduction ord = r
      obtain ⟨o, k1⟩ := r
      cases o with
      | panic p => rfl
      | ret v =>
        cases v with
        | true => rfl
        | false => exact ih k1

/-- Raising the step cap does not change the result of a loop that has come to an
end by itself. -/
theorem deduceLoopOrds_stable (n : Nat) (ords : Nat → set.Set → List Vec) (k : Knowledge)
    (h : Propagated (deduceLoopOrds n ords k)) (m : Nat) (hm : n ≤ m) :
    deduceLoopOrds m ords k = deduceLoopOrds n ords k := by
  induction n generalizing k m ords with
  | zero =>
    have hu : k.unchecked = [] := by
      rcases h with (h | h | ⟨x, y, h⟩) | ⟨-, h⟩
      · simp [deduceLoopOrds] at h
      · simp [deduceLoopOrds] at h
      · simp [deduceLoopOrds] at h
      · exact h
    rw [deduceLoopOrds_nil m ords k hu, deduceLoopOrds_nil 0 ords k hu]
  | succ n ih =>
    obtain ⟨m, rfl⟩ : ∃ m1, m = m1 + 1 := ⟨m - 1, by omega⟩
    by_cases hu : k.unchecked = []
    · rw [deduceLoopOrds_nil _ ords k hu, deduceLoopOrds_nil _ ords k hu]
    · obtain ⟨s1, s2, s3⟩ := deduceLoopOrds_step n ords k hu
      obtain ⟨t1, t2, t3⟩ := deduceLoopOrds_step m ords k hu
      cases hr : k.RunNextDeduction (ords 0) with
      | mk o k1 =>
        cases o with
        | panic p => rw [s3 p k1 hr, t3 p k1 hr]
        | ret v =>
          cases v with
          | true => rw [s1 k1 hr, t1 k1 hr]
          | false =>
            rw [s2 k1 hr] at h ⊢
            rw [t2 k1 hr]
            exact ih _ k1 h m (by omega)

/-- The loop of `deduce` comes to an end on every tame knowledge graph, whatever the
iteration orders drawn, by induction on the number of facts that can still be
accepted and, inside, on the length of the worklist. -/
theorem deduceLoopOrds_terminates (N : Nat) (L H : Int) (hL : L ≤ 0)
    (ords : Nat → set.Set → List Vec) (hords : ∀ i, set.IterOrder (ords i))
    (k : Knowledge) (hk : k.Tame N L H) :
    ∃ n, Propagated (deduceLoopOrds n ords k) := by
  obtain ⟨B, hB⟩ := tame_length_le N L H hL
  have main : ∀ c u : Nat, ∀ (ords : Nat → set.Set → List Vec) (k : Knowledge),
      (∀ i, set.IterOrder (ords i)) → k.Tame N L H → B - k.nodes.length ≤ c →
      k.unchecked.length ≤ u → ∃ n, Propagated (deduceLoopOrds n ords k) := by
    intro c
    induction c using Nat.strong_induction_on with
    | _ c ihc =>
      intro u
      induction u with
      | zero =>
        intro ords k _ _ _ hu
        have : k.unchecked = [] := List.eq_nil_of_length_eq_zero (Nat.le_zero.mp hu)
        exact ⟨0, Or.inr ⟨rfl, this⟩⟩
      | succ u ihu =>
        intro ords k hords hk hc hu
        by_cases hne : k.unchecked = []
        · exact ⟨0, Or.inr ⟨rfl, hne⟩⟩
        · have hstep := runNextDeduction_tame (ords 0) (hords 0) N L H hL k hk hne
          obtain ⟨s1, s2, s3⟩ := deduceLoopOrds_step 0 ords k hne
          cases hr : k.RunNextDeduction (ords 0) with
          | mk o k1 =>
            rw [hr] at hstep
            rcases hstep with (h | h | ⟨x, y, h⟩) | ⟨h1, h2, h3⟩
            · simp only at h
              subst h
              exact ⟨1, Or.inl (by rw [s1 k1 hr]; exact Or.inl rfl)⟩
            · simp only at h
              subst h
              exact ⟨1, Or.inl (by rw [s3 _ k1 hr]; exact Or.inr (Or.inl rfl))⟩
            · simp only at h
              subst h
              exact ⟨1, Or.inl (by rw [s3 _ k1 hr]; exact Or.inr (Or.inr ⟨x, y, rfl⟩))⟩
            · simp only at h1 h2 h3
              subst h1
              have hrec : ∃ n, Propagated (deduceLoopOrds n (fun i => ords (i + 1)) k1) := by
                rcases h3 with ⟨e1, e2⟩ | e
                · exact ihu _ k1 (fun i => hords (i + 1)) h2 (by rw [e1]; exact hc) (by omega)
                · have hb1 := hB k1 h2
                  exact ihc (B - k1.nodes.length) (by omega) k1.unchecked.length _ k1
                    (fun i => hords (i + 1)) h2 (Nat.le_refl _) (Nat.le_refl _)
              obtain ⟨n, hn⟩ := hrec
              refine ⟨n + 1, ?_⟩
              rw [(deduceLoopOrds_step n ords k hne).2.1 k1 hr]
              exact hn
  exact main _ _ ords k hords hk (Nat.le_refl _) (Nat.le_refl _)

theorem mem_le_sum_map {α : Type} (g : α → Nat) (l : List α) (a : α) (h : a ∈ l) :
    g a ≤ (l.map g).sum := by
  induction l with
  | nil => exact absurd h (List.not_mem_nil a)
  | cons x t ih =>
    rw [List.map_cons, List.sum_cons]
    rcases List.mem_cons.mp h with rfl | h
    · exact Nat.le_add_right _ _
    · exact Nat.le_trans (ih h) (Nat.le_add_left _ _)

/-- A knowledge graph built by `AddFact` from in-bounds seed facts is tame, for
bounds computed from its accepted facts. -/
theorem built_tame (b : Board) (k : Knowledge) (hk : Knowledge.Built b k) :
    ∃ L H : Int, L ≤ 0 ∧ k.Tame b.size L H := by
  have hkb := hk.board_eq
  obtain ⟨hnd, hinb, h3, h4⟩ := hk.indexed
  rw [hkb] at hinb
  have hbound : ∀ f ∈ k.nodes, Fact.Bounded b.size
      (-(((k.nodes.map fun f => f.mines.natAbs).sum : Nat) : Int))
      (((k.nodes.map fun f => f.mines.natAbs
        + (k.nodes.map fun f => f.mines.natAbs).sum * f.tiles.card).sum : Nat) : Int) f := by
    intro f hf
    have s1 := mem_le_sum_map (fun f : Fact => f.mines.natAbs) k.nodes f hf
    have s2 := mem_le_sum_map (fun f : Fact => f.mines.natAbs
      + (k.nodes.map fun f => f.mines.natAbs).sum * f.tiles.card) k.nodes f hf
    simp only at s1 s2
    have a1 : ((f.mines.natAbs : Nat) : Int) = |f.mines| := Int.natCast_natAbs _
    have a2 := neg_abs_le f.mines
    have a3 := le_abs_self f.mines
    have c1 : ((f.mines.natAbs : Nat) : Int)
        ≤ (((k.nodes.map fun f => f.mines.natAbs).sum : Nat) : Int) := by exact_mod_cast s1
    have c2 : ((f.mines.natAbs : Nat) : Int)
        + (((k.nodes.map fun f => f.mines.natAbs).sum : Nat) : Int) * (f.tiles.card : Int)
        ≤ (((k.nodes.map fun f => f.mines.natAbs
          + (k.nodes.map fun f => f.mines.natAbs).sum * f.tiles.card).sum : Nat) : Int) := by
      exact_mod_cast s2
    refine ⟨hinb f hf, by linarith, ?_⟩
    unfold set.Size
    rw [neg_neg]
    linarith
  refine ⟨_, _, neg_nonpos.mpr (Int.ofNat_nonneg _), congrArg Board.size hkb, hnd, hbound,
    ?_, ?_⟩
  · intro p hp f hf
    obtain ⟨f1, g1, rfl, hf1, hg1, -, v, hv1, hv2⟩ := h4 p hp
    simp only [List.mem_cons, List.mem_singleton, List.not_mem_nil, or_false] at hf
    rcases hf with rfl | rfl
    · exact ⟨⟨v, hv1⟩, hbound _ hf1⟩
    · exact ⟨⟨v, hv2⟩, hbound _ hg1⟩
  · intro i j f hf
    rw [h3, List.mem_filter] at hf
    exact ⟨⟨Vec.mk i j, by simpa using hf.2⟩, hbound f hf.1⟩

/-- Claim C20. Propagation is finite without the step cap: for every knowledge graph
built by `AddFact` from seed facts over in-bounds cells of the board (each call in
an iteration order of its own), and whatever iteration order is drawn at each call
of `RunNextDeduction`, there is a number `n` of calls after which the loop of
`deduce` has come to an end by itself (an action, which may hit a mine, a
contradiction, or an empty worklist), and every larger step cap gives the same
result; with one order throughout this is the loop `deduceLoop` of `deduce`. -/
theorem propagation_finite (b : Board) (k : Knowledge) (hk : Knowledge.Built b k)
    (ords : Nat → set.Set → List Vec) (hords : ∀ i, set.IterOrder (ords i)) :
    (∃ n, Propagated (deduceLoopOrds n ords k)
        ∧ ∀ m, n ≤ m → deduceLoopOrds m ords k = deduceLoopOrds n ords k)
      ∧ ∀ (ord : set.Set → List Vec) (n : Nat),
          deduceLoopOrds n (fun _ => ord) k = deduceLoop ord n k := by
  obtain ⟨L, H, hL, ht⟩ := built_tame b k hk
  obtain ⟨n, hn⟩ := deduceLoopOrds_terminates b.size L H hL ords hords k ht
  exact ⟨⟨n, hn, fun m hm => deduceLoopOrds_stable n ords k hn m hm⟩,
    fun ord n => deduceLoopOrds_const ord n k⟩

/-- Witness of C20: the seeds `(1, {T1, T2, T3})`, accepted in reverse order, and
`(1, {T1, T2})`, accepted in sorted order, on a 2 x 2 board; the loop alternates
between the two orders. -/
theorem propagation_finite_witness :
    (∃ n, Propagated (deduceLoopOrds n
          (fun i => if i % 2 = 0 then set.sortedOrder else set.reverseOrder)
          (((NewKnowledge (NewBoard 2)).AddFact set.reverseOrder 1
            {⟨0, 0⟩, ⟨0, 1⟩, ⟨1, 0⟩}).2.AddFact set.sortedOrder 1 {⟨0, 0⟩, ⟨0, 1⟩}).2)
        ∧ ∀ m, n ≤ m →
          deduceLoopOrds m (fun i => if i % 2 = 0 then set.sortedOrder else set.reverseOrder)
            (((NewKnowledge (NewBoard 2)).AddFact set.reverseOrder 1
              {⟨0, 0⟩, ⟨0, 1⟩, ⟨1, 0⟩}).2.AddFact set.sortedOrder 1 {⟨0, 0⟩, ⟨0, 1⟩}).2
          = deduceLoopOrds n
            (fun i => if i % 2 = 0 then set.sortedOrder else set.reverseOrder)
            (((NewKnowledge (NewBoard 2)).AddFact set.reverseOrder 1
              {⟨0, 0⟩, ⟨0, 1⟩, ⟨1, 0⟩}).2.AddFact set.sortedOrder 1 {⟨0, 0⟩, ⟨0, 1⟩}).2)
      ∧ ∀ (ord : set.Set → List Vec) (n : Nat),
          deduceLoopOrds n (fun _ => ord)
            (((NewKnowledge (NewBoard 2)).AddFact set.reverseOrder 1
              {⟨0, 0⟩, ⟨0, 1⟩, ⟨1, 0⟩}).2.AddFact set.sortedOrder 1 {⟨0, 0⟩, ⟨0, 1⟩}).2
          = deduceLoop ord n
            (((NewKnowledge (NewBoard 2)).AddFact set.reverseOrder 1
              {⟨0, 0⟩, ⟨0, 1⟩, ⟨1, 0⟩}).2.AddFact set.sortedOrder 1 {⟨0, 0⟩, ⟨0, 1⟩}).2 :=
  propagation_finite (NewBoard 2)
    (((NewKnowledge (NewBoard 2)).AddFact set.reverseOrder 1
      {Vec.mk 0 0, Vec.mk 0 1, Vec.mk 1 0}).2.AddFact set.sortedOrder 1
      {Vec.mk 0 0, Vec.mk 0 1}).2
    (Knowledge.Built.add set.sortedOrder _ 1 {Vec.mk 0 0, Vec.mk 0 1}
      set.sortedOrder_iterOrder
      (Knowledge.Built.add set.reverseOrder _ 1 {Vec.mk 0 0, Vec.mk 0 1, Vec.mk 1 0}
        set.reverseOrder_iterOrder Knowledge.Built.fresh (by decide)) (by decide))
    (fun i => if i % 2 = 0 then set.sortedOrder else set.reverseOrder)
    (fun i => by
      by_cases h : i % 2 = 0
      · simp only [h, if_true]
        exact set.sortedOrder_iterOrder
      · simp only [h, if_false]
        exact set.reverseOrder_iterOrder)

end solver

/-! ## Derived facts are true -/
namespace solver

open util board

/-- When the mine-conservation test of `RunDualDeduction` holds, no fact is added. -/
theorem runDualDeduction_nodes_of_all_mines (ord : set.Set → List Vec) (k : Knowledge)
    (a b : Fact) (hsub : set.IsSubsetStrict a.tiles b.tiles = true) (hlt : b.mines < a.mines)
    (heq : a.mines - b.mines = (set.Size (set.Sub a.tiles b.tiles) : Int)) :
    (k.RunDualDeduction ord a b).2.nodes = k.nodes := by
  unfold Knowledge.RunDualDeduction
  rw [if_neg (not_contradiction_of_strict hsub), if_pos hsub,
    if_neg (by omega : ¬ b.mines = a.mines), if_pos hlt]
  simp only
  rw [if_pos ⟨by omega, heq⟩]
  split <;> rfl

/-- Claim C21. Derived facts are true: for all facts `a`, `b` where `b.tiles` is a
strict subset of `a.tiles` and `b.mines < a.mines`, every mine assignment that puts
exactly `a.mines` mines in `a.tiles` and exactly `b.mines` mines in `b.tiles` puts
exactly `a.mines - b.mines` mines in `a.tiles \ b.tiles`; so whenever such an
assignment exists, a fact that `RunDualDeduction(a, b)` adds to the accepted facts is
`(a.mines - b.mines, a.tiles \ b.tiles)` and satisfies `0 < mines < |tiles|`. -/
theorem runDualDeduction_derived_true (ord : set.Set → List Vec) (k : Knowledge)
    (a b : Fact) (hsub : set.IsSubsetStrict a.tiles b.tiles = true) (hlt : b.mines < a.mines) :
    (∀ m : Vec → Bool, a.HoldsIn m → b.HoldsIn m →
        (Fact.mk (a.mines - b.mines) (set.Sub a.tiles b.tiles)).HoldsIn m)
      ∧ ((∃ m : Vec → Bool, a.HoldsIn m ∧ b.HoldsIn m) →
          ∀ f ∈ (k.RunDualDeduction ord a b).2.nodes, f ∉ k.nodes →
            f = Fact.mk (a.mines - b.mines) (set.Sub a.tiles b.tiles)
              ∧ 0 < f.mines ∧ f.mines < (set.Size f.tiles : Int)) := by
  have htrue : ∀ m : Vec → Bool, a.HoldsIn m → b.HoldsIn m →
      (Fact.mk (a.mines - b.mines) (set.Sub a.tiles b.tiles)).HoldsIn m := by
    intro m hma hmb
    have hcount := set.countMines_sub m (strict_subset_of hsub)
    unfold Fact.HoldsIn at hma hmb ⊢
    simp only
    omega
  refine ⟨htrue, ?_⟩
  rintro ⟨m, hma, hmb⟩ f hf hnew
  rcases runDualDeduction_nodes ord k a b with h | ⟨-, -, h⟩
  · rw [h] at hf
    exact absurd hf hnew
  · rw [h, List.mem_append, List.mem_singleton] at hf
    rcases hf with hf | hf
    · exact absurd hf hnew
    · have hne : a.mines - b.mines ≠ (set.Size (set.Sub a.tiles b.tiles) : Int) := by
        intro heq
        have hsame := runDualDeduction_nodes_of_all_mines ord k a b hsub hlt heq
        rw [h] at hsame
        have hlen := congrArg List.length hsame
        simp at hlen
      have hd := htrue m hma hmb
      have hle : set.countMines m (set.Sub a.tiles b.tiles) ≤ (set.Sub a.tiles b.tiles).card :=
        Finset.card_filter_le _ _
      unfold Fact.HoldsIn at hd
      simp only at hd
      subst hf
      refine ⟨rfl, ?_, ?_⟩
      · show 0 < a.mines - b.mines
        omega
      · show a.mines - b.mines < (set.Size (set.Sub a.tiles b.tiles) : Int)
        unfold set.Size at hne ⊢
        omega

/-- Witness of C21: `a = (2, {T1, T2, T3})` and `b = (1, {T1})`, which hold together
when the mines are `T1` and `T2`. -/
theorem runDualDeduction_derived_true_witness :
    set.IsSubsetStrict (Fact.mk 2 {⟨0, 0⟩, ⟨0, 1⟩, ⟨1, 0⟩}).tiles (Fact.mk 1 {⟨0, 0⟩}).tiles = true
      ∧ (Fact.mk 1 {⟨0, 0⟩}).mines < (Fact.mk 2 {⟨0, 0⟩, ⟨0, 1⟩, ⟨1, 0⟩}).mines
      ∧ (∃ m : Vec → Bool, (Fact.mk 2 {⟨0, 0⟩, ⟨0, 1⟩, ⟨1, 0⟩}).HoldsIn m
          ∧ (Fact.mk 1 {⟨0, 0⟩}).HoldsIn m)
      ∧ (∀ m : Vec → Bool, (Fact.mk 2 {⟨0, 0⟩, ⟨0, 1⟩, ⟨1, 0⟩}).HoldsIn m →
        (Fact.mk 1 {⟨0, 0⟩}).HoldsIn m →
        (Fact.mk ((Fact.mk 2 {⟨0, 0⟩, ⟨0, 1⟩, ⟨1, 0⟩}).mines - (Fact.mk 1 {⟨0, 0⟩}).mines)
          (set.Sub (Fact.mk 2 {⟨0, 0⟩, ⟨0, 1⟩, ⟨1, 0⟩}).tiles
            (Fact.mk 1 {⟨0, 0⟩}).tiles)).HoldsIn m)
      ∧ ((∃ m : Vec → Bool, (Fact.mk 2 {⟨0, 0⟩, ⟨0, 1⟩, ⟨1, 0⟩}).HoldsIn m
            ∧ (Fact.mk 1 {⟨0, 0⟩}).HoldsIn m) →
          ∀ f ∈ ((NewKnowledge (NewBoard 2)).RunDualDeduction set.sortedOrder
              (Fact.mk 2 {⟨0, 0⟩, ⟨0, 1⟩, ⟨1, 0⟩}) (Fact.mk 1 {⟨0, 0⟩})).2.nodes,
            f ∉ (NewKnowledge (NewBoard 2)).nodes →
            f = Fact.mk ((Fact.mk 2 {⟨0, 0⟩, ⟨0, 1⟩, ⟨1, 0⟩}).mines - (Fact.mk 1 {⟨0, 0⟩}).mines)
                (set.Sub (Fact.mk 2 {⟨0, 0⟩, ⟨0, 1⟩, ⟨1, 0⟩}).tiles (Fact.mk 1 {⟨0, 0⟩}).tiles)
              ∧ 0 < f.mines ∧ f.mines < (set.Size f.tiles : Int)) :=
  ⟨by decide, by decide,
    ⟨fun v => decide (v = ⟨0, 0⟩ ∨ v = ⟨0, 1⟩), by unfold Fact.HoldsIn; decide,
      by unfold Fact.HoldsIn; decide⟩,
    runDualDeduction_derived_true set.sortedOrder (NewKnowledge (NewBoard 2))
      (Fact.mk 2 {Vec.mk 0 0, Vec.mk 0 1, Vec.mk 1 0}) (Fact.mk 1 {Vec.mk 0 0})
      (by decide) (by decide)⟩

end solver

/-! ## Index consistency of the knowledge graph -/
namespace solver

open util board

/-- Claim C23. Index consistency of the Knowledge: in every knowledge graph built from
a fresh one by `AddFact` calls with in-bounds cell sets (each call in an iteration
order of its own), the accepted facts are pairwise distinct; for every cell the list
indexed under it is the list of accepted facts whose cell set contains the cell, in
acceptance order, so it holds each such fact exactly once and no other fact; every
worklist entry is a pair of two distinct accepted facts, so `RunNextDeduction` on a
non-empty worklist runs the pairwise deduction, in whatever order, and never its
"cannot run deduction" branch. -/
theorem built_index_consistent (ord : set.Set → List Vec) (b : Board) (k : Knowledge)
    (hk : Knowledge.Built b k) :
    k.nodes.Nodup
      ∧ (∀ c : Vec, k.tiles c.X c.Y = k.nodes.filter fun f => decide (c ∈ f.tiles))
      ∧ (∀ (c : Vec) (f : Fact), f ∈ k.tiles c.X c.Y ↔ f ∈ k.nodes ∧ c ∈ f.tiles)
      ∧ (∀ c : Vec, (k.tiles c.X c.Y).Nodup ∧ (k.tiles c.X c.Y).Sublist k.nodes)
      ∧ (∀ p ∈ k.unchecked, ∃ f g, p = [f, g] ∧ f ∈ k.nodes ∧ g ∈ k.nodes ∧ f ≠ g)
      ∧ (k.unchecked ≠ [] → ∃ f g rest, k.unchecked = [f, g] :: rest ∧
          k.RunNextDeduction ord =
            match Knowledge.RunDualDeduction ord { k with unchecked := rest } f g with
            | (.ret true, k1) => (.ret true, k1)
            | (.ret false, k1) => Knowledge.RunDualDeduction ord k1 g f
            | (.panic p, k1) => (.panic p, k1)) := by
  obtain ⟨hnd, -, h3, h4⟩ := hk.indexed
  have hidx : ∀ c : Vec, k.tiles c.X c.Y = k.nodes.filter fun f => decide (c ∈ f.tiles) := by
    intro c
    rw [h3]
  refine ⟨hnd, hidx, ?_, ?_, ?_, ?_⟩
  · intro c f
    rw [hidx, List.mem_filter]
    simp
  · intro c
    rw [hidx]
    exact ⟨hnd.filter _, List.filter_sublist _⟩
  · intro p hp
    obtain ⟨f, g, e, hf, hg, hne, -⟩ := h4 p hp
    exact ⟨f, g, e, hf, hg, hne⟩
  · intro hne
    cases hu : k.unchecked with
    | nil => exact absurd hu hne
    | cons p rest =>
      obtain ⟨f, g, e, -⟩ := h4 p (by rw [hu]; exact List.mem_cons_self _ _)
      subst e
      exact ⟨f, g, rest, rfl, Knowledge.runNextDeduction_pair ord k f g rest hu⟩

/-- Witness of C23: `(1, {T1, T2})` accepted in reverse order, then `(1, {T2, T3})`
in sorted order, on a 2 x 2 board; the cell `T2 = (0,1)` indexes both facts, in
that order. -/
theorem built_index_consistent_witness :
    (((NewKnowledge (NewBoard 2)).AddFact set.reverseOrder 1 {⟨0, 0⟩, ⟨0, 1⟩}).2.AddFact
        set.sortedOrder 1 {⟨0, 1⟩, ⟨1, 0⟩}).2.tiles 0 1
      = [⟨1, {⟨0, 0⟩, ⟨0, 1⟩}⟩, ⟨1, {⟨0, 1⟩, ⟨1, 0⟩}⟩]
    ∧ (((NewKnowledge (NewBoard 2)).AddFact set.reverseOrder 1 {⟨0, 0⟩, ⟨0, 1⟩}).2.AddFact
        set.sortedOrder 1 {⟨0, 1⟩, ⟨1, 0⟩}).2.nodes.Nodup
    ∧ (((NewKnowledge (NewBoard 2)).AddFact set.reverseOrder 1 {⟨0, 0⟩, ⟨0, 1⟩}).2.AddFact
        set.sortedOrder 1 {⟨0, 1⟩, ⟨1, 0⟩}).2.tiles (Vec.mk 0 1).X (Vec.mk 0 1).Y
      = (((NewKnowledge (NewBoard 2)).AddFact set.reverseOrder 1 {⟨0, 0⟩, ⟨0, 1⟩}).2.AddFact
          set.sortedOrder 1 {⟨0, 1⟩, ⟨1, 0⟩}).2.nodes.filter
            fun f => decide (Vec.mk 0 1 ∈ f.tiles) :=
  ⟨by decide,
    (built_index_consistent set.sortedOrder (NewBoard 2)
      (((NewKnowledge (NewBoard 2)).AddFact set.reverseOrder 1
        {Vec.mk 0 0, Vec.mk 0 1}).2.AddFact set.sortedOrder 1 {Vec.mk 0 1, Vec.mk 1 0}).2
      (Knowledge.Built.add set.sortedOrder _ 1 {Vec.mk 0 1, Vec.mk 1 0}
        set.sortedOrder_iterOrder
        (Knowledge.Built.add set.reverseOrder _ 1 {Vec.mk 0 0, Vec.mk 0 1}
          set.reverseOrder_iterOrder Knowledge.Built.fresh (by decide))
        (by decide))).1,
    (built_index_consistent set.sortedOrder (NewBoard 2)
      (((NewKnowledge (NewBoard 2)).AddFact set.reverseOrder 1
        {Vec.mk 0 0, Vec.mk 0 1}).2.AddFact set.sortedOrder 1 {Vec.mk 0 1, Vec.mk 1 0}).2
      (Knowledge.Built.add set.sortedOrder _ 1 {Vec.mk 0 1, Vec.mk 1 0}
        set.sortedOrder_iterOrder
        (Knowledge.Built.add set.reverseOrder _ 1 {Vec.mk 0 0, Vec.mk 0 1}
          set.reverseOrder_iterOrder Knowledge.Built.fresh (by decide))
        (by decide))).2.1 (Vec.mk 0 1)⟩

end solver

/-! ## Neighbour counts track the mines -/
namespace board

open util

namespace Board

/-- The loop of `PlaceMine` over in-bounds cells returns and adds to each neighbour
count the number of times the cell is listed; nothing else changes. -/
theorem bumpNeighbors_spec (l : List Vec) (b : Board)
    (hl : ∀ v ∈ l, v.X < b.size ∧ v.Y < b.size) :
    (bumpNeighbors l b).1 = .ret () ∧ (bumpNeighbors l b).2.size = b.size
      ∧ (bumpNeighbors l b).2.mines = b.mines ∧ (bumpNeighbors l b).2.flags = b.flags
      ∧ (bumpNeighbors l b).2.revealed = b.revealed
      ∧ ∀ i j, (bumpNeighbors l b).2.neighbors i j
          = b.neighbors i j + (l.count (Vec.mk i j) : Int) := by
  induction l generalizing b with
  | nil => exact ⟨rfl, rfl, rfl, rfl, rfl, fun i j => by simp [bumpNeighbors]⟩
  | cons n rest ih =>
    have hn := hl n (List.mem_cons_self _ _)
    have hin : b.inBounds n.X n.Y = true := by simp [inBounds, hn.1, hn.2]
    simp only [bumpNeighbors, hin, if_true]
    obtain ⟨h1, h2, h3, h4, h5, h6⟩ := ih
      { b with neighbors := fun i j =>
          if i = n.X ∧ j = n.Y then b.neighbors n.X n.Y + 1 else b.neighbors i j }
      (fun v hv => hl v (List.mem_cons_of_mem _ hv))
    refine ⟨h1, h2, h3, h4, h5, ?_⟩
    intro i j
    rw [h6, List.count_cons]
    by_cases hij : i = n.X ∧ j = n.Y
    · obtain ⟨rfl, rfl⟩ := hij
      simp
      omega
    · have hne : (n == Vec.mk i j) = false := by
        rw [beq_eq_false_iff_ne]
        intro h
        apply hij
        rw [h]
        exact ⟨rfl, rfl⟩
      simp only [hij, if_false, hne, Bool.false_eq_true, Nat.add_zero]

end Board

end board

namespace util

/-- Being a neighbour is symmetric on the grid. -/
theorem mem_GetNeighbors_symm {x y i j size : Nat} (hx : x < size) (hy : y < size)
    (hi : i < size) (hj : j < size) :
    Vec.mk i j ∈ GetNeighbors x y size ↔ Vec.mk x y ∈ GetNeighbors i j size := by
  rw [mem_GetNeighbors, mem_GetNeighbors]
  simp only
  constructor
  · rintro ⟨⟨h1, h2⟩, ⟨h3, h4⟩, h5⟩
    refine ⟨⟨?_, ?_⟩, ⟨?_, ?_⟩, ?_⟩
    · split <;> split at h2 <;> omega
    · split <;> split at h1 <;> omega
    · split <;> split at h4 <;> omega
    · split <;> split at h3 <;> omega
    · rintro ⟨rfl, rfl⟩
      exact h5 ⟨rfl, rfl⟩
  · rintro ⟨⟨h1, h2⟩, ⟨h3, h4⟩, h5⟩
    refine ⟨⟨?_, ?_⟩, ⟨?_, ?_⟩, ?_⟩
    · split <;> split at h2 <;> omega
    · split <;> split at h1 <;> omega
    · split <;> split at h4 <;> omega
    · split <;> split at h3 <;> omega
    · rintro ⟨rfl, rfl⟩
      exact h5 ⟨rfl, rfl⟩

/-- Counting along a list after one more cell satisfies the test. -/
theorem countP_insert_cell (l : List Vec) (p : Vec → Bool) (c : Vec) (hc : p c = false) :
    l.countP (fun v => decide (v = c) || p v) = l.countP p + l.count c := by
  induction l with
  | nil => rfl
  | cons a t ih =>
    rw [List.countP_cons, List.countP_cons, List.count_cons, ih]
    by_cases hac : a = c
    · subst hac
      simp [hc]
      omega
    · have : (a == c) = false := beq_eq_false_iff_ne.mpr hac
      simp [hac, this]
      omega

end util

namespace board

open util

namespace Board

/-- Placing a mine on a mine-free in-bounds cell returns, sets the mine, and keeps the
neighbour counts equal to the numbers of mined neighbours. -/
theorem PlaceMine_countsOK (b : Board) (x y : Nat) (hc : b.CountsOK) (hx : x < b.size)
    (hy : y < b.size) (hxy : b.mines x y = false) :
    (b.PlaceMine x y).1 = .ret () ∧ (b.PlaceMine x y).2.size = b.size
      ∧ (b.PlaceMine x y).2.CountsOK
      ∧ (∀ i j, (b.PlaceMine x y).2.mines i j = (decide (Vec.mk i j = Vec.mk x y) || b.mines i j))
      ∧ (b.PlaceMine x y).2.flags = b.flags ∧ (b.PlaceMine x y).2.revealed = b.revealed := by
  have hin : b.inBounds x y = true := by simp [inBounds, hx, hy]
  unfold PlaceMine
  rw [if_pos hin]
  obtain ⟨h1, h2, h3, h4, h5, h6⟩ := bumpNeighbors_spec (GetNeighbors x y b.size)
    { b with mines := fun i j => if i = x ∧ j = y then true else b.mines i j }
    (fun v hv => GetNeighbors_inBounds hx hy hv)
  have hmines : ∀ i j, (bumpNeighbors (GetNeighbors x y b.size)
      { b with mines := fun i j => if i = x ∧ j = y then true else b.mines i j }).2.mines i j
      = (decide (Vec.mk i j = Vec.mk x y) || b.mines i j) := by
    intro i j
    rw [h3]
    simp only [Vec.mk.injEq]
    by_cases hij : i = x ∧ j = y
    · simp [hij]
    · simp [hij]
  refine ⟨h1, h2, ?_, hmines, h4, h5⟩
  intro i hi j hj
  rw [h2] at hi hj
  rw [h6, h2]
  have hfun : (fun v : Vec => (bumpNeighbors (GetNeighbors x y b.size)
      { b with mines := fun i j => if i = x ∧ j = y then true else b.mines i j }).2.mines v.X v.Y)
      = fun v => decide (v = Vec.mk x y) || b.mines v.X v.Y := by
    funext v
    rw [hmines]
  rw [hfun, countP_insert_cell (GetNeighbors i j b.size) (fun v => b.mines v.X v.Y)
    (Vec.mk x y) hxy]
  have hold := hc i hi j hj
  simp only at hold ⊢
  rw [hold, List.count_eq_of_nodup (GetNeighbors_nodup _ _ _),
    List.count_eq_of_nodup (GetNeighbors_nodup _ _ _)]
  by_cases hmem : Vec.mk i j ∈ GetNeighbors x y b.size
  · rw [if_pos hmem, if_pos ((mem_GetNeighbors_symm hx hy hi hj).mp hmem)]
    push_cast
    rfl
  · rw [if_neg hmem, if_neg (fun h => hmem ((mem_GetNeighbors_symm hx hy hi hj).mpr h))]
    push_cast
    rfl

/-- A fresh board has right counts. -/
theorem NewBoard_countsOK (size : Nat) : (NewBoard size).CountsOK := by
  intro x _ y _
  simp [NewBoard]

/-- The placing loop on pairwise distinct mine-free in-bounds cells. -/
theorem placeMines_countsOK (l : List Vec) (b : Board) (hc : b.CountsOK) (hnd : l.Nodup)
    (hl : ∀ v ∈ l, (v.X < b.size ∧ v.Y < b.size) ∧ b.mines v.X v.Y = false) :
    (placeMines l b).1 = .ret () ∧ (placeMines l b).2.size = b.size
      ∧ (placeMines l b).2.CountsOK
      ∧ (∀ i j, (placeMines l b).2.mines i j = (decide (Vec.mk i j ∈ l) || b.mines i j))
      ∧ (placeMines l b).2.flags = b.flags ∧ (placeMines l b).2.revealed = b.revealed := by
  induction l generalizing b with
  | nil => exact ⟨rfl, rfl, hc, fun i j => by simp [placeMines], rfl, rfl⟩
  | cons v rest ih =>
    obtain ⟨hv, hmine⟩ := hl v (List.mem_cons_self _ _)
    obtain ⟨hnot, hnd2⟩ := List.nodup_cons.mp hnd
    obtain ⟨p1, p2, p3, p4, p5, p6⟩ := PlaceMine_countsOK b v.X v.Y hc hv.1 hv.2 hmine
    have hstep : placeMines (v :: rest) b = placeMines rest (b.PlaceMine v.X v.Y).2 := by
      rw [placeMines]
      generalize b.PlaceMine v.X v.Y = r at p1
      obtain ⟨o, b1⟩ := r
      simp only at p1
      subst p1
      rfl
    rw [hstep]
    obtain ⟨q1, q2, q3, q4, q5, q6⟩ := ih (b.PlaceMine v.X v.Y).2 p3 hnd2 (by
      intro w hw
      obtain ⟨hwb, hwm⟩ := hl w (List.mem_cons_of_mem _ hw)
      rw [p2]
      refine ⟨hwb, ?_⟩
      rw [p4, hwm]
      have hne : ¬ Vec.mk w.X w.Y = Vec.mk v.X v.Y := by
        intro h
        apply hnot
        have : w = v := by
          cases w; cases v; exact h
        rw [← this]
        exact hw
      simp [hne])
    refine ⟨q1, q2.trans p2, q3, ?_, q5.trans p5, q6.trans p6⟩
    intro i j
    rw [q4, p4]
    have hv_eta : Vec.mk v.X v.Y = v := by cases v; rfl
    rw [hv_eta]
    by_cases h1 : Vec.mk i j = v
    · simp [h1]
    · simp [h1, List.mem_cons]

end Board

end board

namespace board

open util

/-- Claim C24. Neighbour counts track the mines: for every board obtained from
`NewBoard(size)` by `PlaceMine` calls on pairwise distinct in-bounds cells, the calls
return, the mined cells are the cells placed, and for every in-bounds cell `(x, y)`
`GetNumNeighbors(x, y)` equals the number of cells in `GetNeighbors(x, y, size)` that
hold a mine. -/
theorem placeMines_counts_track (size : Nat) (l : List Vec) (hnd : l.Nodup)
    (hin : ∀ v ∈ l, v.X < size ∧ v.Y < size) :
    (Board.placeMines l (NewBoard size)).1 = .ret ()
      ∧ (∀ i j, (Board.placeMines l (NewBoard size)).2.mines i j = true ↔ Vec.mk i j ∈ l)
      ∧ ∀ x, x < size → ∀ y, y < size →
          (Board.placeMines l (NewBoard size)).2.GetNumNeighbors x y
            = (((GetNeighbors x y size).countP
                fun v => (Board.placeMines l (NewBoard size)).2.mines v.X v.Y : Nat) : Int) := by
  obtain ⟨h1, h2, h3, h4, -, -⟩ := Board.placeMines_countsOK l (NewBoard size)
    (Board.NewBoard_countsOK size) hnd (fun v hv => ⟨hin v hv, rfl⟩)
  refine ⟨h1, ?_, ?_⟩
  · intro i j
    rw [h4]
    simp [NewBoard]
  · intro x hx y hy
    have hsz : (Board.placeMines l (NewBoard size)).2.size = size := h2
    have := h3 x (by rw [hsz]; exact hx) y (by rw [hsz]; exact hy)
    rw [hsz] at this
    exact this

/-- Witness of C24: mines placed on (1,1) and then (0,1) of a 3 x 3 board; the cell
(0,0) neighbours both. -/
theorem placeMines_counts_track_witness :
    (Board.placeMines [⟨1, 1⟩, ⟨0, 1⟩] (NewBoard 3)).2.GetNumNeighbors 0 0 = 2
      ∧ (Board.placeMines [⟨1, 1⟩, ⟨0, 1⟩] (NewBoard 3)).1 = .ret ()
      ∧ (∀ i j, (Board.placeMines [⟨1, 1⟩, ⟨0, 1⟩] (NewBoard 3)).2.mines i j = true ↔
          Vec.mk i j ∈ [Vec.mk 1 1, Vec.mk 0 1])
      ∧ ∀ x, x < 3 → ∀ y, y < 3 →
          (Board.placeMines [⟨1, 1⟩, ⟨0, 1⟩] (NewBoard 3)).2.GetNumNeighbors x y
            = (((GetNeighbors x y 3).countP
                fun v => (Board.placeMines [⟨1, 1⟩, ⟨0, 1⟩] (NewBoard 3)).2.mines v.X v.Y : Nat)
              : Int) :=
  ⟨by decide,
    placeMines_counts_track 3 [Vec.mk 1 1, Vec.mk 0 1] (by decide) (by decide)⟩

end board

/-! ## The flood fill uncovers no mine -/
namespace board

open util

namespace Board

/-- The flood-fill loop, relative to a set `R` of cells: if every revealed mine lies
in `R`, the counts are right and the queue holds only mine-free cells, then every
revealed mine still lies in `R` afterwards. -/
theorem clearZerosLoop_reveals_no_mine (R : Nat → Nat → Bool) (fuel : Nat) (b : Board)
    (q : List Vec) (hc : b.CountsOK)
    (hm : ∀ x, x < b.size → ∀ y, y < b.size → b.mines x y = true → b.revealed x y = true →
      R x y = true)
    (hq : ∀ v ∈ q, (v.X < b.size ∧ v.Y < b.size) ∧ b.mines v.X v.Y = false) :
    ∀ x, x < (clearZerosLoop fuel b q).2.size → ∀ y, y < (clearZerosLoop fuel b q).2.size →
      (clearZerosLoop fuel b q).2.mines x y = true →
      (clearZerosLoop fuel b q).2.revealed x y = true → R x y = true := by
  induction fuel generalizing b q with
  | zero =>
    cases q with
    | nil => exact hm
    | cons v q => exact hm
  | succ fuel ih =>
    cases q with
    | nil => exact hm
    | cons v q =>
      have hv := hq v (List.mem_cons_self _ _)
      have hin : b.inBounds v.X v.Y = true := by simp [inBounds, hv.1.1, hv.1.2]
      have hm1 : ∀ x, x < (b.setRevealed v.X v.Y).size → ∀ y, y < (b.setRevealed v.X v.Y).size →
          (b.setRevealed v.X v.Y).mines x y = true →
          (b.setRevealed v.X v.Y).revealed x y = true → R x y = true := by
        intro x hx y hy hmine hrev
        rw [setRevealed_revealed] at hrev
        split at hrev
        · rename_i he
          rw [he.1, he.2] at hmine
          have : b.mines v.X v.Y = true := hmine
          rw [hv.2] at this
          exact Bool.noConfusion this
        · exact hm x hx y hy hmine hrev
      have hq1 : ∀ w ∈ q, (w.X < (b.setRevealed v.X v.Y).size ∧
          w.Y < (b.setRevealed v.X v.Y).size) ∧ (b.setRevealed v.X v.Y).mines w.X w.Y = false :=
        fun w hw => hq w (List.mem_cons_of_mem _ hw)
      have hc1 : (b.setRevealed v.X v.Y).CountsOK := hc
      simp only [clearZerosLoop, hin, if_true]
      split
      · rename_i hz
        apply ih (b.setRevealed v.X v.Y) _ hc1 hm1
        intro w hw
        rcases List.mem_append.mp hw with hw | hw
        · exact hq1 w hw
        · have hw1 := (List.mem_filter.mp hw).1
          have hcount := hc v.X hv.1.1 v.Y hv.1.2
          have hz2 : b.neighbors v.X v.Y = 0 := hz.2
          rw [hz2] at hcount
          have hzero : (GetNeighbors v.X v.Y b.size).countP (fun v => b.mines v.X v.Y) = 0 := by
            omega
          exact ⟨GetNeighbors_inBounds hv.1.1 hv.1.2 hw1, countP_zero_imp hzero w hw1⟩
      · exact ih (b.setRevealed v.X v.Y) _ hc1 hm1 hq1

end Board

/-- Claim C25. Flood fill never uncovers a mine: on every board whose neighbour
counts equal the number of mined neighbours, for every in-bounds cell `(x, y)`
without a mine, `Reveal(x, y)` returns false (the flood fill terminates within its
step budget), `(x, y)` is revealed afterwards, no mined cell of the grid is newly
revealed, no cell is un-revealed, and the size, the mines, the flags and the
neighbour counts are unchanged. -/
theorem reveal_uncovers_no_mine (b : Board) (x y : Nat) (hc : b.CountsOK)
    (hx : x < b.size) (hy : y < b.size) (hxy : b.mines x y = false) :
    (b.Reveal x y).1 = .ret false
      ∧ (b.Reveal x y).2.revealed x y = true
      ∧ (∀ i, i < b.size → ∀ j, j < b.size → b.mines i j = true →
          (b.Reveal x y).2.revealed i j = true → b.revealed i j = true)
      ∧ (∀ i j, b.revealed i j = true → (b.Reveal x y).2.revealed i j = true)
      ∧ (b.Reveal x y).2.size = b.size ∧ (b.Reveal x y).2.mines = b.mines
      ∧ (b.Reveal x y).2.flags = b.flags ∧ (b.Reveal x y).2.neighbors = b.neighbors := by
  have hin : b.inBounds x y = true := by simp [Board.inBounds, hx, hy]
  obtain ⟨r1, r2, r3, r4, -, r6⟩ := Board.Reveal_revealsMore b x y
  have hfst := Board.Reveal_fst b x y hin
  rw [hxy] at hfst
  refine ⟨hfst, Board.Reveal_revealed_self b x y hin, ?_, r6, r1, r2, r3, r4⟩
  have hm1 : ∀ i, i < (b.setRevealed x y).size → ∀ j, j < (b.setRevealed x y).size →
      (b.setRevealed x y).mines i j = true → (b.setRevealed x y).revealed i j = true →
      b.revealed i j = true := by
    intro i hi j hj hmine hrev
    rw [Board.setRevealed_revealed] at hrev
    split at hrev
    · rename_i he
      rw [he.1, he.2] at hmine
      have : b.mines x y = true := hmine
      rw [hxy] at this
      exact Bool.noConfusion this
    · exact hrev
  have hloop := Board.clearZerosLoop_reveals_no_mine b.revealed
    (Board.clearZerosFuel (b.setRevealed x y)) (b.setRevealed x y) [Vec.mk x y]
    (show (b.setRevealed x y).CountsOK from hc) hm1
    (by
      intro v hv
      rw [List.mem_singleton] at hv
      subst hv
      exact ⟨⟨hx, hy⟩, hxy⟩)
  intro i hi j hj hmine hrev
  rw [← r2] at hmine
  revert hrev hmine
  rw [← r1] at hi hj
  revert hi hj
  unfold Board.Reveal
  rw [if_pos hin]
  have hmm : (b.setRevealed x y).mines x y = b.mines x y := rfl
  simp only [hmm, hxy, Bool.false_eq_true, if_false]
  unfold Board.clearZerosFrom
  split
  · split
    · rename_i heq
      rw [heq] at hloop
      intro hi hj hmine hrev
      exact hloop i hi j hj hmine hrev
    · rename_i heq
      rw [heq] at hloop
      intro hi hj hmine hrev
      exact hloop i hi j hj hmine hrev
  · intro hi hj hmine hrev
    exact hm1 i hi j hj hmine hrev

/-- Witness of C25: revealing the mine-free corner (0,0) of the 3 x 3 board with a
mine at (2,2) floods the board and leaves the mine covered. -/
theorem reveal_uncovers_no_mine_witness :
    ((NewBoard 3).PlaceMine 2 2).2.CountsOK
      ∧ (((NewBoard 3).PlaceMine 2 2).2.Reveal 0 0).2.revealed 1 1 = true
      ∧ (((NewBoard 3).PlaceMine 2 2).2.Reveal 0 0).2.revealed 2 2 = false
      ∧ (((NewBoard 3).PlaceMine 2 2).2.Reveal 0 0).1 = .ret false
      ∧ (((NewBoard 3).PlaceMine 2 2).2.Reveal 0 0).2.revealed 0 0 = true
      ∧ (∀ i, i < ((NewBoard 3).PlaceMine 2 2).2.size →
          ∀ j, j < ((NewBoard 3).PlaceMine 2 2).2.size →
          ((NewBoard 3).PlaceMine 2 2).2.mines i j = true →
          (((NewBoard 3).PlaceMine 2 2).2.Reveal 0 0).2.revealed i j = true →
          ((NewBoard 3).PlaceMine 2 2).2.revealed i j = true)
      ∧ (∀ i j, ((NewBoard 3).PlaceMine 2 2).2.revealed i j = true →
          (((NewBoard 3).PlaceMine 2 2).2.Reveal 0 0).2.revealed i j = true)
      ∧ (((NewBoard 3).PlaceMine 2 2).2.Reveal 0 0).2.size = ((NewBoard 3).PlaceMine 2 2).2.size
      ∧ (((NewBoard 3).PlaceMine 2 2).2.Reveal 0 0).2.mines = ((NewBoard 3).PlaceMine 2 2).2.mines
      ∧ (((NewBoard 3).PlaceMine 2 2).2.Reveal 0 0).2.flags = ((NewBoard 3).PlaceMine 2 2).2.flags
      ∧ (((NewBoard 3).PlaceMine 2 2).2.Reveal 0 0).2.neighbors
          = ((NewBoard 3).PlaceMine 2 2).2.neighbors :=
  ⟨by unfold Board.CountsOK; decide, by decide, by decide,
    reveal_uncovers_no_mine ((NewBoard 3).PlaceMine 2 2).2 0 0
      (by unfold Board.CountsOK; decide) (by decide) (by decide) (by decide)⟩

end board

/-! ## Every action makes progress -/
namespace solver

open util board

end solver

/-! ## A stuck turn stays stuck when the worklist was exhausted -/
namespace solver

open util board

theorem settled_mono {F G : Fact → Prop} {a c : Fact} (h : ∀ f, F f → G f)
    (hs : Fact.Settled F a c) : Fact.Settled G a c :=
  ⟨hs.1, fun hsub => ⟨(hs.2 hsub).1, fun hlt =>
    ⟨((hs.2 hsub).2 hlt).1, h _ ((hs.2 hsub).2 hlt).2⟩⟩⟩

/-- A call of `RunDualDeduction` that returns false has settled its pair within the
accepted facts, and has at most accepted the derived fact. -/
theorem runDualDeduction_false (ord : set.Set → List Vec) (k : Knowledge) (a c : Fact)
    (h : (k.RunDualDeduction ord a c).1 = .ret false) :
    Fact.Settled (fun f => f ∈ (k.RunDualDeduction ord a c).2.nodes) a c ∧
      ((k.RunDualDeduction ord a c).2 = k ∨
        (k.RunDualDeduction ord a c).2
          = (k.AddFact ord (a.mines - c.mines) (set.Sub a.tiles c.tiles)).2) := by
  unfold Knowledge.RunDualDeduction at h ⊢
  split at h
  · exact absurd h (by simp)
  · rename_i h1
    rw [if_neg h1]
    split at h
    · rename_i h2
      rw [if_pos h2]
      split at h
      · exfalso
        split at h
        · exact absurd h (by simp)
        · exact revealOrHitMine_ne_false _ _ _ h
      · rename_i h3
        rw [if_neg h3]
        split at h
        · rename_i h4
          rw [if_pos h4]
          simp only at h ⊢
          split at h
          · exfalso
            split at h
            · exact absurd h (by simp)
            · exact flagAndReturn_ne_false _ _ _ h
          · rename_i h5
            rw [if_neg h5]
            have hb := Knowledge.addFact_hasFact ord k (a.mines - c.mines)
              (set.Sub a.tiles c.tiles)
            split at h
            · rename_i u k1 heq
              rw [heq] at hb ⊢
              exact ⟨⟨h1, fun _ => ⟨h3, fun _ => ⟨h5, (Knowledge.hasFact_iff _ _ _).mp hb⟩⟩⟩,
                Or.inr rfl⟩
            · exact absurd h (by simp)
        · rename_i h4
          rw [if_neg h4]
          exact ⟨⟨h1, fun _ => ⟨h3, fun hlt => absurd hlt h4⟩⟩, Or.inl rfl⟩
    · rename_i h2
      rw [if_neg h2]
      exact ⟨⟨h1, fun hs => absurd hs h2⟩, Or.inl rfl⟩

/-- On a pair settled within `F`, `RunDualDeduction` returns false and at most accepts
a fact of `F`. -/
theorem runDualDeduction_of_settled (F : Fact → Prop) (ord : set.Set → List Vec)
    (hord : set.IterOrder ord) (k : Knowledge) (a c : Fact) (hin : a.InBounds k.b.size)
    (hs : Fact.Settled F a c) :
    (k.RunDualDeduction ord a c).1 = .ret false ∧
      ((k.RunDualDeduction ord a c).2 = k ∨
        (F ⟨a.mines - c.mines, set.Sub a.tiles c.tiles⟩ ∧
          (k.RunDualDeduction ord a c).2
            = (k.AddFact ord (a.mines - c.mines) (set.Sub a.tiles c.tiles)).2)) := by
  obtain ⟨h1, hs2⟩ := hs
  unfold Knowledge.RunDualDeduction
  rw [if_neg h1]
  split
  · rename_i h2
    obtain ⟨h3, hs3⟩ := hs2 h2
    rw [if_neg h3]
    split
    · rename_i h4
      obtain ⟨h5, h6⟩ := hs3 h4
      simp only
      rw [if_neg h5]
      have hok := Knowledge.addFact_ok ord hord k (a.mines - c.mines)
        (set.Sub a.tiles c.tiles) (sub_inBounds hin)
      split
      · rename_i u k1 heq
        rw [heq]
        exact ⟨rfl, Or.inr ⟨h6, rfl⟩⟩
      · rename_i p k1 heq
        rw [heq] at hok
        exact absurd hok (by simp)
    · exact ⟨rfl, Or.inl rfl⟩
  · exact ⟨rfl, Or.inl rfl⟩

namespace Knowledge

theorem addFact_nodes_mono (ord : set.Set → List Vec) (k : Knowledge) (m : Int) (s : set.Set) :
    ∀ f ∈ k.nodes, f ∈ (k.AddFact ord m s).2.nodes := by
  intro f hf
  rw [addFact_nodes]
  split
  · exact hf
  · exact List.mem_append_left _ hf

/-- Coverage of the overlapping pairs is kept by `AddFact` on an in-bounds cell set:
the new fact is paired with every accepted fact sharing a cell with it. -/
theorem covered_addFact {E : Fact → Fact → Prop} {k : Knowledge} (hi : k.Indexed)
    (hc : k.Covered E) (ord : set.Set → List Vec) (hord : set.IterOrder ord) (m : Int)
    (s : set.Set) (hin : ∀ v ∈ s, v.X < k.b.size ∧ v.Y < k.b.size) :
    (k.AddFact ord m s).2.Covered E := by
  cases hh : k.HasFact m s with
  | true =>
    rw [addFact_known ord k m s hh]
    exact hc
  | false =>
    rw [addFact_new ord hord k m s hin hh]
    have hmono : ∀ x y, Fact.Settled (fun f => f ∈ k.nodes) x y →
        Fact.Settled (fun f => f ∈ k.nodes ++ [Fact.mk m s]) x y :=
      fun x y => settled_mono (fun f hf => List.mem_append_left _ hf)
    have hbatch : ∀ g ∈ k.nodes, (∃ v, v ∈ s ∧ v ∈ g.tiles) →
        [Fact.mk m s, g] ∈
          (ord s).flatMap fun v => (k.tiles v.X v.Y).map fun o => [Fact.mk m s, o] := by
      rintro g hg ⟨v, hv, hvg⟩
      rw [List.mem_flatMap]
      refine ⟨v, (hord.mem_iff s v).mpr hv, ?_⟩
      rw [List.mem_map]
      refine ⟨g, ?_, rfl⟩
      rw [hi.2.2.1 v.X v.Y, List.mem_filter]
      exact ⟨hg, by simpa using hvg⟩
    intro a ha c hcm hne hsh
    simp only [List.mem_append, List.mem_singleton] at ha hcm
    simp only
    rcases ha with ha | rfl
    · rcases hcm with hcm | rfl
      · rcases hc a ha c hcm hne hsh with h | h | h
        · left
          rcases h with h | h
          · exact Or.inl (List.mem_append_left _ h)
          · exact Or.inr (List.mem_append_left _ h)
        · right; left
          exact ⟨hmono _ _ h.1, hmono _ _ h.2⟩
        · right; right
          exact h
      · left; right
        obtain ⟨v, hva, hvs⟩ := hsh
        exact List.mem_append_right _ (hbatch a ha ⟨v, hvs, hva⟩)
    · rcases hcm with hcm | rfl
      · left; left
        obtain ⟨v, hvs, hvc⟩ := hsh
        exact List.mem_append_right _ (hbatch c hcm ⟨v, hvs, hvc⟩)
      · exact absurd rfl hne

theorem indexed_pop {k : Knowledge} (hi : k.Indexed) (p : List Fact) (rest : List (List Fact))
    (hu : k.unchecked = p :: rest) :
    Indexed { k with unchecked := rest } ∧
      ∃ f g, p = [f, g] ∧ f ∈ k.nodes ∧ g ∈ k.nodes ∧ f ≠ g ∧ ∃ v, v ∈ f.tiles ∧ v ∈ g.tiles := by
  obtain ⟨h1, h2, h3, h4⟩ := hi
  refine ⟨⟨h1, h2, h3, fun q hq => h4 q ?_⟩, h4 p ?_⟩
  · rw [hu]
    exact List.mem_cons_of_mem _ hq
  · rw [hu]
    exact List.mem_cons_self _ _

theorem newKnowledge_indexed (b : Board) : (NewKnowledge b).Indexed := by
  refine ⟨List.nodup_nil, ?_, ?_, ?_⟩
  · intro f hf
    exact absurd hf (List.not_mem_nil f)
  · intro i j
    rfl
  · intro p hp
    exact absurd hp (List.not_mem_nil p)

theorem newKnowledge_covered (E : Fact → Fact → Prop) (b : Board) :
    (NewKnowledge b).Covered E := by
  intro a ha
  exact absurd ha (List.not_mem_nil a)

end Knowledge

/-- A call of `RunDualDeduction` that returns false keeps the index consistent and the
overlapping pairs covered, leaves the board alone, drops no accepted fact, and
settles its pair. -/
theorem runDualDeduction_false_inv (E : Fact → Fact → Prop) (ord : set.Set → List Vec)
    (hord : set.IterOrder ord) (k : Knowledge) (a c : Fact) (hi : k.Indexed)
    (hc : k.Covered E) (hin : a.InBounds k.b.size)
    (h : (k.RunDualDeduction ord a c).1 = .ret false) :
    (k.RunDualDeduction ord a c).2.Indexed ∧ (k.RunDualDeduction ord a c).2.Covered E
      ∧ (k.RunDualDeduction ord a c).2.b = k.b
      ∧ (∀ f ∈ k.nodes, f ∈ (k.RunDualDeduction ord a c).2.nodes)
      ∧ Fact.Settled (fun f => f ∈ (k.RunDualDeduction ord a c).2.nodes) a c := by
  obtain ⟨hs, h2 | h2⟩ := runDualDeduction_false ord k a c h
  · rw [h2] at hs ⊢
    exact ⟨hi, hc, rfl, fun f hf => hf, hs⟩
  · rw [h2] at hs ⊢
    exact ⟨hi.addFact ord hord _ _ (sub_inBounds hin),
      Knowledge.covered_addFact hi hc ord hord _ _ (sub_inBounds hin), Knowledge.addFact_b _ _ _ _,
      Knowledge.addFact_nodes_mono _ _ _ _, hs⟩

/-- One call of `RunNextDeduction` that returns false keeps the index consistent and
every overlapping pair of accepted facts either paired in the worklist or settled. -/
theorem runNextDeduction_covered (ord : set.Set → List Vec) (hord : set.IterOrder ord)
    (k : Knowledge) (hi : k.Indexed) (hc : k.Covered fun _ _ => False)
    (hne : k.unchecked ≠ []) (k1 : Knowledge)
    (h : k.RunNextDeduction ord = (.ret false, k1)) :
    k1.Indexed ∧ (k1.Covered fun _ _ => False) ∧ k1.b = k.b ∧ ∀ f ∈ k.nodes, f ∈ k1.nodes := by
  obtain ⟨p, rest, hu⟩ := List.exists_cons_of_ne_nil hne
  obtain ⟨hi0, f0, f1, rfl, hf0, hf1, hne01, hsh⟩ := Knowledge.indexed_pop hi p rest hu
  rw [Knowledge.runNextDeduction_pair ord k f0 f1 rest hu] at h
  have hc0 : Knowledge.Covered (fun a c => (a = f0 ∧ c = f1) ∨ (a = f1 ∧ c = f0))
      { k with unchecked := rest } := by
    intro a ha c hcm hne hs
    rcases hc a ha c hcm hne hs with h1 | h1 | h1
    · rw [hu] at h1
      simp only [List.mem_cons] at h1
      rcases h1 with (h1 | h1) | (h1 | h1)
      · right; right; left
        simp only [List.cons.injEq, and_true] at h1
        exact h1
      · exact Or.inl (Or.inl h1)
      · right; right; right
        simp only [List.cons.injEq, and_true] at h1
        exact ⟨h1.2, h1.1⟩
      · exact Or.inl (Or.inr h1)
    · exact Or.inr (Or.inl h1)
    · exact absurd h1 id
  generalize hr : Knowledge.RunDualDeduction ord { k with unchecked := rest } f0 f1 = r at h
  obtain ⟨o, k2⟩ := r
  cases o with
  | panic q => exact absurd (congrArg Prod.fst h) (by simp)
  | ret v =>
    cases v with
    | true => exact absurd (congrArg Prod.fst h) (by simp)
    | false =>
      simp only at h
      have e1 := runDualDeduction_false_inv _ ord hord { k with unchecked := rest } f0 f1 hi0 hc0
        (hi.2.1 f0 hf0) (by rw [hr])
      rw [hr] at e1
      obtain ⟨i2, c2, b2, n2, s2⟩ := e1
      have e2 := runDualDeduction_false_inv _ ord hord k2 f1 f0 i2 c2
        (by rw [b2]; exact hi.2.1 f1 hf1) (by rw [h])
      rw [h] at e2
      obtain ⟨i3, c3, b3, n3, s3⟩ := e2
      have s2b : Fact.Settled (fun f => f ∈ k1.nodes) f0 f1 := settled_mono n3 s2
      refine ⟨i3, ?_, by rw [b3, b2], fun f hf => n3 f (n2 f hf)⟩
      intro a ha c hcm hne hs
      rcases c3 a ha c hcm hne hs with h1 | h1 | h1 | h1
      · exact Or.inl h1
      · exact Or.inr (Or.inl h1)
      · obtain ⟨rfl, rfl⟩ := h1
        exact Or.inr (Or.inl ⟨s2b, s3⟩)
      · obtain ⟨rfl, rfl⟩ := h1
        exact Or.inr (Or.inl ⟨s3, s2b⟩)

/-- A run of the propagation loop that returns false keeps the index consistent and
every overlapping pair of accepted facts either paired in the worklist or settled;
it leaves the board alone. -/
theorem deduceLoopOrds_covered (n : Nat) (ords : Nat → set.Set → List Vec)
    (hords : ∀ i, set.IterOrder (ords i)) (k : Knowledge) (hi : k.Indexed)
    (hc : k.Covered fun _ _ => False) (kf : Knowledge)
    (h : deduceLoopOrds n ords k = (.ret false, kf)) :
    kf.Indexed ∧ (kf.Covered fun _ _ => False) ∧ kf.b = k.b ∧ ∀ f ∈ k.nodes, f ∈ kf.nodes := by
  induction n generalizing ords k with
  | zero =>
    rw [deduceLoopOrds] at h
    obtain rfl := (Prod.mk.inj h).2
    exact ⟨hi, hc, rfl, fun f hf => hf⟩
  | succ n ih =>
    by_cases hu : k.unchecked = []
    · rw [deduceLoopOrds_nil _ _ _ hu] at h
      obtain rfl := (Prod.mk.inj h).2
      exact ⟨hi, hc, rfl, fun f hf => hf⟩
    · obtain ⟨st, sf, sp⟩ := deduceLoopOrds_step n ords k hu
      generalize hr : k.RunNextDeduction (ords 0) = r at st sf sp
      obtain ⟨o, k1⟩ := r
      cases o with
      | panic q =>
        rw [sp q k1 rfl] at h
        exact absurd (congrArg Prod.fst h) (by simp)
      | ret v =>
        cases v with
        | true =>
          rw [st k1 rfl] at h
          exact absurd (congrArg Prod.fst h) (by simp)
        | false =>
          rw [sf k1 rfl] at h
          obtain ⟨i1, c1, b1, n1⟩ := runNextDeduction_covered (ords 0) (hords 0) k hi hc hu k1 hr
          obtain ⟨i2, c2, b2, n2⟩ := ih (fun i => ords (i + 1)) (fun i => hords (i + 1)) k1 i1 c1 h
          exact ⟨i2, c2, by rw [b2, b1], fun f hf => n2 f (n1 f hf)⟩

/-- On a pair settled within `F`, `RunDualDeduction` returns false, keeps the index
consistent and the accepted facts within `F`, and leaves the board alone. -/
theorem runDualDeduction_settled_inv (F : Fact → Prop) (ord : set.Set → List Vec)
    (hord : set.IterOrder ord) (k : Knowledge) (a c : Fact) (hi : k.Indexed)
    (hk : ∀ f ∈ k.nodes, F f) (hin : a.InBounds k.b.size) (hs : Fact.Settled F a c) :
    (k.RunDualDeduction ord a c).1 = .ret false ∧ (k.RunDualDeduction ord a c).2.Indexed
      ∧ (∀ f ∈ (k.RunDualDeduction ord a c).2.nodes, F f)
      ∧ (k.RunDualDeduction ord a c).2.b = k.b := by
  obtain ⟨h1, h2 | ⟨hF, h2⟩⟩ := runDualDeduction_of_settled F ord hord k a c hin hs
  · rw [h2]
    exact ⟨h1, hi, hk, rfl⟩
  · rw [h2]
    refine ⟨h1, hi.addFact ord hord _ _ (sub_inBounds hin), ?_, Knowledge.addFact_b _ _ _ _⟩
    intro f hf
    rw [Knowledge.addFact_nodes] at hf
    split at hf
    · exact hk f hf
    · rw [List.mem_append, List.mem_singleton] at hf
      rcases hf with hf | rfl
      · exact hk f hf
      · exact hF

/-- When every overlapping pair of the facts `F` is settled within `F`, one call of
`RunNextDeduction` on accepted facts of `F` returns false and stays within `F`. -/
theorem runNextDeduction_of_closed (F : Fact → Prop)
    (hF : ∀ a c, F a → F c → a ≠ c → (∃ v, v ∈ a.tiles ∧ v ∈ c.tiles) → Fact.Settled F a c)
    (ord : set.Set → List Vec) (hord : set.IterOrder ord) (k : Knowledge) (hi : k.Indexed)
    (hk : ∀ f ∈ k.nodes, F f) (hne : k.unchecked ≠ []) :
    (k.RunNextDeduction ord).1 = .ret false ∧ (k.RunNextDeduction ord).2.Indexed
      ∧ (∀ f ∈ (k.RunNextDeduction ord).2.nodes, F f)
      ∧ (k.RunNextDeduction ord).2.b = k.b := by
  obtain ⟨p, rest, hu⟩ := List.exists_cons_of_ne_nil hne
  obtain ⟨hi0, f0, f1, rfl, hf0, hf1, hne01, v, hv0, hv1⟩ := Knowledge.indexed_pop hi p rest hu
  rw [Knowledge.runNextDeduction_pair ord k f0 f1 rest hu]
  obtain ⟨e1, i1, n1, b1⟩ := runDualDeduction_settled_inv F ord hord
    { k with unchecked := rest } f0 f1 hi0 hk (hi.2.1 f0 hf0)
    (hF f0 f1 (hk f0 hf0) (hk f1 hf1) hne01 ⟨v, hv0, hv1⟩)
  generalize Knowledge.RunDualDeduction ord { k with unchecked := rest } f0 f1 = r
    at e1 i1 n1 b1
  obtain ⟨o, k2⟩ := r
  simp only at e1 i1 n1 b1
  subst e1
  simp only
  obtain ⟨e2, i2, n2, b2⟩ := runDualDeduction_settled_inv F ord hord k2 f1 f0 i1 n1
    (by rw [b1]; exact hi.2.1 f1 hf1)
    (hF f1 f0 (hk f1 hf1) (hk f0 hf0) (Ne.symm hne01) ⟨v, hv1, hv0⟩)
  exact ⟨e2, i2, n2, by rw [b2, b1]⟩

/-- When every overlapping pair of the facts `F` is settled within `F`, the propagation
loop started on accepted facts of `F` returns false, whatever the iteration orders
and the number of iterations, and leaves the board alone. -/
theorem deduceLoopOrds_of_closed (F : Fact → Prop)
    (hF : ∀ a c, F a → F c → a ≠ c → (∃ v, v ∈ a.tiles ∧ v ∈ c.tiles) → Fact.Settled F a c)
    (n : Nat) (ords : Nat → set.Set → List Vec) (hords : ∀ i, set.IterOrder (ords i))
    (k : Knowledge) (hi : k.Indexed) (hk : ∀ f ∈ k.nodes, F f) :
    (deduceLoopOrds n ords k).1 = .ret false ∧ (deduceLoopOrds n ords k).2.b = k.b := by
  induction n generalizing ords k with
  | zero => exact ⟨rfl, rfl⟩
  | succ n ih =>
    by_cases hu : k.unchecked = []
    · rw [deduceLoopOrds_nil _ _ _ hu]
      exact ⟨rfl, rfl⟩
    · obtain ⟨e1, i1, n1, b1⟩ := runNextDeduction_of_closed F hF (ords 0) (hords 0) k hi hk hu
      obtain ⟨-, sf, -⟩ := deduceLoopOrds_step n ords k hu
      rw [sf (k.RunNextDeduction (ords 0)).2 (Prod.ext e1 rfl)]
      obtain ⟨e2, b2⟩ := ih (fun i => ords (i + 1)) (fun i => hords (i + 1)) _ i1 n1
      exact ⟨e2, by rw [b2, b1]⟩

/-- The seeding loop with the orders drawn anew: it returns, leaves the board alone,
keeps the index consistent and the overlapping pairs covered, and accepts exactly
the facts of the listed cells that satisfy the seeding condition. -/
theorem seedFromOrds_spec (E : Fact → Fact → Prop) (ords : Nat → set.Set → List Vec)
    (hords : ∀ i, set.IterOrder (ords i)) (b : Board)
    (l : List (Nat × Nat)) (hl : ∀ p ∈ l, p.1 < b.size ∧ p.2 < b.size)
    (k : Knowledge) (hkb : k.b = b) (hi : k.Indexed) (hc : k.Covered E) :
    ∃ k1, seedFromOrds ords l k = (.ret (), k1) ∧ k1.b = b ∧ k1.Indexed ∧ k1.Covered E ∧
      ∀ f, f ∈ k1.nodes ↔
        f ∈ k.nodes ∨ ∃ p ∈ l, seedCond b p.1 p.2 ∧ f = seedFact b p.1 p.2 := by
  induction l generalizing ords k with
  | nil => exact ⟨k, rfl, hkb, hi, hc, fun f => by simp⟩
  | cons p rest ih =>
    obtain ⟨x, y⟩ := p
    have hp := hl (x, y) (List.mem_cons_self _ _)
    have hstep : ∃ k1, seedCell (ords 0) k x y = (.ret (), k1) ∧ k1.b = b ∧ k1.Indexed ∧
        k1.Covered E ∧
        ∀ f, f ∈ k1.nodes ↔ f ∈ k.nodes ∨ (seedCond b x y ∧ f = seedFact b x y) := by
      subst hkb
      by_cases hcd : seedCond k.b x y
      · rw [(seedCell_eq (ords 0) k x y).1 hcd]
        have hin : ∀ v ∈ (seedFact k.b x y).tiles, v.X < k.b.size ∧ v.Y < k.b.size :=
          fun v hv => (seedFact_hidden k.b x y hp.1 hp.2 v hv).1
        refine ⟨(k.AddFact (ords 0) (seedFact k.b x y).mines (seedFact k.b x y).tiles).2,
          Prod.ext ?_ rfl, Knowledge.addFact_b _ _ _ _, hi.addFact _ (hords 0) _ _ hin,
          Knowledge.covered_addFact hi hc _ (hords 0) _ _ hin, ?_⟩
        · exact Knowledge.addFact_ok (ords 0) (hords 0) k _ _ hin
        · intro f
          rw [Knowledge.addFact_nodes]
          by_cases hhas : k.HasFact (seedFact k.b x y).mines (seedFact k.b x y).tiles = true
          · rw [if_pos hhas]
            have hmem := (Knowledge.hasFact_iff k _ _).mp hhas
            constructor
            · exact fun h => Or.inl h
            · rintro (h | ⟨-, rfl⟩)
              · exact h
              · exact hmem
          · rw [if_neg hhas, List.mem_append, List.mem_singleton]
            constructor
            · rintro (h | h)
              · exact Or.inl h
              · exact Or.inr ⟨hcd, h⟩
            · rintro (h | ⟨-, h⟩)
              · exact Or.inl h
              · exact Or.inr h
      · rw [(seedCell_eq (ords 0) k x y).2 hcd]
        exact ⟨k, rfl, rfl, hi, hc, fun f => by simp [hcd]⟩
    obtain ⟨k1, h1, h2, h3, h4, h5⟩ := hstep
    obtain ⟨k2, e1, e2, e3, e4, e5⟩ := ih (fun i => ords (i + 1)) (fun i => hords (i + 1))
      (fun q hq => hl q (List.mem_cons_of_mem _ hq)) k1 h2 h3 h4
    refine ⟨k2, ?_, e2, e3, e4, ?_⟩
    · simp only [seedFromOrds, h1]
      exact e1
    · intro f
      rw [e5, h5]
      simp only [List.mem_cons, exists_eq_or_imp]
      tauto

/-- With the same order for every cell, the seeding loop is the seeding loop of
`deduce` as embedded with one order. -/
theorem seedFromOrds_const (ord : set.Set → List Vec) (l : List (Nat × Nat)) (k : Knowledge) :
    seedFromOrds (fun _ => ord) l k = seedFrom ord l k := by
  induction l generalizing k with
  | nil => rfl
  | cons p rest ih =>
    obtain ⟨x, y⟩ := p
    rw [seedFromOrds, seedFrom]
    generalize seedCell ord k x y = r
    obtain ⟨o, k1⟩ := r
    cases o with
    | ret u => exact ih k1
    | panic q => rfl

/-- With the same order at every `range`, `PassOrds` is `Pass` as embedded with one
order. -/
theorem PassOrds_const (ord : set.Set → List Vec) (b : Board) :
    PassOrds (fun _ => ord) (fun _ => ord) b = Pass ord b := by
  have hd : ∀ b3, deduceOrds (fun _ => ord) (fun _ => ord) b3 = deduce ord b3 := by
    intro b3
    unfold deduceOrds propagateOrds deduce
    rw [seedFromOrds_const]
    generalize seedFrom ord (scanCells b3.GetSize) (NewKnowledge b3) = r
    obtain ⟨o, k⟩ := r
    cases o with
    | ret u =>
      simp only
      rw [deduceLoopOrds_const]
    | panic q => rfl
  unfold PassOrds Pass
  generalize revealIfFresh b = r1
  obtain ⟨o1, b1⟩ := r1
  cases o1 with
  | panic q => rfl
  | ret v1 =>
    cases v1 with
    | true => rfl
    | false =>
      show (match findObviousMines b1 with
        | (.ret false, b2) =>
          match findObiousEmpty b2 with
          | (.ret false, b3) => deduceOrds (fun _ => ord) (fun _ => ord) b3
          | r => r
        | r => r) = (match findObviousMines b1 with
        | (.ret false, b2) =>
          match findObiousEmpty b2 with
          | (.ret false, b3) => deduce ord b3
          | r => r
        | r => r)
      generalize findObviousMines b1 = r2
      obtain ⟨o2, b2⟩ := r2
      cases o2 with
      | panic q => rfl
      | ret v2 =>
        cases v2 with
        | true => rfl
        | false =>
          show (match findObiousEmpty b2 with
            | (.ret false, b3) => deduceOrds (fun _ => ord) (fun _ => ord) b3
            | r => r) = (match findObiousEmpty b2 with
            | (.ret false, b3) => deduce ord b3
            | r => r)
          generalize findObiousEmpty b2 = r3
          obtain ⟨o3, b3⟩ := r3
          cases o3 with
          | panic q => rfl
          | ret v3 =>
            cases v3 with
            | true => rfl
            | false => exact hd b3

/-- The stages of a turn before `deduce` do not range over a map: either one of them
acts (or panics), whatever the iteration orders, or the turn is the call of
`deduce` on the unchanged board. -/
theorem PassOrds_cases (b : Board) :
    (∃ r : Outcome Bool × Board, r.1 ≠ .ret false ∧ ∀ so lo, PassOrds so lo b = r)
      ∨ ∀ so lo, PassOrds so lo b = deduceOrds so lo b := by
  have key : ∀ r : Outcome Bool × Board, r.1 ≠ .ret false →
      ∀ (g : Board → Outcome Bool × Board),
        (match r with
          | (.ret false, b1) => g b1
          | r => r) = r := by
    rintro ⟨o, b1⟩ hne g
    cases o with
    | ret v =>
      cases v with
      | true => rfl
      | false => exact absurd rfl hne
    | panic p => rfl
  cases hr : b.HasReveals with
  | false =>
    left
    refine ⟨revealOrHitMine b 0 0, revealOrHitMine_ne_false b 0 0, fun so lo => ?_⟩
    have h1 : revealIfFresh b = revealOrHitMine b 0 0 := by
      unfold revealIfFresh
      rw [if_pos hr]
    unfold PassOrds
    rw [h1]
    exact key _ (revealOrHitMine_ne_false b 0 0) _
  | true =>
    have h1 : revealIfFresh b = (.ret false, b) := by
      unfold revealIfFresh
      rw [if_neg (by simp [hr])]
    rcases findObviousMines_cases b with h2 | ⟨n, -, h2⟩
    · rcases findObiousEmpty_cases b with h3 | ⟨n, -, h3⟩
      · right
        intro so lo
        unfold PassOrds
        rw [h1]
        simp only
        rw [h2]
        simp only
        rw [h3]
      · left
        refine ⟨revealOrHitMine b n.X n.Y, revealOrHitMine_ne_false _ _ _, fun so lo => ?_⟩
        unfold PassOrds
        rw [h1]
        simp only
        rw [h2]
        simp only
        rw [h3]
        exact key _ (revealOrHitMine_ne_false _ _ _) _
    · left
      refine ⟨flagAndReturn b n.X n.Y, flagAndReturn_ne_false _ _ _, fun so lo => ?_⟩
      unfold PassOrds
      rw [h1]
      simp only
      rw [h2]
      exact key _ (flagAndReturn_ne_false _ _ _) _

/-- Claim C4, amended. Stuck leaves the board untouched: for every board, if `Pass`
returns false, whatever order each of its `range` loops draws for its map, then the
mines, flags, revealed and neighbour-count grids are all exactly as before the
call; and if moreover the call ended with an exhausted worklist (not at the cap of
`maxDeductions` iterations), then an immediately repeated `Pass` on that board,
whatever orders it draws in its turn, returns false again with no board change.
With one order throughout, `PassOrds` is `Pass`. -/
theorem pass_stuck_repeat (so lo so2 lo2 : Nat → set.Set → List Vec)
    (hso : ∀ i, set.IterOrder (so i)) (hlo : ∀ i, set.IterOrder (lo i))
    (hso2 : ∀ i, set.IterOrder (so2 i)) (hlo2 : ∀ i, set.IterOrder (lo2 i))
    (b : Board) (h : (PassOrds so lo b).1 = .ret false) :
    (PassOrds so lo b).2 = b
      ∧ ((propagateOrds so lo b).2.unchecked = [] →
          PassOrds so2 lo2 (PassOrds so lo b).2 = (.ret false, (PassOrds so lo b).2))
      ∧ ∀ ord, PassOrds (fun _ => ord) (fun _ => ord) b = Pass ord b := by
  rcases PassOrds_cases b with ⟨r, hr, hall⟩ | hall
  · rw [hall so lo] at h
    exact absurd h hr
  · obtain ⟨K1, s1, sb1, si1, sc1, sn1⟩ := seedFromOrds_spec (fun _ _ => False) so hso b
      (scanCells b.GetSize) (fun p hp => (mem_scanCells _ _ _).mp hp) (NewKnowledge b) rfl
      (Knowledge.newKnowledge_indexed b) (Knowledge.newKnowledge_covered _ b)
    have hp1 : propagateOrds so lo b = deduceLoopOrds maxDeductions lo K1 := by
      unfold propagateOrds
      rw [s1]
    have hf1 : (deduceLoopOrds maxDeductions lo K1).1 = .ret false := by
      rw [hall so lo] at h
      unfold deduceOrds at h
      rw [hp1] at h
      exact h
    obtain ⟨fi, fc, fb, fn⟩ := deduceLoopOrds_covered maxDeductions lo hlo K1 si1 sc1
      (deduceLoopOrds maxDeductions lo K1).2 (Prod.ext hf1 rfl)
    have hres1 : PassOrds so lo b = (.ret false, b) := by
      rw [hall so lo]
      unfold deduceOrds
      rw [hp1]
      exact Prod.ext hf1 (by rw [fb, sb1])
    refine ⟨by rw [hres1], ?_, fun ord => PassOrds_const ord b⟩
    intro hex
    rw [hp1] at hex
    rw [hres1]
    obtain ⟨K2, s2, sb2, si2, -, sn2⟩ := seedFromOrds_spec (fun _ _ => False) so2 hso2 b
      (scanCells b.GetSize) (fun p hp => (mem_scanCells _ _ _).mp hp) (NewKnowledge b) rfl
      (Knowledge.newKnowledge_indexed b) (Knowledge.newKnowledge_covered _ b)
    have hclosed : ∀ a c, a ∈ (deduceLoopOrds maxDeductions lo K1).2.nodes →
        c ∈ (deduceLoopOrds maxDeductions lo K1).2.nodes → a ≠ c →
        (∃ v, v ∈ a.tiles ∧ v ∈ c.tiles) →
        Fact.Settled (fun f => f ∈ (deduceLoopOrds maxDeductions lo K1).2.nodes) a c := by
      intro a c ha hc hne hsh
      rcases fc a ha c hc hne hsh with h1 | h1 | h1
      · rw [hex] at h1
        simp at h1
      · exact h1.1
      · exact absurd h1 id
    have hk2 : ∀ f ∈ K2.nodes, f ∈ (deduceLoopOrds maxDeductions lo K1).2.nodes := by
      intro f hf
      exact fn f ((sn1 f).mpr ((sn2 f).mp hf))
    obtain ⟨e1, e2⟩ := deduceLoopOrds_of_closed _ hclosed maxDeductions lo2 hlo2 K2 si2 hk2
    show PassOrds so2 lo2 b = (.ret false, b)
    rw [hall so2 lo2]
    unfold deduceOrds propagateOrds
    rw [s2]
    exact Prod.ext e1 (by rw [e2, sb2])

/-- Witness of C4: on the 3 x 3 board with the mine in the centre and two opposite
corners revealed, `Pass` is stuck after one deduction on the pair of the corners'
facts, under the sorted order as under the reverse one. -/
theorem pass_stuck_repeat_witness :
    (PassOrds (fun _ => set.sortedOrder) (fun _ => set.sortedOrder) boardTwoCorners).1
        = .ret false
      ∧ (propagateOrds (fun _ => set.sortedOrder) (fun _ => set.sortedOrder)
          boardTwoCorners).2.unchecked = []
      ∧ (PassOrds (fun _ => set.sortedOrder) (fun _ => set.sortedOrder) boardTwoCorners).2
          = boardTwoCorners
      ∧ PassOrds (fun _ => set.reverseOrder) (fun _ => set.reverseOrder)
          (PassOrds (fun _ => set.sortedOrder) (fun _ => set.sortedOrder) boardTwoCorners).2
        = (.ret false,
            (PassOrds (fun _ => set.sortedOrder) (fun _ => set.sortedOrder) boardTwoCorners).2) :=
  have h : (PassOrds (fun _ => set.sortedOrder) (fun _ => set.sortedOrder)
      boardTwoCorners).1 = .ret false := by decide
  have t := pass_stuck_repeat (fun _ => set.sortedOrder) (fun _ => set.sortedOrder)
    (fun _ => set.reverseOrder) (fun _ => set.reverseOrder)
    (fun _ => set.sortedOrder_iterOrder) (fun _ => set.sortedOrder_iterOrder)
    (fun _ => set.reverseOrder_iterOrder) (fun _ => set.reverseOrder_iterOrder)
    boardTwoCorners h
  have hex : (propagateOrds (fun _ => set.sortedOrder) (fun _ => set.sortedOrder)
      boardTwoCorners).2.unchecked = [] := by decide
  ⟨h, hex, t.1, t.2.1 hex⟩

end solver

/-! ## A turn cut by the step cap need not stay stuck -/
namespace solver

open util board

/-! ### Lists -/

theorem filter_flatMap_eq {α β : Type} (l : List α) (g : α → List β) (p : β → Bool) :
    (l.flatMap g).filter p = l.flatMap fun a => (g a).filter p := by
  induction l with
  | nil => rfl
  | cons a t ih => rw [List.flatMap_cons, List.filter_append, ih, List.flatMap_cons]

theorem filter_eq_nil_of_all {α : Type} (l : List α) (p : α → Bool)
    (h : ∀ a ∈ l, p a = false) : l.filter p = [] := by
  rw [List.filter_eq_nil_iff]
  intro a ha
  rw [h a ha]
  exact Bool.false_ne_true

/-- The elements of `F 0, ..., F (j-1)` satisfying `p`, when only `F i0` does. -/
theorem filter_map_range_single {β : Type} (F : Nat → β) (p : β → Bool) (j i0 : Nat)
    (h0 : i0 < j) (h : ∀ i, i < j → (p (F i) = true ↔ i = i0)) :
    ((List.range j).map F).filter p = [F i0] := by
  induction j with
  | zero => exact absurd h0 (Nat.not_lt_zero _)
  | succ j ih =>
    rw [List.range_succ, List.map_append, List.filter_append]
    by_cases hj : i0 = j
    · subst hj
      have h1 : ((List.range i0).map F).filter p = [] := by
        apply filter_eq_nil_of_all
        intro a ha
        rw [List.mem_map] at ha
        obtain ⟨i, hi, rfl⟩ := ha
        rw [List.mem_range] at hi
        cases hp : p (F i) with
        | false => rfl
        | true =>
          have := (h i (Nat.lt_succ_of_lt hi)).mp hp
          omega
      have h2 : p (F i0) = true := (h i0 (Nat.lt_succ_self _)).mpr rfl
      rw [h1]
      simp [h2]
    · have h1 : p (F j) = false := by
        cases hp : p (F j) with
        | false => rfl
        | true =>
          have := (h j (Nat.lt_succ_self _)).mp hp
          omega
      rw [ih (by omega) (fun i hi => h i (Nat.lt_succ_of_lt hi))]
      simp [h1]

theorem filter_map_range_none {β : Type} (F : Nat → β) (p : β → Bool) (j : Nat)
    (h : ∀ i, i < j → p (F i) = false) : ((List.range j).map F).filter p = [] := by
  apply filter_eq_nil_of_all
  intro a ha
  rw [List.mem_map] at ha
  obtain ⟨i, hi, rfl⟩ := ha
  exact h i (List.mem_range.mp hi)

/-- Mapping each element to a singleton or to nothing and flattening leaves one copy
per element that is kept. -/
theorem flatMap_ite_replicate {α β : Type} (l : List α) (q : α → Prop) [DecidablePred q]
    (x : β) :
    (l.flatMap fun v => if q v then [x] else []) = List.replicate (l.countP fun v => decide (q v)) x := by
  induction l with
  | nil => rfl
  | cons a t ih =>
    rw [List.flatMap_cons, ih, List.countP_cons]
    by_cases ha : q a
    · simp [ha, List.replicate_succ']
      rw [← List.replicate_succ, List.replicate_succ']
    · simp [ha]

theorem countP_eq_one {α : Type} [DecidableEq α] (l : List α) (p : α → Bool) (a : α)
    (hnd : l.Nodup) (ha : a ∈ l) (h : ∀ v ∈ l, (p v = true ↔ v = a)) : l.countP p = 1 := by
  have h1 : l.countP p = l.countP (fun v => v == a) := by
    apply List.countP_congr
    intro v hv
    rw [h v hv]
    simp
  rw [h1]
  exact List.count_eq_one_of_mem hnd ha

theorem countP_lt_countP {α : Type} (l : List α) (p q : α → Bool)
    (himp : ∀ v ∈ l, p v = true → q v = true) (w : α) (hw : w ∈ l) (hq : q w = true)
    (hp : p w = false) : l.countP p < l.countP q := by
  induction l with
  | nil => exact absurd hw (List.not_mem_nil w)
  | cons a t ih =>
    rw [List.countP_cons, List.countP_cons]
    have hle : t.countP p ≤ t.countP q := by
      apply List.countP_mono_left
      intro v hv
      exact himp v (List.mem_cons_of_mem _ hv)
    rcases List.mem_cons.mp hw with rfl | hw2
    · rw [hq, hp]
      simp
      omega
    · have := ih (fun v hv => himp v (List.mem_cons_of_mem _ hv)) hw2
      have h3 : (if p a = true then 1 else 0) ≤ (if q a = true then 1 else 0) := by
        by_cases hpa : p a = true
        · rw [if_pos hpa, if_pos (himp a (List.mem_cons_self _ _) hpa)]
        · rw [if_neg hpa]
          exact Nat.zero_le _
      omega

/-! ### The diagonal board -/

theorem mem_GetNeighbors_inner {x y size : Nat} (hx : x < size) (hy : y < size) (v : Vec) :
    v ∈ GetNeighbors x y size ↔
      (v.X < size ∧ v.Y < size) ∧ (v.X ≤ x + 1 ∧ x ≤ v.X + 1) ∧ (v.Y ≤ y + 1 ∧ y ≤ v.Y + 1)
        ∧ ¬ (v.X = x ∧ v.Y = y) := by
  rw [mem_GetNeighbors]
  constructor
  · rintro ⟨⟨h1, h2⟩, ⟨h3, h4⟩, h5⟩
    refine ⟨⟨?_, ?_⟩, ⟨?_, ?_⟩, ⟨?_, ?_⟩, h5⟩
    · split at h2 <;> omega
    · split at h4 <;> omega
    · split at h2 <;> omega
    · split at h1 <;> omega
    · split at h4 <;> omega
    · split at h3 <;> omega
  · rintro ⟨⟨h1, h2⟩, ⟨h3, h4⟩, ⟨h5, h6⟩, h7⟩
    refine ⟨⟨?_, ?_⟩, ⟨?_, ?_⟩, h7⟩
    · split <;> omega
    · split <;> omega
    · split <;> omega
    · split <;> omega

/-- Revealing an in-bounds cell that holds no mine and shows a positive number
uncovers that cell alone. -/
theorem reveal_numbered (b : Board) (x y : Nat) (hin : b.inBounds x y = true)
    (hm : b.mines x y = false) (hn : b.neighbors x y ≠ 0) :
    b.Reveal x y = (.ret false, b.setRevealed x y) := by
  have h1 : (b.setRevealed x y).mines x y = false := hm
  have h2 : ¬ (b.setRevealed x y).neighbors x y = 0 := hn
  unfold Board.Reveal
  rw [if_pos hin]
  simp only [h1, h2, Bool.false_eq_true, if_false]

/-- Revealing, one after the other, in-bounds cells that hold no mine and show a
positive number uncovers exactly these cells. -/
theorem revealCells_numbered (l : List Vec) (b : Board)
    (h : ∀ v ∈ l, b.inBounds v.X v.Y = true ∧ b.mines v.X v.Y = false
      ∧ b.neighbors v.X v.Y ≠ 0) :
    (revealCells l b).size = b.size ∧ (revealCells l b).mines = b.mines
      ∧ (revealCells l b).flags = b.flags ∧ (revealCells l b).neighbors = b.neighbors
      ∧ ∀ i j, (revealCells l b).revealed i j = (decide (Vec.mk i j ∈ l) || b.revealed i j) := by
  induction l generalizing b with
  | nil => exact ⟨rfl, rfl, rfl, rfl, fun i j => by simp [revealCells]⟩
  | cons v rest ih =>
    obtain ⟨h1, h2, h3⟩ := h v (List.mem_cons_self _ _)
    rw [revealCells, reveal_numbered b v.X v.Y h1 h2 h3]
    obtain ⟨e1, e2, e3, e4, e5⟩ := ih (b.setRevealed v.X v.Y)
      (fun w hw => h w (List.mem_cons_of_mem _ hw))
    refine ⟨e1, e2, e3, e4, fun i j => ?_⟩
    rw [e5, Board.setRevealed_revealed]
    by_cases hv : Vec.mk i j = v
    · subst hv
      simp
    · have hne : ¬ (i = v.X ∧ j = v.Y) := by
        rintro ⟨rfl, rfl⟩
        exact hv rfl
      simp [hv, hne]

/-- The fields of the diagonal board after the mines are placed. -/
theorem boardDiagonal_mined (m : Nat) :
    (Board.placeMines ((List.range (m + 1)).map fun k => Vec.mk (2 * k) (2 * k))
        (NewBoard (2 * m + 2))).2.size = 2 * m + 2
      ∧ (Board.placeMines ((List.range (m + 1)).map fun k => Vec.mk (2 * k) (2 * k))
        (NewBoard (2 * m + 2))).2.CountsOK
      ∧ (∀ i j, (Board.placeMines ((List.range (m + 1)).map fun k => Vec.mk (2 * k) (2 * k))
          (NewBoard (2 * m + 2))).2.mines i j = true ↔ i = j ∧ i % 2 = 0 ∧ i < 2 * m + 2)
      ∧ (∀ i j, (Board.placeMines ((List.range (m + 1)).map fun k => Vec.mk (2 * k) (2 * k))
          (NewBoard (2 * m + 2))).2.flags i j = false)
      ∧ ∀ i j, (Board.placeMines ((List.range (m + 1)).map fun k => Vec.mk (2 * k) (2 * k))
          (NewBoard (2 * m + 2))).2.revealed i j = false := by
  have hnd : ((List.range (m + 1)).map fun k => Vec.mk (2 * k) (2 * k)).Nodup := by
    apply List.Nodup.map _ (List.nodup_range _)
    intro a b hab
    rw [Vec.mk.injEq] at hab
    omega
  obtain ⟨-, p2, p3, p4, p5, p6⟩ := Board.placeMines_countsOK _ (NewBoard (2 * m + 2))
    (Board.NewBoard_countsOK _) hnd (fun v hv => by
      rw [List.mem_map] at hv
      obtain ⟨k, hk, rfl⟩ := hv
      rw [List.mem_range] at hk
      refine ⟨⟨?_, ?_⟩, rfl⟩
      · show 2 * k < 2 * m + 2
        omega
      · show 2 * k < 2 * m + 2
        omega)
  refine ⟨p2, p3, fun i j => ?_, fun i j => by rw [p5]; rfl, fun i j => by rw [p6]; rfl⟩
  rw [p4]
  simp only [NewBoard, Bool.or_false, decide_eq_true_eq, List.mem_map, List.mem_range,
    Vec.mk.injEq]
  constructor
  · rintro ⟨k, hk, rfl, rfl⟩
    omega
  · rintro ⟨rfl, h2, h3⟩
    exact ⟨i / 2, by omega, by omega, by omega⟩

/-- The fields of the diagonal board. -/
theorem boardDiagonal_fields (m : Nat) :
    (boardDiagonal m).size = 2 * m + 2
      ∧ (boardDiagonal m).CountsOK
      ∧ (∀ i j, (boardDiagonal m).mines i j = true ↔ i = j ∧ i % 2 = 0 ∧ i < 2 * m + 2)
      ∧ (∀ i j, (boardDiagonal m).flags i j = false)
      ∧ ∀ i j, (boardDiagonal m).revealed i j = true ↔
          (i = j ∧ i % 2 = 1 ∧ i < 2 * m + 2) ∨ (i = 2 * m ∧ j = 2 * m + 1) := by
  obtain ⟨q1, q2, q3, q4, q5⟩ := boardDiagonal_mined m
  obtain ⟨e1, e2, e3, e4, e5⟩ := revealCells_numbered
    (((List.range (m + 1)).map fun k => Vec.mk (2 * k + 1) (2 * k + 1))
      ++ [Vec.mk (2 * m) (2 * m + 1)])
    (Board.placeMines ((List.range (m + 1)).map fun k => Vec.mk (2 * k) (2 * k))
      (NewBoard (2 * m + 2))).2
    (fun v hv => by
      have hv2 : (v.X = v.Y ∧ v.X % 2 = 1 ∧ v.X < 2 * m + 2) ∨ (v.X = 2 * m ∧ v.Y = 2 * m + 1) := by
        rw [List.mem_append, List.mem_map, List.mem_singleton] at hv
        rcases hv with ⟨k, hk, rfl⟩ | rfl
        · rw [List.mem_range] at hk
          left
          dsimp only
          omega
        · right
          exact ⟨rfl, rfl⟩
      have hx : v.X < 2 * m + 2 := by omega
      have hy : v.Y < 2 * m + 2 := by omega
      refine ⟨?_, ?_, ?_⟩
      · simp [Board.inBounds, q1, hx, hy]
      · rw [← Bool.not_eq_true, q3]
        omega
      · rw [q2 v.X (by rw [q1]; exact hx) v.Y (by rw [q1]; exact hy), q1]
        have hpos : 0 < (GetNeighbors v.X v.Y (2 * m + 2)).countP fun w =>
            (Board.placeMines ((List.range (m + 1)).map fun k => Vec.mk (2 * k) (2 * k))
              (NewBoard (2 * m + 2))).2.mines w.X w.Y := by
          rw [List.countP_pos_iff]
          rcases hv2 with hv2 | hv2
          · refine ⟨Vec.mk (v.X - 1) (v.Y - 1), ?_, ?_⟩
            · rw [mem_GetNeighbors_inner hx hy]
              dsimp only
              omega
            · rw [q3]
              dsimp only
              omega
          · refine ⟨Vec.mk v.X (v.Y - 1), ?_, ?_⟩
            · rw [mem_GetNeighbors_inner hx hy]
              dsimp only
              omega
            · rw [q3]
              dsimp only
              omega
        intro h0
        rw [Int.natCast_eq_zero] at h0
        omega)
  have hsize : (boardDiagonal m).size = 2 * m + 2 := by
    show (revealCells _ _).size = _
    rw [e1, q1]
  refine ⟨hsize, ?_, ?_, ?_, ?_⟩
  · intro x hx y hy
    rw [hsize] at hx hy
    show (revealCells _ _).neighbors x y = (((GetNeighbors x y (revealCells _ _).size).countP
      fun v => (revealCells _ _).mines v.X v.Y : Nat) : Int)
    rw [e4, e2, e1]
    exact q2 x (by rw [q1]; exact hx) y (by rw [q1]; exact hy)
  · intro i j
    show (revealCells _ _).mines i j = true ↔ _
    rw [e2]
    exact q3 i j
  · intro i j
    show (revealCells _ _).flags i j = false
    rw [e3]
    exact q4 i j
  · intro i j
    show (revealCells _ _).revealed i j = true ↔ _
    rw [e5, q5]
    simp only [Bool.or_false, decide_eq_true_eq, List.mem_append, List.mem_map, List.mem_range,
      List.mem_singleton, Vec.mk.injEq]
    constructor
    · rintro (⟨k, hk, rfl, rfl⟩ | ⟨rfl, rfl⟩)
      · left
        omega
      · right
        exact ⟨rfl, rfl⟩
    · rintro (⟨rfl, h2, h3⟩ | ⟨rfl, rfl⟩)
      · left
        exact ⟨i / 2, by omega, by omega, by omega⟩
      · right
        exact ⟨rfl, rfl⟩

theorem boardDiagonal_size (m : Nat) : (boardDiagonal m).size = 2 * m + 2 :=
  (boardDiagonal_fields m).1

theorem boardDiagonal_mines (m i j : Nat) :
    (boardDiagonal m).mines i j = true ↔ i = j ∧ i % 2 = 0 ∧ i < 2 * m + 2 :=
  (boardDiagonal_fields m).2.2.1 i j

theorem boardDiagonal_revealed (m i j : Nat) :
    (boardDiagonal m).revealed i j = true ↔
      (i = j ∧ i % 2 = 1 ∧ i < 2 * m + 2) ∨ (i = 2 * m ∧ j = 2 * m + 1) :=
  (boardDiagonal_fields m).2.2.2.2 i j

theorem boardDiagonal_flags (m i j : Nat) : (boardDiagonal m).flags i j = false :=
  (boardDiagonal_fields m).2.2.2.1 i j

theorem boardDiagonal_neighbors (m x y : Nat) (hx : x < 2 * m + 2) (hy : y < 2 * m + 2) :
    (boardDiagonal m).neighbors x y
      = (((GetNeighbors x y (2 * m + 2)).countP fun v => (boardDiagonal m).mines v.X v.Y : Nat)
          : Int) := by
  have h := (boardDiagonal_fields m).2.1 x (by rw [boardDiagonal_size]; exact hx) y
    (by rw [boardDiagonal_size]; exact hy)
  rw [boardDiagonal_size] at h
  exact h

/-- The diagonal board is consistent: its numbers count the mined neighbours, no mine is
revealed and no flag is set. -/
theorem boardDiagonal_consistent (m : Nat) :
    (boardDiagonal m).CountsOK ∧ (boardDiagonal m).NoMineRevealed
      ∧ (boardDiagonal m).FlagsOnHiddenMines := by
  refine ⟨?_, ?_, ?_⟩
  · exact (boardDiagonal_fields m).2.1
  · intro x _ y _ hmine
    rw [boardDiagonal_mines] at hmine
    cases hr : (boardDiagonal m).revealed x y with
    | false => rfl
    | true =>
      rw [boardDiagonal_revealed] at hr
      omega
  · intro x _ y _ hf
    rw [boardDiagonal_flags] at hf
    exact Bool.noConfusion hf

/-- The cells of the fact seeded for a revealed cell of the diagonal board: its
unrevealed neighbours. -/
theorem mem_seedFact_diagonal (m x y : Nat) (hx : x < 2 * m + 2) (hy : y < 2 * m + 2)
    (v : Vec) :
    v ∈ (seedFact (boardDiagonal m) x y).tiles ↔
      ((v.X < 2 * m + 2 ∧ v.Y < 2 * m + 2) ∧ (v.X ≤ x + 1 ∧ x ≤ v.X + 1)
        ∧ (v.Y ≤ y + 1 ∧ y ≤ v.Y + 1) ∧ ¬ (v.X = x ∧ v.Y = y))
      ∧ ¬ ((v.X = v.Y ∧ v.X % 2 = 1 ∧ v.X < 2 * m + 2) ∨ (v.X = 2 * m ∧ v.Y = 2 * m + 1)) := by
  rw [seedFact_eq]
  simp only [set.FromList, List.mem_toFinset, List.mem_filter, Board.GetSize, boardDiagonal_size,
    mem_GetNeighbors_inner hx hy, Board.Revealed, Board.HasFlag, boardDiagonal_flags,
    Bool.not_false, Bool.and_true, Bool.not_eq_true']
  rw [← Bool.not_eq_true, boardDiagonal_revealed]

/-- The number of a cell of the diagonal board is positive when it has a mined
neighbour. -/
theorem boardDiagonal_neighbors_pos (m x y : Nat) (hx : x < 2 * m + 2) (hy : y < 2 * m + 2)
    (w : Vec) (hw : w ∈ GetNeighbors x y (2 * m + 2))
    (hm : (boardDiagonal m).mines w.X w.Y = true) :
    (boardDiagonal m).neighbors x y > 0 := by
  rw [boardDiagonal_neighbors m x y hx hy]
  have : 0 < (GetNeighbors x y (2 * m + 2)).countP fun v => (boardDiagonal m).mines v.X v.Y :=
    List.countP_pos_iff.mpr ⟨w, hw, hm⟩
  exact_mod_cast this

theorem vec_eq_iff (v : Vec) (a b : Nat) : v = Vec.mk a b ↔ v.X = a ∧ v.Y = b := by
  constructor
  · rintro rfl
    exact ⟨rfl, rfl⟩
  · rintro ⟨h1, h2⟩
    exact Vec.eq_of_coords h1 h2

/-- Every revealed cell of the diagonal board satisfies the seeding condition. -/
theorem boardDiagonal_seedCond (m x y : Nat)
    (h : (boardDiagonal m).revealed x y = true) : seedCond (boardDiagonal m) x y := by
  have hr := (boardDiagonal_revealed m x y).mp h
  have hx : x < 2 * m + 2 := by omega
  have hy : y < 2 * m + 2 := by omega
  rw [seedCond_iff _ _ _ (fun v _ hf => by
    rw [Board.HasFlag, boardDiagonal_flags] at hf
    exact Bool.noConfusion hf)]
  refine ⟨h, ?_, ?_⟩
  · rcases hr with hr | hr
    · apply boardDiagonal_neighbors_pos m x y hx hy (Vec.mk (x - 1) (y - 1))
      · rw [mem_GetNeighbors_inner hx hy]
        simp only
        omega
      · rw [boardDiagonal_mines]
        dsimp only
        omega
    · apply boardDiagonal_neighbors_pos m x y hx hy (Vec.mk x (y - 1))
      · rw [mem_GetNeighbors_inner hx hy]
        simp only
        omega
      · rw [boardDiagonal_mines]
        dsimp only
        omega
  · rcases hr with hr | hr
    · refine ⟨Vec.mk x (y - 1), ?_, ?_, boardDiagonal_flags m _ _⟩
      · rw [Board.GetSize, boardDiagonal_size, mem_GetNeighbors_inner hx hy]
        simp only
        omega
      · rw [Board.Revealed, ← Bool.not_eq_true, boardDiagonal_revealed]
        dsimp only
        omega
    · refine ⟨Vec.mk (x + 1) (y - 1), ?_, ?_, boardDiagonal_flags m _ _⟩
      · rw [Board.GetSize, boardDiagonal_size, mem_GetNeighbors_inner hx hy]
        simp only
        omega
      · rw [Board.Revealed, ← Bool.not_eq_true, boardDiagonal_revealed]
        dsimp only
        omega

/-- On the diagonal board no revealed cell is an obvious mine or an obvious empty
cell: every revealed cell has more unrevealed neighbours than its number, a
positive number, and no flagged neighbour. -/
theorem boardDiagonal_no_obvious (m : Nat) (n : Vec) :
    ¬ ObviousMine (boardDiagonal m) n ∧ ¬ ObviousEmpty (boardDiagonal m) n := by
  constructor
  · rintro ⟨x, y, hx, hy, hr, -, hcnt, -⟩
    rw [boardDiagonal_size] at hx hy
    rw [Board.Revealed] at hr
    have hr2 := (boardDiagonal_revealed m x y).mp hr
    rw [Board.GetNumNeighbors, boardDiagonal_neighbors m x y hx hy, boardDiagonal_size] at hcnt
    have hw : ∃ w, w ∈ GetNeighbors x y (2 * m + 2) ∧ (boardDiagonal m).revealed w.X w.Y = false
        ∧ (boardDiagonal m).mines w.X w.Y = false := by
      rcases hr2 with hr2 | hr2
      · refine ⟨Vec.mk x (y - 1), ?_, ?_, ?_⟩
        · rw [mem_GetNeighbors_inner hx hy]
          simp only
          omega
        · rw [← Bool.not_eq_true, boardDiagonal_revealed]
          dsimp only
          omega
        · rw [← Bool.not_eq_true, boardDiagonal_mines]
          dsimp only
          omega
      · refine ⟨Vec.mk (x + 1) (y - 1), ?_, ?_, ?_⟩
        · rw [mem_GetNeighbors_inner hx hy]
          simp only
          omega
        · rw [← Bool.not_eq_true, boardDiagonal_revealed]
          dsimp only
          omega
        · rw [← Bool.not_eq_true, boardDiagonal_mines]
          dsimp only
          omega
    obtain ⟨w, hw1, hw2, hw3⟩ := hw
    have hlt := countP_lt_countP (GetNeighbors x y (2 * m + 2))
      (fun v => (boardDiagonal m).mines v.X v.Y)
      (fun v => !(boardDiagonal m).Revealed v.X v.Y)
      (fun v _ hv => by
        rw [boardDiagonal_mines] at hv
        simp only [Board.Revealed, Bool.not_eq_true']
        rw [← Bool.not_eq_true, boardDiagonal_revealed]
        omega)
      w hw1 (by simp [Board.Revealed, hw2]) hw3
    have hcnt2 := Int.ofNat_inj.mp hcnt
    omega
  · rintro ⟨x, y, hx, hy, hr, hcnt, -⟩
    rw [boardDiagonal_size] at hx hy
    have hsc := boardDiagonal_seedCond m x y hr
    have hpos := hsc.2.1
    rw [hcnt] at hpos
    have hz : ((GetNeighbors x y (boardDiagonal m).size).countP
        fun v => (boardDiagonal m).HasFlag v.X v.Y) = 0 := by
      rw [List.countP_eq_zero]
      intro v _
      simp [Board.HasFlag, boardDiagonal_flags]
    rw [hz] at hpos
    exact absurd hpos (by simp)

/-- On the diagonal board a turn is the call of `deduce`. -/
theorem boardDiagonal_pass (ord : set.Set → List Vec) (m : Nat) :
    Pass ord (boardDiagonal m) = deduce ord (boardDiagonal m) := by
  rcases Pass_cases ord (boardDiagonal m) with ⟨h, -⟩ | ⟨-, n, hn, -⟩ | ⟨-, n, hn, -⟩ | ⟨-, h⟩
  · exfalso
    rw [hasReveals_eq_false_iff] at h
    have h1 := h 1 (by rw [boardDiagonal_size]; omega) 1 (by rw [boardDiagonal_size]; omega)
    rw [← Bool.not_eq_true, boardDiagonal_revealed] at h1
    omega
  · exact absurd hn (boardDiagonal_no_obvious m n).1
  · exact absurd hn (boardDiagonal_no_obvious m n).2
  · exact h

/-! ### Seeding on the diagonal board -/

theorem seedCell_b (ord : set.Set → List Vec) (k : Knowledge) (x y : Nat) :
    (seedCell ord k x y).2.b = k.b := by
  by_cases hc : seedCond k.b x y
  · rw [(seedCell_eq ord k x y).1 hc, Knowledge.addFact_b]
  · rw [(seedCell_eq ord k x y).2 hc]

/-- The seeding loop visits in effect only the cells that satisfy the seeding
condition. -/
theorem seedFrom_filter (ord : set.Set → List Vec) (P : Nat × Nat → Bool)
    (l : List (Nat × Nat)) (k : Knowledge)
    (h : ∀ p ∈ l, P p = false → ¬ seedCond k.b p.1 p.2) :
    seedFrom ord l k = seedFrom ord (l.filter P) k := by
  induction l generalizing k with
  | nil => rfl
  | cons p rest ih =>
    obtain ⟨x, y⟩ := p
    cases hP : P (x, y) with
    | false =>
      rw [List.filter_cons_of_neg (by rw [hP]; exact Bool.false_ne_true), seedFrom,
        (seedCell_eq ord k x y).2 (h (x, y) (List.mem_cons_self _ _) hP)]
      exact ih k (fun q hq => h q (List.mem_cons_of_mem _ hq))
    | true =>
      rw [List.filter_cons_of_pos hP, seedFrom, seedFrom]
      have hb := seedCell_b ord k x y
      generalize seedCell ord k x y = r at hb
      obtain ⟨o, k1⟩ := r
      cases o with
      | panic q => rfl
      | ret u =>
        apply ih k1
        intro q hq
        rw [hb]
        exact h q (List.mem_cons_of_mem _ hq)

theorem seedFrom_append (ord : set.Set → List Vec) (l1 l2 : List (Nat × Nat))
    (k k1 : Knowledge) (h : seedFrom ord l1 k = (.ret (), k1)) :
    seedFrom ord (l1 ++ l2) k = seedFrom ord l2 k1 := by
  induction l1 generalizing k with
  | nil =>
    rw [seedFrom] at h
    obtain rfl := (Prod.mk.inj h).2
    rfl
  | cons p rest ih =>
    obtain ⟨x, y⟩ := p
    rw [List.cons_append, seedFrom]
    rw [seedFrom] at h
    generalize seedCell ord k x y = r at h
    obtain ⟨o, k2⟩ := r
    cases o with
    | panic q => exact absurd (congrArg Prod.fst h) (by simp)
    | ret u => exact ih k2 h

theorem flatMap_congr_mem {α β : Type} (l : List α) (f g : α → List β)
    (h : ∀ a ∈ l, f a = g a) : l.flatMap f = l.flatMap g := by
  induction l with
  | nil => rfl
  | cons a t ih =>
    rw [List.flatMap_cons, List.flatMap_cons, h a (List.mem_cons_self _ _),
      ih (fun b hb => h b (List.mem_cons_of_mem _ hb))]

theorem flatMap_odd_rows (j : Nat) :
    ((List.range (2 * j + 1)).flatMap fun y => if y % 2 = 1 then [(y, y)] else [])
      = (List.range j).map fun k => (2 * k + 1, 2 * k + 1) := by
  induction j with
  | zero => rfl
  | succ j ih =>
    have e : 2 * (j + 1) + 1 = (2 * j + 1 + 1) + 1 := by omega
    rw [e, List.range_succ, List.range_succ, List.flatMap_append, List.flatMap_append, ih,
      List.range_succ, List.map_append]
    have h1 : (2 * j + 1) % 2 = 1 := by omega
    have h2 : ¬ (2 * j + 1 + 1) % 2 = 1 := by omega
    simp [h1, h2]

/-- The revealed cells of the diagonal board in the order of the scan. -/
theorem boardDiagonal_scan (m : Nat) :
    (scanCells (2 * m + 2)).filter (fun p => (boardDiagonal m).revealed p.1 p.2)
      = ((List.range m).map fun k => (2 * k + 1, 2 * k + 1))
          ++ [(2 * m, 2 * m + 1), (2 * m + 1, 2 * m + 1)] := by
  unfold scanCells
  rw [filter_flatMap_eq]
  have e : 2 * m + 2 = (2 * m + 1) + 1 := by omega
  have hrow : ∀ y, y < 2 * m + 1 →
      (((List.range (2 * m + 2)).map fun x => (x, y)).filter
        fun p => (boardDiagonal m).revealed p.1 p.2)
        = if y % 2 = 1 then [(y, y)] else [] := by
    intro y hy
    by_cases hodd : y % 2 = 1
    · rw [if_pos hodd]
      apply filter_map_range_single (fun x => (x, y)) _ (2 * m + 2) y (by omega)
      intro i hi
      dsimp only
      rw [boardDiagonal_revealed]
      omega
    · rw [if_neg hodd]
      apply filter_map_range_none
      intro i hi
      dsimp only
      rw [← Bool.not_eq_true, boardDiagonal_revealed]
      omega
  have hlast : (((List.range (2 * m + 2)).map fun x => (x, 2 * m + 1)).filter
        fun p => (boardDiagonal m).revealed p.1 p.2)
        = [(2 * m, 2 * m + 1), (2 * m + 1, 2 * m + 1)] := by
    have e2 : 2 * m + 2 = (2 * m + 1) + 1 := by omega
    rw [e2, List.range_succ, List.range_succ, List.map_append, List.map_append,
      List.filter_append, List.filter_append,
      filter_map_range_none (fun x => (x, 2 * m + 1)) _ (2 * m)
        (fun i hi => by
          dsimp only
          rw [← Bool.not_eq_true, boardDiagonal_revealed]
          omega)]
    have h1 : (boardDiagonal m).revealed (2 * m) (2 * m + 1) = true := by
      rw [boardDiagonal_revealed]
      omega
    have h2 : (boardDiagonal m).revealed (2 * m + 1) (2 * m + 1) = true := by
      rw [boardDiagonal_revealed]
      omega
    simp [h1, h2]
  have hsplit : ∀ g : Nat → List (Nat × Nat),
      (List.range (2 * m + 2)).flatMap g
        = (List.range (2 * m + 1)).flatMap g ++ g (2 * m + 1) := by
    intro g
    rw [e, List.range_succ, List.flatMap_append]
    simp
  rw [hsplit, flatMap_congr_mem (List.range (2 * m + 1)) _ _
    (fun y hy => hrow y (List.mem_range.mp hy)), flatMap_odd_rows, hlast]

theorem mem_diagonalFact (m k : Nat) (hk : k < m) (v : Vec) :
    v ∈ (diagonalFact m k).tiles ↔
      (2 * k ≤ v.X ∧ v.X ≤ 2 * k + 2) ∧ (2 * k ≤ v.Y ∧ v.Y ≤ 2 * k + 2)
        ∧ ¬ (v.X = 2 * k + 1 ∧ v.Y = 2 * k + 1) := by
  unfold diagonalFact
  rw [mem_seedFact_diagonal m _ _ (by omega) (by omega)]
  omega

theorem mem_cornerFact (m : Nat) (v : Vec) :
    v ∈ (diagonalFact m m).tiles ↔ v.Y = 2 * m ∧ (v.X = 2 * m ∨ v.X = 2 * m + 1) := by
  unfold diagonalFact
  rw [mem_seedFact_diagonal m _ _ (by omega) (by omega)]
  omega

theorem mem_sideFact (m : Nat) (v : Vec) :
    v ∈ (sideFact m).tiles ↔
      (v.X + 1 = 2 * m ∧ (v.Y = 2 * m ∨ v.Y = 2 * m + 1))
        ∨ (v.Y = 2 * m ∧ (v.X = 2 * m ∨ v.X = 2 * m + 1)) := by
  unfold sideFact
  rw [mem_seedFact_diagonal m _ _ (by omega) (by omega)]
  omega

/-- One step of the seeding loop at a cell that satisfies the seeding condition and
whose fact is new. -/
theorem seedFrom_single (ord : set.Set → List Vec) (hord : set.IterOrder ord) (k : Knowledge)
    (x y : Nat) (hx : x < k.b.size) (hy : y < k.b.size) (hc : seedCond k.b x y)
    (hi : k.Indexed) (hnew : seedFact k.b x y ∉ k.nodes) :
    ∃ k1, seedFrom ord [(x, y)] k = (.ret (), k1) ∧ k1.b = k.b ∧ k1.Indexed
      ∧ k1.nodes = k.nodes ++ [seedFact k.b x y]
      ∧ k1.unchecked = k.unchecked ++
          (ord (seedFact k.b x y).tiles).flatMap fun v =>
            (k.nodes.filter fun o => decide (v ∈ o.tiles)).map fun o => [seedFact k.b x y, o] := by
  have hin : ∀ v ∈ (seedFact k.b x y).tiles, v.X < k.b.size ∧ v.Y < k.b.size :=
    fun v hv => (seedFact_hidden k.b x y hx hy v hv).1
  have hhas : k.HasFact (seedFact k.b x y).mines (seedFact k.b x y).tiles = false := by
    cases h : k.HasFact (seedFact k.b x y).mines (seedFact k.b x y).tiles with
    | false => rfl
    | true => exact absurd ((Knowledge.hasFact_iff _ _ _).mp h) hnew
  have hadd := Knowledge.addFact_new ord hord k _ _ hin hhas
  refine ⟨(k.AddFact ord (seedFact k.b x y).mines (seedFact k.b x y).tiles).2, ?_,
    Knowledge.addFact_b _ _ _ _, hi.addFact ord hord _ _ hin, ?_, ?_⟩
  · rw [seedFrom, (seedCell_eq ord k x y).1 hc, hadd]
    rfl
  · rw [hadd]
  · rw [hadd]
    show k.unchecked ++ _ = k.unchecked ++ _
    congr 1
    apply flatMap_congr_mem
    intro v _
    rw [hi.2.2.1 v.X v.Y]

/-- The pairs enqueued for a new fact `f` when every cell of `f` is indexed under
nothing or under the one fact `g`. -/
theorem batch_replicate (l : List Vec) (nodes : List Fact) (f g : Fact) (q : Vec → Prop)
    [DecidablePred q]
    (h : ∀ v ∈ l, (nodes.filter fun o => decide (v ∈ o.tiles)) = if q v then [g] else []) :
    (l.flatMap fun v => (nodes.filter fun o => decide (v ∈ o.tiles)).map fun o => [f, o])
      = List.replicate (l.countP fun v => decide (q v)) [f, g] := by
  rw [← flatMap_ite_replicate]
  apply flatMap_congr_mem
  intro v hv
  rw [h v hv]
  split <;> rfl

theorem countP_eq_two (l : List Vec) (q : Vec → Bool) (a b : Vec) (hnd : l.Nodup)
    (hab : a ≠ b) (ha : a ∈ l) (hb : b ∈ l) (h : ∀ v ∈ l, (q v = true ↔ v = a ∨ v = b)) :
    l.countP q = 2 := by
  have h1 : l.countP q = l.countP (fun v => decide (v = a) || decide (v = b)) := by
    apply List.countP_congr
    intro v hv
    rw [h v hv]
    simp
  have h2 : l.countP (fun v => decide (v = b)) = l.count b := by
    rw [List.count]
    apply List.countP_congr
    intro v _
    simp
  rw [h1, countP_insert_cell l (fun v => decide (v = b)) a (by simp [hab]), h2,
    List.count_eq_one_of_mem hnd ha, List.count_eq_one_of_mem hnd hb]

theorem fact_eta (f : Fact) : Fact.mk f.mines f.tiles = f := rfl

/-- Seeding the diagonal board, after the first `j` revealed cells of the diagonal:
the accepted facts are those of these cells, and the worklist pairs each of them
with its predecessor, once. -/
theorem seed_diagonal_prefix (ord : set.Set → List Vec) (hord : set.IterOrder ord)
    (m j : Nat) (hj : j ≤ m) :
    ∃ k, seedFrom ord ((List.range j).map fun i => (2 * i + 1, 2 * i + 1))
          (NewKnowledge (boardDiagonal m)) = (.ret (), k)
      ∧ k.b = boardDiagonal m ∧ k.Indexed
      ∧ k.nodes = (List.range j).map (diagonalFact m)
      ∧ k.unchecked
          = (List.range (j - 1)).map fun i => [diagonalFact m (i + 1), diagonalFact m i] := by
  induction j with
  | zero =>
    exact ⟨NewKnowledge (boardDiagonal m), rfl, rfl, Knowledge.newKnowledge_indexed _, rfl, rfl⟩
  | succ j ih =>
    obtain ⟨k, h1, h2, h3, h4, h5⟩ := ih (by omega)
    have hx : 2 * j + 1 < k.b.size := by
      rw [h2, boardDiagonal_size]
      omega
    have hc : seedCond k.b (2 * j + 1) (2 * j + 1) := by
      rw [h2]
      apply boardDiagonal_seedCond
      rw [boardDiagonal_revealed]
      omega
    have hf : seedFact k.b (2 * j + 1) (2 * j + 1) = diagonalFact m j := by
      rw [h2]
      rfl
    have hnew : seedFact k.b (2 * j + 1) (2 * j + 1) ∉ k.nodes := by
      rw [hf, h4, List.mem_map]
      rintro ⟨i, hi, heq⟩
      rw [List.mem_range] at hi
      have hmem : Vec.mk (2 * j + 1) (2 * j) ∈ (diagonalFact m j).tiles := by
        rw [mem_diagonalFact m j (by omega)]
        dsimp only
        omega
      rw [← heq, mem_diagonalFact m i (by omega)] at hmem
      dsimp only at hmem
      omega
    obtain ⟨k1, e1, e2, e3, e4, e5⟩ := seedFrom_single ord hord k _ _ hx hx hc h3 hnew
    refine ⟨k1, ?_, by rw [e2, h2], e3, ?_, ?_⟩
    · rw [List.range_succ, List.map_append, seedFrom_append ord _ _ _ k h1]
      exact e1
    · rw [e4, hf, h4, List.range_succ, List.map_append]
      rfl
    · rw [e5, hf, h5, h4]
      have hnd := (hord (diagonalFact m j).tiles).1
      rcases Nat.eq_zero_or_pos j with hj0 | hjpos
      · subst hj0
        simp
      · have hbatch := batch_replicate (ord (diagonalFact m j).tiles)
          ((List.range j).map (diagonalFact m)) (diagonalFact m j) (diagonalFact m (j - 1))
          (fun v => v = Vec.mk (2 * j) (2 * j))
          (fun v hv => by
            have hv2 := (hord.mem_iff _ v).mp hv
            rw [mem_diagonalFact m j (by omega)] at hv2
            by_cases hvc : v = Vec.mk (2 * j) (2 * j)
            · rw [if_pos hvc]
              apply filter_map_range_single (diagonalFact m) _ j (j - 1) (by omega)
              intro i hi
              rw [decide_eq_true_iff, mem_diagonalFact m i (by omega), hvc]
              dsimp only
              omega
            · rw [if_neg hvc]
              apply filter_map_range_none
              intro i hi
              rw [decide_eq_false_iff_not, mem_diagonalFact m i (by omega)]
              rw [vec_eq_iff] at hvc
              omega)
        rw [hbatch]
        have hcount : (ord (diagonalFact m j).tiles).countP
            (fun v => decide (v = Vec.mk (2 * j) (2 * j))) = 1 := by
          apply countP_eq_one _ _ (Vec.mk (2 * j) (2 * j)) hnd
          · rw [hord.mem_iff, mem_diagonalFact m j (by omega)]
            dsimp only
            omega
          · intro v _
            simp
        rw [hcount]
        have e : j + 1 - 1 = (j - 1) + 1 := by omega
        rw [e, List.range_succ, List.map_append]
        have e2 : j - 1 + 1 = j := by omega
        simp [e2]

/-- The facts indexed under the cell `(2m, 2m)` of the diagonal board before the
corner is seeded, and those indexed under `(2m+1, 2m)`. -/
theorem diagonal_index (m : Nat) (hm : 1 ≤ m) :
    (((List.range m).map (diagonalFact m) ++ [sideFact m]).filter
        fun o => decide (Vec.mk (2 * m) (2 * m) ∈ o.tiles))
      = [diagonalFact m (m - 1), sideFact m]
    ∧ (((List.range m).map (diagonalFact m) ++ [sideFact m]).filter
        fun o => decide (Vec.mk (2 * m + 1) (2 * m) ∈ o.tiles))
      = [sideFact m] := by
  constructor
  · rw [List.filter_append, filter_map_range_single (diagonalFact m) _ m (m - 1) (by omega)
      (fun i hi => by
        rw [decide_eq_true_iff, mem_diagonalFact m i hi]
        dsimp only
        omega)]
    have h : Vec.mk (2 * m) (2 * m) ∈ (sideFact m).tiles := by
      rw [mem_sideFact]
      dsimp only
      omega
    simp [h]
  · rw [List.filter_append, filter_map_range_none (diagonalFact m) _ m
      (fun i hi => by
        rw [decide_eq_false_iff_not, mem_diagonalFact m i hi]
        dsimp only
        omega)]
    have h : Vec.mk (2 * m + 1) (2 * m) ∈ (sideFact m).tiles := by
      rw [mem_sideFact]
      dsimp only
      omega
    simp [h]

/-- Seeding the diagonal board: the worklist holds `m - 1` pairs of consecutive facts
of the diagonal, then twice the pair of the side fact with the last of them, then the
pairs of the corner fact, in the order in which the two cells of the corner fact are
iterated. -/
theorem seed_diagonal (ord : set.Set → List Vec) (hord : set.IterOrder ord)
    (m : Nat) (hm : 1 ≤ m) :
    ∃ k, seedKnowledge ord (boardDiagonal m) = (.ret (), k) ∧ k.b = boardDiagonal m
      ∧ k.unchecked
        = ((List.range (m - 1)).map fun i => [diagonalFact m (i + 1), diagonalFact m i])
          ++ [[sideFact m, diagonalFact m (m - 1)], [sideFact m, diagonalFact m (m - 1)]]
          ++ (ord (diagonalFact m m).tiles).flatMap fun v =>
              (((List.range m).map (diagonalFact m) ++ [sideFact m]).filter
                fun o => decide (v ∈ o.tiles)).map fun o => [diagonalFact m m, o] := by
  obtain ⟨k, h1, h2, h3, h4, h5⟩ := seed_diagonal_prefix ord hord m m (Nat.le_refl m)
  -- the cell (2m, 2m+1)
  have hxa : 2 * m < k.b.size := by
    rw [h2, boardDiagonal_size]
    omega
  have hxb : 2 * m + 1 < k.b.size := by
    rw [h2, boardDiagonal_size]
    omega
  have hca : seedCond k.b (2 * m) (2 * m + 1) := by
    rw [h2]
    apply boardDiagonal_seedCond
    rw [boardDiagonal_revealed]
    omega
  have hfa : seedFact k.b (2 * m) (2 * m + 1) = sideFact m := by
    rw [h2]
    rfl
  have hnewa : seedFact k.b (2 * m) (2 * m + 1) ∉ k.nodes := by
    rw [hfa, h4, List.mem_map]
    rintro ⟨i, hi, heq⟩
    rw [List.mem_range] at hi
    have hmem : Vec.mk (2 * m + 1) (2 * m) ∈ (sideFact m).tiles := by
      rw [mem_sideFact]
      dsimp only
      omega
    rw [← heq, mem_diagonalFact m i hi] at hmem
    dsimp only at hmem
    omega
  obtain ⟨k1, a1, a2, a3, a4, a5⟩ := seedFrom_single ord hord k _ _ hxa hxb hca h3 hnewa
  rw [hfa, h4] at a4
  rw [hfa, h4, h5] at a5
  have hbatch := batch_replicate (ord (sideFact m).tiles)
    ((List.range m).map (diagonalFact m)) (sideFact m) (diagonalFact m (m - 1))
    (fun v => v ∈ (diagonalFact m (m - 1)).tiles)
    (fun v hv => by
      have hv2 := (hord.mem_iff _ v).mp hv
      rw [mem_sideFact] at hv2
      by_cases hvc : v ∈ (diagonalFact m (m - 1)).tiles
      · rw [if_pos hvc]
        rw [mem_diagonalFact m (m - 1) (by omega)] at hvc
        apply filter_map_range_single (diagonalFact m) _ m (m - 1) (by omega)
        intro i hi
        rw [decide_eq_true_iff, mem_diagonalFact m i hi]
        omega
      · rw [if_neg hvc]
        rw [mem_diagonalFact m (m - 1) (by omega)] at hvc
        apply filter_map_range_none
        intro i hi
        rw [decide_eq_false_iff_not, mem_diagonalFact m i hi]
        omega)
  have hcount : (ord (sideFact m).tiles).countP
      (fun v => decide (v ∈ (diagonalFact m (m - 1)).tiles)) = 2 := by
    apply countP_eq_two _ _ (Vec.mk (2 * m - 1) (2 * m)) (Vec.mk (2 * m) (2 * m))
      (hord (sideFact m).tiles).1
    · rw [Ne, Vec.mk.injEq]
      omega
    · rw [hord.mem_iff, mem_sideFact]
      dsimp only
      omega
    · rw [hord.mem_iff, mem_sideFact]
      dsimp only
      omega
    · intro v hv
      have hv2 := (hord.mem_iff _ v).mp hv
      rw [mem_sideFact] at hv2
      rw [decide_eq_true_iff, mem_diagonalFact m (m - 1) (by omega), vec_eq_iff, vec_eq_iff]
      omega
  rw [hbatch, hcount] at a5
  -- the corner (2m+1, 2m+1)
  have hcb : seedCond k1.b (2 * m + 1) (2 * m + 1) := by
    rw [a2, h2]
    apply boardDiagonal_seedCond
    rw [boardDiagonal_revealed]
    omega
  have hfb : seedFact k1.b (2 * m + 1) (2 * m + 1) = diagonalFact m m := by
    rw [a2, h2]
    rfl
  have hnewb : seedFact k1.b (2 * m + 1) (2 * m + 1) ∉ k1.nodes := by
    rw [hfb, a4, List.mem_append, List.mem_map, List.mem_singleton]
    have hmem : Vec.mk (2 * m + 1) (2 * m) ∈ (diagonalFact m m).tiles := by
      rw [mem_cornerFact]
      dsimp only
      omega
    rintro (⟨i, hi, heq⟩ | heq)
    · rw [List.mem_range] at hi
      rw [← heq, mem_diagonalFact m i hi] at hmem
      dsimp only at hmem
      omega
    · have hmem2 : Vec.mk (2 * m - 1) (2 * m) ∈ (sideFact m).tiles := by
        rw [mem_sideFact]
        dsimp only
        omega
      rw [← heq, mem_cornerFact] at hmem2
      dsimp only at hmem2
      omega
  obtain ⟨k2, b1, b2, b3, b4, b5⟩ := seedFrom_single ord hord k1 _ _
    (by rw [a2]; exact hxb) (by rw [a2]; exact hxb) hcb a3 hnewb
  rw [hfb, a4, a5] at b5
  refine ⟨k2, ?_, by rw [b2, a2, h2], ?_⟩
  · unfold seedKnowledge
    rw [seedFrom_filter ord (fun p => (boardDiagonal m).revealed p.1 p.2) _ _
      (fun p _ hp hc => by
        have h6 : (boardDiagonal m).revealed p.1 p.2 = true := hc.1
        have h7 : (boardDiagonal m).revealed p.1 p.2 = false := hp
        rw [h7] at h6
        exact Bool.noConfusion h6)]
    rw [show (boardDiagonal m).GetSize = 2 * m + 2 from boardDiagonal_size m, boardDiagonal_scan,
      seedFrom_append ord _ _ _ k h1,
      show [(2 * m, 2 * m + 1), (2 * m + 1, 2 * m + 1)]
        = [(2 * m, 2 * m + 1)] ++ [(2 * m + 1, 2 * m + 1)] from rfl,
      seedFrom_append ord _ _ _ k1 a1]
    exact b1
  · rw [b5]
    rfl

/-! ### The propagation loop on the diagonal board -/

/-- When the cells of `c` are not among those of `a`, `RunDualDeduction(a, c)` returns
false and changes nothing. -/
theorem runDualDeduction_not_subset (ord : set.Set → List Vec) (k : Knowledge) (a c : Fact)
    (h : ¬ c.tiles ⊆ a.tiles) : k.RunDualDeduction ord a c = (.ret false, k) := by
  unfold Knowledge.RunDualDeduction
  rw [if_neg, if_neg]
  · intro h2
    exact h ((set.isSubsetStrict_iff _ _).mp h2).1
  · rintro ⟨h1, -⟩
    rw [set.isEqual_iff] at h1
    rw [h1] at h
    exact h (Finset.Subset.refl _)

/-- One iteration of the loop of `deduce` on a pair of facts neither of which covers
the other: the pair is dropped and nothing else changes. -/
theorem deduceLoop_cons_apart (ord : set.Set → List Vec) (n : Nat) (k : Knowledge)
    (f g : Fact) (rest : List (List Fact)) (hu : k.unchecked = [f, g] :: rest)
    (h1 : ¬ g.tiles ⊆ f.tiles) (h2 : ¬ f.tiles ⊆ g.tiles) :
    deduceLoop ord (n + 1) k = deduceLoop ord n { k with unchecked := rest } := by
  have hne : k.HasUncheckedDeductions = true := by
    unfold Knowledge.HasUncheckedDeductions
    simp [hu]
  rw [deduceLoop, if_neg (by rw [hne]; exact Bool.noConfusion),
    Knowledge.runNextDeduction_pair ord k f g rest hu,
    runDualDeduction_not_subset ord _ f g h1]
  simp only
  rw [runDualDeduction_not_subset ord _ g f h2]

/-- The loop of `deduce` spends one iteration on each pair of a prefix of the worklist
made of pairs of facts neither of which covers the other. -/
theorem deduceLoop_skip (ord : set.Set → List Vec) (W1 W2 : List (List Fact)) (n : Nat)
    (hW : ∀ p ∈ W1, ∃ f g, p = [f, g] ∧ ¬ g.tiles ⊆ f.tiles ∧ ¬ f.tiles ⊆ g.tiles)
    (k : Knowledge) (hu : k.unchecked = W1 ++ W2) :
    deduceLoop ord (W1.length + n) k = deduceLoop ord n { k with unchecked := W2 } := by
  induction W1 generalizing k with
  | nil =>
    rw [List.nil_append] at hu
    rw [List.length_nil, Nat.zero_add, ← hu]
  | cons p t ih =>
    obtain ⟨f, g, rfl, h1, h2⟩ := hW _ (List.mem_cons_self _ _)
    have e : ([f, g] :: t).length + n = (t.length + n) + 1 := by
      rw [List.length_cons]
      omega
    rw [e, deduceLoop_cons_apart ord _ k f g (t ++ W2) hu h1 h2,
      ih (fun q hq => hW q (List.mem_cons_of_mem _ hq)) _ rfl]

theorem deduce_of_seed (ord : set.Set → List Vec) (b : Board) (k : Knowledge)
    (h : seedKnowledge ord b = (.ret (), k)) :
    deduce ord b = ((deduceLoop ord maxDeductions k).1, (deduceLoop ord maxDeductions k).2.b) := by
  unfold seedKnowledge at h
  unfold deduce
  rw [h]

theorem diagonal_apart (m : Nat) (hm : 1 ≤ m) :
    (∀ i, i + 1 < m →
        ¬ (diagonalFact m i).tiles ⊆ (diagonalFact m (i + 1)).tiles
          ∧ ¬ (diagonalFact m (i + 1)).tiles ⊆ (diagonalFact m i).tiles)
      ∧ (¬ (diagonalFact m (m - 1)).tiles ⊆ (sideFact m).tiles
          ∧ ¬ (sideFact m).tiles ⊆ (diagonalFact m (m - 1)).tiles)
      ∧ (¬ (diagonalFact m (m - 1)).tiles ⊆ (diagonalFact m m).tiles
          ∧ ¬ (diagonalFact m m).tiles ⊆ (diagonalFact m (m - 1)).tiles) := by
  have key : ∀ (s t : set.Set) (w : Vec), w ∈ s → w ∉ t → ¬ s ⊆ t :=
    fun s t w h1 h2 h3 => h2 (h3 h1)
  refine ⟨fun i hi => ⟨?_, ?_⟩, ⟨?_, ?_⟩, ⟨?_, ?_⟩⟩
  · apply key _ _ (Vec.mk (2 * i + 1) (2 * i))
    · rw [mem_diagonalFact m i (by omega)]
      dsimp only
      omega
    · rw [mem_diagonalFact m (i + 1) (by omega)]
      dsimp only
      omega
  · apply key _ _ (Vec.mk (2 * i + 3) (2 * i + 2))
    · rw [mem_diagonalFact m (i + 1) (by omega)]
      dsimp only
      omega
    · rw [mem_diagonalFact m i (by omega)]
      dsimp only
      omega
  · apply key _ _ (Vec.mk (2 * m - 1) (2 * m - 2))
    · rw [mem_diagonalFact m (m - 1) (by omega)]
      dsimp only
      omega
    · rw [mem_sideFact]
      dsimp only
      omega
  · apply key _ _ (Vec.mk (2 * m + 1) (2 * m))
    · rw [mem_sideFact]
      dsimp only
      omega
    · rw [mem_diagonalFact m (m - 1) (by omega)]
      dsimp only
      omega
  · apply key _ _ (Vec.mk (2 * m - 1) (2 * m - 2))
    · rw [mem_diagonalFact m (m - 1) (by omega)]
      dsimp only
      omega
    · rw [mem_cornerFact]
      dsimp only
      omega
  · apply key _ _ (Vec.mk (2 * m + 1) (2 * m))
    · rw [mem_cornerFact]
      dsimp only
      omega
    · rw [mem_diagonalFact m (m - 1) (by omega)]
      dsimp only
      omega

/-- The first `m + 1` pairs of the seeded worklist of the diagonal board are pairs of
facts neither of which covers the other. -/
theorem diagonal_prefix_apart (m : Nat) (hm : 1 ≤ m) :
    ∀ p ∈ ((List.range (m - 1)).map fun i => [diagonalFact m (i + 1), diagonalFact m i])
          ++ [[sideFact m, diagonalFact m (m - 1)], [sideFact m, diagonalFact m (m - 1)]],
      ∃ f g, p = [f, g] ∧ ¬ g.tiles ⊆ f.tiles ∧ ¬ f.tiles ⊆ g.tiles := by
  obtain ⟨h1, h2, -⟩ := diagonal_apart m hm
  intro p hp
  rw [List.mem_append, List.mem_map] at hp
  rcases hp with ⟨i, hi, rfl⟩ | hp
  · rw [List.mem_range] at hi
    exact ⟨_, _, rfl, (h1 i (by omega)).1, (h1 i (by omega)).2⟩
  · have hp2 : p = [sideFact m, diagonalFact m (m - 1)] := by
      simp only [List.mem_cons, List.mem_singleton, List.not_mem_nil, or_false, or_self] at hp
      exact hp
    exact ⟨_, _, hp2, h2.1, h2.2⟩

theorem seedFact_diagonal_mines (m x y : Nat) (hx : x < 2 * m + 2) (hy : y < 2 * m + 2)
    (a : Vec) (ha : a ∈ GetNeighbors x y (2 * m + 2))
    (h : ∀ v ∈ GetNeighbors x y (2 * m + 2), ((boardDiagonal m).mines v.X v.Y = true ↔ v = a)) :
    (seedFact (boardDiagonal m) x y).mines = 1 := by
  rw [seedFact_eq]
  show (boardDiagonal m).neighbors x y - _ = 1
  rw [boardDiagonal_neighbors m x y hx hy,
    countP_eq_one _ _ a (GetNeighbors_nodup _ _ _) ha h]
  have hz : ((GetNeighbors x y (boardDiagonal m).GetSize).countP
      fun v => (boardDiagonal m).HasFlag v.X v.Y) = 0 := by
    rw [List.countP_eq_zero]
    intro v _
    simp [Board.HasFlag, boardDiagonal_flags]
  rw [hz]
  rfl

theorem diagonal_corner_side (m : Nat) (hm : 1 ≤ m) :
    (sideFact m).mines = (diagonalFact m m).mines
      ∧ set.IsSubsetStrict (sideFact m).tiles (diagonalFact m m).tiles = true
      ∧ ¬ (sideFact m).tiles ⊆ (diagonalFact m m).tiles := by
  have h1 : (sideFact m).mines = 1 := by
    apply seedFact_diagonal_mines m _ _ (by omega) (by omega) (Vec.mk (2 * m) (2 * m))
    · rw [mem_GetNeighbors_inner (by omega) (by omega)]
      dsimp only
      omega
    · intro v hv
      rw [mem_GetNeighbors_inner (by omega) (by omega)] at hv
      rw [boardDiagonal_mines, vec_eq_iff]
      omega
  have h2 : (diagonalFact m m).mines = 1 := by
    apply seedFact_diagonal_mines m _ _ (by omega) (by omega) (Vec.mk (2 * m) (2 * m))
    · rw [mem_GetNeighbors_inner (by omega) (by omega)]
      dsimp only
      omega
    · intro v hv
      rw [mem_GetNeighbors_inner (by omega) (by omega)] at hv
      rw [boardDiagonal_mines, vec_eq_iff]
      omega
  have h3 : ¬ (sideFact m).tiles ⊆ (diagonalFact m m).tiles := by
    intro hsub
    have hmem : Vec.mk (2 * m - 1) (2 * m) ∈ (sideFact m).tiles := by
      rw [mem_sideFact]
      dsimp only
      omega
    have := hsub hmem
    rw [mem_cornerFact] at this
    dsimp only at this
    omega
  refine ⟨by rw [h1, h2], ?_, h3⟩
  rw [set.isSubsetStrict_iff, Finset.ssubset_def]
  refine ⟨?_, h3⟩
  intro v hv
  rw [mem_cornerFact] at hv
  rw [mem_sideFact]
  omega

/-- On the diagonal board, when the corner fact iterates its cell `(2m, 2m)` first, the
first `m + 2` deductions find nothing: the loop of `deduce` capped at `m + 2`
iterations returns false and leaves the board alone. -/
theorem diagonal_capped (ord : set.Set → List Vec) (hord : set.IterOrder ord) (m : Nat)
    (hm : 1 ≤ m)
    (h : ord (diagonalFact m m).tiles = [Vec.mk (2 * m) (2 * m), Vec.mk (2 * m + 1) (2 * m)]) :
    ∃ k, seedKnowledge ord (boardDiagonal m) = (.ret (), k)
      ∧ (deduceLoop ord (m + 2) k).1 = .ret false
      ∧ (deduceLoop ord (m + 2) k).2.b = boardDiagonal m := by
  obtain ⟨k, h1, h2, h3⟩ := seed_diagonal ord hord m hm
  obtain ⟨i1, i2⟩ := diagonal_index m hm
  rw [h] at h3
  simp only [List.flatMap_cons, List.flatMap_nil, List.append_nil, i1, i2, List.map_cons,
    List.map_nil] at h3
  have hu : k.unchecked
      = ((((List.range (m - 1)).map fun i => [diagonalFact m (i + 1), diagonalFact m i])
          ++ [[sideFact m, diagonalFact m (m - 1)], [sideFact m, diagonalFact m (m - 1)]])
          ++ [[diagonalFact m m, diagonalFact m (m - 1)]])
        ++ [[diagonalFact m m, sideFact m], [diagonalFact m m, sideFact m]] := by
    rw [h3]
    simp
  have hW : ∀ p ∈ (((List.range (m - 1)).map fun i => [diagonalFact m (i + 1), diagonalFact m i])
          ++ [[sideFact m, diagonalFact m (m - 1)], [sideFact m, diagonalFact m (m - 1)]])
          ++ [[diagonalFact m m, diagonalFact m (m - 1)]],
      ∃ f g, p = [f, g] ∧ ¬ g.tiles ⊆ f.tiles ∧ ¬ f.tiles ⊆ g.tiles := by
    intro p hp
    rw [List.mem_append, List.mem_singleton] at hp
    rcases hp with hp | rfl
    · exact diagonal_prefix_apart m hm p hp
    · exact ⟨_, _, rfl, (diagonal_apart m hm).2.2.1, (diagonal_apart m hm).2.2.2⟩
  have hlen : m + 2 = ((((List.range (m - 1)).map
          fun i => [diagonalFact m (i + 1), diagonalFact m i])
          ++ [[sideFact m, diagonalFact m (m - 1)], [sideFact m, diagonalFact m (m - 1)]])
          ++ [[diagonalFact m m, diagonalFact m (m - 1)]]).length + 0 := by
    simp
    omega
  refine ⟨k, h1, ?_, ?_⟩
  · rw [hlen, deduceLoop_skip ord _ _ 0 hW k hu]
    rfl
  · rw [hlen, deduceLoop_skip ord _ _ 0 hW k hu]
    exact h2

/-- On the diagonal board, when the corner fact iterates its cell `(2m+1, 2m)` first,
the deduction number `m + 2` is on the corner fact and the side fact, which covers
it with the same number of mines: the loop of `deduce` capped at `m + 2` iterations
reveals a cell and returns true. -/
theorem diagonal_acts (ord : set.Set → List Vec) (hord : set.IterOrder ord) (m : Nat)
    (hm : 1 ≤ m)
    (h : ord (diagonalFact m m).tiles = [Vec.mk (2 * m + 1) (2 * m), Vec.mk (2 * m) (2 * m)]) :
    ∃ k, seedKnowledge ord (boardDiagonal m) = (.ret (), k)
      ∧ (deduceLoop ord (m + 2) k).1 = .ret true
      ∧ (deduceLoop ord (m + 2) k).2.b ≠ boardDiagonal m := by
  obtain ⟨k, h1, h2, h3⟩ := seed_diagonal ord hord m hm
  obtain ⟨i1, i2⟩ := diagonal_index m hm
  rw [h] at h3
  simp only [List.flatMap_cons, List.flatMap_nil, List.append_nil, i1, i2, List.map_cons,
    List.map_nil] at h3
  have hu : k.unchecked
      = (((List.range (m - 1)).map fun i => [diagonalFact m (i + 1), diagonalFact m i])
          ++ [[sideFact m, diagonalFact m (m - 1)], [sideFact m, diagonalFact m (m - 1)]])
        ++ [[diagonalFact m m, sideFact m], [diagonalFact m m, diagonalFact m (m - 1)],
            [diagonalFact m m, sideFact m]] := by
    rw [h3]
    simp
  have hlen : m + 2 = (((List.range (m - 1)).map
          fun i => [diagonalFact m (i + 1), diagonalFact m i])
          ++ [[sideFact m, diagonalFact m (m - 1)], [sideFact m, diagonalFact m (m - 1)]]).length
        + 1 := by
    simp
    omega
  obtain ⟨hmines, hstrict, -⟩ := diagonal_corner_side m hm
  have hin : (sideFact m).InBounds (boardDiagonal m).size := by
    intro v hv
    exact (seedFact_hidden (boardDiagonal m) (2 * m) (2 * m + 1)
      (by rw [boardDiagonal_size]; omega) (by rw [boardDiagonal_size]; omega) v hv).1
  obtain ⟨c, hc, r1, -, r3⟩ := runNext_reveal_backward ord hord
    ({ k with unchecked := [[diagonalFact m m, sideFact m],
        [diagonalFact m m, diagonalFact m (m - 1)], [diagonalFact m m, sideFact m]] } : Knowledge)
    (sideFact m) (diagonalFact m m) _ rfl (by rw [h2]; exact hin) hstrict hmines
  have hcs : c ∈ (sideFact m).tiles := (Finset.mem_sdiff.mp hc).1
  have hcm : k.b.mines c.X c.Y = false := by
    rw [h2, ← Bool.not_eq_true, boardDiagonal_mines]
    rw [mem_sideFact] at hcs
    have hcc := (Finset.mem_sdiff.mp hc).2
    rw [mem_cornerFact] at hcc
    omega
  rw [hcm] at r1
  have hloop : deduceLoop ord (m + 2) k
      = (.ret true, (Knowledge.RunNextDeduction ord
          ({ k with unchecked := [[diagonalFact m m, sideFact m],
            [diagonalFact m m, diagonalFact m (m - 1)],
            [diagonalFact m m, sideFact m]] } : Knowledge)).2) := by
    rw [hlen, deduceLoop_skip ord _ _ 1 (diagonal_prefix_apart m hm) k hu, deduceLoop,
      if_neg (by simp [Knowledge.HasUncheckedDeductions])]
    generalize Knowledge.RunNextDeduction ord _ = r at r1
    obtain ⟨o, k1⟩ := r
    simp only at r1
    subst r1
    rfl
  refine ⟨k, h1, by rw [hloop], ?_⟩
  rw [hloop]
  intro hb
  rw [hb] at r3
  have hr := (seedFact_hidden (boardDiagonal m) (2 * m) (2 * m + 1)
    (by rw [boardDiagonal_size]; omega) (by rw [boardDiagonal_size]; omega) c hcs).2.1
  rw [hr] at r3
  exact Bool.noConfusion r3

theorem cornerFact_tiles (m : Nat) :
    (diagonalFact m m).tiles = {Vec.mk (2 * m) (2 * m), Vec.mk (2 * m + 1) (2 * m)} := by
  ext v
  rw [mem_cornerFact, Finset.mem_insert, Finset.mem_singleton, vec_eq_iff, vec_eq_iff]
  omega

/-- Claim C4, counterexample. On the board of size 199998 with mines on the even cells of
the diagonal and the odd cells of the diagonal and the cell (199996, 199997) revealed,
`Pass` reaches `deduce`, whose worklist holds 100002 pairs.  Ranging over every cell
set in sorted order, the first 100000 deductions find nothing, the cap of
`maxDeductions` cuts the loop, and `Pass` returns false with the board as it was.
The immediately repeated `Pass` on that board, ranging in the reverse order, runs the
deduction on the corner fact `(1, {(199996,199996), (199997,199996)})` and the side
fact covering it with one mine as its deduction number 100000, reveals a cell and
returns true. -/
theorem pass_repeat_acts_after_cap :
    (Pass set.sortedOrder (boardDiagonal 99998)).1 = .ret false
      ∧ (Pass set.sortedOrder (boardDiagonal 99998)).2 = boardDiagonal 99998
      ∧ (Pass set.reverseOrder (Pass set.sortedOrder (boardDiagonal 99998)).2).1 = .ret true
      ∧ (Pass set.reverseOrder (Pass set.sortedOrder (boardDiagonal 99998)).2).2
          ≠ (Pass set.sortedOrder (boardDiagonal 99998)).2 := by
  have hcap : maxDeductions = 99998 + 2 := rfl
  have hsorted : set.sortedOrder (diagonalFact 99998 99998).tiles
      = [Vec.mk (2 * 99998) (2 * 99998), Vec.mk (2 * 99998 + 1) (2 * 99998)] := by
    rw [cornerFact_tiles]
    decide
  have hreverse : set.reverseOrder (diagonalFact 99998 99998).tiles
      = [Vec.mk (2 * 99998 + 1) (2 * 99998), Vec.mk (2 * 99998) (2 * 99998)] := by
    rw [cornerFact_tiles]
    decide
  obtain ⟨k1, s1, l1, b1⟩ := diagonal_capped set.sortedOrder set.sortedOrder_iterOrder 99998
    (by norm_num) hsorted
  obtain ⟨k2, s2, l2, b2⟩ := diagonal_acts set.reverseOrder set.reverseOrder_iterOrder 99998
    (by norm_num) hreverse
  have p1 : Pass set.sortedOrder (boardDiagonal 99998) = (.ret false, boardDiagonal 99998) := by
    rw [boardDiagonal_pass, deduce_of_seed _ _ k1 s1, hcap, l1, b1]
  have p2 : Pass set.reverseOrder (boardDiagonal 99998)
      = ((deduceLoop set.reverseOrder (99998 + 2) k2).1,
          (deduceLoop set.reverseOrder (99998 + 2) k2).2.b) := by
    rw [boardDiagonal_pass, deduce_of_seed _ _ k2 s2, hcap]
  have q1 : (Pass set.sortedOrder (boardDiagonal 99998)).1 = .ret false := by
    rw [p1]
  have q2 : (Pass set.sortedOrder (boardDiagonal 99998)).2 = boardDiagonal 99998 := by
    rw [p1]
  refine ⟨q1, q2, ?_, ?_⟩
  · rw [q2, p2]
    exact l2
  · rw [q2, p2]
    exact b2

end solver
